import Mathlib

/-!
# secretsauce: the reactive signal-propagation engine

A shallow embedding of `include/ThreadSafe.hpp` and `include/FRP.hpp`.

* Objects created with `std::make_shared` live in a store indexed by addresses; every cell
  carries the strong reference count of its `shared_ptr` control block.  A `weak_ptr` is an
  address (or empty) and is expired when the store has no cell at that address.  Addresses are
  handed out by a counter and are never reused.
* The closures of `FRP.hpp` are defunctionalised (`Fn`): one constructor per lambda expression
  of the source, holding what the lambda captures.
* Execution is single threaded: `ThreadSafe` keeps its value and its operations, the mutex
  is not represented.  Only the part on threads differs: there the calls on one synchronized
  stream are steps that a scheduler interleaves, and the mutex is the thread that holds it.
* `Event.fire` takes fuel, since a graph of callbacks can be cyclic; `none` means that the
  call did not return normally (out of fuel, or a dangling reference was used).
* Two ghost fields record what happened: `trace` (every pass of `BasicEvent::fire` and every
  callback it invokes) and `world` (what the user functions given to `forEach` did).
-/

namespace rx

/-- A `std::weak_ptr` to a callback: empty (default constructed or moved from), or observing
the callback object at an address.  Addresses, the targets of `shared_ptr`, are natural
numbers. -/
abbrev WeakPtr := Option Nat

/-! ## ThreadSafe.hpp -/

/-- The synchronized cell `ThreadSafe<T>`; `t_` is the guarded value. -/
structure ThreadSafe (α : Type) where
  t_ : α

namespace ThreadSafe

/-- `void set(T t)`. -/
def set {α : Type} (_c : ThreadSafe α) (t : α) : ThreadSafe α := ⟨t⟩

/-- `T getCopy() const`. -/
def getCopy {α : Type} (c : ThreadSafe α) : α := c.t_

/-- `Result with(std::function<Result(T&)> f)`: `f` gets the value, returns its result and the
value it leaves behind. -/
def withMutable {α β : Type} (c : ThreadSafe α) (f : α → β × α) : β × ThreadSafe α :=
  ((f c.t_).1, ⟨(f c.t_).2⟩)

/-- `void with(std::function<void(T&)> f)`. -/
def withMutableVoid {α : Type} (c : ThreadSafe α) (f : α → α) : ThreadSafe α := ⟨f c.t_⟩

/-- `Result with(std::function<Result(T const&)> f) const`. -/
def withReadOnly {α β : Type} (c : ThreadSafe α) (f : α → β) : β := f c.t_

end ThreadSafe

/-! ## The objects of FRP.hpp -/

/-- `BasicEvent<T>`: the subscriber vector. -/
structure BasicEvent where
  subscribers : List WeakPtr

/-- `ThreadSafeEvent<T>`: a `BasicEvent` in a synchronized cell. -/
structure ThreadSafeEvent where
  event : ThreadSafe BasicEvent

/-- The implementations of `IEvent` that `std::shared_ptr<IEvent<T, T>>` can point to. -/
inductive IEvent
  | basic (e : BasicEvent)
  | threadSafe (e : ThreadSafeEvent)
  | chained (upstreamSubscription : Nat) (upstream : Nat) (downstream : Nat)
  | never

/-- A function object handed to a combinator: a pure function of the fired value, or one that
also reads the current value of a `BasicDynamic` through a captured reference, as the lambda
`[&selfRef, f](T const& e) { return f(e, selfRef.current()); }` of `fold` does. -/
inductive Callable (V β : Type)
  | pure (f : V → β)
  | withCurrent (selfRef : Nat) (f : V → V → β)

/-- The closures that `FRP.hpp` stores in `std::function<void(T const&)>` objects.
`W` is the outside world on which the user functions given to `forEach` act. -/
inductive Fn (V W : Type)
  /-- The lambda of `mappedOptional`, capturing `f` and a copy of `downstream`. -/
  | mappedOptionalFn (f : Callable V (Option V)) (downstream : Nat)
  /-- The lambda `[&](T const& t) { currentValue.set(t); }` of `BasicDynamic`. -/
  | updater (self : Nat)
  /-- The lambda of `VectorSink`, pushing to `items`. -/
  | vectorSinkFn (self : Nat)
  /-- The lambda `[=](Out const& t) { f(t); }` of `forEach`. -/
  | forEachFn (f : V → W → W)

/-- The implementations of `ISink`. -/
inductive ISink (V : Type)
  | voidSink (subscription : Nat) (upstream : Nat)
  | vectorSink (upstream : Nat) (items : ThreadSafe (List V)) (subscription : Nat)

/-- `BasicDynamic<T>`. -/
structure BasicDynamic (V : Type) where
  currentValue : ThreadSafe V
  updater : Nat
  event : Nat

/-- What the ghost trace records. -/
inductive Obs (V : Type)
  /-- A pass of `BasicEvent::fire` over the subscribers of the stream at `event` started. -/
  | fired (event : Nat) (v : V)
  /-- The pass at `event` called the callback at `callback` with `v`. -/
  | invoked (event : Nat) (callback : Nat) (v : V)

/-- The stream an observation belongs to. -/
def Obs.event {V : Type} : Obs V → Nat
  | .fired e _ => e
  | .invoked e _ _ => e

/-- An object together with the number of `shared_ptr`s that own it. -/
structure Cell (α : Type) where
  strong : Nat
  obj : α

/-- The program state: one store per static type of `shared_ptr`, the allocation counter and
the ghost fields. -/
structure State (V W : Type) where
  events : Nat → Option (Cell IEvent)
  fns : Nat → Option (Cell (Fn V W))
  sinks : Nat → Option (Cell (ISink V))
  dyns : Nat → Option (Cell (BasicDynamic V))
  next : Nat
  trace : List (Obs V)
  world : W

/-- The state of a program that has not created anything yet. -/
def State.init {V W : Type} (w : W) : State V W :=
  { events := fun _ => none, fns := fun _ => none, sinks := fun _ => none, dyns := fun _ => none,
    next := 0, trace := [], world := w }

section Ops

variable {V W : Type}

/-- Append an observation to the ghost trace. -/
def State.log (s : State V W) (o : Obs V) : State V W := { s with trace := s.trace ++ [o] }

/-- `make_shared` of an event object; the new handle is the only owner. -/
def State.allocEvent (s : State V W) (strong : Nat) (e : IEvent) : Nat × State V W :=
  (s.next, { s with events := Function.update s.events s.next (some ⟨strong, e⟩), next := s.next + 1 })

/-- `make_shared` of a callback object. -/
def State.allocFn (s : State V W) (strong : Nat) (f : Fn V W) : Nat × State V W :=
  (s.next, { s with fns := Function.update s.fns s.next (some ⟨strong, f⟩), next := s.next + 1 })

/-- `make_shared` of a sink object. -/
def State.allocSink (s : State V W) (strong : Nat) (k : ISink V) : Nat × State V W :=
  (s.next, { s with sinks := Function.update s.sinks s.next (some ⟨strong, k⟩), next := s.next + 1 })

/-- `make_shared` of a `BasicDynamic`. -/
def State.allocDyn (s : State V W) (strong : Nat) (d : BasicDynamic V) : Nat × State V W :=
  (s.next, { s with dyns := Function.update s.dyns s.next (some ⟨strong, d⟩), next := s.next + 1 })

/-- Copying an `Event<T>` handle: one more owner of the object it points to. -/
def State.retainEvent (s : State V W) (a : Nat) : Option (State V W) :=
  match s.events a with
  | none => none
  | some cell => some { s with events := Function.update s.events a (some { cell with strong := cell.strong + 1 }) }

/-- `weak_ptr::expired()`. -/
def WeakPtr.expired (s : State V W) : WeakPtr → Bool
  | none => true
  | some c => (s.fns c).isNone

/-- `weak_ptr::lock()`: the callback, when it is still alive. -/
def WeakPtr.lock (s : State V W) : WeakPtr → Option Nat
  | none => none
  | some c => if (s.fns c).isSome then some c else none

/-- The `BasicEvent` inside a root stream, plain or synchronized. -/
def IEvent.basic? : IEvent → Option BasicEvent
  | .basic e => some e
  | .threadSafe e => some e.event.getCopy
  | _ => none

/-- The subscriber vector of the root stream at `a`. -/
def State.subscribers (s : State V W) (a : Nat) : Option (List WeakPtr) :=
  match s.events a with
  | none => none
  | some cell => cell.obj.basic?.map (·.subscribers)

/-- Overwrite the subscriber vector of a root stream object. -/
def IEvent.setSubscribers (subs : List WeakPtr) : IEvent → IEvent
  | .basic _ => .basic ⟨subs⟩
  | .threadSafe e => .threadSafe ⟨e.event.withMutableVoid fun _ => ⟨subs⟩⟩
  | e => e

/-- `T current() const` of the `BasicDynamic` at an address, `none` for a dead one. -/
def State.current (s : State V W) (d : Nat) : Option V :=
  (s.dyns d).map fun cell => cell.obj.currentValue.getCopy

/-- Calling a function object on the fired value. -/
def Callable.call {β : Type} (s : State V W) : Callable V β → V → Option β
  | .pure f, t => some (f t)
  | .withCurrent selfRef f, t => (s.current selfRef).map (f t)

/-- The wrapping lambdas of `mapped` and `filtered`: `g` receives the argument and the result
of the wrapped function object. -/
def Callable.wrap {β γ : Type} (g : V → β → γ) : Callable V β → Callable V γ
  | .pure f => .pure fun t => g t (f t)
  | .withCurrent selfRef f => .withCurrent selfRef fun t cur => g t (f t cur)

/-- `currentValue.set(t)` on the `BasicDynamic` at `d`. -/
def State.setCurrent (s : State V W) (d : Nat) (t : V) : Option (State V W) :=
  match s.dyns d with
  | none => none
  | some cell =>
    let obj := { cell.obj with currentValue := cell.obj.currentValue.set t }
    some { s with dyns := Function.update s.dyns d (some { cell with obj := obj }) }

/-- `items.with([&](std::vector<T>& vec) { vec.push_back(t); })` on the `VectorSink` at `k`. -/
def State.pushItem (s : State V W) (k : Nat) (t : V) : Option (State V W) :=
  match s.sinks k with
  | none => none
  | some cell =>
    match cell.obj with
    | .vectorSink upstream items subscription =>
      let obj := ISink.vectorSink upstream (items.withMutableVoid fun vec => vec ++ [t]) subscription
      some { s with sinks := Function.update s.sinks k (some { cell with obj := obj }) }
    | .voidSink _ _ => none

/-- Running the callback object at `c` on `t`; `fire` is `Event<T>::fire`. -/
def invoke (fire : Nat → V → State V W → Option (State V W)) (c : Nat) (t : V) (s : State V W) :
    Option (State V W) :=
  match s.fns c with
  | none => none
  | some cell =>
    match cell.obj with
    | .mappedOptionalFn f downstream =>
      match f.call s t with
      | none => none
      | some none => some s
      | some (some result) => fire downstream result s
    | .updater self => s.setCurrent self t
    | .vectorSinkFn self => s.pushItem self t
    | .forEachFn f => some { s with world := f t s.world }

/-- The second phase of `std::remove_if`: `out` is the range before `result`, `mid` the range
from `result` up to `first`, the third argument what is still to be visited.  A kept element is
move-assigned to `*result`, which leaves its own slot empty. -/
def removeIfGo (p : WeakPtr → Bool) : List WeakPtr → List WeakPtr → List WeakPtr → List WeakPtr
  | out, mid, [] => out ++ mid
  | out, mid, x :: rest =>
    if p x then removeIfGo p out (mid ++ [x]) rest
    else removeIfGo p (out ++ [x]) (mid.tail ++ [none]) rest

/-- `std::remove_if(first, last, p)` on a vector of `weak_ptr`, giving the whole vector
afterwards (nothing is erased): `find_if` for the first element to remove, then the moves. -/
def removeIf (p : WeakPtr → Bool) (xs : List WeakPtr) : List WeakPtr :=
  match xs.dropWhile (fun x => !p x) with
  | [] => xs
  | x :: rest => removeIfGo p (xs.takeWhile fun x => !p x) [x] rest

/-- The cleaning step of `BasicEvent::fire` on the root stream at `a`. -/
def State.clean (s : State V W) (a : Nat) : State V W :=
  match s.events a with
  | none => s
  | some cell =>
    match cell.obj.basic? with
    | none => s
    | some e =>
      let obj := cell.obj.setSubscribers (removeIf (WeakPtr.expired s) e.subscribers)
      { s with events := Function.update s.events a (some { cell with obj := obj }) }

/-- The loop of `BasicEvent::fire` on the root stream at `a`, from index `i`; the first
argument bounds the number of iterations.  Gives the state and `doCleaning`. -/
def BasicEvent.fireLoop (call : Nat → V → State V W → Option (State V W)) (a : Nat) (t : V) :
    Nat → Nat → Bool → State V W → Option (State V W × Bool)
  | 0, _, _, _ => none
  | k + 1, i, doCleaning, s =>
    match s.subscribers a with
    | none => none
    | some subscribers =>
      match subscribers[i]? with
      | none => some (s, doCleaning)
      | some w =>
        if WeakPtr.expired s w then BasicEvent.fireLoop call a t k (i + 1) true s
        else
          match WeakPtr.lock s w with
          | none => none
          | some c =>
            match call c t (s.log (.invoked a c t)) with
            | none => none
            | some s' => BasicEvent.fireLoop call a t k (i + 1) doCleaning s'

/-- `BasicEvent<T>::fire` on the root stream at `a`. -/
def BasicEvent.fire (call : Nat → V → State V W → Option (State V W)) (fuel : Nat) (a : Nat) (t : V)
    (s : State V W) : Option (State V W) :=
  match BasicEvent.fireLoop call a t fuel 0 false (s.log (.fired a t)) with
  | none => none
  | some (s', doCleaning) => some (if doCleaning then s'.clean a else s')

/-- `Event<T>::fire`: the virtual call on the object the handle points to. -/
def Event.fire : Nat → Nat → V → State V W → Option (State V W)
  | 0, _, _, _ => none
  | fuel + 1, h, t, s =>
    match s.events h with
    | none => none
    | some cell =>
      match cell.obj with
      | .basic _ => BasicEvent.fire (invoke (Event.fire fuel)) fuel h t s
      | .threadSafe _ => BasicEvent.fire (invoke (Event.fire fuel)) fuel h t s
      | .chained _ _ downstream => Event.fire fuel downstream t s
      | .never => some s

/-- `BasicEvent<T>::subscribe`. -/
def BasicEvent.subscribe (e : BasicEvent) (f : WeakPtr) : BasicEvent := ⟨e.subscribers ++ [f]⟩

/-- `ThreadSafeEvent<T>::subscribe`. -/
def ThreadSafeEvent.subscribe (e : ThreadSafeEvent) (f : WeakPtr) : ThreadSafeEvent :=
  ⟨e.event.withMutableVoid fun b => b.subscribe f⟩

/-- `Event<T>::subscribe` with a bound on the length of the chain of handles followed. -/
def Event.subscribeAux : Nat → Nat → WeakPtr → State V W → Option (State V W)
  | 0, _, _, _ => none
  | fuel + 1, h, f, s =>
    match s.events h with
    | none => none
    | some cell =>
      match cell.obj with
      | .basic e =>
        some { s with events := Function.update s.events h (some { cell with obj := .basic (e.subscribe f) }) }
      | .threadSafe e =>
        some { s with events := Function.update s.events h (some { cell with obj := .threadSafe (e.subscribe f) }) }
      | .chained _ _ downstream => Event.subscribeAux fuel downstream f s
      | .never => some s

/-- `Event<T>::subscribe`.  A chain of distinct handles is shorter than the number of
addresses handed out so far. -/
def Event.subscribe (h : Nat) (f : WeakPtr) (s : State V W) : Option (State V W) :=
  Event.subscribeAux (s.next + 1) h f s

/-! ### Ownership -/

/-- A `shared_ptr` by the static type of what it points to. -/
inductive Handle
  | event (a : Nat)
  | fn (a : Nat)
  | sink (a : Nat)
  | dyn (a : Nat)

/-- The destructor of a `shared_ptr`: one owner less; the last owner destroys the object, whose
members are then destroyed in the reverse order of their declaration.  The first argument
bounds the depth of the recursion. -/
def releaseAux : Nat → Handle → State V W → Option (State V W)
  | 0, _, _ => none
  | fuel + 1, .event a, s =>
    match s.events a with
    | none => none
    | some cell =>
      if 1 < cell.strong then
        some { s with events := Function.update s.events a (some { cell with strong := cell.strong - 1 }) }
      else
        match cell.obj with
        | .chained upstreamSubscription upstream downstream =>
          (releaseAux fuel (.event downstream) { s with events := Function.update s.events a none }).bind fun s2 =>
          (releaseAux fuel (.event upstream) s2).bind fun s3 =>
          releaseAux fuel (.fn upstreamSubscription) s3
        | _ => some { s with events := Function.update s.events a none }
  | fuel + 1, .fn c, s =>
    match s.fns c with
    | none => none
    | some cell =>
      if 1 < cell.strong then
        some { s with fns := Function.update s.fns c (some { cell with strong := cell.strong - 1 }) }
      else
        match cell.obj with
        | .mappedOptionalFn _ downstream =>
          releaseAux fuel (.event downstream) { s with fns := Function.update s.fns c none }
        | _ => some { s with fns := Function.update s.fns c none }
  | fuel + 1, .sink k, s =>
    match s.sinks k with
    | none => none
    | some cell =>
      if 1 < cell.strong then
        some { s with sinks := Function.update s.sinks k (some { cell with strong := cell.strong - 1 }) }
      else
        match cell.obj with
        | .voidSink subscription upstream =>
          (releaseAux fuel (.event upstream) { s with sinks := Function.update s.sinks k none }).bind fun s2 =>
          releaseAux fuel (.fn subscription) s2
        | .vectorSink upstream _ subscription =>
          (releaseAux fuel (.fn subscription) { s with sinks := Function.update s.sinks k none }).bind fun s2 =>
          releaseAux fuel (.event upstream) s2
  | fuel + 1, .dyn d, s =>
    match s.dyns d with
    | none => none
    | some cell =>
      if 1 < cell.strong then
        some { s with dyns := Function.update s.dyns d (some { cell with strong := cell.strong - 1 }) }
      else
        (releaseAux fuel (.event cell.obj.event) { s with dyns := Function.update s.dyns d none }).bind fun s2 =>
        releaseAux fuel (.fn cell.obj.updater) s2

/-- Dropping a handle.  Every level of the recursion destroys an object, and there are fewer
objects than addresses handed out. -/
def release (h : Handle) (s : State V W) : Option (State V W) := releaseAux (s.next + 1) h s

/-! ### Streams and combinators -/

/-- `Event<T>()`: a fresh synchronized root stream, owned by `strong` handles. -/
def Event.new (strong : Nat) (s : State V W) : Nat × State V W :=
  s.allocEvent strong (.threadSafe ⟨⟨⟨[]⟩⟩⟩)

/-- `never<In, Out>()`. -/
def never (s : State V W) : Nat × State V W := s.allocEvent 1 .never

/-- `mappedOptional(in, f)`.  When it returns, `downstream` is owned by the copy in the lambda
and by the member of the `ChainedEvent`, the callback by the `ChainedEvent`, the `ChainedEvent`
by the handle returned, and `in` has the member `upstream` as one more owner. -/
def mappedOptional (inp : Nat) (f : Callable V (Option V)) (s : State V W) : Option (Nat × State V W) :=
  let (downstream, s1) := Event.new 2 s
  let (upstreamSubscription, s2) := s1.allocFn 1 (.mappedOptionalFn f downstream)
  match s2.retainEvent inp with
  | none => none
  | some s3 =>
    let (chained, s4) := s3.allocEvent 1 (.chained upstreamSubscription inp downstream)
    match Event.subscribe inp (some upstreamSubscription) s4 with
    | none => none
    | some s5 => some (chained, s5)

/-- `mapped(in, f)`. -/
def mapped (inp : Nat) (f : Callable V V) (s : State V W) : Option (Nat × State V W) :=
  mappedOptional inp (f.wrap fun _ r => some r) s

/-- `filtered(in, f)`. -/
def filtered (inp : Nat) (f : Callable V Bool) (s : State V W) : Option (Nat × State V W) :=
  mappedOptional inp (f.wrap fun t r => if r then some t else none) s

/-! ### Sinks -/

/-- `forEach(in, f)`: the handle of the `VoidSink`. -/
def forEach (inp : Nat) (f : V → W → W) (s : State V W) : Option (Nat × State V W) :=
  let (subscription, s1) := s.allocFn 1 (.forEachFn f)
  match s1.retainEvent inp with
  | none => none
  | some s2 =>
    let (sink, s3) := s2.allocSink 1 (.voidSink subscription inp)
    match Event.subscribe inp (some subscription) s3 with
    | none => none
    | some s4 => some (sink, s4)

/-- `collect(in)`: the handle of the `VectorSink`, whose constructor subscribes. -/
def collect (inp : Nat) (s : State V W) : Option (Nat × State V W) :=
  match s.retainEvent inp with
  | none => none
  | some s1 =>
    let (sink, s2) := s1.allocSink 1 (.vectorSink inp ⟨[]⟩ (s1.next + 1))
    let (subscription, s3) := s2.allocFn 1 (.vectorSinkFn sink)
    match Event.subscribe inp (some subscription) s3 with
    | none => none
    | some s4 => some (sink, s4)

/-- `Sink<std::vector<T>>::result()`. -/
def Sink.result (k : Nat) (s : State V W) : Option (List V) :=
  match s.sinks k with
  | none => none
  | some cell =>
    match cell.obj with
    | .vectorSink _ items _ => some items.getCopy
    | .voidSink _ _ => none

/-! ### Dynamics -/

/-- `Dynamic<T>::current()`. -/
def Dynamic.current (d : Nat) (s : State V W) : Option V := s.current d

/-- `Dynamic<T>::updated()`: the address the handle returned points to. -/
def Dynamic.updated (d : Nat) (s : State V W) : Option Nat := (s.dyns d).map fun cell => cell.obj.event

/-- `std::make_shared<BasicDynamic<T>>(e, initialValue)`, the handle `e` being moved in: the
object, then its `updater`. -/
def BasicDynamic.new (e : Nat) (initialValue : V) (s : State V W) : Nat × State V W :=
  let (d, s1) := s.allocDyn 1 ⟨⟨initialValue⟩, s.next + 1, e⟩
  let (_, s2) := s1.allocFn 1 (.updater d)
  (d, s2)

/-- `mkDynamic(event, initialValue)`. -/
def mkDynamic (event : Nat) (initialValue : V) (s : State V W) : Option (Nat × State V W) :=
  match s.retainEvent event with
  | none => none
  | some s1 =>
    let (d, s2) := BasicDynamic.new event initialValue s1
    match s2.dyns d with
    | none => none
    | some cell =>
      match Event.subscribe cell.obj.event (some cell.obj.updater) s2 with
      | none => none
      | some s3 => some (d, s3)

/-- `fold(event, initialValue, f)`. -/
def fold (event : Nat) (initialValue : V) (f : V → V → V) (s : State V W) : Option (Nat × State V W) :=
  let (placeholder, s1) := never s
  let (d, s2) := BasicDynamic.new placeholder initialValue s1
  match mapped event (.withCurrent d fun e cur => f e cur) s2 with
  | none => none
  | some (ev, s3) =>
    match s3.dyns d with
    | none => none
    | some cell =>
      -- `d->event = ...`: the member takes over the new handle and drops the one it held
      let obj := { cell.obj with event := ev }
      match release (.event cell.obj.event) { s3 with dyns := Function.update s3.dyns d (some { cell with obj := obj }) } with
      | none => none
      | some s4 =>
        match Event.subscribe ev (some cell.obj.updater) s4 with
        | none => none
        | some s5 => some (d, s5)

/-- The number of values of `size_t`. -/
def sizeMod : Nat := 2 ^ 64

/-- `count(e)`.  The values of the graph are the fired values (`Sum.inl`) and the counts
(`Sum.inr`, a `size_t`); the combining function is `prev + 1` on a `size_t`. -/
def count {T : Type} (e : Nat) (s : State (T ⊕ Nat) W) : Option (Nat × State (T ⊕ Nat) W) :=
  fold e (Sum.inr 0)
    (fun _ prev => match prev with
      | Sum.inr n => Sum.inr ((n + 1) % sizeMod)
      | Sum.inl t => Sum.inl t) s

/-! ## Reasoning infrastructure -/

/-- The callbacks a pass over `subs` calls: the entries that are not expired, in order. -/
def liveOf (s : State V W) (subs : List WeakPtr) : List Nat := subs.filterMap (WeakPtr.lock s)

/-- The live subscribers of the root stream at `a`, in the order of the subscriber vector. -/
def State.live (s : State V W) (a : Nat) : List Nat :=
  match s.subscribers a with
  | none => []
  | some subs => liveOf s subs

/-- The observations of a trace that belong to the stream at `a`. -/
def traceAt (a : Nat) (t : List (Obs V)) : List (Obs V) := t.filter fun o => decide (o.event = a)

/-- What was appended to the trace between `s` and `s'`. -/
def newTrace (s s' : State V W) : List (Obs V) := s'.trace.drop s.trace.length

/-- Sequential invocation of the callbacks `cs` by a pass over the stream at `a`. -/
def invokeAll (call : Nat → V → State V W → Option (State V W)) (a : Nat) (t : V) :
    List Nat → State V W → Option (State V W)
  | [], s => some s
  | c :: cs, s =>
    match call c t (s.log (.invoked a c t)) with
    | none => none
    | some s' => invokeAll call a t cs s'

/-- The longest subscriber vector among the streams below `n`. -/
def maxSubsBelow (s : State V W) : Nat → Nat
  | 0 => 0
  | n + 1 => max (maxSubsBelow s n) (((s.subscribers n).map List.length).getD 0)

/-- Fuel that suffices for `Event.fire` in a well-formed state. -/
def State.fuelBound (s : State V W) : Nat := s.next + maxSubsBelow s s.next + 2

/-- The sink object without its collected items. -/
def ISink.skeleton : ISink V → ISink V
  | .voidSink subscription upstream => .voidSink subscription upstream
  | .vectorSink upstream _ subscription => .vectorSink upstream ⟨[]⟩ subscription

/-- What the callback object refers to exists: a root stream to fire, the `BasicDynamic` to
read or to set, the `VectorSink` to push to. -/
def Runnable (s : State V W) : Fn V W → Prop
  | .mappedOptionalFn f downstream =>
    (s.subscribers downstream).isSome = true ∧
      (match f with
        | .pure _ => True
        | .withCurrent selfRef _ => (s.dyns selfRef).isSome = true)
  | .updater self => (s.dyns self).isSome = true
  | .vectorSinkFn self => ∃ cell, s.sinks self = some cell ∧ ∃ up sub, cell.obj.skeleton = .vectorSink up ⟨[]⟩ sub
  | .forEachFn _ => True

/-- The states the combinators of `FRP.hpp` build: addresses at and above `next` are unused,
live callbacks refer to live objects, and the callback that `mappedOptional` subscribes to a
root stream fires a root stream created after it. -/
structure WF (s : State V W) : Prop where
  events_fresh : ∀ a, s.next ≤ a → s.events a = none
  fns_fresh : ∀ a, s.next ≤ a → s.fns a = none
  sinks_fresh : ∀ a, s.next ≤ a → s.sinks a = none
  dyns_fresh : ∀ a, s.next ≤ a → s.dyns a = none
  subs_lt : ∀ a subs c, s.subscribers a = some subs → some c ∈ subs → c < s.next
  runnable : ∀ c cell, s.fns c = some cell → Runnable s cell.obj
  ranked : ∀ a c cell f D, c ∈ s.live a → s.fns c = some cell → cell.obj = .mappedOptionalFn f D → a < D
  chained : ∀ a cell u up D, s.events a = some cell → cell.obj = .chained u up D →
    (s.subscribers D).isSome = true

/-- Two states with the same objects and live subscribers, as far as well-formedness can
tell: the same callbacks, the same kinds of streams and sinks, the same live subscribers. -/
structure Shape (s s' : State V W) : Prop where
  fns : s'.fns = s.fns
  next : s'.next = s.next
  events : ∀ a, (s'.events a).map (fun c => c.obj.setSubscribers []) =
    (s.events a).map (fun c => c.obj.setSubscribers [])
  live : ∀ a, s'.live a = s.live a
  len : ∀ a, (s'.subscribers a).map List.length = (s.subscribers a).map List.length
  mentions : ∀ a subs' c, s'.subscribers a = some subs' → some c ∈ subs' →
    ∃ subs, s.subscribers a = some subs ∧ some c ∈ subs
  dyns : ∀ d, (s'.dyns d).isSome = (s.dyns d).isSome
  sinks : ∀ k, (s'.sinks k).map (fun c => c.obj.skeleton) = (s.sinks k).map (fun c => c.obj.skeleton)

/-- A set of root streams, Dynamics and sinks. -/
structure Footprint where
  ev : Nat → Prop
  dyn : Nat → Prop
  sink : Nat → Prop

/-- The footprint restricted to the streams above `a`. -/
def Footprint.above (P : Footprint) (a : Nat) : Footprint :=
  { ev := fun x => P.ev x ∧ a < x, dyn := P.dyn, sink := P.sink }

/-- What the callback at `c` fires or writes lies in `P`. -/
def Targets (P : Footprint) (s : State V W) (c : Nat) : Prop :=
  ∀ cell, s.fns c = some cell →
    match cell.obj with
    | .mappedOptionalFn _ downstream => P.ev downstream
    | .updater self => P.dyn self
    | .vectorSinkFn self => P.sink self
    | .forEachFn _ => True

/-- The footprint is closed under what the live subscribers of its streams fire or write. -/
def Closed (P : Footprint) (s : State V W) : Prop :=
  ∀ a, P.ev a → ∀ c ∈ s.live a, Targets P s c

/-- The observation is one that the state allows: a pass over a root stream, or the call of a
live subscriber of the stream by a pass over it. -/
def Obs.sound (s : State V W) : Obs V → Prop
  | .fired a _ => (s.subscribers a).isSome = true
  | .invoked a c _ => c ∈ s.live a

/-- `s'` has the shape of `s`, differs from it only inside `P`, extends its trace by
observations of streams of `P`, and keeps the owners of every object and the handles held by
the Dynamics. -/
structure Frame (P : Footprint) (s s' : State V W) : Prop where
  shape : Shape s s'
  events : ∀ a, ¬ P.ev a → s'.events a = s.events a
  dyns : ∀ d, ¬ P.dyn d → s'.dyns d = s.dyns d
  sinks : ∀ k, ¬ P.sink k → s'.sinks k = s.sinks k
  trace : s'.trace = s.trace ++ newTrace s s'
  traceIn : ∀ o ∈ newTrace s s', P.ev o.event
  sound : ∀ o ∈ newTrace s s', o.sound s
  eventsKeep : ∀ a, (s'.events a).map (fun c => c.strong) = (s.events a).map (fun c => c.strong)
  dynsKeep : ∀ d, (s'.dyns d).map (fun c => (c.strong, c.obj.updater, c.obj.event)) =
    (s.dyns d).map (fun c => (c.strong, c.obj.updater, c.obj.event))
  sinksKeep : ∀ k, (s'.sinks k).map (fun c => c.strong) = (s.sinks k).map (fun c => c.strong)

/-- The statement that `Event.fire` with fuel `n` returns on the root streams of well-formed
states and stays inside every closed footprint that holds the stream. -/
def FireOK (V W : Type) (n : Nat) : Prop :=
  ∀ (s : State V W) (a : Nat) (v : V) (P : Footprint), WF s → Closed P s → P.ev a →
    (s.subscribers a).isSome = true → s.next + maxSubsBelow s s.next + 1 ≤ n + a →
    ∃ s', Event.fire n a v s = some s' ∧ Frame P s s'

/-- What a callback fires or writes when it is called. -/
inductive Target
  | ev (a : Nat)
  | dyn (d : Nat)
  | sink (k : Nat)
deriving DecidableEq

/-- The target of a closure. -/
def Fn.target : Fn V W → Option Target
  | .mappedOptionalFn _ downstream => some (.ev downstream)
  | .updater self => some (.dyn self)
  | .vectorSinkFn self => some (.sink self)
  | .forEachFn _ => none

/-- The target of the callback at `c`. -/
def State.targetOf (s : State V W) (c : Nat) : Option Target :=
  match s.fns c with
  | none => none
  | some cell => cell.obj.target

/-- Membership of a target in a footprint. -/
def Footprint.has (P : Footprint) : Target → Prop
  | .ev a => P.ev a
  | .dyn d => P.dyn d
  | .sink k => P.sink k

/-- The callbacks that the library creates are subscribed once: two live subscriptions with
the same target are the same subscription, and it occurs once in its subscriber vector. -/
structure Linear (s : State V W) : Prop where
  unique : ∀ x x' c c' t, c ∈ s.live x → c' ∈ s.live x' → s.targetOf c = some t →
    s.targetOf c' = some t → x = x' ∧ c = c'
  once : ∀ x c t, c ∈ s.live x → s.targetOf c = some t → (s.live x).count c = 1

/-- A state as the combinators of the library build it. -/
structure Good (s : State V W) : Prop where
  wf : WF s
  lin : Linear s

/-- The root stream that `fire` and `subscribe` on the handle `h` reach: the stream itself,
or the downstream of a chained stream. -/
def State.rootOf (s : State V W) (h : Nat) : Option Nat :=
  match s.events h with
  | none => none
  | some cell =>
    match cell.obj with
    | .basic _ => some h
    | .threadSafe _ => some h
    | .chained _ _ downstream => some downstream
    | .never => none

/-- `subscribe` on a root stream object. -/
def IEvent.subscribe (w : WeakPtr) : IEvent → IEvent
  | .basic e => .basic (e.subscribe w)
  | .threadSafe e => .threadSafe (e.subscribe w)
  | e => e

/-- The state after a subscription at the root stream `a`. -/
def State.appendSub (s : State V W) (a : Nat) (w : WeakPtr) : State V W :=
  match s.events a with
  | none => s
  | some cell => { s with events := Function.update s.events a (some { cell with obj := cell.obj.subscribe w }) }

/-- The function object can be called: the `BasicDynamic` it reads exists. -/
def Callable.readable {β : Type} (s : State V W) : Callable V β → Prop
  | .pure _ => True
  | .withCurrent selfRef _ => (s.dyns selfRef).isSome = true

/-- The address of a target. -/
def Target.addr : Target → Nat
  | .ev a => a
  | .dyn d => d
  | .sink k => k

/-- The footprint that holds everything. -/
def Footprint.all : Footprint := ⟨fun _ => True, fun _ => True, fun _ => True⟩

/-- A caller firing values into streams one after another. -/
def fireAll (fuel : Nat) : List (Nat × V) → State V W → Option (State V W)
  | [], s => some s
  | hv :: fs, s =>
    match Event.fire fuel hv.1 hv.2 s with
    | none => none
    | some s' => fireAll fuel fs s'

/-- The callback at `c` is a live subscriber of the root stream `a` and has this closure. -/
def State.hasSub (s : State V W) (a c : Nat) (body : Fn V W) : Prop :=
  c ∈ s.live a ∧ (s.fns c).map (fun cell => cell.obj) = some body

/-- The footprint of everything but a list of targets. -/
def Footprint.avoiding (ts : List Target) : Footprint :=
  { ev := fun x => Target.ev x ∉ ts, dyn := fun x => Target.dyn x ∉ ts, sink := fun x => Target.sink x ∉ ts }

/-- The state a construction leaves, or the given state when it failed. -/
def built {V W : Type} (r : Option (Nat × State V W)) (dflt : State V W) : State V W :=
  match r with
  | some p => p.2
  | none => dflt

/-- A program that has created one stream of numbers, at address 0; the world is the list of
the numbers printed so far, the last one first. -/
def demoRoot : State Nat (List Nat) := (Event.new 1 (State.init [])).2

/-- The program after `forEach(s, v => print(v + 100))`: callback 1, sink 2. -/
def demoOne : State Nat (List Nat) := built (forEach 0 (fun v w => (v + 100) :: w) demoRoot) demoRoot

/-- The program after a second `forEach(s, v => print(v))`: callback 3, sink 4. -/
def demoTwo : State Nat (List Nat) := built (forEach 0 (fun v w => v :: w) demoOne) demoOne

/-- The program after the first sink went out of scope. -/
def demoDropped : State Nat (List Nat) := (release (.sink 2) demoTwo).getD demoTwo

/-- A program that has created one stream of booleans, at address 0, in a graph that also
holds counts. -/
def demoCount : State (Bool ⊕ Nat) Unit := (Event.new 1 (State.init ())).2

/-- The number of owners of the stream object at `m`. -/
def State.owners (s : State V W) (m : Nat) : Option Nat := (s.events m).map fun c => c.strong

/-- A call that the owner of a stream handle makes on it. -/
inductive Call (V : Type)
  | fire (v : V)
  | subscribe (f : WeakPtr)

/-- A sequence of calls, each on the handle given with it, one after another. -/
def runCalls (fuel : Nat) : List (Nat × Call V) → State V W → Option (State V W)
  | [], s => some s
  | (h, .fire v) :: cs, s =>
    match Event.fire fuel h v s with
    | none => none
    | some s' => runCalls fuel cs s'
  | (h, .subscribe f) :: cs, s =>
    match Event.subscribe h f s with
    | none => none
    | some s' => runCalls fuel cs s'

/-- The program with one stream after `mapped(s, v => v + 1)`: downstream stream 1,
callback 2, chained node 3. -/
def demoMapped : State Nat (List Nat) := built (mappedOptional 0 (.pure fun t => some (t + 1)) demoRoot) demoRoot

/-- The vector `mapped(x, f)` of `Containers.hpp`: `std::transform` into a `back_inserter`. -/
def Containers.mapped {α β : Type} (x : List α) (f : α → β) : List β :=
  x.foldl (fun out a => out ++ [f a]) []

/-- The vector `filtered(v, f)` of `Containers.hpp`: `std::copy_if` into a `back_inserter`. -/
def Containers.filtered {α : Type} (v : List α) (f : α → Bool) : List α :=
  v.foldl (fun out a => if f a then out ++ [a] else out) []

/-- A line that `Example.cpp` prints: the text and the value after it. -/
abbrev Line := String × (String ⊕ Nat)

/-- The predicate `[](size_t i) { return i % 2 == 0; }`. -/
def Example.even : String ⊕ Nat → Bool
  | .inr i => i % 2 == 0
  | .inl _ => false

/-- The block of `main` in `Example.cpp` up to the first `fire`.  The values of the graph are
the messages and the counts, the world is the list of the lines printed.  The objects get the
addresses 0 (`msgs`), 1 and 2 (callback and sink of `x`), 3 to 5 (`mappedEvt`), 7 to 11
(`msgsCounted`; the placeholder 6 is gone), 12 and 13 (`countsub`), 14 to 16
(`countedFiltered`), 17 and 18 (`countfiltsub`), 19 and 20 (`y`), 21 and 22 (`xs`), 23 and 24
(`dyn`). -/
def Example.setup : Option (State (String ⊕ Nat) (List Line)) :=
  let s0 : State (String ⊕ Nat) (List Line) := (Event.new 1 (State.init [])).2
  (forEach 0 (fun msg w => w ++ [("GOT EVENT: ", msg)]) s0).bind fun x =>
  (mappedOptional 0 (.pure fun _ => some (.inl "same")) x.2).bind fun mappedEvt =>
  (count 0 mappedEvt.2).bind fun msgsCounted =>
  (Dynamic.updated msgsCounted.1 msgsCounted.2).bind fun updated =>
  (forEach updated (fun c w => w ++ [("Counted: ", c)]) msgsCounted.2).bind fun countsub =>
  (filtered updated (.pure Example.even) countsub.2).bind fun countedFiltered =>
  (forEach countedFiltered.1 (fun c w => w ++ [("Filtered count: ", c)]) countedFiltered.2).bind fun countfiltsub =>
  (forEach mappedEvt.1 (fun msg w => w ++ [("GOT MAPPED EVENT: ", msg)]) countfiltsub.2).bind fun y =>
  (collect mappedEvt.1 y.2).bind fun xs =>
  (mkDynamic 0 (.inl "unset") xs.2).bind fun dyn => some dyn.2

/-- The state that the block has built. -/
def Example.start : State (String ⊕ Nat) (List Line) := Example.setup.getD (State.init [])

/-- The state after `msgs.fire("Hello"); msgs.fire("There")`. -/
def Example.afterTwo : State (String ⊕ Nat) (List Line) :=
  (fireAll 6 [(0, .inl "Hello"), (0, .inl "There")] Example.start).getD Example.start

/-- The state after the sink `x` of the logger was dropped then. -/
def Example.dropped : State (String ⊕ Nat) (List Line) :=
  (release (.sink 2) Example.afterTwo).getD Example.afterTwo

/-- The state after `msgs.fire("Cool!!")` with the logger dropped. -/
def Example.afterCool : State (String ⊕ Nat) (List Line) :=
  (Event.fire 6 0 (.inl "Cool!!") Example.dropped).getD Example.dropped

/-- The state after `msgs.fire("Cool!!")` with the logger in scope, as in `main`. -/
def Example.afterCoolKept : State (String ⊕ Nat) (List Line) :=
  (Event.fire 6 0 (.inl "Cool!!") Example.afterTwo).getD Example.afterTwo

/-- The values with which the callback at `c` was called, in the order of the calls. -/
def callsOf (c : Nat) (t : List (Obs V)) : List V :=
  t.filterMap fun o =>
    match o with
    | .invoked _ c' v => if c' = c then some v else none
    | .fired _ _ => none

/-- The program with one stream after `d = fold(s, 0, (v, acc) => v + acc)`: Dynamic 2, its
updater 3, the stream 4 behind `d.updated()`, callback 5, chained node 6. -/
def demoFold : State Nat (List Nat) := built (fold 0 0 (fun v acc => v + acc) demoRoot) demoRoot

/-- The same program after `forEach(d.updated(), print)`: callback 7, sink 8. -/
def demoFoldLogged : State Nat (List Nat) := built (forEach 6 (fun v w => v :: w) demoFold) demoFold

/-- The program `demoFold` after `collect(mappedOptional(d.updated(), v => 1000 * v +
d.current()))`: the callback 8 reads the Dynamic when it is called, the sink 10 collects. -/
def demoFoldRead : State Nat (List Nat) :=
  built (collect 9 (built (mappedOptional 6 (.withCurrent 2 fun v cur => some (1000 * v + cur)) demoFold)
    demoFold)) demoFold

/-- What a thread is doing with a `ThreadSafeEvent`: it is outside its member functions, with
calls still to make; or it is inside `fire`, holding the guard that `with` constructed, at
index `i` of the loop of `BasicEvent::fire`; or it is inside `subscribe`, holding the guard,
before the `push_back`.  The ticket is ghost: the number of the guard. -/
inductive Thread (V : Type)
  | outside (calls : List (Call V))
  | firing (ticket : Nat) (t : V) (i : Nat) (doCleaning : Bool) (calls : List (Call V))
  | subscribing (ticket : Nat) (f : WeakPtr) (calls : List (Call V))

/-- What a thread did under a guard: the pass of `fire` called `subscribers[i]`, or
`subscribe` pushed an entry. -/
inductive Done (V : Type)
  | called (ticket thread i : Nat) (f : WeakPtr) (t : V)
  | pushed (ticket thread : Nat) (f : WeakPtr)
deriving DecidableEq

/-- The guard under which it was done. -/
def Done.ticket {V : Type} : Done V → Nat
  | .called k _ _ _ _ => k
  | .pushed k _ _ => k

/-- The thread that did it. -/
def Done.thread {V : Type} : Done V → Nat
  | .called _ t _ _ _ => t
  | .pushed _ t _ => t

/-- The ticket of the guard that a thread holds. -/
def Thread.ticket? : Thread V → Option Nat
  | .outside _ => none
  | .firing k _ _ _ _ => some k
  | .subscribing k _ _ => some k

/-- A `ThreadSafeEvent` shared by threads: the guarded `BasicEvent`, the thread that holds
`mutex_` if one does, the threads, and two ghost fields, the number of guards constructed so
far and the record of what was done under them. -/
structure Shared (V : Type) where
  event : ThreadSafe BasicEvent
  mutex : Option Nat
  threads : Nat → Thread V
  tickets : Nat
  log : List (Done V)

/-- The constructor of `std::lock_guard` in `with` returned: the thread holds the mutex. -/
def Shared.acquire (tid : Nat) (th : Thread V) (s : Shared V) : Shared V :=
  { s with mutex := some tid, tickets := s.tickets + 1, threads := Function.update s.threads tid th }

/-- A step under the guard. -/
def Shared.advance (tid : Nat) (th : Thread V) (entries : List (Done V)) (s : Shared V) : Shared V :=
  { s with log := s.log ++ entries, threads := Function.update s.threads tid th }

/-- The last step under the guard and its destructor: the guarded value is as the function
given to `with` left it, and the mutex is free. -/
def Shared.release (tid : Nat) (calls : List (Call V)) (e : BasicEvent) (entries : List (Done V))
    (s : Shared V) : Shared V :=
  { s with event := s.event.set e, log := s.log ++ entries, mutex := none,
           threads := Function.update s.threads tid (.outside calls) }

/-- One step of the thread `tid`, when the scheduler picks it.  A thread whose next call has
to construct the guard while another thread holds the mutex stays where it is, and so does a
thread without calls.  `expired` tells which callbacks are dead; no callback dies during the
run. -/
def Shared.step (expired : WeakPtr → Bool) (tid : Nat) (s : Shared V) : Shared V :=
  match s.threads tid with
  | .outside [] => s
  | .outside (.fire t :: calls) =>
    match s.mutex with
    | some _ => s
    | none => s.acquire tid (.firing s.tickets t 0 false calls)
  | .outside (.subscribe f :: calls) =>
    match s.mutex with
    | some _ => s
    | none => s.acquire tid (.subscribing s.tickets f calls)
  | .firing k t i doCleaning calls =>
    match s.event.getCopy.subscribers[i]? with
    | some w =>
      if expired w then s.advance tid (.firing k t (i + 1) true calls) []
      else s.advance tid (.firing k t (i + 1) doCleaning calls) [.called k tid i w t]
    | none =>
      s.release tid calls
        (if doCleaning then ⟨removeIf expired s.event.getCopy.subscribers⟩ else s.event.getCopy) []
  | .subscribing k f calls =>
    s.release tid calls (s.event.getCopy.subscribe f) [.pushed k tid f]

/-- The run that a schedule, the list of the threads picked, makes. -/
def Shared.run (expired : WeakPtr → Bool) : List Nat → Shared V → Shared V
  | [], s => s
  | tid :: schedule, s => Shared.run expired schedule (s.step expired tid)

/-- The stream with the subscriber vector `subs` before any thread has called it; the thread
`tid` is going to make the calls `programs tid`. -/
def Shared.init (subs : List WeakPtr) (programs : Nat → List (Call V)) : Shared V :=
  { event := ⟨⟨subs⟩⟩, mutex := none, threads := fun tid => .outside (programs tid), tickets := 0,
    log := [] }

/-- What holds in every state of a run: the tickets in the record are those of guards
constructed, they never decrease along the record, a thread under a guard holds the mutex and
the latest ticket, and what is recorded under a ticket was done by the thread that held
it. -/
structure Shared.Inv (s : Shared V) : Prop where
  fresh : ∀ e ∈ s.log, e.ticket < s.tickets
  sorted : s.log.Pairwise fun e1 e2 => e1.ticket ≤ e2.ticket
  holder : ∀ t k, (s.threads t).ticket? = some k → s.mutex = some t ∧ k + 1 = s.tickets
  owner : ∀ t k, (s.threads t).ticket? = some k → ∀ e ∈ s.log, e.ticket = k → e.thread = t
  same : ∀ e1 ∈ s.log, ∀ e2 ∈ s.log, e1.ticket = e2.ticket → e1.thread = e2.thread

/-- Two threads: thread 0 fires 1, thread 1 subscribes the callback 12 and then fires 2. -/
def demoPrograms : Nat → List (Call Nat)
  | 0 => [.fire 1]
  | 1 => [.subscribe (some 12), .fire 2]
  | _ => []

/-- The callback 11 is dead, and so is what an empty `weak_ptr` observes. -/
def demoExpired : WeakPtr → Bool
  | some 11 => true
  | none => true
  | _ => false

/-- A schedule that picks the two threads in turn and then lets thread 1 finish. -/
def demoSchedule : List Nat := [0, 1, 0, 1, 0, 1, 0, 1, 0, 1, 1, 1, 1, 1, 1, 1, 1]

/-- The graph that `mappedOptional(inp, f)` built is intact in `s`: the chained node at `m`
has `k` owners and holds the callback `C`, the stream `inp` and the downstream stream `D`;
`C` is subscribed to the root `a` of `inp`; the node and `C` are the two owners of `D`. -/
structure Mapped (s : State V W) (inp a m C D : Nat) (f : Callable V (Option V)) (k : Nat) : Prop where
  good : Good s
  node : s.events m = some ⟨k, .chained C inp D⟩
  fn : s.fns C = some ⟨1, .mappedOptionalFn f D⟩
  down : ∃ e, s.events D = some ⟨2, .threadSafe e⟩
  root : s.rootOf inp = some a
  sub : C ∈ s.live a
  onlyfn : ∀ c cell f', s.fns c = some cell → cell.obj = .mappedOptionalFn f' D → c = C
  onlych : ∀ x cell u up, s.events x = some cell → cell.obj = .chained u up D → x = m

theorem lock_eq_none_of_expired (s : State V W) (w : WeakPtr) (h : WeakPtr.expired s w = true) :
    WeakPtr.lock s w = none := by
  cases w with
  | none => rfl
  | some c =>
    simp only [WeakPtr.expired, Option.isNone_iff_eq_none] at h
    simp [WeakPtr.lock, h]

theorem lock_of_not_expired (s : State V W) (w : WeakPtr) (h : WeakPtr.expired s w = false) :
    ∃ c, w = some c ∧ WeakPtr.lock s w = some c ∧ (s.fns c).isSome = true := by
  cases w with
  | none => simp [WeakPtr.expired] at h
  | some c =>
    have hc : (s.fns c).isSome = true := by
      cases hf : s.fns c with
      | none => simp [WeakPtr.expired, hf] at h
      | some _ => rfl
    exact ⟨c, rfl, by simp [WeakPtr.lock, hc], hc⟩

theorem lock_eq_some (s : State V W) (w : WeakPtr) (c : Nat) (h : WeakPtr.lock s w = some c) :
    w = some c ∧ (s.fns c).isSome = true := by
  cases w with
  | none => simp [WeakPtr.lock] at h
  | some c' =>
    simp only [WeakPtr.lock] at h
    split at h
    · rename_i hc
      simp only [Option.some.injEq] at h
      subst h
      exact ⟨rfl, hc⟩
    · simp at h

theorem mem_liveOf (s : State V W) (subs : List WeakPtr) (c : Nat) :
    c ∈ liveOf s subs ↔ some c ∈ subs ∧ (s.fns c).isSome = true := by
  unfold liveOf
  rw [List.mem_filterMap]
  constructor
  · rintro ⟨w, hw, hl⟩
    obtain ⟨rfl, hc⟩ := lock_eq_some s w c hl
    exact ⟨hw, hc⟩
  · rintro ⟨hw, hc⟩
    exact ⟨some c, hw, by simp [WeakPtr.lock, hc]⟩

/-! ### `std::remove_if` -/

theorem removeIfGo_length (p : WeakPtr → Bool) (rest : List WeakPtr) :
    ∀ out mid : List WeakPtr, mid ≠ [] →
      (removeIfGo p out mid rest).length = out.length + mid.length + rest.length := by
  induction rest with
  | nil => intro out mid _; simp [removeIfGo]
  | cons x rest ih =>
    intro out mid hmid
    unfold removeIfGo
    split
    · rw [ih out (mid ++ [x]) (by simp)]
      simp only [List.length_append, List.length_cons, List.length_nil]
      omega
    · rw [ih (out ++ [x]) (mid.tail ++ [none]) (by simp)]
      have : 0 < mid.length := List.length_pos.mpr hmid
      simp only [List.length_append, List.length_cons, List.length_nil, List.length_tail]
      omega

theorem removeIfGo_filterMap {β : Type} (p : WeakPtr → Bool) (g : WeakPtr → Option β)
    (hg : ∀ w, p w = true → g w = none) (hnone : g none = none) (rest : List WeakPtr) :
    ∀ out mid : List WeakPtr, (∀ m ∈ mid, g m = none) →
      (removeIfGo p out mid rest).filterMap g = out.filterMap g ++ (rest.filter fun x => !p x).filterMap g := by
  induction rest with
  | nil =>
    intro out mid hmid
    have : mid.filterMap g = [] := by
      rw [List.filterMap_eq_nil_iff]
      exact hmid
    simp [removeIfGo, this]
  | cons x rest ih =>
    intro out mid hmid
    unfold removeIfGo
    by_cases hx : p x = true
    · rw [if_pos hx, ih out (mid ++ [x])]
      · simp [List.filter_cons, hx]
      · intro m hm
        rcases List.mem_append.mp hm with h | h
        · exact hmid m h
        · rw [List.mem_singleton.mp h]; exact hg x hx
    · rw [if_neg hx, ih (out ++ [x]) (mid.tail ++ [none])]
      · have hcons : List.filter (fun x => !p x) (x :: rest) = [x] ++ List.filter (fun x => !p x) rest := by
          simp [List.filter_cons, hx]
        rw [hcons, List.filterMap_append, List.filterMap_append, List.append_assoc]
      · intro m hm
        rcases List.mem_append.mp hm with h | h
        · exact hmid m (List.mem_of_mem_tail h)
        · rw [List.mem_singleton.mp h]; exact hnone

theorem removeIfGo_mem (p : WeakPtr → Bool) (rest : List WeakPtr) :
    ∀ (out mid : List WeakPtr) (w : WeakPtr), w ∈ removeIfGo p out mid rest →
      w = none ∨ w ∈ out ∨ w ∈ mid ∨ w ∈ rest := by
  induction rest with
  | nil =>
    intro out mid w hw
    simp only [removeIfGo, List.mem_append] at hw
    rcases hw with h | h
    · exact Or.inr (Or.inl h)
    · exact Or.inr (Or.inr (Or.inl h))
  | cons x rest ih =>
    intro out mid w hw
    unfold removeIfGo at hw
    split at hw
    · rcases ih _ _ w hw with h | h | h | h
      · exact Or.inl h
      · exact Or.inr (Or.inl h)
      · rcases List.mem_append.mp h with h | h
        · exact Or.inr (Or.inr (Or.inl h))
        · exact Or.inr (Or.inr (Or.inr (by rw [List.mem_singleton.mp h]; exact List.mem_cons_self _ _)))
      · exact Or.inr (Or.inr (Or.inr (List.mem_cons_of_mem _ h)))
    · rcases ih _ _ w hw with h | h | h | h
      · exact Or.inl h
      · rcases List.mem_append.mp h with h | h
        · exact Or.inr (Or.inl h)
        · exact Or.inr (Or.inr (Or.inr (by rw [List.mem_singleton.mp h]; exact List.mem_cons_self _ _)))
      · rcases List.mem_append.mp h with h | h
        · exact Or.inr (Or.inr (Or.inl (List.mem_of_mem_tail h)))
        · exact Or.inl (List.mem_singleton.mp h)
      · exact Or.inr (Or.inr (Or.inr (List.mem_cons_of_mem _ h)))

theorem removeIf_length (p : WeakPtr → Bool) (xs : List WeakPtr) :
    (removeIf p xs).length = xs.length := by
  unfold removeIf
  split
  · rfl
  · rename_i x rest hd
    rw [removeIfGo_length p rest _ [x] (by simp)]
    have h := congrArg List.length (List.takeWhile_append_dropWhile (fun x => !p x) xs)
    rw [hd] at h
    simp only [List.length_append, List.length_cons] at h
    simp only [List.length_cons, List.length_nil]
    omega

theorem removeIf_filterMap {β : Type} (p : WeakPtr → Bool) (g : WeakPtr → Option β)
    (hg : ∀ w, p w = true → g w = none) (hnone : g none = none) (xs : List WeakPtr) :
    (removeIf p xs).filterMap g = xs.filterMap g := by
  have hfilter : ∀ ys : List WeakPtr, (ys.filter fun x => !p x).filterMap g = ys.filterMap g := by
    intro ys
    induction ys with
    | nil => rfl
    | cons y ys ih =>
      by_cases hy : p y = true
      · simp [List.filter_cons, hy, List.filterMap_cons, hg y hy, ih]
      · simp only [List.filter_cons, hy, Bool.not_false, if_true, Bool.not_eq_true] 
        simp only [Bool.not_eq_true] at hy
        simp [hy, List.filterMap_cons, ih]
  unfold removeIf
  split
  · rfl
  · rename_i x rest hd
    have hx : p x = true := by
      have := List.head_dropWhile_not (fun x => !p x) xs (by rw [hd]; simp)
      simpa [hd] using this
    rw [removeIfGo_filterMap p g hg hnone rest _ [x] (by intro m hm; rw [List.mem_singleton.mp hm]; exact hg x hx)]
    rw [hfilter rest]
    conv_rhs => rw [← List.takeWhile_append_dropWhile (fun x => !p x) xs, hd]
    simp [List.filterMap_append, List.filterMap_cons, hg x hx]

theorem removeIf_mem (p : WeakPtr → Bool) (xs : List WeakPtr) (w : WeakPtr) (hw : w ∈ removeIf p xs) :
    w = none ∨ w ∈ xs := by
  unfold removeIf at hw
  split at hw
  · exact Or.inr hw
  · rename_i x rest hd
    have hsplit := List.takeWhile_append_dropWhile (fun x => !p x) xs
    rw [hd] at hsplit
    rcases removeIfGo_mem p rest _ _ w hw with h | h | h | h
    · exact Or.inl h
    · right; rw [← hsplit]; exact List.mem_append_left _ h
    · right; rw [← hsplit]
      exact List.mem_append_right _ (by rw [List.mem_singleton.mp h]; exact List.mem_cons_self _ _)
    · right; rw [← hsplit]
      exact List.mem_append_right _ (List.mem_cons_of_mem _ h)

/-! ### Well-formed states -/

theorem Shape.same (s : State V W) : Shape s s :=
  ⟨rfl, rfl, fun _ => rfl, fun _ => rfl, fun _ => rfl, fun _ subs _ h1 h2 => ⟨subs, h1, h2⟩,
    fun _ => rfl, fun _ => rfl⟩

theorem Shape.andThen {s1 s2 s3 : State V W} (h12 : Shape s1 s2) (h23 : Shape s2 s3) : Shape s1 s3 where
  fns := h23.fns.trans h12.fns
  next := h23.next.trans h12.next
  events a := (h23.events a).trans (h12.events a)
  live a := (h23.live a).trans (h12.live a)
  len a := (h23.len a).trans (h12.len a)
  mentions a subs3 c h1 h2 := by
    obtain ⟨subs2, h3, h4⟩ := h23.mentions a subs3 c h1 h2
    exact h12.mentions a subs2 c h3 h4
  dyns d := (h23.dyns d).trans (h12.dyns d)
  sinks k := (h23.sinks k).trans (h12.sinks k)

theorem newTrace_self (s : State V W) : newTrace s s = [] := by
  simp [newTrace]

theorem newTrace_of_eq {s s' : State V W} {t : List (Obs V)} (h : s'.trace = s.trace ++ t) :
    newTrace s s' = t := by
  simp [newTrace, h]

theorem newTrace_trans {s1 s2 s3 : State V W} (h12 : s2.trace = s1.trace ++ newTrace s1 s2)
    (h23 : s3.trace = s2.trace ++ newTrace s2 s3) :
    newTrace s1 s3 = newTrace s1 s2 ++ newTrace s2 s3 := by
  apply newTrace_of_eq
  rw [h23, h12, List.append_assoc]

theorem Obs.sound_of_shape {s s' : State V W} (h : Shape s s') (o : Obs V) (ho : o.sound s') :
    o.sound s := by
  cases o with
  | fired a v =>
    show (s.subscribers a).isSome = true
    have : (s'.subscribers a).isSome = true := ho
    have e := congrArg Option.isSome (h.len a)
    simp only [Option.isSome_map'] at e
    rw [← e]; exact this
  | invoked a c v =>
    show c ∈ s.live a
    rw [← h.live]; exact ho

theorem Frame.unchanged (P : Footprint) (s : State V W) : Frame P s s where
  shape := Shape.same s
  events _ _ := rfl
  dyns _ _ := rfl
  sinks _ _ := rfl
  trace := by simp [newTrace_self]
  traceIn o ho := by simp [newTrace_self] at ho
  sound o ho := by simp [newTrace_self] at ho
  eventsKeep _ := rfl
  dynsKeep _ := rfl
  sinksKeep _ := rfl

theorem Frame.followedBy {P : Footprint} {s1 s2 s3 : State V W} (h12 : Frame P s1 s2) (h23 : Frame P s2 s3) :
    Frame P s1 s3 where
  shape := h12.shape.andThen h23.shape
  events a ha := (h23.events a ha).trans (h12.events a ha)
  dyns a ha := (h23.dyns a ha).trans (h12.dyns a ha)
  sinks a ha := (h23.sinks a ha).trans (h12.sinks a ha)
  trace := by
    rw [newTrace_trans h12.trace h23.trace, ← List.append_assoc, ← h12.trace, ← h23.trace]
  traceIn o ho := by
    rw [newTrace_trans h12.trace h23.trace] at ho
    rcases List.mem_append.mp ho with h | h
    · exact h12.traceIn o h
    · exact h23.traceIn o h
  sound o ho := by
    rw [newTrace_trans h12.trace h23.trace] at ho
    rcases List.mem_append.mp ho with h | h
    · exact h12.sound o h
    · exact Obs.sound_of_shape h12.shape o (h23.sound o h)
  eventsKeep a := (h23.eventsKeep a).trans (h12.eventsKeep a)
  dynsKeep a := (h23.dynsKeep a).trans (h12.dynsKeep a)
  sinksKeep a := (h23.sinksKeep a).trans (h12.sinksKeep a)

theorem Frame.weaken {P Q : Footprint} {s s' : State V W} (h : Frame P s s')
    (hev : ∀ a, P.ev a → Q.ev a) (hdyn : ∀ a, P.dyn a → Q.dyn a) (hsink : ∀ a, P.sink a → Q.sink a) :
    Frame Q s s' where
  shape := h.shape
  events a ha := h.events a fun hp => ha (hev a hp)
  dyns a ha := h.dyns a fun hp => ha (hdyn a hp)
  sinks a ha := h.sinks a fun hp => ha (hsink a hp)
  trace := h.trace
  traceIn o ho := hev _ (h.traceIn o ho)
  sound := h.sound
  eventsKeep := h.eventsKeep
  dynsKeep := h.dynsKeep
  sinksKeep := h.sinksKeep

/-! ### Elementary steps -/

theorem IEvent.basic?_setSubscribers (obj : IEvent) (e : BasicEvent) (xs : List WeakPtr)
    (h : obj.basic? = some e) : (obj.setSubscribers xs).basic? = some ⟨xs⟩ := by
  cases obj <;> simp_all [IEvent.basic?, IEvent.setSubscribers, ThreadSafe.withMutableVoid, ThreadSafe.getCopy]

theorem IEvent.setSubscribers_twice (obj : IEvent) (xs ys : List WeakPtr) :
    (obj.setSubscribers xs).setSubscribers ys = obj.setSubscribers ys := by
  cases obj <;> simp [IEvent.setSubscribers, ThreadSafe.withMutableVoid]

theorem IEvent.setSubscribers_self (obj : IEvent) (e : BasicEvent) (h : obj.basic? = some e) :
    obj.setSubscribers e.subscribers = obj := by
  cases obj with
  | basic b => simp only [IEvent.basic?, Option.some.injEq] at h; subst h; rfl
  | threadSafe b =>
    simp only [IEvent.basic?, Option.some.injEq, ThreadSafe.getCopy] at h
    subst h
    rfl
  | chained _ _ _ => rfl
  | never => rfl

theorem subscribers_congr {s s' : State V W} (he : s'.events = s.events) (a : Nat) :
    s'.subscribers a = s.subscribers a := by
  simp [State.subscribers, he]

theorem lock_congr {s s' : State V W} (hf : s'.fns = s.fns) (w : WeakPtr) :
    WeakPtr.lock s' w = WeakPtr.lock s w := by
  cases w <;> simp [WeakPtr.lock, hf]

theorem expired_congr {s s' : State V W} (hf : s'.fns = s.fns) (w : WeakPtr) :
    WeakPtr.expired s' w = WeakPtr.expired s w := by
  cases w <;> simp [WeakPtr.expired, hf]

theorem liveOf_congr {s s' : State V W} (hf : s'.fns = s.fns) (subs : List WeakPtr) :
    liveOf s' subs = liveOf s subs := by
  unfold liveOf
  congr 1
  funext w
  exact lock_congr hf w

theorem live_congr {s s' : State V W} (he : s'.events = s.events) (hf : s'.fns = s.fns) (a : Nat) :
    s'.live a = s.live a := by
  simp only [State.live, subscribers_congr he]
  cases s.subscribers a with
  | none => rfl
  | some subs => exact liveOf_congr hf subs

theorem Shape.of_events_eq {s s' : State V W} (hf : s'.fns = s.fns) (hn : s'.next = s.next)
    (he : s'.events = s.events)
    (hd : ∀ d, (s'.dyns d).isSome = (s.dyns d).isSome)
    (hs : ∀ k, (s'.sinks k).map (fun c => c.obj.skeleton) = (s.sinks k).map (fun c => c.obj.skeleton)) :
    Shape s s' where
  fns := hf
  next := hn
  events a := by rw [he]
  live a := live_congr he hf a
  len a := by rw [subscribers_congr he]
  mentions a subs c h1 h2 := ⟨subs, by rw [← subscribers_congr he]; exact h1, h2⟩
  dyns := hd
  sinks := hs

theorem Frame.logged (P : Footprint) (s : State V W) (o : Obs V) (ho : P.ev o.event) (hs : o.sound s) :
    Frame P s (s.log o) where
  shape := Shape.of_events_eq rfl rfl rfl (fun _ => rfl) (fun _ => rfl)
  events _ _ := rfl
  dyns _ _ := rfl
  sinks _ _ := rfl
  trace := by simp [newTrace, State.log]
  traceIn o' ho' := by
    have : newTrace s (s.log o) = [o] := newTrace_of_eq rfl
    rw [this, List.mem_singleton] at ho'
    rw [ho']; exact ho
  sound o' ho' := by
    have : newTrace s (s.log o) = [o] := newTrace_of_eq rfl
    rw [this, List.mem_singleton] at ho'
    rw [ho']; exact hs
  eventsKeep _ := rfl
  dynsKeep _ := rfl
  sinksKeep _ := rfl

theorem Frame.setCurrent (P : Footprint) (s s' : State V W) (d : Nat) (t : V) (hd : P.dyn d)
    (h : s.setCurrent d t = some s') : Frame P s s' := by
  unfold State.setCurrent at h
  cases hc : s.dyns d with
  | none => simp [hc] at h
  | some cell =>
    simp only [hc, Option.some.injEq] at h
    subst h
    refine ⟨Shape.of_events_eq rfl rfl rfl ?_ (fun _ => rfl), fun _ _ => rfl, ?_, fun _ _ => rfl,
      by simp [newTrace], by simp [newTrace], by simp [newTrace], fun _ => rfl, ?_, fun _ => rfl⟩
    · intro x
      by_cases hx : x = d
      · subst hx; simp [hc]
      · simp [Function.update_noteq hx]
    · intro x hx
      have : x ≠ d := fun h => hx (h ▸ hd)
      simp [Function.update_noteq this]
    · intro x
      by_cases hx : x = d
      · subst hx; simp [hc]
      · simp [Function.update_noteq hx]

theorem Frame.pushItem (P : Footprint) (s s' : State V W) (k : Nat) (t : V) (hk : P.sink k)
    (h : s.pushItem k t = some s') : Frame P s s' := by
  unfold State.pushItem at h
  cases hc : s.sinks k with
  | none => simp [hc] at h
  | some cell =>
    simp only [hc] at h
    cases ho : cell.obj with
    | voidSink _ _ => simp [ho] at h
    | vectorSink up items sub =>
      simp only [ho, Option.some.injEq] at h
      subst h
      refine ⟨Shape.of_events_eq rfl rfl rfl (fun _ => rfl) ?_, fun _ _ => rfl, fun _ _ => rfl, ?_,
        by simp [newTrace], by simp [newTrace], by simp [newTrace], fun _ => rfl, fun _ => rfl, ?_⟩
      · intro x
        by_cases hx : x = k
        · subst hx; simp [hc, ho, ISink.skeleton]
        · simp [Function.update_noteq hx]
      · intro x hx
        have : x ≠ k := fun h => hx (h ▸ hk)
        simp [Function.update_noteq this]
      · intro x
        by_cases hx : x = k
        · subst hx; simp [hc]
        · simp [Function.update_noteq hx]

theorem Frame.world (P : Footprint) (s : State V W) (w : W) : Frame P s { s with world := w } where
  shape := Shape.of_events_eq rfl rfl rfl (fun _ => rfl) (fun _ => rfl)
  events _ _ := rfl
  dyns _ _ := rfl
  sinks _ _ := rfl
  trace := by simp [newTrace]
  traceIn o ho := by simp [newTrace] at ho
  sound o ho := by simp [newTrace] at ho
  eventsKeep _ := rfl
  dynsKeep _ := rfl
  sinksKeep _ := rfl

theorem clean_subscribers (s : State V W) (a : Nat) (subs : List WeakPtr)
    (h : s.subscribers a = some subs) :
    (s.clean a).subscribers a = some (removeIf (WeakPtr.expired s) subs) := by
  unfold State.subscribers at h
  cases hc : s.events a with
  | none => simp [hc] at h
  | some cell =>
    simp only [hc, Option.map_eq_some'] at h
    obtain ⟨e, he, rfl⟩ := h
    simp [State.clean, State.subscribers, hc, he, IEvent.basic?_setSubscribers _ e _ he]

theorem clean_cases (s : State V W) (a : Nat) :
    s.clean a = s ∨ ∃ cell, s.clean a = { s with events := Function.update s.events a (some cell) } := by
  unfold State.clean
  cases s.events a with
  | none => exact Or.inl rfl
  | some cell =>
    cases he : cell.obj.basic? with
    | none => left; simp [he]
    | some e => right; simp only [he]; exact ⟨_, rfl⟩

theorem clean_events_ne (s : State V W) (a b : Nat) (h : b ≠ a) : (s.clean a).events b = s.events b := by
  rcases clean_cases s a with hc | ⟨cell, hc⟩
  · rw [hc]
  · rw [hc]; simp [Function.update_noteq h]

theorem clean_subscribers_ne (s : State V W) (a b : Nat) (h : b ≠ a) :
    (s.clean a).subscribers b = s.subscribers b := by
  simp [State.subscribers, clean_events_ne s a b h]

theorem clean_fns (s : State V W) (a : Nat) : (s.clean a).fns = s.fns := by
  rcases clean_cases s a with hc | ⟨cell, hc⟩ <;> rw [hc]

theorem clean_none (s : State V W) (a : Nat) (h : s.subscribers a = none) : s.clean a = s := by
  unfold State.subscribers at h
  unfold State.clean
  cases hc : s.events a with
  | none => rfl
  | some cell =>
    simp only [hc, Option.map_eq_none'] at h
    simp [h]

theorem Frame.clean (P : Footprint) (s : State V W) (a : Nat) (ha : P.ev a) : Frame P s (s.clean a) := by
  cases hsub : s.subscribers a with
  | none => rw [clean_none s a hsub]; exact Frame.unchanged P s
  | some subs =>
    have hsub' := clean_subscribers s a subs hsub
    have hfns := clean_fns s a
    have hrest : (s.clean a).next = s.next ∧ (s.clean a).dyns = s.dyns ∧ (s.clean a).sinks = s.sinks ∧
        (s.clean a).trace = s.trace := by
      rcases clean_cases s a with hc | ⟨cell, hc⟩ <;> rw [hc] <;> exact ⟨rfl, rfl, rfl, rfl⟩
    obtain ⟨hn, hd, hs, ht⟩ := hrest
    have hstrong : ∀ b, ((s.clean a).events b).map (fun c => c.strong) =
        (s.events b).map (fun c => c.strong) := by
      intro b
      by_cases hb : b = a
      · subst hb
        unfold State.clean
        cases hc : s.events b with
        | none => simp [hc]
        | some cell => cases he : cell.obj.basic? <;> simp [he, hc]
      · rw [clean_events_ne s a b hb]
    refine ⟨⟨hfns, hn, ?_, ?_, ?_, ?_, fun _ => by rw [hd], fun _ => by rw [hs]⟩, ?_, fun _ _ => by rw [hd],
      fun _ _ => by rw [hs], by simp [newTrace, ht], by simp [newTrace, ht], by simp [newTrace, ht],
      hstrong, fun _ => by rw [hd], fun _ => by rw [hs]⟩
    · intro b
      by_cases hb : b = a
      · subst hb
        unfold State.subscribers at hsub
        cases hc : s.events b with
        | none => simp [hc] at hsub
        | some cell =>
          simp only [hc, Option.map_eq_some'] at hsub
          obtain ⟨e, he, _⟩ := hsub
          simp [State.clean, hc, he, IEvent.setSubscribers_twice]
      · rw [clean_events_ne s a b hb]
    · intro b
      by_cases hb : b = a
      · subst hb
        simp only [State.live, hsub', hsub]
        rw [liveOf_congr hfns]
        exact removeIf_filterMap _ _ (lock_eq_none_of_expired s) rfl subs
      · simp only [State.live, clean_subscribers_ne s a b hb]
        cases s.subscribers b with
        | none => rfl
        | some subs' => exact liveOf_congr hfns subs'
    · intro b
      by_cases hb : b = a
      · subst hb
        simp [hsub', hsub, removeIf_length]
      · rw [clean_subscribers_ne s a b hb]
    · intro b subs' c h1 h2
      by_cases hb : b = a
      · subst hb
        rw [hsub'] at h1
        simp only [Option.some.injEq] at h1
        subst h1
        rcases removeIf_mem _ _ _ h2 with h | h
        · simp at h
        · exact ⟨subs, hsub, h⟩
      · rw [clean_subscribers_ne s a b hb] at h1
        exact ⟨subs', h1, h2⟩
    · intro b hb
      have : b ≠ a := fun h => hb (h ▸ ha)
      exact clean_events_ne s a b this

/-! ### What the shape determines -/

theorem Shape.subscribers_isSome {s s' : State V W} (h : Shape s s') (a : Nat) :
    (s'.subscribers a).isSome = (s.subscribers a).isSome := by
  have := congrArg Option.isSome (h.len a)
  simpa using this

theorem Shape.dyns_isSome {s s' : State V W} (h : Shape s s') (d : Nat) :
    (s'.dyns d).isSome = (s.dyns d).isSome := h.dyns d

theorem Shape.events_isSome {s s' : State V W} (h : Shape s s') (a : Nat) :
    (s'.events a).isSome = (s.events a).isSome := by
  have := congrArg Option.isSome (h.events a)
  simpa using this

theorem Shape.sinks_isSome {s s' : State V W} (h : Shape s s') (a : Nat) :
    (s'.sinks a).isSome = (s.sinks a).isSome := by
  have := congrArg Option.isSome (h.sinks a)
  simpa using this

theorem Shape.runnable {s s' : State V W} (h : Shape s s') (f : Fn V W) (hr : Runnable s f) :
    Runnable s' f := by
  cases f with
  | mappedOptionalFn g D =>
    obtain ⟨h1, h2⟩ := hr
    refine ⟨by rw [h.subscribers_isSome]; exact h1, ?_⟩
    cases g with
    | pure _ => trivial
    | withCurrent r _ =>
      show (s'.dyns r).isSome = true
      rw [h.dyns_isSome]; exact h2
  | updater d =>
    show (s'.dyns d).isSome = true
    rw [h.dyns_isSome]; exact hr
  | vectorSinkFn k =>
    obtain ⟨cell, hc, up, sub, hsk⟩ := hr
    have hk := h.sinks k
    rw [hc] at hk
    cases hc' : s'.sinks k with
    | none => simp [hc'] at hk
    | some cell' =>
      simp only [hc', Option.map_some', Option.some.injEq] at hk
      exact ⟨cell', hc', up, sub, by rw [hk]; exact hsk⟩
  | forEachFn _ => trivial

theorem IEvent.chained_of_setSubscribers (obj : IEvent) (xs : List WeakPtr) (u up D : Nat)
    (h : obj.setSubscribers xs = .chained u up D) : obj = .chained u up D := by
  cases obj <;> simp_all [IEvent.setSubscribers]

theorem WF.of_shape {s s' : State V W} (h : Shape s s') (wf : WF s) : WF s' where
  events_fresh a ha := by
    have := h.events_isSome a
    rw [wf.events_fresh a (by rw [← h.next]; exact ha)] at this
    simpa using this
  fns_fresh a ha := by rw [h.fns]; exact wf.fns_fresh a (by rw [← h.next]; exact ha)
  sinks_fresh a ha := by
    have := h.sinks_isSome a
    rw [wf.sinks_fresh a (by rw [← h.next]; exact ha)] at this
    simpa using this
  dyns_fresh a ha := by
    have := h.dyns_isSome a
    rw [wf.dyns_fresh a (by rw [← h.next]; exact ha)] at this
    simpa using this
  subs_lt a subs c h1 h2 := by
    obtain ⟨subs0, h3, h4⟩ := h.mentions a subs c h1 h2
    rw [h.next]
    exact wf.subs_lt a subs0 c h3 h4
  runnable c cell hc := by
    rw [h.fns] at hc
    exact h.runnable _ (wf.runnable c cell hc)
  ranked a c cell f D hl hc ho := by
    rw [h.live] at hl
    rw [h.fns] at hc
    exact wf.ranked a c cell f D hl hc ho
  chained a cell u up D hc ho := by
    have he := h.events a
    rw [hc] at he
    cases hc0 : s.events a with
    | none => simp [hc0] at he
    | some cell0 =>
      simp only [hc0, Option.map_some', Option.some.injEq, ho, IEvent.setSubscribers] at he
      have := IEvent.chained_of_setSubscribers cell0.obj [] u up D he.symm
      rw [h.subscribers_isSome]
      exact wf.chained a cell0 u up D hc0 this

theorem Targets.of_fns {P : Footprint} {s s' : State V W} (hf : s'.fns = s.fns) (c : Nat)
    (h : Targets P s c) : Targets P s' c := by
  intro cell hc
  rw [hf] at hc
  exact h cell hc

theorem Closed.closed_of_shape {P : Footprint} {s s' : State V W} (h : Shape s s') (hc : Closed P s) :
    Closed P s' := by
  intro a ha c hl
  rw [h.live] at hl
  exact Targets.of_fns h.fns c (hc a ha c hl)

theorem maxSubsBelow_congr {s s' : State V W} (h : Shape s s') (n : Nat) :
    maxSubsBelow s' n = maxSubsBelow s n := by
  induction n with
  | zero => rfl
  | succ n ih => simp only [maxSubsBelow, ih, h.len]

theorem Shape.fuelBound {s s' : State V W} (h : Shape s s') : s'.fuelBound = s.fuelBound := by
  simp only [State.fuelBound, h.next, maxSubsBelow_congr h]

theorem length_le_maxSubsBelow (s : State V W) (a : Nat) (subs : List WeakPtr)
    (h : s.subscribers a = some subs) (n : Nat) (ha : a < n) : subs.length ≤ maxSubsBelow s n := by
  induction n with
  | zero => omega
  | succ n ih =>
    simp only [maxSubsBelow]
    by_cases han : a = n
    · subst han
      simp [h]
    · have := ih (by omega)
      omega

theorem WF.lt_of_subscribers {s : State V W} (wf : WF s) (a : Nat) (h : (s.subscribers a).isSome = true) :
    a < s.next := by
  by_contra hlt
  have := wf.events_fresh a (by omega)
  simp [State.subscribers, this] at h

theorem WF.length_le {s : State V W} (wf : WF s) (a : Nat) (subs : List WeakPtr)
    (h : s.subscribers a = some subs) : subs.length ≤ maxSubsBelow s s.next :=
  length_le_maxSubsBelow s a subs h s.next (wf.lt_of_subscribers a (by simp [h]))

/-! ### One pass of `BasicEvent::fire` -/

theorem Shape.shape_log (s : State V W) (o : Obs V) : Shape s (s.log o) :=
  Shape.of_events_eq rfl rfl rfl (fun _ => rfl) (fun _ => rfl)

theorem traceAt_append (a : Nat) (t1 t2 : List (Obs V)) :
    traceAt a (t1 ++ t2) = traceAt a t1 ++ traceAt a t2 := by
  simp [traceAt]

theorem traceAt_eq_nil (a : Nat) (t : List (Obs V)) (h : ∀ o ∈ t, o.event ≠ a) : traceAt a t = [] := by
  simp only [traceAt, List.filter_eq_nil_iff, decide_eq_true_eq]
  exact h

theorem fireLoop_done (call : Nat → V → State V W → Option (State V W)) (a : Nat) (t : V) (k i : Nat)
    (dc : Bool) (s : State V W) (subs : List WeakPtr) (h1 : s.subscribers a = some subs)
    (h2 : subs[i]? = none) : BasicEvent.fireLoop call a t (k + 1) i dc s = some (s, dc) := by
  simp [BasicEvent.fireLoop, h1, h2]

theorem fireLoop_expired (call : Nat → V → State V W → Option (State V W)) (a : Nat) (t : V) (k i : Nat)
    (dc : Bool) (s : State V W) (subs : List WeakPtr) (w : WeakPtr) (h1 : s.subscribers a = some subs)
    (h2 : subs[i]? = some w) (h3 : WeakPtr.expired s w = true) :
    BasicEvent.fireLoop call a t (k + 1) i dc s = BasicEvent.fireLoop call a t k (i + 1) true s := by
  simp [BasicEvent.fireLoop, h1, h2, h3]

theorem fireLoop_live (call : Nat → V → State V W → Option (State V W)) (a : Nat) (t : V) (k i : Nat)
    (dc : Bool) (s s' : State V W) (subs : List WeakPtr) (w : WeakPtr) (c : Nat)
    (h1 : s.subscribers a = some subs) (h2 : subs[i]? = some w) (h3 : WeakPtr.expired s w = false)
    (h4 : WeakPtr.lock s w = some c) (h5 : call c t (s.log (.invoked a c t)) = some s') :
    BasicEvent.fireLoop call a t (k + 1) i dc s = BasicEvent.fireLoop call a t k (i + 1) dc s' := by
  simp [BasicEvent.fireLoop, h1, h2, h3, h4, h5]

theorem Closed.above {P : Footprint} {s : State V W} (wf : WF s) (hcl : Closed P s) (a : Nat) :
    Closed (P.above a) s := by
  intro b hb c hl cell hc
  have h := hcl b hb.1 c hl cell hc
  cases ho : cell.obj with
  | mappedOptionalFn f D =>
    rw [ho] at h
    exact ⟨h, lt_trans hb.2 (wf.ranked b c cell f D hl hc ho)⟩
  | updater d => rw [ho] at h; exact h
  | vectorSinkFn k => rw [ho] at h; exact h
  | forEachFn g => trivial

theorem mem_live {s : State V W} {a c : Nat} (h : c ∈ s.live a) :
    ∃ subs, s.subscribers a = some subs ∧ some c ∈ subs ∧ (s.fns c).isSome = true := by
  unfold State.live at h
  cases hs : s.subscribers a with
  | none => simp [hs] at h
  | some subs =>
    simp only [hs] at h
    exact ⟨subs, rfl, (mem_liveOf s subs c).mp h⟩

theorem invoke_ok (n : Nat) (hA : FireOK V W n) (s : State V W) (a c : Nat) (v : V) (P : Footprint)
    (wf : WF s) (hcl : Closed (P.above a) s) (hl : c ∈ s.live a) (ht : Targets P s c)
    (hfuel : s.next + maxSubsBelow s s.next + 1 ≤ n + a + 1) :
    ∃ s', invoke (Event.fire n) c v s = some s' ∧ Frame (P.above a) s s' := by
  obtain ⟨subs, _, _, halive⟩ := mem_live hl
  cases hc : s.fns c with
  | none => simp [hc] at halive
  | some cell =>
    have hrun := wf.runnable c cell hc
    have htc := ht cell hc
    unfold invoke
    simp only [hc]
    cases ho : cell.obj with
    | mappedOptionalFn f D =>
      rw [ho] at hrun htc
      obtain ⟨hroot, hread⟩ := hrun
      have hcall : ∃ r, f.call s v = some r := by
        cases f with
        | pure g => exact ⟨_, rfl⟩
        | withCurrent r g =>
          have hr : (s.dyns r).isSome = true := hread
          cases hd : s.dyns r with
          | none => simp [hd] at hr
          | some dc => exact Option.isSome_iff_exists.mp (by simp [Callable.call, State.current, hd])
      obtain ⟨r, hr⟩ := hcall
      simp only [hr]
      cases r with
      | none => exact ⟨s, rfl, Frame.unchanged _ s⟩
      | some u =>
        have hlt := wf.ranked a c cell f D hl hc ho
        exact hA s D u (P.above a) wf hcl ⟨htc, hlt⟩ hroot (by omega)
    | updater d =>
      rw [ho] at hrun htc
      have hr : (s.dyns d).isSome = true := hrun
      cases hd : s.dyns d with
      | none => simp [hd] at hr
      | some dc =>
        have : ∃ s', s.setCurrent d v = some s' :=
          Option.isSome_iff_exists.mp (by simp [State.setCurrent, hd])
        obtain ⟨s', hs'⟩ := this
        exact ⟨s', hs', Frame.setCurrent _ s s' d v htc hs'⟩
    | vectorSinkFn k =>
      rw [ho] at hrun htc
      obtain ⟨kc, hk, up, sub, hsk⟩ := hrun
      have : ∃ s', s.pushItem k v = some s' := by
        cases hko : kc.obj with
        | voidSink _ _ => simp [hko, ISink.skeleton] at hsk
        | vectorSink _ _ _ => exact Option.isSome_iff_exists.mp (by simp [State.pushItem, hk, hko])
      obtain ⟨s', hs'⟩ := this
      exact ⟨s', hs', Frame.pushItem _ s s' k v htc hs'⟩
    | forEachFn g => exact ⟨_, rfl, Frame.world _ s _⟩

/-- Calling live subscribers of the stream at `a` one after another: the calls return, stay
inside the footprint, leave the stream itself alone, and the trace of the stream grows by one
call per subscriber. -/
theorem invokeAll_ok (n : Nat) (hA : FireOK V W n) (a : Nat) (v : V) (P : Footprint) (hPa : P.ev a) :
    ∀ (cs : List Nat) (s : State V W), WF s → Closed (P.above a) s →
      (∀ c ∈ cs, c ∈ s.live a ∧ Targets P s c) →
      s.next + maxSubsBelow s s.next + 1 ≤ n + a + 1 →
      ∃ s', invokeAll (invoke (Event.fire n)) a v cs s = some s' ∧ Frame P s s' ∧
        s'.events a = s.events a ∧
        traceAt a (newTrace s s') = cs.map (fun c => Obs.invoked a c v) := by
  intro cs
  induction cs with
  | nil =>
    intro s _ _ _ _
    exact ⟨s, rfl, Frame.unchanged P s, rfl, by simp [newTrace_self, traceAt]⟩
  | cons c cs ih =>
    intro s wf hcl hcs hfuel
    obtain ⟨hl, ht⟩ := hcs c (List.mem_cons_self _ _)
    have hsh1 : Shape s (s.log (.invoked a c v)) := Shape.shape_log s _
    obtain ⟨s2, hinv, hfr2⟩ := invoke_ok n hA (s.log (.invoked a c v)) a c v P (WF.of_shape hsh1 wf)
      (Closed.closed_of_shape hsh1 hcl) (by rw [hsh1.live]; exact hl) (Targets.of_fns rfl c ht)
      (by rw [hsh1.next, maxSubsBelow_congr hsh1]; exact hfuel)
    have hsh2 : Shape s s2 := hsh1.andThen hfr2.shape
    have he2 : s2.events a = s.events a := by
      rw [hfr2.events a (by simp [Footprint.above])]; rfl
    obtain ⟨s', h2, h3, h4, h5⟩ := ih s2 (WF.of_shape hsh2 wf) (Closed.closed_of_shape hsh2 hcl)
      (fun c' hc' => ⟨by rw [hsh2.live]; exact (hcs c' (List.mem_cons_of_mem _ hc')).1,
        Targets.of_fns hsh2.fns c' (hcs c' (List.mem_cons_of_mem _ hc')).2⟩)
      (by rw [hsh2.next, maxSubsBelow_congr hsh2]; exact hfuel)
    have hfr01 : Frame P s (s.log (.invoked a c v)) := Frame.logged P s _ hPa hl
    have hfr12 : Frame P (s.log (.invoked a c v)) s2 :=
      hfr2.weaken (fun _ h => h.1) (fun _ h => h) (fun _ h => h)
    refine ⟨s', ?_, (hfr01.followedBy hfr12).followedBy h3, by rw [h4, he2], ?_⟩
    · simp only [invokeAll, hinv]
      exact h2
    · rw [newTrace_trans (hfr01.followedBy hfr12).trace h3.trace,
        newTrace_trans hfr01.trace hfr12.trace, traceAt_append, traceAt_append, h5]
      have e1 : newTrace s (s.log (.invoked a c v)) = [.invoked a c v] := newTrace_of_eq rfl
      have e2 : traceAt a (newTrace (s.log (.invoked a c v)) s2) = [] :=
        traceAt_eq_nil _ _ fun o ho => Nat.ne_of_gt (hfr2.traceIn o ho).2
      rw [e1, e2]
      simp [traceAt, Obs.event]

theorem invokeAll_append (call : Nat → V → State V W → Option (State V W)) (a : Nat) (v : V)
    (cs1 cs2 : List Nat) (s : State V W) :
    invokeAll call a v (cs1 ++ cs2) s = (invokeAll call a v cs1 s).bind (invokeAll call a v cs2) := by
  induction cs1 generalizing s with
  | nil => rfl
  | cons c cs ih =>
    simp only [List.cons_append, invokeAll]
    cases call c v (s.log (.invoked a c v)) with
    | none => rfl
    | some s' => exact ih s'

/-- The loop of `BasicEvent::fire` calls the live subscribers in the order of the vector. -/
theorem fireLoop_eq (n : Nat) (hA : FireOK V W n) (a : Nat) (v : V) (subs : List WeakPtr) :
    ∀ (rest pre : List WeakPtr) (k : Nat) (dc : Bool) (s : State V W),
      subs = pre ++ rest → WF s → s.subscribers a = some subs →
      s.next + maxSubsBelow s s.next + 1 ≤ n + a + 1 → rest.length < k →
      ∃ s', BasicEvent.fireLoop (invoke (Event.fire n)) a v k pre.length dc s =
          some (s', dc || rest.any (WeakPtr.expired s)) ∧
        invokeAll (invoke (Event.fire n)) a v (liveOf s rest) s = some s' := by
  intro rest
  induction rest with
  | nil =>
    intro pre k dc s hsubs wf hs hfuel hk
    obtain ⟨k, rfl⟩ : ∃ k', k = k' + 1 := ⟨k - 1, by simp at hk; omega⟩
    refine ⟨s, ?_, rfl⟩
    rw [fireLoop_done _ a v k pre.length dc s subs hs (by simp [hsubs])]
    simp
  | cons w rest ih =>
    intro pre k dc s hsubs wf hs hfuel hk
    obtain ⟨k, rfl⟩ : ∃ k', k = k' + 1 := ⟨k - 1, by simp at hk; omega⟩
    have hget : subs[pre.length]? = some w := by
      rw [hsubs, List.getElem?_append_right (le_refl _)]
      simp
    have hsubs' : subs = (pre ++ [w]) ++ rest := by simp [hsubs]
    have hlen : (pre ++ [w]).length = pre.length + 1 := by simp
    have hk' : rest.length < k := by simp at hk; omega
    cases hexp : WeakPtr.expired s w with
    | true =>
      obtain ⟨s', h1, h2⟩ := ih (pre ++ [w]) k true s hsubs' wf hs hfuel hk'
      have hlo : liveOf s (w :: rest) = liveOf s rest := by
        simp [liveOf, List.filterMap_cons, lock_eq_none_of_expired s w hexp]
      refine ⟨s', ?_, by rw [hlo]; exact h2⟩
      rw [fireLoop_expired _ a v k pre.length dc s subs w hs hget hexp, ← hlen, h1]
      simp [hexp]
    | false =>
      obtain ⟨c, hw, hlock, halive⟩ := lock_of_not_expired s w hexp
      subst hw
      have hl : c ∈ s.live a := by
        simp only [State.live, hs]
        exact (mem_liveOf s subs c).mpr ⟨by rw [hsubs]; simp, halive⟩
      let P : Footprint := ⟨fun _ => True, fun _ => True, fun _ => True⟩
      have hcl : Closed (P.above a) s := Closed.above wf (fun _ _ _ _ cell _ => by
        cases cell.obj <;> trivial) a
      obtain ⟨s2, hinv, hfr, he2, _⟩ := invokeAll_ok n hA a v P trivial [c] s wf hcl
        (fun c' hc' => by
          rw [List.mem_singleton.mp hc']
          exact ⟨hl, fun cell _ => by cases cell.obj <;> trivial⟩) hfuel
      have hinv' : ∃ s1, invoke (Event.fire n) c v (s.log (.invoked a c v)) = some s1 ∧ s1 = s2 := by
        simp only [invokeAll] at hinv
        cases hi : invoke (Event.fire n) c v (s.log (.invoked a c v)) with
        | none => simp [hi] at hinv
        | some s1 =>
          simp only [hi, Option.some.injEq] at hinv
          exact ⟨s1, rfl, hinv⟩
      obtain ⟨s1, hinv1, rfl⟩ := hinv'
      have hsh2 : Shape s s1 := hfr.shape
      have hs2 : s1.subscribers a = some subs := by
        rw [← hs]; simp [State.subscribers, he2]
      obtain ⟨s', h1, h2⟩ := ih (pre ++ [some c]) k dc s1 hsubs' (WF.of_shape hsh2 wf) hs2
        (by rw [hsh2.next, maxSubsBelow_congr hsh2]; exact hfuel) hk'
      have hexp2 : WeakPtr.expired s1 = WeakPtr.expired s := funext (expired_congr hsh2.fns)
      have hlive2 : liveOf s1 rest = liveOf s rest := liveOf_congr hsh2.fns rest
      have hlo : liveOf s (some c :: rest) = c :: liveOf s rest := by
        simp [liveOf, List.filterMap_cons, hlock]
      refine ⟨s', ?_, ?_⟩
      · rw [fireLoop_live _ a v k pre.length dc s s1 subs (some c) c hs hget hexp hlock hinv1, ← hlen, h1,
          hexp2]
        simp [hexp]
      · rw [hlo]
        simp only [invokeAll, hinv1]
        rw [← hlive2]
        exact h2

/-- What `BasicEvent::fire` does on a root stream of a well-formed state, given that the nested
calls of `Event.fire` return: it calls the live subscribers in order and then cleans. -/
theorem basicFire_ok (n : Nat) (hA : FireOK V W n) (s : State V W) (a : Nat) (v : V) (P : Footprint)
    (wf : WF s) (hcl : Closed (P.above a) s) (hPa : P.ev a) (ht : ∀ c ∈ s.live a, Targets P s c)
    (hroot : (s.subscribers a).isSome = true)
    (hfuel : s.next + maxSubsBelow s s.next + 1 ≤ n + a + 1) :
    ∃ sl s', BasicEvent.fire (invoke (Event.fire n)) n a v s = some s' ∧
      invokeAll (invoke (Event.fire n)) a v (s.live a) (s.log (.fired a v)) = some sl ∧
      (s' = sl ∨ s' = sl.clean a) ∧
      Frame P s s' ∧
      traceAt a (newTrace s s') = .fired a v :: (s.live a).map (fun c => Obs.invoked a c v) := by
  obtain ⟨subs, hs⟩ := Option.isSome_iff_exists.mp hroot
  have hsh0 : Shape s (s.log (.fired a v)) := Shape.shape_log s _
  have hlt : a < s.next := wf.lt_of_subscribers a hroot
  have hlen := wf.length_le a subs hs
  have hfuel0 : (s.log (.fired a v)).next + maxSubsBelow (s.log (.fired a v)) (s.log (.fired a v)).next + 1
      ≤ n + a + 1 := by rw [hsh0.next, maxSubsBelow_congr hsh0]; exact hfuel
  obtain ⟨sl, h1, h2⟩ := fireLoop_eq n hA a v subs subs [] n false (s.log (.fired a v))
    rfl (WF.of_shape hsh0 wf) (by rw [← hs]; rfl) hfuel0 (by omega)
  have hlive : liveOf (s.log (.fired a v)) subs = s.live a := by
    simp only [State.live, hs]
    exact liveOf_congr rfl subs
  rw [hlive] at h2
  obtain ⟨sl', h2', h3, _, h5⟩ := invokeAll_ok n hA a v P hPa (s.live a) (s.log (.fired a v))
    (WF.of_shape hsh0 wf) (Closed.closed_of_shape hsh0 hcl)
    (fun c hc => ⟨by rw [hsh0.live]; exact hc, Targets.of_fns rfl c (ht c hc)⟩) hfuel0
  rw [h2] at h2'
  simp only [Option.some.injEq] at h2'
  subst h2'
  have hfr0 : Frame P s (s.log (.fired a v)) := Frame.logged P s _ hPa hroot
  have hfrl : Frame P s sl := hfr0.followedBy h3
  have htl : traceAt a (newTrace s sl) = .fired a v :: (s.live a).map (fun c => Obs.invoked a c v) := by
    rw [newTrace_trans hfr0.trace h3.trace, traceAt_append, h5]
    have e1 : newTrace s (s.log (.fired a v)) = [.fired a v] := newTrace_of_eq rfl
    rw [e1]
    simp [traceAt, Obs.event]
  rw [show ([] : List WeakPtr).length = 0 from rfl] at h1
  cases hdc : (false || subs.any (WeakPtr.expired (s.log (.fired a v)))) with
  | false =>
    refine ⟨sl, sl, ?_, h2, Or.inl rfl, hfrl, htl⟩
    simp only [BasicEvent.fire]
    rw [h1, hdc]
    rfl
  | true =>
    have hfrc : Frame P sl (sl.clean a) := Frame.clean P sl a hPa
    refine ⟨sl, sl.clean a, ?_, h2, Or.inr rfl, hfrl.followedBy hfrc, ?_⟩
    · simp only [BasicEvent.fire]
      rw [h1, hdc]
      rfl
    · rw [newTrace_trans hfrl.trace hfrc.trace, traceAt_append, htl]
      have : newTrace sl (sl.clean a) = [] := by
        rcases clean_cases sl a with hc | ⟨cell, hc⟩ <;> rw [hc] <;> simp [newTrace]
      rw [this]
      simp [traceAt]

theorem subscribers_cases {s : State V W} {a : Nat} (h : (s.subscribers a).isSome = true) :
    ∃ cell, s.events a = some cell ∧ ((∃ e, cell.obj = .basic e) ∨ (∃ e, cell.obj = .threadSafe e)) := by
  unfold State.subscribers at h
  cases hc : s.events a with
  | none => simp [hc] at h
  | some cell =>
    refine ⟨cell, rfl, ?_⟩
    cases ho : cell.obj with
    | basic e => exact Or.inl ⟨e, rfl⟩
    | threadSafe e => exact Or.inr ⟨e, rfl⟩
    | chained _ _ _ => simp [hc, ho, IEvent.basic?] at h
    | never => simp [hc, ho, IEvent.basic?] at h

theorem Event.fire_root (n : Nat) (s : State V W) (a : Nat) (v : V)
    (h : (s.subscribers a).isSome = true) :
    Event.fire (n + 1) a v s = BasicEvent.fire (invoke (Event.fire n)) n a v s := by
  obtain ⟨cell, hc, ho | ho⟩ := subscribers_cases h <;> obtain ⟨e, he⟩ := ho <;>
    simp [Event.fire, hc, he]

theorem fire_ok : ∀ n, FireOK V W n := by
  intro n
  induction n with
  | zero =>
    intro s a v P wf _ _ hroot hfuel
    have := wf.lt_of_subscribers a hroot
    omega
  | succ n ih =>
    intro s a v P wf hcl hPa hroot hfuel
    obtain ⟨sl, s', h1, _, _, h4, _⟩ := basicFire_ok n ih s a v P wf (hcl.above wf a) hPa
      (fun c hc => hcl a hPa c hc) hroot (by omega)
    exact ⟨s', by rw [Event.fire_root n s a v hroot]; exact h1, h4⟩

/-! ### More fuel does not change the result -/

theorem invoke_mono (f g : Nat → V → State V W → Option (State V W))
    (hfg : ∀ a v s s', f a v s = some s' → g a v s = some s') (c : Nat) (v : V) (s s' : State V W)
    (h : invoke f c v s = some s') : invoke g c v s = some s' := by
  unfold invoke at h ⊢
  cases hc : s.fns c with
  | none => simp [hc] at h
  | some cell =>
    simp only [hc] at h ⊢
    cases ho : cell.obj with
    | mappedOptionalFn fn D =>
      simp only [ho] at h ⊢
      cases hcall : fn.call s v with
      | none => simp [hcall] at h
      | some r =>
        cases r with
        | none => simpa [hcall] using h
        | some u =>
          simp only [hcall] at h ⊢
          exact hfg _ _ _ _ h
    | updater d => simpa [ho] using h
    | vectorSinkFn k => simpa [ho] using h
    | forEachFn fn => simpa [ho] using h

theorem fireLoop_mono (f g : Nat → V → State V W → Option (State V W))
    (hfg : ∀ a v s s', f a v s = some s' → g a v s = some s') (a : Nat) (t : V) :
    ∀ (k k' i : Nat) (dc : Bool) (s : State V W) (r : State V W × Bool), k ≤ k' →
      BasicEvent.fireLoop f a t k i dc s = some r → BasicEvent.fireLoop g a t k' i dc s = some r := by
  intro k
  induction k with
  | zero => intro k' i dc s r _ h; simp [BasicEvent.fireLoop] at h
  | succ k ih =>
    intro k' i dc s r hk h
    obtain ⟨k', rfl⟩ : ∃ j, k' = j + 1 := ⟨k' - 1, by omega⟩
    unfold BasicEvent.fireLoop at h ⊢
    cases hs : s.subscribers a with
    | none => simp [hs] at h
    | some subs =>
      simp only [hs] at h ⊢
      cases hg : subs[i]? with
      | none => simpa [hg] using h
      | some w =>
        simp only [hg] at h ⊢
        cases hexp : WeakPtr.expired s w with
        | true =>
          simp only [hexp, if_true] at h ⊢
          exact ih k' (i + 1) true s r (by omega) h
        | false =>
          simp only [hexp] at h ⊢
          cases hl : WeakPtr.lock s w with
          | none => simp [hl] at h
          | some c =>
            simp only [hl] at h ⊢
            cases hi : f c t (s.log (.invoked a c t)) with
            | none => simp [hi] at h
            | some s1 =>
              simp only [hi, Bool.false_eq_true, if_false] at h
              simp only [hfg _ _ _ _ hi, Bool.false_eq_true, if_false]
              exact ih k' (i + 1) dc s1 r (by omega) h

theorem Event.fire_mono : ∀ (n : Nat) (h : Nat) (v : V) (s s' : State V W),
    Event.fire n h v s = some s' → Event.fire (n + 1) h v s = some s' := by
  intro n
  induction n with
  | zero => intro h v s s' hf; simp [Event.fire] at hf
  | succ n ih =>
    intro h v s s' hf
    have hb : BasicEvent.fire (invoke (Event.fire n)) n h v s = some s' →
        BasicEvent.fire (invoke (Event.fire (n + 1))) (n + 1) h v s = some s' := by
      intro hb
      unfold BasicEvent.fire at hb ⊢
      cases hl : BasicEvent.fireLoop (invoke (Event.fire n)) h v n 0 false (s.log (.fired h v)) with
      | none => simp [hl] at hb
      | some r =>
        rw [fireLoop_mono _ _ (invoke_mono _ _ ih) h v n (n + 1) 0 false _ r (by omega) hl]
        simpa [hl] using hb
    rw [Event.fire] at hf
    rw [Event.fire]
    cases hc : s.events h with
    | none => simp [hc] at hf
    | some cell =>
      simp only [hc] at hf ⊢
      cases ho : cell.obj with
      | basic e => simp only [ho] at hf ⊢; exact hb hf
      | threadSafe e => simp only [ho] at hf ⊢; exact hb hf
      | chained u up D => simp only [ho] at hf ⊢; exact ih D v s s' hf
      | never => simpa [ho] using hf

theorem Event.fire_mono_le (n m : Nat) (hnm : n ≤ m) (h : Nat) (v : V) (s s' : State V W)
    (hf : Event.fire n h v s = some s') : Event.fire m h v s = some s' := by
  induction m with
  | zero =>
    have : n = 0 := by omega
    subst this; exact hf
  | succ m ih =>
    by_cases hn : n = m + 1
    · subst hn; exact hf
    · exact Event.fire_mono m h v s s' (ih (by omega))

/-! ### Graphs built by the combinators -/

theorem targets_iff (P : Footprint) (s : State V W) (c : Nat) :
    Targets P s c ↔ ∀ t, s.targetOf c = some t → P.has t := by
  unfold Targets State.targetOf
  constructor
  · intro h t ht
    cases hc : s.fns c with
    | none => simp [hc] at ht
    | some cell =>
      have := h cell hc
      simp only [hc] at ht
      cases ho : cell.obj <;> simp only [ho, Fn.target, Option.some.injEq] at this ht <;>
        first | (subst ht; exact this) | simp at ht
  · intro h cell hc
    have := h
    simp only [hc] at this
    cases ho : cell.obj <;> simp only [ho, Fn.target] at this ⊢
    · exact this _ rfl
    · exact this _ rfl
    · exact this _ rfl

theorem targetOf_congr {s s' : State V W} (hf : s'.fns = s.fns) (c : Nat) :
    s'.targetOf c = s.targetOf c := by
  simp [State.targetOf, hf]

theorem Linear.linear_of_shape {s s' : State V W} (h : Shape s s') (l : Linear s) : Linear s' where
  unique x x' c c' t h1 h2 h3 h4 := by
    rw [h.live] at h1 h2
    rw [targetOf_congr h.fns] at h3 h4
    exact l.unique x x' c c' t h1 h2 h3 h4
  once x c t h1 h2 := by
    rw [h.live] at h1 ⊢
    rw [targetOf_congr h.fns] at h2
    exact l.once x c t h1 h2

theorem Good.good_of_shape {s s' : State V W} (h : Shape s s') (g : Good s) : Good s' :=
  ⟨WF.of_shape h g.wf, Linear.linear_of_shape h g.lin⟩

theorem Runnable.persists {s s' : State V W} (f : Fn V W)
    (h1 : ∀ a, (s.subscribers a).isSome = true → (s'.subscribers a).isSome = true)
    (h2 : ∀ d, (s.dyns d).isSome = true → (s'.dyns d).isSome = true)
    (h3 : ∀ k cell, s.sinks k = some cell →
      ∃ cell', s'.sinks k = some cell' ∧ cell'.obj.skeleton = cell.obj.skeleton)
    (hr : Runnable s f) : Runnable s' f := by
  cases f with
  | mappedOptionalFn g D =>
    obtain ⟨hD, hg⟩ := hr
    refine ⟨h1 D hD, ?_⟩
    cases g with
    | pure _ => trivial
    | withCurrent r _ => exact h2 r hg
  | updater d => exact h2 d hr
  | vectorSinkFn k =>
    obtain ⟨cell, hc, up, sub, hsk⟩ := hr
    obtain ⟨cell', hc', hsk'⟩ := h3 k cell hc
    exact ⟨cell', hc', up, sub, by rw [hsk']; exact hsk⟩
  | forEachFn _ => trivial

/-- Transfer of the invariants to a state with the same live subscribers. -/
theorem Good.transfer {s s' : State V W} (g : Good s)
    (hlive : ∀ a, s'.live a = s.live a)
    (hfn : ∀ a c, c ∈ s.live a → s'.fns c = s.fns c)
    (he : ∀ a, s'.next ≤ a → s'.events a = none)
    (hf : ∀ a, s'.next ≤ a → s'.fns a = none)
    (hk : ∀ a, s'.next ≤ a → s'.sinks a = none)
    (hd : ∀ a, s'.next ≤ a → s'.dyns a = none)
    (hsubs : ∀ a subs c, s'.subscribers a = some subs → some c ∈ subs → c < s'.next)
    (hrun : ∀ c cell, s'.fns c = some cell → Runnable s' cell.obj)
    (hch : ∀ a cell u up D, s'.events a = some cell → cell.obj = .chained u up D →
      (s'.subscribers D).isSome = true) : Good s' where
  wf :=
    { events_fresh := he
      fns_fresh := hf
      sinks_fresh := hk
      dyns_fresh := hd
      subs_lt := hsubs
      runnable := hrun
      ranked := fun a c cell f D hl hc ho => by
        rw [hlive] at hl
        rw [hfn a c hl] at hc
        exact g.wf.ranked a c cell f D hl hc ho
      chained := hch }
  lin :=
    { unique := fun x x' c c' t h1 h2 h3 h4 => by
        rw [hlive] at h1 h2
        have e1 : s'.targetOf c = s.targetOf c := by simp [State.targetOf, hfn x c h1]
        have e2 : s'.targetOf c' = s.targetOf c' := by simp [State.targetOf, hfn x' c' h2]
        rw [e1] at h3
        rw [e2] at h4
        exact g.lin.unique x x' c c' t h1 h2 h3 h4
      once := fun x c t h1 h2 => by
        rw [hlive] at h1 ⊢
        have e1 : s'.targetOf c = s.targetOf c := by simp [State.targetOf, hfn x c h1]
        rw [e1] at h2
        exact g.lin.once x c t h1 h2 }

/-! ### The steps of the combinators -/

theorem liveOf_congr_on {s s' : State V W} (subs : List WeakPtr)
    (h : ∀ c, some c ∈ subs → s'.fns c = s.fns c) : liveOf s' subs = liveOf s subs := by
  unfold liveOf
  apply List.filterMap_congr
  intro w hw
  cases w with
  | none => rfl
  | some c => simp [WeakPtr.lock, h c hw]

theorem live_eq_of {s s' : State V W} (a : Nat) (he : s'.subscribers a = s.subscribers a)
    (hf : ∀ subs c, s.subscribers a = some subs → some c ∈ subs → s'.fns c = s.fns c) :
    s'.live a = s.live a := by
  simp only [State.live, he]
  cases hs : s.subscribers a with
  | none => rfl
  | some subs => exact liveOf_congr_on subs fun c hc => hf subs c hs hc

theorem WF.subscribers_fresh {s : State V W} (wf : WF s) (a : Nat) (h : s.next ≤ a) :
    s.subscribers a = none := by
  simp [State.subscribers, wf.events_fresh a h]

theorem Good.allocFn {s : State V W} (g : Good s) (k : Nat) (f : Fn V W) (hr : Runnable s f) :
    Good (s.allocFn k f).2 ∧ ∀ a, (s.allocFn k f).2.live a = s.live a := by
  have hlive : ∀ a, (s.allocFn k f).2.live a = s.live a := fun a =>
    live_eq_of a rfl fun subs c hs hc => by
      have := g.wf.subs_lt a subs c hs hc
      simp [State.allocFn, Function.update_noteq (Nat.ne_of_lt this)]
  refine ⟨g.transfer hlive ?_ ?_ ?_ ?_ ?_ ?_ ?_ ?_, hlive⟩
  · intro a c hl
    obtain ⟨subs, hs, hc, _⟩ := mem_live hl
    have := g.wf.subs_lt a subs c hs hc
    simp [State.allocFn, Function.update_noteq (Nat.ne_of_lt this)]
  · intro a ha
    exact g.wf.events_fresh a (by simp [State.allocFn] at ha; omega)
  · intro a ha
    simp only [State.allocFn] at ha ⊢
    rw [Function.update_noteq (by omega)]
    exact g.wf.fns_fresh a (by omega)
  · intro a ha
    exact g.wf.sinks_fresh a (by simp [State.allocFn] at ha; omega)
  · intro a ha
    exact g.wf.dyns_fresh a (by simp [State.allocFn] at ha; omega)
  · intro a subs c hs hc
    have := g.wf.subs_lt a subs c hs hc
    simp only [State.allocFn]
    omega
  · intro c cell hc
    have hmono : ∀ f', Runnable s f' → Runnable (s.allocFn k f).2 f' := fun f' =>
      Runnable.persists f' (fun _ h => h) (fun _ h => h) (fun _ cell h => ⟨cell, h, rfl⟩)
    by_cases hcn : c = s.next
    · subst hcn
      simp only [State.allocFn, Function.update_same, Option.some.injEq] at hc
      subst hc
      exact hmono _ hr
    · simp only [State.allocFn, Function.update_noteq hcn] at hc
      exact hmono _ (g.wf.runnable c cell hc)
  · intro a cell u up D hc ho
    exact g.wf.chained a cell u up D hc ho

theorem Good.allocSink {s : State V W} (g : Good s) (k : Nat) (obj : ISink V) :
    Good (s.allocSink k obj).2 ∧ ∀ a, (s.allocSink k obj).2.live a = s.live a := by
  have hlive : ∀ a, (s.allocSink k obj).2.live a = s.live a := fun a => live_eq_of a rfl fun _ _ _ _ => rfl
  refine ⟨g.transfer hlive (fun _ _ _ => rfl) ?_ ?_ ?_ ?_ ?_ ?_ ?_, hlive⟩
  · intro a ha
    exact g.wf.events_fresh a (by simp [State.allocSink] at ha; omega)
  · intro a ha
    exact g.wf.fns_fresh a (by simp [State.allocSink] at ha; omega)
  · intro a ha
    simp only [State.allocSink] at ha ⊢
    rw [Function.update_noteq (by omega)]
    exact g.wf.sinks_fresh a (by omega)
  · intro a ha
    exact g.wf.dyns_fresh a (by simp [State.allocSink] at ha; omega)
  · intro a subs c hs hc
    have := g.wf.subs_lt a subs c hs hc
    simp only [State.allocSink]
    omega
  · intro c cell hc
    have hmono : ∀ f', Runnable s f' → Runnable (s.allocSink k obj).2 f' := fun f' =>
      Runnable.persists f' (fun _ h => h) (fun _ h => h) (by
        intro x cellx hx
        have : x ≠ s.next := fun h => by
          rw [h, g.wf.sinks_fresh s.next (le_refl _)] at hx
          simp at hx
        exact ⟨cellx, by simp [State.allocSink, Function.update_noteq this, hx], rfl⟩)
    exact hmono _ (g.wf.runnable c cell hc)
  · intro a cell u up D hc ho
    exact g.wf.chained a cell u up D hc ho

theorem Good.allocDyn {s : State V W} (g : Good s) (k : Nat) (obj : BasicDynamic V) :
    Good (s.allocDyn k obj).2 ∧ ∀ a, (s.allocDyn k obj).2.live a = s.live a := by
  have hlive : ∀ a, (s.allocDyn k obj).2.live a = s.live a := fun a => live_eq_of a rfl fun _ _ _ _ => rfl
  refine ⟨g.transfer hlive (fun _ _ _ => rfl) ?_ ?_ ?_ ?_ ?_ ?_ ?_, hlive⟩
  · intro a ha
    exact g.wf.events_fresh a (by simp [State.allocDyn] at ha; omega)
  · intro a ha
    exact g.wf.fns_fresh a (by simp [State.allocDyn] at ha; omega)
  · intro a ha
    exact g.wf.sinks_fresh a (by simp [State.allocDyn] at ha; omega)
  · intro a ha
    simp only [State.allocDyn] at ha ⊢
    rw [Function.update_noteq (by omega)]
    exact g.wf.dyns_fresh a (by omega)
  · intro a subs c hs hc
    have := g.wf.subs_lt a subs c hs hc
    simp only [State.allocDyn]
    omega
  · intro c cell hc
    have hmono : ∀ f', Runnable s f' → Runnable (s.allocDyn k obj).2 f' := fun f' =>
      Runnable.persists f' (fun _ h => h) (by
        intro x hx
        have : x ≠ s.next := fun h => by
          rw [h, g.wf.dyns_fresh s.next (le_refl _)] at hx
          simp at hx
        simpa [State.allocDyn, Function.update_noteq this] using hx) (fun _ cell h => ⟨cell, h, rfl⟩)
    exact hmono _ (g.wf.runnable c cell hc)
  · intro a cell u up D hc ho
    exact g.wf.chained a cell u up D hc ho

theorem allocEvent_subscribers_ne (s : State V W) (k : Nat) (obj : IEvent) (a : Nat) (h : a ≠ s.next) :
    (s.allocEvent k obj).2.subscribers a = s.subscribers a := by
  simp [State.subscribers, State.allocEvent, Function.update_noteq h]

theorem Good.allocEvent {s : State V W} (g : Good s) (k : Nat) (obj : IEvent)
    (hobj : obj = .threadSafe ⟨⟨⟨[]⟩⟩⟩ ∨ obj = .never ∨
      ∃ u up D, obj = .chained u up D ∧ (s.subscribers D).isSome = true) :
    Good (s.allocEvent k obj).2 ∧ ∀ a, (s.allocEvent k obj).2.live a = s.live a := by
  have hnew : (s.allocEvent k obj).2.live s.next = [] := by
    have : (s.allocEvent k obj).2.subscribers s.next = obj.basic?.map (·.subscribers) := by
      simp [State.subscribers, State.allocEvent]
    simp only [State.live, this]
    rcases hobj with h | h | ⟨u, up, D, h, _⟩ <;> subst h <;>
      simp [IEvent.basic?, ThreadSafe.getCopy, liveOf]
  have hlive : ∀ a, (s.allocEvent k obj).2.live a = s.live a := by
    intro a
    by_cases ha : a = s.next
    · subst ha
      rw [hnew]
      simp [State.live, g.wf.subscribers_fresh s.next (le_refl _)]
    · exact live_eq_of a (allocEvent_subscribers_ne s k obj a ha) fun _ _ _ _ => rfl
  have hroot : ∀ a, (s.subscribers a).isSome = true → ((s.allocEvent k obj).2.subscribers a).isSome = true := by
    intro a ha
    have : a ≠ s.next := fun h => by
      rw [h, g.wf.subscribers_fresh s.next (le_refl _)] at ha
      simp at ha
    rw [allocEvent_subscribers_ne s k obj a this]
    exact ha
  refine ⟨g.transfer hlive (fun _ _ _ => rfl) ?_ ?_ ?_ ?_ ?_ ?_ ?_, hlive⟩
  · intro a ha
    simp only [State.allocEvent] at ha ⊢
    rw [Function.update_noteq (by omega)]
    exact g.wf.events_fresh a (by omega)
  · intro a ha
    exact g.wf.fns_fresh a (by simp [State.allocEvent] at ha; omega)
  · intro a ha
    exact g.wf.sinks_fresh a (by simp [State.allocEvent] at ha; omega)
  · intro a ha
    exact g.wf.dyns_fresh a (by simp [State.allocEvent] at ha; omega)
  · intro a subs c hs hc
    by_cases ha : a = s.next
    · subst ha
      have : (s.allocEvent k obj).2.subscribers s.next = obj.basic?.map (·.subscribers) := by
        simp [State.subscribers, State.allocEvent]
      rw [this] at hs
      rcases hobj with h | h | ⟨u, up, D, h, _⟩ <;> subst h <;>
        simp [IEvent.basic?, ThreadSafe.getCopy] at hs
      subst hs
      simp at hc
    · rw [allocEvent_subscribers_ne s k obj a ha] at hs
      have := g.wf.subs_lt a subs c hs hc
      simp only [State.allocEvent]
      omega
  · intro c cell hc
    have hmono : ∀ f', Runnable s f' → Runnable (s.allocEvent k obj).2 f' := fun f' =>
      Runnable.persists f' hroot (fun _ h => h) (fun _ cell h => ⟨cell, h, rfl⟩)
    exact hmono _ (g.wf.runnable c cell hc)
  · intro a cell u up D hc ho
    by_cases ha : a = s.next
    · subst ha
      simp only [State.allocEvent, Function.update_same, Option.some.injEq] at hc
      subst hc
      simp only at ho
      rcases hobj with h | h | ⟨u', up', D', h, hD⟩
      · rw [h] at ho; cases ho
      · rw [h] at ho; cases ho
      · rw [h] at ho
        cases ho
        exact hroot _ hD
    · simp only [State.allocEvent, Function.update_noteq ha] at hc
      exact hroot _ (g.wf.chained a cell u up D hc ho)

theorem retainEvent_shape {s s' : State V W} {a : Nat} (h : s.retainEvent a = some s') :
    Shape s s' ∧ s'.fns = s.fns ∧ s'.dyns = s.dyns ∧ s'.sinks = s.sinks ∧ s'.next = s.next ∧
      s'.trace = s.trace ∧ s'.world = s.world ∧ (∀ x, s'.subscribers x = s.subscribers x) ∧
      (∀ x, s'.rootOf x = s.rootOf x) := by
  unfold State.retainEvent at h
  cases hc : s.events a with
  | none => simp [hc] at h
  | some cell =>
    simp only [hc, Option.some.injEq] at h
    subst h
    have hsub : ∀ x, State.subscribers
        { s with events := Function.update s.events a (some { cell with strong := cell.strong + 1 }) } x =
        s.subscribers x := by
      intro x
      by_cases hx : x = a
      · subst hx; simp [State.subscribers, hc]
      · simp [State.subscribers, Function.update_noteq hx]
    refine ⟨⟨rfl, rfl, ?_, ?_, fun x => by rw [hsub], ?_, fun _ => rfl, fun _ => rfl⟩, rfl, rfl, rfl, rfl, rfl,
      rfl, hsub, ?_⟩
    · intro x
      by_cases hx : x = a
      · subst hx; simp [hc]
      · simp [Function.update_noteq hx]
    · intro x
      exact live_eq_of x (hsub x) fun _ _ _ _ => rfl
    · intro x subs c h1 h2
      rw [hsub] at h1
      exact ⟨subs, h1, h2⟩
    · intro x
      by_cases hx : x = a
      · subst hx; simp [State.rootOf, hc]
      · simp [State.rootOf, Function.update_noteq hx]

theorem retainEvent_events_ne {s s' : State V W} {a x : Nat} (h : s.retainEvent a = some s') (hx : x ≠ a) :
    s'.events x = s.events x := by
  unfold State.retainEvent at h
  cases hc : s.events a with
  | none => simp [hc] at h
  | some cell =>
    simp only [hc, Option.some.injEq] at h
    subst h
    simp [Function.update_noteq hx]

theorem retainEvent_isSome {s : State V W} {a : Nat} (h : (s.events a).isSome = true) :
    ∃ s', s.retainEvent a = some s' := by
  cases hc : s.events a with
  | none => simp [hc] at h
  | some cell => exact Option.isSome_iff_exists.mp (by simp [State.retainEvent, hc])

theorem rootOf_alive {s : State V W} {h a : Nat} (hr : s.rootOf h = some a) :
    (s.events h).isSome = true := by
  unfold State.rootOf at hr
  cases hc : s.events h with
  | none => simp [hc] at hr
  | some _ => rfl

theorem WF.rootOf_root {s : State V W} (wf : WF s) {h a : Nat} (hr : s.rootOf h = some a) :
    (s.subscribers a).isSome = true := by
  unfold State.rootOf at hr
  cases hc : s.events h with
  | none => simp [hc] at hr
  | some cell =>
    simp only [hc] at hr
    cases ho : cell.obj with
    | basic e =>
      simp only [ho, Option.some.injEq] at hr
      subst hr
      simp [State.subscribers, hc, ho, IEvent.basic?]
    | threadSafe e =>
      simp only [ho, Option.some.injEq] at hr
      subst hr
      simp [State.subscribers, hc, ho, IEvent.basic?]
    | chained u up D =>
      simp only [ho, Option.some.injEq] at hr
      subst hr
      exact wf.chained h cell u up D hc ho
    | never => simp [ho] at hr

theorem rootOf_of_root {s : State V W} {a : Nat} (h : (s.subscribers a).isSome = true) :
    s.rootOf a = some a := by
  obtain ⟨cell, hc, ho | ho⟩ := subscribers_cases h <;> obtain ⟨e, he⟩ := ho <;>
    simp [State.rootOf, hc, he]

theorem appendSub_subscribers_self (s : State V W) (a : Nat) (w : WeakPtr) (subs : List WeakPtr)
    (h : s.subscribers a = some subs) : (s.appendSub a w).subscribers a = some (subs ++ [w]) := by
  unfold State.subscribers at h
  cases hc : s.events a with
  | none => simp [hc] at h
  | some cell =>
    simp only [hc, Option.map_eq_some'] at h
    obtain ⟨e, he, rfl⟩ := h
    cases ho : cell.obj with
    | basic b =>
      simp only [ho, IEvent.basic?, Option.some.injEq] at he
      subst he
      simp [State.appendSub, State.subscribers, hc, ho, IEvent.subscribe, IEvent.basic?,
        BasicEvent.subscribe]
    | threadSafe b =>
      simp only [ho, IEvent.basic?, Option.some.injEq] at he
      subst he
      simp [State.appendSub, State.subscribers, hc, ho, IEvent.subscribe, IEvent.basic?,
        BasicEvent.subscribe, ThreadSafeEvent.subscribe, ThreadSafe.withMutableVoid, ThreadSafe.getCopy]
    | chained _ _ _ => simp [ho, IEvent.basic?] at he
    | never => simp [ho, IEvent.basic?] at he

theorem appendSub_events_ne (s : State V W) (a x : Nat) (w : WeakPtr) (h : x ≠ a) :
    (s.appendSub a w).events x = s.events x := by
  unfold State.appendSub
  cases s.events a with
  | none => rfl
  | some cell => simp [Function.update_noteq h]

theorem appendSub_subscribers_ne (s : State V W) (a x : Nat) (w : WeakPtr) (h : x ≠ a) :
    (s.appendSub a w).subscribers x = s.subscribers x := by
  simp [State.subscribers, appendSub_events_ne s a x w h]

theorem appendSub_rest (s : State V W) (a : Nat) (w : WeakPtr) :
    (s.appendSub a w).fns = s.fns ∧ (s.appendSub a w).dyns = s.dyns ∧ (s.appendSub a w).sinks = s.sinks ∧
      (s.appendSub a w).next = s.next ∧ (s.appendSub a w).trace = s.trace ∧
      (s.appendSub a w).world = s.world := by
  unfold State.appendSub
  cases s.events a <;> exact ⟨rfl, rfl, rfl, rfl, rfl, rfl⟩

theorem IEvent.setSubscribers_subscribe (obj : IEvent) (w : WeakPtr) (xs : List WeakPtr) :
    (obj.subscribe w).setSubscribers xs = obj.setSubscribers xs := by
  cases obj <;> simp [IEvent.subscribe, IEvent.setSubscribers, ThreadSafe.withMutableVoid]

theorem appendSub_skeleton (s : State V W) (a x : Nat) (w : WeakPtr) :
    ((s.appendSub a w).events x).map (fun c => c.obj.setSubscribers []) =
      (s.events x).map (fun c => c.obj.setSubscribers []) := by
  by_cases hx : x = a
  · subst hx
    unfold State.appendSub
    cases hc : s.events x with
    | none => simp [hc]
    | some cell => simp [hc, IEvent.setSubscribers_subscribe]
  · rw [appendSub_events_ne s a x w hx]

theorem appendSub_strong (s : State V W) (a x : Nat) (w : WeakPtr) :
    ((s.appendSub a w).events x).map (fun c => c.strong) = (s.events x).map (fun c => c.strong) := by
  by_cases hx : x = a
  · subst hx
    unfold State.appendSub
    cases hc : s.events x with
    | none => simp [hc]
    | some cell => simp [hc]
  · rw [appendSub_events_ne s a x w hx]

theorem appendSub_rootOf (s : State V W) (a x : Nat) (w : WeakPtr) :
    (s.appendSub a w).rootOf x = s.rootOf x := by
  by_cases hx : x = a
  · subst hx
    unfold State.appendSub
    cases hc : s.events x with
    | none => simp [hc]
    | some cell =>
      cases ho : cell.obj <;> simp [State.rootOf, hc, ho, IEvent.subscribe]
  · simp [State.rootOf, appendSub_events_ne s a x w hx]

theorem subscribeAux_root (s : State V W) (k a : Nat) (w : WeakPtr)
    (h : (s.subscribers a).isSome = true) :
    Event.subscribeAux (k + 1) a w s = some (s.appendSub a w) := by
  obtain ⟨cell, hc, ho | ho⟩ := subscribers_cases h <;> obtain ⟨e, he⟩ := ho <;>
    simp [Event.subscribeAux, State.appendSub, hc, he, IEvent.subscribe]

theorem subscribe_rootOf {s : State V W} (wf : WF s) {h a : Nat} (w : WeakPtr)
    (hr : s.rootOf h = some a) : Event.subscribe h w s = some (s.appendSub a w) := by
  have hroot := wf.rootOf_root hr
  have hlt := wf.lt_of_subscribers a hroot
  unfold Event.subscribe
  unfold State.rootOf at hr
  cases hc : s.events h with
  | none => simp [hc] at hr
  | some cell =>
    simp only [hc] at hr
    cases ho : cell.obj with
    | basic e =>
      simp only [ho, Option.some.injEq] at hr
      subst hr
      exact subscribeAux_root s _ _ w hroot
    | threadSafe e =>
      simp only [ho, Option.some.injEq] at hr
      subst hr
      exact subscribeAux_root s _ _ w hroot
    | chained u up D =>
      simp only [ho, Option.some.injEq] at hr
      subst hr
      obtain ⟨k, hk⟩ : ∃ k, s.next = k + 1 := ⟨s.next - 1, by omega⟩
      rw [hk]
      simp only [Event.subscribeAux, hc, ho]
      exact subscribeAux_root s _ _ w hroot
    | never => simp [ho] at hr

/-- Subscribing a live callback that is not subscribed yet keeps the invariants; the callback
becomes the last live subscriber. -/
theorem Good.appendSub {s : State V W} (g : Good s) (a c : Nat) (hroot : (s.subscribers a).isSome = true)
    (hlt : c < s.next) (halive : (s.fns c).isSome = true)
    (hrank : ∀ cell f D, s.fns c = some cell → cell.obj = .mappedOptionalFn f D → a < D)
    (hnew : ∀ t, s.targetOf c = some t → ∀ x c', c' ∈ s.live x → s.targetOf c' ≠ some t) :
    Good (s.appendSub a (some c)) ∧ (s.appendSub a (some c)).live a = s.live a ++ [c] ∧
      ∀ x, x ≠ a → (s.appendSub a (some c)).live x = s.live x := by
  obtain ⟨subs, hs⟩ := Option.isSome_iff_exists.mp hroot
  obtain ⟨hfns, hdyns, hsinks, hnext, _, _⟩ := appendSub_rest s a (some c)
  have hs' := appendSub_subscribers_self s a (some c) subs hs
  have hla : (s.appendSub a (some c)).live a = s.live a ++ [c] := by
    simp only [State.live, hs', hs]
    rw [liveOf_congr hfns]
    simp [liveOf, List.filterMap_append, WeakPtr.lock, halive]
  have hlx : ∀ x, x ≠ a → (s.appendSub a (some c)).live x = s.live x := fun x hx =>
    live_eq_of x (appendSub_subscribers_ne s a x (some c) hx) fun _ _ _ _ => by rw [hfns]
  have hmem : ∀ x c', c' ∈ (s.appendSub a (some c)).live x → c' ∈ s.live x ∨ (x = a ∧ c' = c) := by
    intro x c' h
    by_cases hx : x = a
    · subst hx
      rw [hla] at h
      rcases List.mem_append.mp h with h | h
      · exact Or.inl h
      · exact Or.inr ⟨rfl, List.mem_singleton.mp h⟩
    · rw [hlx x hx] at h
      exact Or.inl h
  have htgt : ∀ c', (s.appendSub a (some c)).targetOf c' = s.targetOf c' := targetOf_congr hfns
  have hsubiso : ∀ x, ((s.appendSub a (some c)).subscribers x).isSome = (s.subscribers x).isSome := by
    intro x
    by_cases hx : x = a
    · subst hx; simp [hs', hs]
    · rw [appendSub_subscribers_ne s a x (some c) hx]
  refine ⟨⟨?_, ?_⟩, hla, hlx⟩
  · refine ⟨?_, ?_, ?_, ?_, ?_, ?_, ?_, ?_⟩
    · intro x hx
      rw [hnext] at hx
      have := congrArg Option.isSome (appendSub_skeleton s a x (some c))
      simp only [Option.isSome_map'] at this
      rw [g.wf.events_fresh x hx] at this
      simpa using this
    · intro x hx; rw [hfns]; exact g.wf.fns_fresh x (by rw [← hnext]; exact hx)
    · intro x hx; rw [hsinks]; exact g.wf.sinks_fresh x (by rw [← hnext]; exact hx)
    · intro x hx; rw [hdyns]; exact g.wf.dyns_fresh x (by rw [← hnext]; exact hx)
    · intro x subs' c' h1 h2
      rw [hnext]
      by_cases hx : x = a
      · subst hx
        rw [hs'] at h1
        simp only [Option.some.injEq] at h1
        subst h1
        rcases List.mem_append.mp h2 with h | h
        · exact g.wf.subs_lt x subs c' hs h
        · simp only [List.mem_singleton, Option.some.injEq] at h
          rw [h]; exact hlt
      · rw [appendSub_subscribers_ne s a x (some c) hx] at h1
        exact g.wf.subs_lt x subs' c' h1 h2
    · intro c' cell hc
      rw [hfns] at hc
      have hmono : ∀ f', Runnable s f' → Runnable (s.appendSub a (some c)) f' := fun f' =>
        Runnable.persists f' (fun x h => by rw [hsubiso]; exact h) (fun x h => by rw [hdyns]; exact h)
          (fun x cell h => ⟨cell, by rw [hsinks]; exact h, rfl⟩)
      exact hmono _ (g.wf.runnable c' cell hc)
    · intro x c' cell f D hl hc ho
      rw [hfns] at hc
      rcases hmem x c' hl with h | ⟨rfl, rfl⟩
      · exact g.wf.ranked x c' cell f D h hc ho
      · exact hrank cell f D hc ho
    · intro x cell u up D hc ho
      rw [hsubiso]
      have hsk := appendSub_skeleton s a x (some c)
      rw [hc] at hsk
      cases hc0 : s.events x with
      | none => simp [hc0] at hsk
      | some cell0 =>
        simp only [hc0, Option.map_some', Option.some.injEq, ho, IEvent.setSubscribers] at hsk
        exact g.wf.chained x cell0 u up D hc0 (IEvent.chained_of_setSubscribers cell0.obj [] u up D hsk.symm)
  · refine ⟨?_, ?_⟩
    · intro x x' c1 c2 t h1 h2 h3 h4
      rw [htgt] at h3 h4
      rcases hmem x c1 h1 with h1' | ⟨rfl, rfl⟩ <;> rcases hmem x' c2 h2 with h2' | ⟨rfl, rfl⟩
      · exact g.lin.unique x x' c1 c2 t h1' h2' h3 h4
      · exact absurd h3 (hnew t h4 x c1 h1')
      · exact absurd h4 (hnew t h3 x' c2 h2')
      · exact ⟨rfl, rfl⟩
    · intro x c1 t h1 h3
      rw [htgt] at h3
      by_cases hx : x = a
      · subst hx
        rw [hla, List.count_append]
        by_cases hc1 : c1 = c
        · subst hc1
          have hnot : c1 ∉ s.live x := fun h => hnew t h3 x c1 h h3
          simp [List.count_eq_zero_of_not_mem hnot]
        · have hin : c1 ∈ s.live x := by
            rcases hmem x c1 h1 with h | ⟨_, h⟩
            · exact h
            · exact absurd h hc1
          rw [g.lin.once x c1 t hin h3]
          simp [List.count_cons, hc1]
      · rw [hlx x hx] at h1 ⊢
        exact g.lin.once x c1 t h1 h3

/-! ### `mappedOptional` -/

theorem Callable.readable_wrap {β γ : Type} (s : State V W) (g : V → β → γ) (f : Callable V β)
    (h : f.readable s) : (f.wrap g).readable s := by
  cases f <;> exact h

theorem rootOf_lt {s : State V W} (wf : WF s) {h a : Nat} (hr : s.rootOf h = some a) : h < s.next := by
  by_contra hlt
  have := rootOf_alive hr
  rw [wf.events_fresh h (by omega)] at this
  simp at this

theorem allocEvent_rootOf_ne (s : State V W) (k : Nat) (obj : IEvent) (x : Nat) (h : x ≠ s.next) :
    (s.allocEvent k obj).2.rootOf x = s.rootOf x := by
  simp [State.rootOf, State.allocEvent, Function.update_noteq h]

/-- What `mappedOptional` builds on a stream that forwards to the root stream `a`: the
downstream stream at `s.next`, the callback at `s.next + 1` as the new last live subscriber of
`a`, and the chained stream at `s.next + 2`. -/
theorem mappedOptional_spec {s : State V W} (g : Good s) (inp a : Nat) (f : Callable V (Option V))
    (hr : s.rootOf inp = some a) (hf : f.readable s) :
    ∃ s', mappedOptional inp f s = some (s.next + 2, s') ∧ Good s' ∧ s'.next = s.next + 3 ∧
      s'.fns = Function.update s.fns (s.next + 1) (some ⟨1, .mappedOptionalFn f s.next⟩) ∧
      s'.dyns = s.dyns ∧ s'.sinks = s.sinks ∧ s'.trace = s.trace ∧ s'.world = s.world ∧
      s'.live a = s.live a ++ [s.next + 1] ∧ (∀ x, x ≠ a → s'.live x = s.live x) ∧
      s'.subscribers s.next = some [] ∧
      s'.events (s.next + 2) = some ⟨1, .chained (s.next + 1) inp s.next⟩ ∧
      s'.events s.next = some ⟨2, .threadSafe ⟨⟨⟨[]⟩⟩⟩⟩ ∧
      (∀ x, x < s.next → s'.rootOf x = s.rootOf x) ∧
      (∀ x, x < s.next → (s'.subscribers x).isSome = (s.subscribers x).isSome) ∧
      (∀ x, x ≠ s.next → x ≠ s.next + 2 → x ≠ inp → x ≠ a → s'.events x = s.events x) ∧
      (∀ x, x < s.next → (s'.events x).map (fun c => c.strong) =
        (s.events x).map (fun c => if x = inp then c.strong + 1 else c.strong)) ∧
      (∀ x, x < s.next → (s'.events x).map (fun c => c.obj.setSubscribers []) =
        (s.events x).map (fun c => c.obj.setSubscribers [])) := by
  have hinp : inp < s.next := rootOf_lt g.wf hr
  have hroot : (s.subscribers a).isSome = true := g.wf.rootOf_root hr
  have ha : a < s.next := g.wf.lt_of_subscribers a hroot
  -- the downstream stream
  obtain ⟨g1, hl1⟩ := g.allocEvent 2 (.threadSafe ⟨⟨⟨[]⟩⟩⟩) (Or.inl rfl)
  generalize hs1 : (s.allocEvent 2 (.threadSafe ⟨⟨⟨[]⟩⟩⟩)).2 = s1 at g1 hl1
  have e1 : s1.events = Function.update s.events s.next (some ⟨2, .threadSafe ⟨⟨⟨[]⟩⟩⟩⟩) ∧ s1.fns = s.fns ∧
      s1.dyns = s.dyns ∧ s1.sinks = s.sinks ∧ s1.next = s.next + 1 ∧ s1.trace = s.trace ∧
      s1.world = s.world := by
    subst hs1; exact ⟨rfl, rfl, rfl, rfl, rfl, rfl, rfl⟩
  obtain ⟨e1e, e1f, e1d, e1k, e1n, e1t, e1w⟩ := e1
  have hD1 : s1.subscribers s.next = some [] := by
    simp [State.subscribers, e1e, IEvent.basic?, ThreadSafe.getCopy]
  -- the callback
  have hrun : Runnable s1 (.mappedOptionalFn f s.next) := by
    refine ⟨by simp [hD1], ?_⟩
    cases f with
    | pure _ => trivial
    | withCurrent r _ =>
      show (s1.dyns r).isSome = true
      rw [e1d]; exact hf
  obtain ⟨g2, hl2⟩ := g1.allocFn 1 (.mappedOptionalFn f s.next) hrun
  generalize hs2 : (s1.allocFn 1 (.mappedOptionalFn f s.next)).2 = s2 at g2 hl2
  have e2 : s2.events = s1.events ∧
      s2.fns = Function.update s1.fns s1.next (some ⟨1, .mappedOptionalFn f s.next⟩) ∧
      s2.dyns = s1.dyns ∧ s2.sinks = s1.sinks ∧ s2.next = s1.next + 1 ∧ s2.trace = s1.trace ∧
      s2.world = s1.world := by
    subst hs2; exact ⟨rfl, rfl, rfl, rfl, rfl, rfl, rfl⟩
  obtain ⟨e2e, e2f, e2d, e2k, e2n, e2t, e2w⟩ := e2
  -- the member `upstream` of the chained stream
  have hinp2 : (s2.events inp).isSome = true := by
    rw [e2e, e1e, Function.update_noteq (Nat.ne_of_lt hinp)]
    exact rootOf_alive hr
  obtain ⟨s3, h3⟩ := retainEvent_isSome hinp2
  obtain ⟨hsh3, e3f, e3d, e3k, e3n, e3t, e3w, e3s, e3r⟩ := retainEvent_shape h3
  have g3 := g2.good_of_shape hsh3
  -- the chained stream
  have hD3 : s3.subscribers s.next = some [] := by
    rw [e3s]; simp only [State.subscribers, e2e]; exact hD1
  obtain ⟨g4, hl4⟩ := g3.allocEvent 1 (.chained (s.next + 1) inp s.next)
    (Or.inr (Or.inr ⟨_, _, _, rfl, by simp [hD3]⟩))
  generalize hs4 : (s3.allocEvent 1 (.chained (s.next + 1) inp s.next)).2 = s4 at g4 hl4
  have e4 : s4.events = Function.update s3.events s3.next (some ⟨1, .chained (s.next + 1) inp s.next⟩) ∧
      s4.fns = s3.fns ∧ s4.dyns = s3.dyns ∧ s4.sinks = s3.sinks ∧ s4.next = s3.next + 1 ∧
      s4.trace = s3.trace ∧ s4.world = s3.world := by
    subst hs4; exact ⟨rfl, rfl, rfl, rfl, rfl, rfl, rfl⟩
  obtain ⟨e4e, e4f, e4d, e4k, e4n, e4t, e4w⟩ := e4
  have hn3 : s3.next = s.next + 2 := by rw [e3n, e2n, e1n]
  have hsub4 : ∀ x, x ≠ s.next + 2 → s4.subscribers x = s3.subscribers x := by
    intro x hx
    have hx' : x ≠ s3.next := by omega
    simp only [State.subscribers, e4e, Function.update_noteq hx']
  have hroot4 : ∀ x, x ≠ s.next + 2 → s4.rootOf x = s3.rootOf x := by
    intro x hx
    have hx' : x ≠ s3.next := by omega
    simp only [State.rootOf, e4e, Function.update_noteq hx']
  have hroot1 : ∀ x, x ≠ s.next → s1.rootOf x = s.rootOf x := by
    intro x hx
    simp [State.rootOf, e1e, Function.update_noteq hx]
  have hroot2 : ∀ x, s2.rootOf x = s1.rootOf x := by
    intro x; simp [State.rootOf, e2e]
  have hsub1 : ∀ x, x ≠ s.next → s1.subscribers x = s.subscribers x := by
    intro x hx
    simp [State.subscribers, e1e, Function.update_noteq hx]
  have hsub2 : ∀ x, s2.subscribers x = s1.subscribers x := by
    intro x; simp [State.subscribers, e2e]
  -- the subscription
  have hr4 : s4.rootOf inp = some a := by
    rw [hroot4 inp (by omega), e3r, hroot2, hroot1 inp (by omega)]; exact hr
  have hsubscribe := subscribe_rootOf g4.wf (some (s.next + 1)) hr4
  have hfn4 : s4.fns = Function.update s.fns (s.next + 1) (some ⟨1, .mappedOptionalFn f s.next⟩) := by
    rw [e4f, e3f, e2f, e1f, e1n]
  have hlive4 : ∀ x, s4.live x = s.live x := fun x => by rw [hl4, hsh3.live, hl2, hl1]
  have hroot4a : (s4.subscribers a).isSome = true := by
    rw [hsub4 a (by omega), e3s, hsub2, hsub1 a (by omega)]; exact hroot
  have hold : ∀ x c', c' ∈ s.live x → c' < s.next := by
    intro x c' hc'
    obtain ⟨subs, h1, h2, _⟩ := mem_live hc'
    exact g.wf.subs_lt x subs c' h1 h2
  obtain ⟨g5, hl5a, hl5x⟩ := g4.appendSub a (s.next + 1) hroot4a (by rw [e4n, hn3]; omega)
    (by rw [hfn4]; simp)
    (by
      intro cell f' D hc ho
      rw [hfn4, Function.update_same, Option.some.injEq] at hc
      subst hc
      simp only [Fn.mappedOptionalFn.injEq] at ho
      rw [← ho.2]; exact ha)
    (by
      intro t ht x c' hc' ht'
      have htC : t = .ev s.next := by
        simp [State.targetOf, hfn4, Fn.target] at ht
        exact ht.symm
      subst htC
      rw [hlive4] at hc'
      have hlt' := hold x c' hc'
      have : s4.targetOf c' = s.targetOf c' := by
        simp [State.targetOf, hfn4, Function.update_noteq (show c' ≠ s.next + 1 by omega)]
      rw [this] at ht'
      unfold State.targetOf at ht'
      cases hc0 : s.fns c' with
      | none => simp [hc0] at ht'
      | some cell =>
        simp only [hc0] at ht'
        cases ho : cell.obj with
        | mappedOptionalFn f' D =>
          simp only [ho, Fn.target, Option.some.injEq, Target.ev.injEq] at ht'
          have hrn := g.wf.runnable c' cell hc0
          rw [ho] at hrn
          have := g.wf.lt_of_subscribers D hrn.1
          omega
        | updater _ => simp [ho, Fn.target] at ht'
        | vectorSinkFn _ => simp [ho, Fn.target] at ht'
        | forEachFn _ => simp [ho, Fn.target] at ht')
  obtain ⟨e5f, e5d, e5k, e5n, e5t, e5w⟩ := appendSub_rest s4 a (some (s.next + 1))
  refine ⟨s4.appendSub a (some (s.next + 1)), ?_, g5, by rw [e5n, e4n, hn3], by rw [e5f, hfn4],
    by rw [e5d, e4d, e3d, e2d, e1d], by rw [e5k, e4k, e3k, e2k, e1k], by rw [e5t, e4t, e3t, e2t, e1t],
    by rw [e5w, e4w, e3w, e2w, e1w], by rw [hl5a, hlive4], fun x hx => by rw [hl5x x hx, hlive4],
    ?_, ?_, ?_, ?_, ?_, ?_, ?_, ?_⟩
  · have e : mappedOptional inp f s =
        (match s2.retainEvent inp with
          | none => none
          | some s3 =>
            match Event.subscribe inp (some s1.next)
              (s3.allocEvent 1 (.chained s1.next inp s.next)).2 with
            | none => none
            | some s5 => some (s3.next, s5)) := by
      subst hs1 hs2; rfl
    rw [e, h3]
    simp only [e1n, hs4, hsubscribe, hn3]
  · rw [appendSub_subscribers_ne s4 a _ _ (by omega), hsub4 _ (by omega)]
    exact hD3
  · rw [appendSub_events_ne s4 a _ _ (by omega), e4e, hn3, Function.update_same]
  · rw [appendSub_events_ne s4 a _ _ (by omega), e4e, hn3, Function.update_noteq (by omega)]
    unfold State.retainEvent at h3
    cases hc : s2.events inp with
    | none => simp [hc] at hinp2
    | some cell =>
      simp only [hc, Option.some.injEq] at h3
      subst h3
      simp only
      rw [Function.update_noteq (Nat.ne_of_gt hinp), e2e, e1e, Function.update_same]
  · intro x hx
    rw [appendSub_rootOf, hroot4 x (by omega), e3r, hroot2, hroot1 x (by omega)]
  · intro x hx
    by_cases hxa : x = a
    · subst hxa
      obtain ⟨subs, hsubs⟩ := Option.isSome_iff_exists.mp hroot4a
      rw [appendSub_subscribers_self s4 x _ subs hsubs, hroot]
      rfl
    · rw [appendSub_subscribers_ne s4 a x _ hxa, hsub4 x (by omega), e3s, hsub2, hsub1 x (by omega)]
  · intro x hx hx2 hxi hxa
    rw [appendSub_events_ne s4 a x _ hxa, e4e, hn3, Function.update_noteq hx2,
      retainEvent_events_ne h3 hxi, e2e, e1e, Function.update_noteq hx]
  · intro x hx
    rw [appendSub_strong, e4e, hn3, Function.update_noteq (by omega)]
    unfold State.retainEvent at h3
    cases hc : s2.events inp with
    | none => simp [hc] at hinp2
    | some cell =>
      simp only [hc, Option.some.injEq] at h3
      subst h3
      by_cases hxi : x = inp
      · subst hxi
        rw [e2e, e1e, Function.update_noteq (by omega)] at hc
        simp [hc]
      · simp [Function.update_noteq hxi, e2e, e1e, Function.update_noteq (show x ≠ s.next by omega), hxi]
  · intro x hx
    rw [appendSub_skeleton, e4e, hn3, Function.update_noteq (by omega), hsh3.events x, e2e, e1e,
      Function.update_noteq (by omega)]

/-! ### `forEach` -/

theorem WF.target_lt {s : State V W} (wf : WF s) {c : Nat} {t : Target} (h : s.targetOf c = some t) :
    t.addr < s.next := by
  unfold State.targetOf at h
  cases hc : s.fns c with
  | none => simp [hc] at h
  | some cell =>
    simp only [hc] at h
    have hrun := wf.runnable c cell hc
    cases ho : cell.obj with
    | mappedOptionalFn f D =>
      simp only [ho, Fn.target, Option.some.injEq] at h
      subst h
      rw [ho] at hrun
      exact wf.lt_of_subscribers D hrun.1
    | updater d =>
      simp only [ho, Fn.target, Option.some.injEq] at h
      subst h
      rw [ho] at hrun
      have hd : (s.dyns d).isSome = true := hrun
      by_contra hlt
      rw [wf.dyns_fresh d (by simp only [Target.addr] at hlt; omega)] at hd
      simp at hd
    | vectorSinkFn k =>
      simp only [ho, Fn.target, Option.some.injEq] at h
      subst h
      rw [ho] at hrun
      obtain ⟨cellk, hk, _⟩ := hrun
      by_contra hlt
      rw [wf.sinks_fresh k (by simp only [Target.addr] at hlt; omega)] at hk
      simp at hk
    | forEachFn _ => simp [ho, Fn.target] at h

theorem WF.live_lt {s : State V W} (wf : WF s) {x c : Nat} (h : c ∈ s.live x) : c < s.next := by
  obtain ⟨subs, h1, h2, _⟩ := mem_live h
  exact wf.subs_lt x subs c h1 h2

/-- What `forEach` builds on a stream that forwards to the root stream `a`: the callback at
`s.next` as the new last live subscriber of `a`, and the `VoidSink` at `s.next + 1`. -/
theorem forEach_spec {s : State V W} (g : Good s) (inp a : Nat) (f : V → W → W)
    (hr : s.rootOf inp = some a) :
    ∃ s', forEach inp f s = some (s.next + 1, s') ∧ Good s' ∧ s'.next = s.next + 2 ∧
      s'.fns = Function.update s.fns s.next (some ⟨1, .forEachFn f⟩) ∧
      s'.sinks = Function.update s.sinks (s.next + 1) (some ⟨1, .voidSink s.next inp⟩) ∧
      s'.dyns = s.dyns ∧ s'.trace = s.trace ∧ s'.world = s.world ∧
      s'.live a = s.live a ++ [s.next] ∧ (∀ x, x ≠ a → s'.live x = s.live x) ∧
      (∀ x, s'.rootOf x = s.rootOf x) ∧
      (∀ x, (s'.subscribers x).isSome = (s.subscribers x).isSome) ∧
      (∀ x, (s'.events x).map (fun c => c.strong) =
        (s.events x).map (fun c => if x = inp then c.strong + 1 else c.strong)) ∧
      (∀ x, (s'.events x).map (fun c => c.obj.setSubscribers []) =
        (s.events x).map (fun c => c.obj.setSubscribers [])) := by
  have hinp : inp < s.next := rootOf_lt g.wf hr
  have hroot : (s.subscribers a).isSome = true := g.wf.rootOf_root hr
  have ha : a < s.next := g.wf.lt_of_subscribers a hroot
  -- the callback
  obtain ⟨g1, hl1⟩ := g.allocFn 1 (.forEachFn f) trivial
  generalize hs1 : (s.allocFn 1 (.forEachFn f)).2 = s1 at g1 hl1
  have e1 : s1.events = s.events ∧ s1.fns = Function.update s.fns s.next (some ⟨1, .forEachFn f⟩) ∧
      s1.dyns = s.dyns ∧ s1.sinks = s.sinks ∧ s1.next = s.next + 1 ∧ s1.trace = s.trace ∧
      s1.world = s.world := by
    subst hs1; exact ⟨rfl, rfl, rfl, rfl, rfl, rfl, rfl⟩
  obtain ⟨e1e, e1f, e1d, e1k, e1n, e1t, e1w⟩ := e1
  -- the member `upstream` of the sink
  have hinp1 : (s1.events inp).isSome = true := by rw [e1e]; exact rootOf_alive hr
  obtain ⟨s2, h2⟩ := retainEvent_isSome hinp1
  obtain ⟨hsh2, e2f, e2d, e2k, e2n, e2t, e2w, e2s, e2r⟩ := retainEvent_shape h2
  have g2 := g1.good_of_shape hsh2
  have e2strong : ∀ x, (s2.events x).map (fun c => c.strong) =
      (s.events x).map (fun c => if x = inp then c.strong + 1 else c.strong) := by
    intro x
    unfold State.retainEvent at h2
    cases hc : s1.events inp with
    | none => simp [hc] at hinp1
    | some cell =>
      simp only [hc, Option.some.injEq] at h2
      subst h2
      by_cases hx : x = inp
      · subst hx
        rw [e1e] at hc
        simp [hc]
      · simp [Function.update_noteq hx, e1e, hx]
  -- the sink
  obtain ⟨g3, hl3⟩ := g2.allocSink 1 (.voidSink s.next inp)
  generalize hs3 : (s2.allocSink 1 (.voidSink s.next inp)).2 = s3 at g3 hl3
  have e3 : s3.events = s2.events ∧ s3.fns = s2.fns ∧ s3.dyns = s2.dyns ∧
      s3.sinks = Function.update s2.sinks s2.next (some ⟨1, .voidSink s.next inp⟩) ∧
      s3.next = s2.next + 1 ∧ s3.trace = s2.trace ∧ s3.world = s2.world := by
    subst hs3; exact ⟨rfl, rfl, rfl, rfl, rfl, rfl, rfl⟩
  obtain ⟨e3e, e3f, e3d, e3k, e3n, e3t, e3w⟩ := e3
  have hn2 : s2.next = s.next + 1 := by rw [e2n, e1n]
  have hsub3 : ∀ x, s3.subscribers x = s.subscribers x := by
    intro x
    have : s3.subscribers x = s2.subscribers x := by simp [State.subscribers, e3e]
    rw [this, e2s]
    simp [State.subscribers, e1e]
  have hroot3 : ∀ x, s3.rootOf x = s.rootOf x := by
    intro x
    have : s3.rootOf x = s2.rootOf x := by simp [State.rootOf, e3e]
    rw [this, e2r]
    simp [State.rootOf, e1e]
  -- the subscription
  have hsubscribe := subscribe_rootOf g3.wf (some s.next) (by rw [hroot3]; exact hr)
  have hfn3 : s3.fns = Function.update s.fns s.next (some ⟨1, .forEachFn f⟩) := by rw [e3f, e2f, e1f]
  have hlive3 : ∀ x, s3.live x = s.live x := fun x => by rw [hl3, hsh2.live, hl1]
  obtain ⟨g4, hl4a, hl4x⟩ := g3.appendSub a s.next (by rw [hsub3]; exact hroot) (by rw [e3n, hn2]; omega)
    (by rw [hfn3]; simp)
    (by
      intro cell f' D hc ho
      rw [hfn3, Function.update_same, Option.some.injEq] at hc
      subst hc
      cases ho)
    (by
      intro t ht
      simp [State.targetOf, hfn3, Fn.target] at ht)
  obtain ⟨e4f, e4d, e4k, e4n, e4t, e4w⟩ := appendSub_rest s3 a (some s.next)
  refine ⟨s3.appendSub a (some s.next), ?_, g4, by rw [e4n, e3n, hn2], by rw [e4f, hfn3],
    by rw [e4k, e3k, hn2, e2k, e1k], by rw [e4d, e3d, e2d, e1d], by rw [e4t, e3t, e2t, e1t],
    by rw [e4w, e3w, e2w, e1w], by rw [hl4a, hlive3], fun x hx => by rw [hl4x x hx, hlive3],
    fun x => by rw [appendSub_rootOf, hroot3], ?_, ?_, ?_⟩
  · have e : forEach inp f s =
        (match s1.retainEvent inp with
          | none => none
          | some s2 =>
            match Event.subscribe inp (some s.next) (s2.allocSink 1 (.voidSink s.next inp)).2 with
            | none => none
            | some s4 => some (s2.next, s4)) := by
      subst hs1; rfl
    rw [e, h2]
    simp only [hs3, hsubscribe, hn2]
  · intro x
    by_cases hxa : x = a
    · subst hxa
      obtain ⟨subs, hsubs⟩ := Option.isSome_iff_exists.mp (show (s3.subscribers x).isSome = true by
        rw [hsub3]; exact hroot)
      rw [appendSub_subscribers_self s3 x _ subs hsubs, hroot]
      rfl
    · rw [appendSub_subscribers_ne s3 a x _ hxa, hsub3]
  · intro x
    rw [appendSub_strong, e3e]
    exact e2strong x
  · intro x
    rw [appendSub_skeleton, e3e]
    have := hsh2.events x
    rw [this, e1e]

/-! ### Destruction -/

theorem Good.init (w : W) : Good (State.init w : State V W) where
  wf :=
    { events_fresh := fun _ _ => rfl
      fns_fresh := fun _ _ => rfl
      sinks_fresh := fun _ _ => rfl
      dyns_fresh := fun _ _ => rfl
      subs_lt := fun a subs c h _ => by simp [State.subscribers, State.init] at h
      runnable := fun c cell h => by simp [State.init] at h
      ranked := fun a c cell f D h => by simp [State.live, State.subscribers, State.init] at h
      chained := fun a cell u up D h => by simp [State.init] at h }
  lin :=
    { unique := fun x x' c c' t h => by simp [State.live, State.subscribers, State.init] at h
      once := fun x c t h => by simp [State.live, State.subscribers, State.init] at h }

theorem liveOf_remove (s : State V W) (c : Nat) (subs : List WeakPtr) :
    liveOf { s with fns := Function.update s.fns c none } subs = (liveOf s subs).filter (fun x => x ≠ c) := by
  induction subs with
  | nil => rfl
  | cons w subs ih =>
    simp only [liveOf, List.filterMap_cons] at ih ⊢
    cases w with
    | none => simpa [WeakPtr.lock] using ih
    | some x =>
      by_cases hx : x = c
      · subst hx
        simp only [WeakPtr.lock, Function.update_same, Option.isSome_none, Bool.false_eq_true, if_false]
        rw [ih]
        by_cases hs : (s.fns x).isSome = true
        · simp [hs]
        · simp [hs]
      · simp only [WeakPtr.lock, Function.update_noteq hx]
        by_cases hs : (s.fns x).isSome = true
        · simp only [hs, if_true]
          rw [ih]
          simp [List.filter_cons, hx]
        · simp only [hs, Bool.false_eq_true, if_false]
          exact ih

/-- Destroying a callback object keeps the invariants; the callback leaves the lists of live
subscribers. -/
theorem Good.removeFn {s : State V W} (g : Good s) (c : Nat) :
    Good { s with fns := Function.update s.fns c none } ∧
      ∀ a, State.live { s with fns := Function.update s.fns c none } a = (s.live a).filter (fun x => x ≠ c) := by
  have hlive : ∀ a, State.live { s with fns := Function.update s.fns c none } a =
      (s.live a).filter (fun x => x ≠ c) := by
    intro a
    have hsub : State.subscribers { s with fns := Function.update s.fns c none } a = s.subscribers a := rfl
    simp only [State.live, hsub]
    cases s.subscribers a with
    | none => rfl
    | some subs => exact liveOf_remove s c subs
  have hmem : ∀ a x, x ∈ State.live { s with fns := Function.update s.fns c none } a →
      x ∈ s.live a ∧ x ≠ c := by
    intro a x hx
    rw [hlive] at hx
    simpa using hx
  have htgt : ∀ x, x ≠ c → State.targetOf { s with fns := Function.update s.fns c none } x = s.targetOf x := by
    intro x hx
    simp [State.targetOf, Function.update_noteq hx]
  refine ⟨⟨⟨g.wf.events_fresh, ?_, g.wf.sinks_fresh, g.wf.dyns_fresh, g.wf.subs_lt, ?_, ?_, g.wf.chained⟩,
    ⟨?_, ?_⟩⟩, hlive⟩
  · intro a ha
    by_cases hac : a = c
    · subst hac; simp
    · simp only [Function.update_noteq hac]
      exact g.wf.fns_fresh a ha
  · intro x cell hx
    by_cases hxc : x = c
    · subst hxc; simp at hx
    · simp only [Function.update_noteq hxc] at hx
      have hmono : ∀ f', Runnable s f' → Runnable { s with fns := Function.update s.fns c none } f' :=
        fun f' => Runnable.persists f' (fun _ h => h) (fun _ h => h) (fun _ cell h => ⟨cell, h, rfl⟩)
      exact hmono _ (g.wf.runnable x cell hx)
  · intro a x cell f D hl hx ho
    obtain ⟨hl', hxc⟩ := hmem a x hl
    simp only [Function.update_noteq hxc] at hx
    exact g.wf.ranked a x cell f D hl' hx ho
  · intro x x' c1 c2 t h1 h2 h3 h4
    obtain ⟨h1', hc1⟩ := hmem x c1 h1
    obtain ⟨h2', hc2⟩ := hmem x' c2 h2
    rw [htgt c1 hc1] at h3
    rw [htgt c2 hc2] at h4
    exact g.lin.unique x x' c1 c2 t h1' h2' h3 h4
  · intro x c1 t h1 h3
    obtain ⟨h1', hc1⟩ := hmem x c1 h1
    rw [htgt c1 hc1] at h3
    rw [hlive, List.count_filter (by simpa using hc1)]
    exact g.lin.once x c1 t h1' h3

/-- Destroying a sink that no callback pushes to keeps the invariants. -/
theorem Good.removeSink {s : State V W} (g : Good s) (k : Nat)
    (hno : ∀ c cell, s.fns c = some cell → cell.obj ≠ .vectorSinkFn k) :
    Good { s with sinks := Function.update s.sinks k none } ∧
      ∀ a, State.live { s with sinks := Function.update s.sinks k none } a = s.live a := by
  have hlive : ∀ a, State.live { s with sinks := Function.update s.sinks k none } a = s.live a :=
    fun a => live_eq_of a rfl fun _ _ _ _ => rfl
  refine ⟨g.transfer hlive (fun _ _ _ => rfl) g.wf.events_fresh g.wf.fns_fresh ?_ g.wf.dyns_fresh
    g.wf.subs_lt ?_ g.wf.chained, hlive⟩
  · intro a ha
    by_cases hak : a = k
    · subst hak; simp
    · simp only [Function.update_noteq hak]
      exact g.wf.sinks_fresh a ha
  · intro c cell hc
    have hrun := g.wf.runnable c cell hc
    have hne := hno c cell hc
    cases ho : cell.obj with
    | mappedOptionalFn f D => rw [ho] at hrun; exact hrun
    | updater d => rw [ho] at hrun; exact hrun
    | vectorSinkFn k' =>
      rw [ho] at hrun hne
      have hkk : k' ≠ k := fun h => hne (by rw [h])
      obtain ⟨cellk, h1, h2⟩ := hrun
      exact ⟨cellk, by simp only [Function.update_noteq hkk]; exact h1, h2⟩
    | forEachFn _ => trivial

/-- Destroying a stream that no callback fires and no chained stream forwards to keeps the
invariants. -/
theorem Good.removeEvent {s : State V W} (g : Good s) (x : Nat)
    (hno : ∀ c cell f, s.fns c = some cell → cell.obj ≠ .mappedOptionalFn f x)
    (hch : ∀ a cell u up, s.events a = some cell → a ≠ x → cell.obj ≠ .chained u up x) :
    Good { s with events := Function.update s.events x none } ∧
      (∀ a, a ≠ x → State.live { s with events := Function.update s.events x none } a = s.live a) ∧
      State.live { s with events := Function.update s.events x none } x = [] := by
  have hsubx : State.subscribers { s with events := Function.update s.events x none } x = none := by
    simp [State.subscribers]
  have hsub : ∀ a, a ≠ x →
      State.subscribers { s with events := Function.update s.events x none } a = s.subscribers a := by
    intro a ha
    simp [State.subscribers, Function.update_noteq ha]
  have hlx : State.live { s with events := Function.update s.events x none } x = [] := by
    simp [State.live, hsubx]
  have hla : ∀ a, a ≠ x → State.live { s with events := Function.update s.events x none } a = s.live a :=
    fun a ha => live_eq_of a (hsub a ha) fun _ _ _ _ => rfl
  have hmem : ∀ a c, c ∈ State.live { s with events := Function.update s.events x none } a → c ∈ s.live a := by
    intro a c hc
    by_cases ha : a = x
    · subst ha; rw [hlx] at hc; simp at hc
    · rw [hla a ha] at hc; exact hc
  refine ⟨⟨⟨?_, g.wf.fns_fresh, g.wf.sinks_fresh, g.wf.dyns_fresh, ?_, ?_, ?_, ?_⟩, ⟨?_, ?_⟩⟩, hla, hlx⟩
  · intro a ha
    by_cases hax : a = x
    · subst hax; simp
    · simp only [Function.update_noteq hax]
      exact g.wf.events_fresh a ha
  · intro a subs c h1 h2
    by_cases hax : a = x
    · subst hax; rw [hsubx] at h1; simp at h1
    · rw [hsub a hax] at h1
      exact g.wf.subs_lt a subs c h1 h2
  · intro c cell hc
    have hrun := g.wf.runnable c cell hc
    have hne := hno c cell
    cases ho : cell.obj with
    | mappedOptionalFn f D =>
      rw [ho] at hrun
      have hDx : D ≠ x := fun h => hne f hc (by rw [ho, h])
      exact ⟨by rw [hsub D hDx]; exact hrun.1, hrun.2⟩
    | updater d => rw [ho] at hrun; exact hrun
    | vectorSinkFn k => rw [ho] at hrun; exact hrun
    | forEachFn _ => trivial
  · intro a c cell f D hl hc ho
    exact g.wf.ranked a c cell f D (hmem a c hl) hc ho
  · intro a cell u up D hc ho
    by_cases hax : a = x
    · subst hax; simp at hc
    · simp only [Function.update_noteq hax] at hc
      have hDx : D ≠ x := fun h => hch a cell u up hc hax (by rw [ho, h])
      rw [hsub D hDx]
      exact g.wf.chained a cell u up D hc ho
  · intro a a' c1 c2 t h1 h2 h3 h4
    exact g.lin.unique a a' c1 c2 t (hmem a c1 h1) (hmem a' c2 h2) h3 h4
  · intro a c1 t h1 h3
    by_cases hax : a = x
    · subst hax; rw [hlx] at h1; simp at h1
    · rw [hla a hax] at h1 ⊢
      exact g.lin.once a c1 t h1 h3

/-- Dropping one of several handles to a stream only lowers its count of owners. -/
theorem releaseEvent_shared {s : State V W} (fuel a : Nat) (cell : Cell IEvent) (hc : s.events a = some cell)
    (hstrong : 1 < cell.strong) :
    releaseAux (fuel + 1) (.event a) s =
        some { s with events := Function.update s.events a (some { cell with strong := cell.strong - 1 }) } ∧
      Shape s { s with events := Function.update s.events a (some { cell with strong := cell.strong - 1 }) } := by
  refine ⟨by simp [releaseAux, hc, hstrong], ?_⟩
  have hsub : ∀ x, State.subscribers
      { s with events := Function.update s.events a (some { cell with strong := cell.strong - 1 }) } x =
      s.subscribers x := by
    intro x
    by_cases hx : x = a
    · subst hx; simp [State.subscribers, hc]
    · simp [State.subscribers, Function.update_noteq hx]
  refine ⟨rfl, rfl, ?_, ?_, fun x => by rw [hsub], ?_, fun _ => rfl, fun _ => rfl⟩
  · intro x
    by_cases hx : x = a
    · subst hx; simp [hc]
    · simp [Function.update_noteq hx]
  · intro x
    exact live_eq_of x (hsub x) fun _ _ _ _ => rfl
  · intro x subs c h1 h2
    rw [hsub] at h1
    exact ⟨subs, h1, h2⟩

/-- Dropping the handle of a `forEach` sink whose stream has other owners: the `VoidSink` and
its callback are destroyed, and the entry of the callback in the subscriber vector stays
behind, expired. -/
theorem release_voidSink {s : State V W} (g : Good s) (k sub up : Nat) (f : V → W → W)
    (hk : s.sinks k = some ⟨1, .voidSink sub up⟩) (hsub : s.fns sub = some ⟨1, .forEachFn f⟩)
    (hup : ∃ cell, s.events up = some cell ∧ 1 < cell.strong) :
    ∃ s', release (.sink k) s = some s' ∧ Good s' ∧ s'.fns = Function.update s.fns sub none ∧
      s'.sinks = Function.update s.sinks k none ∧ s'.dyns = s.dyns ∧ s'.next = s.next ∧
      (∀ x, s'.subscribers x = s.subscribers x) ∧
      (∀ a, s'.live a = (s.live a).filter (fun x => x ≠ sub)) := by
  obtain ⟨cell, hc, hstrong⟩ := hup
  have hklt : k < s.next := by
    by_contra h
    rw [g.wf.sinks_fresh k (by omega)] at hk
    simp at hk
  obtain ⟨n, hn⟩ : ∃ n, s.next = n + 1 := ⟨s.next - 1, by omega⟩
  -- the sink
  obtain ⟨ga, hla⟩ := g.removeSink k (by
    intro c cellc hcc ho
    have := g.wf.runnable c cellc hcc
    rw [ho] at this
    obtain ⟨cellk, h1, _, _, h3⟩ := this
    rw [hk] at h1
    simp only [Option.some.injEq] at h1
    subst h1
    simp [ISink.skeleton] at h3)
  generalize hsa : ({ s with sinks := Function.update s.sinks k none } : State V W) = sa at ga hla
  have ea : sa.events = s.events ∧ sa.fns = s.fns ∧ sa.dyns = s.dyns ∧
      sa.sinks = Function.update s.sinks k none ∧ sa.next = s.next := by
    subst hsa; exact ⟨rfl, rfl, rfl, rfl, rfl⟩
  obtain ⟨eae, eaf, ead, eak, ean⟩ := ea
  -- the member `upstream`
  obtain ⟨hrel, hsh⟩ := releaseEvent_shared (s := sa) n up cell (by rw [eae]; exact hc) hstrong
  generalize hsb : ({ sa with events := Function.update sa.events up (some { cell with strong := cell.strong - 1 }) } :
    State V W) = sb at hrel hsh
  have gb := ga.good_of_shape hsh
  have eb : sb.fns = sa.fns ∧ sb.dyns = sa.dyns ∧ sb.sinks = sa.sinks ∧ sb.next = sa.next := by
    subst hsb; exact ⟨rfl, rfl, rfl, rfl⟩
  obtain ⟨ebf, ebd, ebk, ebn⟩ := eb
  have hsubb : ∀ x, sb.subscribers x = s.subscribers x := by
    intro x
    have h1 : sb.subscribers x = sa.subscribers x := by
      have h2 := hsh.len x
      subst hsb
      by_cases hx : x = up
      · subst hx
        simp [State.subscribers, eae, hc]
      · simp [State.subscribers, Function.update_noteq hx]
    rw [h1]
    simp [State.subscribers, eae]
  -- the callback
  obtain ⟨gc, hlc⟩ := gb.removeFn sub
  refine ⟨{ sb with fns := Function.update sb.fns sub none }, ?_, gc, by rw [ebf, eaf],
    by show sb.sinks = _; rw [ebk, eak], by show sb.dyns = _; rw [ebd, ead],
    by show sb.next = _; rw [ebn, ean], fun x => by rw [← hsubb x]; rfl,
    fun a => by rw [hlc, hsh.live, hla]⟩
  unfold release
  rw [hn]
  have e : releaseAux (n + 1 + 1) (.sink k) s =
      (releaseAux (n + 1) (.event up) sa).bind fun s2 => releaseAux (n + 1) (.fn sub) s2 := by
    subst hsa
    simp [releaseAux, hk]
  rw [e, hrel]
  simp only [Option.some_bind]
  have hfb : sb.fns sub = some ⟨1, .forEachFn f⟩ := by rw [ebf, eaf]; exact hsub
  simp [releaseAux, hfb]

/-! ### `mkDynamic` and `collect` -/

/-- No live subscriber of a well-formed state has a target that is not allocated yet. -/
theorem WF.no_fresh_target {s : State V W} (wf : WF s) {c : Nat} {t : Target} (h : s.targetOf c = some t)
    (hfresh : s.next ≤ t.addr) : False := by
  have := wf.target_lt h
  omega

/-- What `mkDynamic` builds on a stream that forwards to the root stream `a`: the
`BasicDynamic` at `s.next` and its updater at `s.next + 1`, the new last live subscriber of
`a`. -/
theorem mkDynamic_spec {s : State V W} (g : Good s) (event a : Nat) (initialValue : V)
    (hr : s.rootOf event = some a) :
    ∃ s', mkDynamic event initialValue s = some (s.next, s') ∧ Good s' ∧ s'.next = s.next + 2 ∧
      s'.fns = Function.update s.fns (s.next + 1) (some ⟨1, .updater s.next⟩) ∧
      s'.dyns = Function.update s.dyns s.next (some ⟨1, ⟨⟨initialValue⟩, s.next + 1, event⟩⟩) ∧
      s'.sinks = s.sinks ∧ s'.trace = s.trace ∧ s'.world = s.world ∧
      s'.live a = s.live a ++ [s.next + 1] ∧ (∀ x, x ≠ a → s'.live x = s.live x) ∧
      (∀ x, s'.rootOf x = s.rootOf x) := by
  have hinp : event < s.next := rootOf_lt g.wf hr
  have hroot : (s.subscribers a).isSome = true := g.wf.rootOf_root hr
  have ha : a < s.next := g.wf.lt_of_subscribers a hroot
  -- the member `event`
  obtain ⟨s1, h1⟩ := retainEvent_isSome (rootOf_alive hr)
  obtain ⟨hsh1, e1f, e1d, e1k, e1n, e1t, e1w, e1s, e1r⟩ := retainEvent_shape h1
  have g1 := g.good_of_shape hsh1
  -- the Dynamic
  obtain ⟨g2, hl2⟩ := g1.allocDyn 1 ⟨⟨initialValue⟩, s1.next + 1, event⟩
  generalize hs2 : (s1.allocDyn 1 ⟨⟨initialValue⟩, s1.next + 1, event⟩).2 = s2 at g2 hl2
  have e2 : s2.events = s1.events ∧ s2.fns = s1.fns ∧
      s2.dyns = Function.update s1.dyns s1.next (some ⟨1, ⟨⟨initialValue⟩, s1.next + 1, event⟩⟩) ∧
      s2.sinks = s1.sinks ∧ s2.next = s1.next + 1 ∧ s2.trace = s1.trace ∧ s2.world = s1.world := by
    subst hs2; exact ⟨rfl, rfl, rfl, rfl, rfl, rfl, rfl⟩
  obtain ⟨e2e, e2f, e2d, e2k, e2n, e2t, e2w⟩ := e2
  -- its updater
  obtain ⟨g3, hl3⟩ := g2.allocFn 1 (.updater s1.next) (by
    show (s2.dyns s1.next).isSome = true
    rw [e2d]; simp)
  generalize hs3 : (s2.allocFn 1 (.updater s1.next)).2 = s3 at g3 hl3
  have e3 : s3.events = s2.events ∧ s3.fns = Function.update s2.fns s2.next (some ⟨1, .updater s1.next⟩) ∧
      s3.dyns = s2.dyns ∧ s3.sinks = s2.sinks ∧ s3.next = s2.next + 1 ∧ s3.trace = s2.trace ∧
      s3.world = s2.world := by
    subst hs3; exact ⟨rfl, rfl, rfl, rfl, rfl, rfl, rfl⟩
  obtain ⟨e3e, e3f, e3d, e3k, e3n, e3t, e3w⟩ := e3
  have hsub3 : ∀ x, s3.subscribers x = s.subscribers x := by
    intro x
    have : s3.subscribers x = s1.subscribers x := by simp [State.subscribers, e3e, e2e]
    rw [this, e1s]
  have hroot3 : ∀ x, s3.rootOf x = s.rootOf x := by
    intro x
    have : s3.rootOf x = s1.rootOf x := by simp [State.rootOf, e3e, e2e]
    rw [this, e1r]
  have hfn3 : s3.fns = Function.update s.fns (s.next + 1) (some ⟨1, .updater s.next⟩) := by
    rw [e3f, e2f, e1f, e2n, e1n]
  have hdyn3 : s3.dyns = Function.update s.dyns s.next (some ⟨1, ⟨⟨initialValue⟩, s.next + 1, event⟩⟩) := by
    rw [e3d, e2d, e1d, e1n]
  have hlive3 : ∀ x, s3.live x = s.live x := fun x => by rw [hl3, hl2, hsh1.live]
  -- the subscription
  have hsubscribe := subscribe_rootOf g3.wf (some (s.next + 1)) (by rw [hroot3]; exact hr)
  obtain ⟨g4, hl4a, hl4x⟩ := g3.appendSub a (s.next + 1) (by rw [hsub3]; exact hroot)
    (by rw [e3n, e2n, e1n]; omega) (by rw [hfn3]; simp)
    (by
      intro cell f' D hc ho
      rw [hfn3, Function.update_same, Option.some.injEq] at hc
      subst hc
      cases ho)
    (by
      intro t ht x c' hc' ht'
      have htU : t = .dyn s.next := by
        simp [State.targetOf, hfn3, Fn.target] at ht
        exact ht.symm
      subst htU
      rw [hlive3] at hc'
      have hlt' := g.wf.live_lt hc'
      have : s3.targetOf c' = s.targetOf c' := by
        simp [State.targetOf, hfn3, Function.update_noteq (show c' ≠ s.next + 1 by omega)]
      rw [this] at ht'
      exact g.wf.no_fresh_target ht' (le_refl _))
  obtain ⟨e4f, e4d, e4k, e4n, e4t, e4w⟩ := appendSub_rest s3 a (some (s.next + 1))
  refine ⟨s3.appendSub a (some (s.next + 1)), ?_, g4, by rw [e4n, e3n, e2n, e1n], by rw [e4f, hfn3],
    by rw [e4d, hdyn3], by rw [e4k, e3k, e2k, e1k], by rw [e4t, e3t, e2t, e1t],
    by rw [e4w, e3w, e2w, e1w], by rw [hl4a, hlive3], fun x hx => by rw [hl4x x hx, hlive3],
    fun x => by rw [appendSub_rootOf, hroot3]⟩
  have hd3 : s3.dyns s.next = some ⟨1, ⟨⟨initialValue⟩, s.next + 1, event⟩⟩ := by
    rw [hdyn3, Function.update_same]
  have hnew : BasicDynamic.new event initialValue s1 = (s1.next, s3) := by
    subst hs3 hs2; rfl
  unfold mkDynamic
  rw [h1]
  simp only [hnew, e1n, hd3, hsubscribe]

/-- What `collect` builds on a stream that forwards to the root stream `a`: the `VectorSink`
at `s.next`, empty, and its callback at `s.next + 1`, the new last live subscriber of `a`. -/
theorem collect_spec {s : State V W} (g : Good s) (inp a : Nat) (hr : s.rootOf inp = some a) :
    ∃ s', collect inp s = some (s.next, s') ∧ Good s' ∧ s'.next = s.next + 2 ∧
      s'.fns = Function.update s.fns (s.next + 1) (some ⟨1, .vectorSinkFn s.next⟩) ∧
      s'.sinks = Function.update s.sinks s.next (some ⟨1, .vectorSink inp ⟨[]⟩ (s.next + 1)⟩) ∧
      s'.dyns = s.dyns ∧ s'.trace = s.trace ∧ s'.world = s.world ∧
      s'.live a = s.live a ++ [s.next + 1] ∧ (∀ x, x ≠ a → s'.live x = s.live x) ∧
      (∀ x, s'.rootOf x = s.rootOf x) ∧
      (∀ x, (s'.events x).map (fun c => c.strong) =
        (s.events x).map (fun c => if x = inp then c.strong + 1 else c.strong)) ∧
      (∀ x, (s'.events x).map (fun c => c.obj.setSubscribers []) =
        (s.events x).map (fun c => c.obj.setSubscribers [])) := by
  have hinp : inp < s.next := rootOf_lt g.wf hr
  have hroot : (s.subscribers a).isSome = true := g.wf.rootOf_root hr
  have ha : a < s.next := g.wf.lt_of_subscribers a hroot
  -- the member `upstream`
  obtain ⟨s1, h1⟩ := retainEvent_isSome (rootOf_alive hr)
  obtain ⟨hsh1, e1f, e1d, e1k, e1n, e1t, e1w, e1s, e1r⟩ := retainEvent_shape h1
  have g1 := g.good_of_shape hsh1
  have e1strong : ∀ x, (s1.events x).map (fun c => c.strong) =
      (s.events x).map (fun c => if x = inp then c.strong + 1 else c.strong) := by
    intro x
    unfold State.retainEvent at h1
    cases hc : s.events inp with
    | none => simp [hc] at h1
    | some cell =>
      simp only [hc, Option.some.injEq] at h1
      subst h1
      by_cases hx : x = inp
      · subst hx
        simp [hc]
      · simp [Function.update_noteq hx, hx]
  -- the sink
  obtain ⟨g2, hl2⟩ := g1.allocSink 1 (.vectorSink inp ⟨[]⟩ (s1.next + 1))
  generalize hs2 : (s1.allocSink 1 (.vectorSink inp ⟨[]⟩ (s1.next + 1))).2 = s2 at g2 hl2
  have e2 : s2.events = s1.events ∧ s2.fns = s1.fns ∧ s2.dyns = s1.dyns ∧
      s2.sinks = Function.update s1.sinks s1.next (some ⟨1, .vectorSink inp ⟨[]⟩ (s1.next + 1)⟩) ∧
      s2.next = s1.next + 1 ∧ s2.trace = s1.trace ∧ s2.world = s1.world := by
    subst hs2; exact ⟨rfl, rfl, rfl, rfl, rfl, rfl, rfl⟩
  obtain ⟨e2e, e2f, e2d, e2k, e2n, e2t, e2w⟩ := e2
  -- its callback
  obtain ⟨g3, hl3⟩ := g2.allocFn 1 (.vectorSinkFn s1.next) (by
    exact ⟨⟨1, .vectorSink inp ⟨[]⟩ (s1.next + 1)⟩, by rw [e2k, Function.update_same], inp,
      s1.next + 1, rfl⟩)
  generalize hs3 : (s2.allocFn 1 (.vectorSinkFn s1.next)).2 = s3 at g3 hl3
  have e3 : s3.events = s2.events ∧
      s3.fns = Function.update s2.fns s2.next (some ⟨1, .vectorSinkFn s1.next⟩) ∧
      s3.dyns = s2.dyns ∧ s3.sinks = s2.sinks ∧ s3.next = s2.next + 1 ∧ s3.trace = s2.trace ∧
      s3.world = s2.world := by
    subst hs3; exact ⟨rfl, rfl, rfl, rfl, rfl, rfl, rfl⟩
  obtain ⟨e3e, e3f, e3d, e3k, e3n, e3t, e3w⟩ := e3
  have hsub3 : ∀ x, s3.subscribers x = s.subscribers x := by
    intro x
    have : s3.subscribers x = s1.subscribers x := by simp [State.subscribers, e3e, e2e]
    rw [this, e1s]
  have hroot3 : ∀ x, s3.rootOf x = s.rootOf x := by
    intro x
    have : s3.rootOf x = s1.rootOf x := by simp [State.rootOf, e3e, e2e]
    rw [this, e1r]
  have hfn3 : s3.fns = Function.update s.fns (s.next + 1) (some ⟨1, .vectorSinkFn s.next⟩) := by
    rw [e3f, e2f, e1f, e2n, e1n]
  have hlive3 : ∀ x, s3.live x = s.live x := fun x => by rw [hl3, hl2, hsh1.live]
  -- the subscription
  have hsubscribe := subscribe_rootOf g3.wf (some (s.next + 1)) (by rw [hroot3]; exact hr)
  obtain ⟨g4, hl4a, hl4x⟩ := g3.appendSub a (s.next + 1) (by rw [hsub3]; exact hroot)
    (by rw [e3n, e2n, e1n]; omega) (by rw [hfn3]; simp)
    (by
      intro cell f' D hc ho
      rw [hfn3, Function.update_same, Option.some.injEq] at hc
      subst hc
      cases ho)
    (by
      intro t ht x c' hc' ht'
      have htK : t = .sink s.next := by
        simp [State.targetOf, hfn3, Fn.target] at ht
        exact ht.symm
      subst htK
      rw [hlive3] at hc'
      have hlt' := g.wf.live_lt hc'
      have : s3.targetOf c' = s.targetOf c' := by
        simp [State.targetOf, hfn3, Function.update_noteq (show c' ≠ s.next + 1 by omega)]
      rw [this] at ht'
      exact g.wf.no_fresh_target ht' (le_refl _))
  obtain ⟨e4f, e4d, e4k, e4n, e4t, e4w⟩ := appendSub_rest s3 a (some (s.next + 1))
  refine ⟨s3.appendSub a (some (s.next + 1)), ?_, g4, by rw [e4n, e3n, e2n, e1n], by rw [e4f, hfn3],
    by rw [e4k, e3k, e2k, e1k, e1n], by rw [e4d, e3d, e2d, e1d], by rw [e4t, e3t, e2t, e1t],
    by rw [e4w, e3w, e2w, e1w], by rw [hl4a, hlive3], fun x hx => by rw [hl4x x hx, hlive3],
    fun x => by rw [appendSub_rootOf, hroot3], ?_, ?_⟩
  · have e : collect inp s =
        (match s.retainEvent inp with
          | none => none
          | some s1 =>
            match Event.subscribe inp (some (s1.next + 1))
              ((s1.allocSink 1 (.vectorSink inp ⟨[]⟩ (s1.next + 1))).2.allocFn 1 (.vectorSinkFn s1.next)).2 with
            | none => none
            | some s4 => some (s1.next, s4)) := rfl
    rw [e, h1]
    simp only []
    rw [hs2, hs3]
    simp only [e1n, hsubscribe]
  · intro x
    rw [appendSub_strong, e3e, e2e]
    exact e1strong x
  · intro x
    rw [appendSub_skeleton, e3e, e2e]
    exact hsh1.events x

/-- What `fold` builds on a stream that forwards to the root stream `a`: the `BasicDynamic` at
`s.next + 1`, its updater at `s.next + 2`, and a mapped stream (downstream `s.next + 3`,
callback `s.next + 4`, chained node `s.next + 5`) whose function reads the current value of the
`BasicDynamic`; the updater is the one subscriber of the downstream, and the placeholder made
first, at `s.next`, is gone. -/
theorem fold_spec {s : State V W} (g : Good s) (event a : Nat) (initialValue : V) (f : V → V → V)
    (hr : s.rootOf event = some a) :
    ∃ s', fold event initialValue f s = some (s.next + 1, s') ∧ Good s' ∧ s'.next = s.next + 6 ∧
      s'.hasSub a (s.next + 4)
        (.mappedOptionalFn (.withCurrent (s.next + 1) fun t cur => some (f t cur)) (s.next + 3)) ∧
      s'.hasSub (s.next + 3) (s.next + 2) (.updater (s.next + 1)) ∧
      s'.current (s.next + 1) = some initialValue ∧
      Dynamic.updated (s.next + 1) s' = some (s.next + 5) ∧
      s'.rootOf (s.next + 5) = some (s.next + 3) ∧
      (∀ x, x < s.next → s'.rootOf x = s.rootOf x) ∧ s'.trace = s.trace ∧ s'.world = s.world ∧
      s'.live (s.next + 3) = [s.next + 2] := by
  have hinp : event < s.next := rootOf_lt g.wf hr
  have hroot : (s.subscribers a).isSome = true := g.wf.rootOf_root hr
  have ha : a < s.next := g.wf.lt_of_subscribers a hroot
  -- the placeholder
  obtain ⟨g1, hl1⟩ := g.allocEvent 1 .never (Or.inr (Or.inl rfl))
  generalize hs1 : (s.allocEvent 1 .never).2 = s1 at g1 hl1
  have e1 : s1.events = Function.update s.events s.next (some ⟨1, .never⟩) ∧ s1.fns = s.fns ∧
      s1.dyns = s.dyns ∧ s1.sinks = s.sinks ∧ s1.next = s.next + 1 ∧ s1.trace = s.trace ∧
      s1.world = s.world := by
    subst hs1; exact ⟨rfl, rfl, rfl, rfl, rfl, rfl, rfl⟩
  obtain ⟨e1e, e1f, e1d, e1k, e1n, e1t, e1w⟩ := e1
  -- the Dynamic and its updater
  obtain ⟨g2, hl2⟩ := g1.allocDyn 1 ⟨⟨initialValue⟩, s1.next + 1, s.next⟩
  generalize hs2 : (s1.allocDyn 1 ⟨⟨initialValue⟩, s1.next + 1, s.next⟩).2 = s2 at g2 hl2
  have e2 : s2.events = s1.events ∧ s2.fns = s1.fns ∧
      s2.dyns = Function.update s1.dyns s1.next (some ⟨1, ⟨⟨initialValue⟩, s1.next + 1, s.next⟩⟩) ∧
      s2.sinks = s1.sinks ∧ s2.next = s1.next + 1 ∧ s2.trace = s1.trace ∧ s2.world = s1.world := by
    subst hs2; exact ⟨rfl, rfl, rfl, rfl, rfl, rfl, rfl⟩
  obtain ⟨e2e, e2f, e2d, e2k, e2n, e2t, e2w⟩ := e2
  obtain ⟨g3, hl3⟩ := g2.allocFn 1 (.updater s1.next) (by
    show (s2.dyns s1.next).isSome = true
    rw [e2d]; simp)
  generalize hs3 : (s2.allocFn 1 (.updater s1.next)).2 = s3 at g3 hl3
  have e3 : s3.events = s2.events ∧ s3.fns = Function.update s2.fns s2.next (some ⟨1, .updater s1.next⟩) ∧
      s3.dyns = s2.dyns ∧ s3.sinks = s2.sinks ∧ s3.next = s2.next + 1 ∧ s3.trace = s2.trace ∧
      s3.world = s2.world := by
    subst hs3; exact ⟨rfl, rfl, rfl, rfl, rfl, rfl, rfl⟩
  obtain ⟨e3e, e3f, e3d, e3k, e3n, e3t, e3w⟩ := e3
  have hnever : never s = (s.next, s1) := by subst hs1; rfl
  have hnew : BasicDynamic.new s.next initialValue s1 = (s1.next, s3) := by
    subst hs3 hs2; rfl
  have hev3 : s3.events = Function.update s.events s.next (some ⟨1, .never⟩) := by rw [e3e, e2e, e1e]
  have hfn3 : s3.fns = Function.update s.fns (s.next + 2) (some ⟨1, .updater (s.next + 1)⟩) := by
    rw [e3f, e2f, e1f, e2n, e1n]
  have hdyn3 : s3.dyns =
      Function.update s.dyns (s.next + 1) (some ⟨1, ⟨⟨initialValue⟩, s.next + 2, s.next⟩⟩) := by
    rw [e3d, e2d, e1d, e1n]
  have hn3 : s3.next = s.next + 3 := by rw [e3n, e2n, e1n]
  have hlive3 : ∀ x, s3.live x = s.live x := fun x => by rw [hl3, hl2, hl1]
  have hroot3 : ∀ x, x ≠ s.next → s3.rootOf x = s.rootOf x := by
    intro x hx
    simp [State.rootOf, hev3, Function.update_noteq hx]
  -- the mapped stream
  obtain ⟨s4, h4, g4, e4n, e4f, e4d, e4k, e4t, e4w, hl4a, hl4x, hsubD, hch4, hD4, hroot4, hsome4, hev4, _⟩ :=
    mappedOptional_spec g3 event a (.withCurrent (s.next + 1) fun t cur => some (f t cur))
      (by rw [hroot3 event (by omega)]; exact hr)
      (by show (s3.dyns (s.next + 1)).isSome = true; rw [hdyn3]; simp)
  simp only [hn3, Nat.add_assoc, Nat.reduceAdd] at h4 e4n e4f hl4a hsubD hch4 hD4 hroot4 hsome4 hev4
  rw [hlive3] at hl4a
  have hmapped : mapped event (.withCurrent (s.next + 1) fun e cur => f e cur) s3 = some (s.next + 5, s4) := h4
  have hd4 : s4.dyns (s.next + 1) = some ⟨1, ⟨⟨initialValue⟩, s.next + 2, s.next⟩⟩ := by
    rw [e4d, hdyn3, Function.update_same]
  -- the member `event` takes over the handle
  generalize hs5 : ({ s4 with
    dyns := Function.update s4.dyns (s.next + 1) (some ⟨1, ⟨⟨initialValue⟩, s.next + 2, s.next + 5⟩⟩) } :
      State V W) = s5
  have e5 : s5.events = s4.events ∧ s5.fns = s4.fns ∧
      s5.dyns = Function.update s4.dyns (s.next + 1) (some ⟨1, ⟨⟨initialValue⟩, s.next + 2, s.next + 5⟩⟩) ∧
      s5.sinks = s4.sinks ∧ s5.next = s4.next ∧ s5.trace = s4.trace ∧ s5.world = s4.world := by
    subst hs5; exact ⟨rfl, rfl, rfl, rfl, rfl, rfl, rfl⟩
  obtain ⟨e5e, e5f, e5d, e5k, e5n, e5t, e5w⟩ := e5
  have hsh5 : Shape s4 s5 := Shape.of_events_eq e5f e5n e5e (fun d => by
    rw [e5d]
    by_cases hd : d = s.next + 1
    · subst hd; simp [hd4]
    · simp [Function.update_noteq hd]) (fun k => by rw [e5k])
  have g5 := g4.good_of_shape hsh5
  -- and drops the placeholder
  have hnev5 : s5.events s.next = some ⟨1, .never⟩ := by
    rw [e5e, hev4 s.next (by omega) (by omega) (by omega) (by omega), hev3, Function.update_same]
  have hsubn : s5.subscribers s.next = none := by simp [State.subscribers, hnev5, IEvent.basic?]
  obtain ⟨g6, hl6x, hl6n⟩ := g5.removeEvent s.next
    (by
      intro c cell f' hc ho
      have h := g5.wf.runnable c cell hc
      rw [ho] at h
      have h1 := h.1
      rw [hsubn] at h1
      simp at h1)
    (by
      intro x cell u up hc _ ho
      have h := g5.wf.chained x cell u up s.next hc ho
      rw [hsubn] at h
      simp at h)
  have hrel : release (.event s.next) s5 = some { s5 with events := Function.update s5.events s.next none } := by
    simp [release, releaseAux, hnev5]
  generalize hs6 : ({ s5 with events := Function.update s5.events s.next none } : State V W) = s6
    at g6 hl6x hl6n hrel
  have e6 : s6.events = Function.update s5.events s.next none ∧ s6.fns = s5.fns ∧ s6.dyns = s5.dyns ∧
      s6.sinks = s5.sinks ∧ s6.next = s5.next ∧ s6.trace = s5.trace ∧ s6.world = s5.world := by
    subst hs6; exact ⟨rfl, rfl, rfl, rfl, rfl, rfl, rfl⟩
  obtain ⟨e6e, e6f, e6d, e6k, e6n, e6t, e6w⟩ := e6
  -- the subscription of the updater
  have hm6 : s6.events (s.next + 5) = some ⟨1, .chained (s.next + 4) event (s.next + 3)⟩ := by
    rw [e6e, Function.update_noteq (by omega), e5e, hch4]
  have hroot6 : s6.rootOf (s.next + 5) = some (s.next + 3) := by simp [State.rootOf, hm6]
  have hsubscribe := subscribe_rootOf g6.wf (some (s.next + 2)) hroot6
  have hsubD6 : s6.subscribers (s.next + 3) = some [] := by
    have : s6.subscribers (s.next + 3) = s4.subscribers (s.next + 3) := by
      simp [State.subscribers, e6e, e5e, Function.update_noteq (show s.next + 3 ≠ s.next by omega)]
    rw [this, hsubD]
  have hfn6 : s6.fns = Function.update (Function.update s.fns (s.next + 2) (some ⟨1, .updater (s.next + 1)⟩))
      (s.next + 4)
      (some ⟨1, .mappedOptionalFn (.withCurrent (s.next + 1) fun t cur => some (f t cur)) (s.next + 3)⟩) := by
    rw [e6f, e5f, e4f, hfn3]
  have hU6 : s6.fns (s.next + 2) = some ⟨1, .updater (s.next + 1)⟩ := by
    rw [hfn6, Function.update_noteq (by omega), Function.update_same]
  have hlive6 : ∀ x, x ≠ s.next → s6.live x = s4.live x := fun x hx => by rw [hl6x x hx, hsh5.live]
  obtain ⟨g7, hl7a, hl7x⟩ := g6.appendSub (s.next + 3) (s.next + 2) (by rw [hsubD6]; rfl)
    (by rw [e6n, e5n, e4n]; omega) (by rw [hU6]; rfl)
    (by
      intro cell f' D hc ho
      rw [hU6, Option.some.injEq] at hc
      subst hc
      cases ho)
    (by
      intro t ht x c' hc' ht'
      have htU : t = .dyn (s.next + 1) := by
        simp [State.targetOf, hU6, Fn.target] at ht
        exact ht.symm
      subst htU
      have hc4 : c' ∈ s4.live x := by
        by_cases hx : x = s.next
        · subst hx; rw [hl6n] at hc'; simp at hc'
        · rw [hlive6 x hx] at hc'; exact hc'
      have hcs : c' ∈ s.live x ∨ c' = s.next + 4 := by
        by_cases hxa : x = a
        · subst hxa; rw [hl4a] at hc4; simpa using hc4
        · rw [hl4x x hxa, hlive3] at hc4; exact Or.inl hc4
      rcases hcs with hcs | hcs
      · have hlt' := g.wf.live_lt hcs
        have : s6.targetOf c' = s.targetOf c' := by
          simp [State.targetOf, hfn6, Function.update_noteq (show c' ≠ s.next + 4 by omega),
            Function.update_noteq (show c' ≠ s.next + 2 by omega)]
        rw [this] at ht'
        exact g.wf.no_fresh_target ht' (by show s.next ≤ s.next + 1; omega)
      · subst hcs
        simp [State.targetOf, hfn6, Fn.target] at ht')
  obtain ⟨e7f, e7d, e7k, e7n, e7t, e7w⟩ := appendSub_rest s6 (s.next + 3) (some (s.next + 2))
  refine ⟨s6.appendSub (s.next + 3) (some (s.next + 2)), ?_, g7, by rw [e7n, e6n, e5n, e4n], ⟨?_, ?_⟩, ⟨?_, ?_⟩,
    ?_, ?_, by rw [appendSub_rootOf, hroot6], ?_, by rw [e7t, e6t, e5t, e4t, e3t, e2t, e1t],
    by rw [e7w, e6w, e5w, e4w, e3w, e2w, e1w], ?_⟩
  · unfold fold
    rw [hnever]
    simp only []
    rw [hnew]
    simp only [e1n, hmapped, hd4]
    rw [hs5, hrel]
    simp only [hsubscribe]
  · rw [hl7x a (by omega), hlive6 a (by omega), hl4a]
    simp
  · rw [e7f, hfn6, Function.update_same]
    rfl
  · rw [hl7a]
    simp
  · rw [e7f, hU6]
    rfl
  · simp [State.current, e7d, e6d, e5d, ThreadSafe.getCopy]
  · simp [Dynamic.updated, e7d, e6d, e5d]
  · intro x hx
    have h65 : s6.rootOf x = s4.rootOf x := by
      simp [State.rootOf, e6e, e5e, Function.update_noteq (show x ≠ s.next by omega)]
    rw [appendSub_rootOf, h65, hroot4 x (by omega), hroot3 x (by omega)]
  · rw [hl7a, hlive6 _ (by omega)]
    simp [State.live, hsubD, liveOf]

/-! ### Firing from the outside -/

theorem Targets.everything (s : State V W) (c : Nat) : Targets Footprint.all s c := by
  intro cell _
  cases cell.obj <;> trivial

theorem Closed.everywhere {s : State V W} (wf : WF s) (a : Nat) : Closed (Footprint.all.above a) s :=
  Closed.above wf (fun _ _ c _ => Targets.everything s c) a

theorem invokeAll_mono (f g : Nat → V → State V W → Option (State V W))
    (hfg : ∀ a v s s', f a v s = some s' → g a v s = some s') (a : Nat) (v : V) :
    ∀ (cs : List Nat) (s s' : State V W), invokeAll (invoke f) a v cs s = some s' →
      invokeAll (invoke g) a v cs s = some s' := by
  intro cs
  induction cs with
  | nil => intro s s' h; exact h
  | cons c cs ih =>
    intro s s' h
    simp only [invokeAll] at h ⊢
    cases hi : invoke f c v (s.log (.invoked a c v)) with
    | none => simp [hi] at h
    | some s1 =>
      simp only [hi] at h
      simp only [invoke_mono f g hfg c v _ s1 hi]
      exact ih s1 s' h

/-- `Event.fire` on a root stream of a well-formed state, with enough fuel: the resulting
state, the state after the live subscribers were called, and the frame. -/
theorem fire_root_spec {s : State V W} (wf : WF s) (a : Nat) (v : V)
    (hroot : (s.subscribers a).isSome = true) (P : Footprint) (hPa : P.ev a)
    (hcl : Closed (P.above a) s) (ht : ∀ c ∈ s.live a, Targets P s c) :
    ∃ sl s', (∀ n, s.fuelBound ≤ n + a + 2 →
        invokeAll (invoke (Event.fire n)) a v (s.live a) (s.log (.fired a v)) = some sl ∧
        Event.fire (n + 1) a v s = some s') ∧
      (s' = sl ∨ s' = sl.clean a) ∧ Frame P s s' ∧
      traceAt a (newTrace s s') = .fired a v :: (s.live a).map (fun c => Obs.invoked a c v) := by
  have hlt := wf.lt_of_subscribers a hroot
  obtain ⟨sl, s', h1, h2, h3, h4, h5⟩ := basicFire_ok (s.fuelBound - 2 - a) (fire_ok _) s a v P wf hcl hPa ht
    hroot (by simp only [State.fuelBound]; omega)
  refine ⟨sl, s', ?_, h3, h4, h5⟩
  intro n hn
  have hle : s.fuelBound - 2 - a ≤ n := by omega
  refine ⟨invokeAll_mono _ _ (fun x u t t' h => Event.fire_mono_le _ n hle x u t t' h) a v _ _ _ h2, ?_⟩
  rw [← Event.fire_root _ s a v hroot] at h1
  exact Event.fire_mono_le _ (n + 1) (by omega) a v s s' h1

/-- `Event.fire` through any live handle of a well-formed state returns, and what it records
are calls of live subscribers. -/
theorem fire_handle_ok {s : State V W} (wf : WF s) (h : Nat) (v : V)
    (halive : (s.events h).isSome = true) :
    ∃ s', (∀ fuel, s.fuelBound ≤ fuel → Event.fire fuel h v s = some s') ∧ Frame Footprint.all s s' := by
  cases hc : s.events h with
  | none => simp [hc] at halive
  | some cell =>
    have hroot : ∀ a, (s.subscribers a).isSome = true →
        ∃ s', (∀ fuel, s.fuelBound ≤ fuel + 1 → Event.fire fuel a v s = some s') ∧
          Frame Footprint.all s s' := by
      intro a ha
      obtain ⟨_, s', h1, _, h4, _⟩ := fire_root_spec wf a v ha Footprint.all trivial (Closed.everywhere wf a)
        (fun c _ => Targets.everything s c)
      refine ⟨s', ?_, h4⟩
      intro fuel hf
      have hlt := wf.lt_of_subscribers a ha
      obtain ⟨k, rfl⟩ : ∃ k, fuel = k + 1 := ⟨fuel - 1, by simp only [State.fuelBound] at hf; omega⟩
      exact (h1 k (by omega)).2
    cases ho : cell.obj with
    | basic e =>
      obtain ⟨s', h1, h2⟩ := hroot h (by simp [State.subscribers, hc, ho, IEvent.basic?])
      exact ⟨s', fun fuel hf => h1 fuel (by omega), h2⟩
    | threadSafe e =>
      obtain ⟨s', h1, h2⟩ := hroot h (by simp [State.subscribers, hc, ho, IEvent.basic?])
      exact ⟨s', fun fuel hf => h1 fuel (by omega), h2⟩
    | chained u up D =>
      obtain ⟨s', h1, h2⟩ := hroot D (wf.chained h cell u up D hc ho)
      refine ⟨s', ?_, h2⟩
      intro fuel hf
      obtain ⟨k, rfl⟩ : ∃ k, fuel = k + 1 := ⟨fuel - 1, by simp only [State.fuelBound] at hf; omega⟩
      rw [Event.fire]
      simp only [hc, ho]
      exact h1 k hf
    | never =>
      refine ⟨s, ?_, Frame.unchanged _ s⟩
      intro fuel hf
      obtain ⟨k, rfl⟩ : ∃ k, fuel = k + 1 := ⟨fuel - 1, by simp only [State.fuelBound] at hf; omega⟩
      rw [Event.fire]
      simp only [hc, ho]

/-- A sequence of fires through live handles of a well-formed state returns. -/
theorem fireAll_ok : ∀ (fs : List (Nat × V)) (s : State V W), WF s →
    (∀ hv ∈ fs, (s.events hv.1).isSome = true) →
    ∃ s', (∀ fuel, s.fuelBound ≤ fuel → fireAll fuel fs s = some s') ∧ Frame Footprint.all s s' := by
  intro fs
  induction fs with
  | nil => intro s _ _; exact ⟨s, fun _ _ => rfl, Frame.unchanged _ s⟩
  | cons hv fs ih =>
    intro s wf hfs
    obtain ⟨s1, h1, hfr1⟩ := fire_handle_ok wf hv.1 hv.2 (hfs hv (List.mem_cons_self _ _))
    obtain ⟨s2, h2, hfr2⟩ := ih s1 (WF.of_shape hfr1.shape wf) (fun hv' hm => by
      rw [hfr1.shape.events_isSome]
      exact hfs hv' (List.mem_cons_of_mem _ hm))
    refine ⟨s2, ?_, hfr1.followedBy hfr2⟩
    intro fuel hf
    simp only [fireAll, h1 fuel hf]
    exact h2 fuel (by rw [hfr1.shape.fuelBound]; exact hf)

/-! ### Isolating one subscriber of a pass -/

theorem count_one_split (l : List Nat) (c : Nat) (h : l.count c = 1) :
    ∃ l1 l2, l = l1 ++ c :: l2 ∧ c ∉ l1 ∧ c ∉ l2 := by
  have hmem : c ∈ l := List.count_pos_iff.mp (by omega)
  obtain ⟨l1, l2, rfl⟩ := List.append_of_mem hmem
  refine ⟨l1, l2, rfl, ?_, ?_⟩
  · intro hc
    have := List.count_pos_iff.mpr hc
    simp [List.count_append] at h
    omega
  · intro hc
    have := List.count_pos_iff.mpr hc
    simp [List.count_append] at h
    omega

/-- A pass over the root stream `a`, seen from one of its subscribers `C` that occurs once:
the subscribers before `C` run inside the footprint `P`, then `C` is called, then the
subscribers after `C` and the cleaning run inside `P`. -/
theorem fire_isolate {s : State V W} (wf : WF s) (a C : Nat) (v : V) (hC : (s.live a).count C = 1)
    (P : Footprint) (hPa : P.ev a) (hcl : Closed (P.above a) s)
    (ht : ∀ c ∈ s.live a, c ≠ C → Targets P s c) :
    ∃ s1 s2 s', (∀ fuel, s.fuelBound ≤ fuel + a + 1 → Event.fire fuel a v s = some s') ∧
      Frame P s s1 ∧
      invoke (Event.fire s.fuelBound) C v (s1.log (.invoked a C v)) = some s2 ∧
      Frame (Footprint.all.above a) (s1.log (.invoked a C v)) s2 ∧
      Frame P s2 s' ∧
      newTrace s s' = newTrace s s1 ++
        Obs.invoked a C v :: (newTrace (s1.log (.invoked a C v)) s2 ++ newTrace s2 s') := by
  have hCmem : C ∈ s.live a := List.count_pos_iff.mp (by omega)
  obtain ⟨_, _, _, _⟩ := mem_live hCmem
  have hroot : (s.subscribers a).isSome = true := by
    obtain ⟨subs, hs, _, _⟩ := mem_live hCmem
    simp [hs]
  have hlt := wf.lt_of_subscribers a hroot
  obtain ⟨l1, l2, hsplit, hC1, hC2⟩ := count_one_split _ _ hC
  obtain ⟨sl, s', h1, h3, _, _⟩ := fire_root_spec wf a v hroot Footprint.all trivial (Closed.everywhere wf a)
    (fun c _ => Targets.everything s c)
  obtain ⟨hall, _⟩ := h1 s.fuelBound (by omega)
  have hA := fire_ok (V := V) (W := W) s.fuelBound
  -- before `C`
  have hsh0 : Shape s (s.log (.fired a v)) := Shape.shape_log s _
  have hfr0 : Frame P s (s.log (.fired a v)) := Frame.logged P s _ hPa hroot
  have hfuel0 : (s.log (.fired a v)).next + maxSubsBelow (s.log (.fired a v)) (s.log (.fired a v)).next + 1
      ≤ s.fuelBound + a + 1 := by
    rw [hsh0.next, maxSubsBelow_congr hsh0]; simp only [State.fuelBound]; omega
  obtain ⟨s1, hi1, hfr1, _, _⟩ := invokeAll_ok _ hA a v P hPa l1 (s.log (.fired a v)) (WF.of_shape hsh0 wf)
    (Closed.closed_of_shape hsh0 hcl)
    (fun c hc => by
      have hcl : c ∈ s.live a := by rw [hsplit]; exact List.mem_append_left _ hc
      exact ⟨by rw [hsh0.live]; exact hcl,
        Targets.of_fns rfl c (ht c hcl (fun h => hC1 (h ▸ hc)))⟩) hfuel0
  have hfr01 : Frame P s s1 := hfr0.followedBy hfr1
  have hsh1 : Shape s s1 := hfr01.shape
  rw [hsplit, invokeAll_append, hi1] at hall
  simp only [Option.bind_eq_bind, Option.some_bind, invokeAll] at hall
  -- `C`
  have hsh1' : Shape s (s1.log (.invoked a C v)) := hsh1.andThen (Shape.shape_log s1 _)
  have hfuel1 : (s1.log (.invoked a C v)).next +
      maxSubsBelow (s1.log (.invoked a C v)) (s1.log (.invoked a C v)).next + 1 ≤ s.fuelBound + a + 1 := by
    rw [hsh1'.next, maxSubsBelow_congr hsh1']; simp only [State.fuelBound]; omega
  obtain ⟨s2, hi2, hfr2⟩ := invoke_ok _ hA (s1.log (.invoked a C v)) a C v Footprint.all
    (WF.of_shape hsh1' wf) (Closed.everywhere (WF.of_shape hsh1' wf) a) (by rw [hsh1'.live]; exact hCmem)
    (Targets.everything _ C) hfuel1
  rw [hi2] at hall
  simp only at hall
  -- after `C`
  have hsh2 : Shape s s2 := hsh1'.andThen hfr2.shape
  have hfuel2 : s2.next + maxSubsBelow s2 s2.next + 1 ≤ s.fuelBound + a + 1 := by
    rw [hsh2.next, maxSubsBelow_congr hsh2]; simp only [State.fuelBound]; omega
  obtain ⟨sl', hi3, hfr3, _, _⟩ := invokeAll_ok _ hA a v P hPa l2 s2 (WF.of_shape hsh2 wf)
    (Closed.closed_of_shape hsh2 hcl)
    (fun c hc => by
      have hcl : c ∈ s.live a := by
        rw [hsplit]; exact List.mem_append_right _ (List.mem_cons_of_mem _ hc)
      exact ⟨by rw [hsh2.live]; exact hcl,
        Targets.of_fns hsh2.fns c (ht c hcl (fun h => hC2 (h ▸ hc)))⟩) hfuel2
  rw [hi3] at hall
  simp only [Option.some.injEq] at hall
  subst hall
  have hfr3' : Frame P s2 s' := by
    rcases h3 with h | h
    · rw [h]; exact hfr3
    · rw [h]; exact hfr3.followedBy (Frame.clean P sl' a hPa)
  refine ⟨s1, s2, s', ?_, hfr01, hi2, hfr2, hfr3', ?_⟩
  · intro fuel hf
    obtain ⟨k, rfl⟩ : ∃ k, fuel = k + 1 := ⟨fuel - 1, by simp only [State.fuelBound] at hf; omega⟩
    exact (h1 k (by omega)).2
  · have hlog : Frame Footprint.all s1 (s1.log (.invoked a C v)) :=
      Frame.logged _ s1 _ trivial (by show C ∈ s1.live a; rw [hsh1.live]; exact hCmem)
    have hfr2a : Frame Footprint.all (s1.log (.invoked a C v)) s2 :=
      hfr2.weaken (fun _ _ => trivial) (fun _ h => h) (fun _ h => h)
    have t1 : newTrace s1 (s1.log (.invoked a C v)) = [.invoked a C v] := newTrace_of_eq rfl
    have t12 := newTrace_trans hlog.trace hfr2a.trace
    have t13 := newTrace_trans (hlog.followedBy hfr2a).trace hfr3'.trace
    have t03 := newTrace_trans hfr01.trace ((hlog.followedBy hfr2a).followedBy
      (hfr3'.weaken (fun _ _ => trivial) (fun _ _ => trivial) (fun _ _ => trivial))).trace
    rw [t03, t13, t12, t1]
    simp

theorem hasSub_of_shape {s s' : State V W} (h : Shape s s') {a c : Nat} {body : Fn V W}
    (hs : s.hasSub a c body) : s'.hasSub a c body :=
  ⟨by rw [h.live]; exact hs.1, by rw [h.fns]; exact hs.2⟩

theorem hasSub_targetOf {s : State V W} {a c : Nat} {body : Fn V W} (hs : s.hasSub a c body) :
    s.targetOf c = body.target := by
  have h := hs.2
  unfold State.targetOf
  cases hc : s.fns c with
  | none => simp [hc] at h
  | some cell =>
    simp only [hc, Option.map_some', Option.some.injEq] at h
    simp [h]

theorem targets_of_ne {s : State V W} (P : Footprint) (c : Nat)
    (h : ∀ t, s.targetOf c = some t → P.has t) : Targets P s c :=
  (targets_iff P s c).mpr h

/-- Two fires of the same value into the same stream of the same state give the same state. -/
theorem fire_unique {n m h : Nat} {v : V} {s s1 s2 : State V W} (h1 : Event.fire n h v s = some s1)
    (h2 : Event.fire m h v s = some s2) : s1 = s2 := by
  have e1 := Event.fire_mono_le n (max n m) (le_max_left _ _) h v s s1 h1
  have e2 := Event.fire_mono_le m (max n m) (le_max_right _ _) h v s s2 h2
  rw [e1] at e2
  exact Option.some.inj e2

/-- A pass over `a` seen from the callback `C` of `mappedOptional`: the other subscribers run
inside a footprint `P` that does not hold the downstream stream `D`; `C` calls its function
object in the state `s1` they leave, and fires `D` when the result is present. -/
theorem mapped_isolate {s : State V W} (g : Good s) (a C D : Nat) (F : Callable V (Option V)) (v : V)
    (hC : s.hasSub a C (.mappedOptionalFn F D)) (P : Footprint) (hPa : P.ev a)
    (hcl : Closed (P.above a) s) (ht : ∀ c ∈ s.live a, c ≠ C → Targets P s c) :
    ∃ s1 s2 s', (∀ fuel, s.fuelBound ≤ fuel + a + 1 → Event.fire fuel a v s = some s') ∧
      Frame P s s1 ∧ Frame P s2 s' ∧
      Frame (Footprint.all.above a) (s1.log (.invoked a C v)) s2 ∧
      ((F.call s1 v = some none ∧ s2 = s1.log (.invoked a C v)) ∨
        ∃ u, F.call s1 v = some (some u) ∧
          Event.fire s.fuelBound D u (s1.log (.invoked a C v)) = some s2) ∧
      newTrace s s' = newTrace s s1 ++
        Obs.invoked a C v :: (newTrace (s1.log (.invoked a C v)) s2 ++ newTrace s2 s') := by
  have hcount : (s.live a).count C = 1 :=
    g.lin.once a C (.ev D) hC.1 (by rw [hasSub_targetOf hC]; rfl)
  obtain ⟨s1, s2, s', h1, h2, h3, h4, h5, h6⟩ := fire_isolate g.wf a C v hcount P hPa hcl ht
  refine ⟨s1, s2, s', h1, h2, h5, h4, ?_, h6⟩
  have hfn : (s1.log (.invoked a C v)).fns C = s.fns C := by
    show s1.fns C = s.fns C
    rw [h2.shape.fns]
  have hbody := hC.2
  unfold invoke at h3
  rw [hfn] at h3
  cases hc : s.fns C with
  | none => simp [hc] at hbody
  | some cell =>
    simp only [hc, Option.map_some', Option.some.injEq] at hbody
    simp only [hc, hbody] at h3
    have hcall : F.call (s1.log (.invoked a C v)) v = F.call s1 v := by
      cases F <;> rfl
    rw [hcall] at h3
    cases hr : F.call s1 v with
    | none => simp [hr] at h3
    | some r =>
      cases r with
      | none =>
        simp only [hr, Option.some.injEq] at h3
        exact Or.inl ⟨rfl, h3.symm⟩
      | some u =>
        simp only [hr] at h3
        exact Or.inr ⟨u, rfl, h3⟩

theorem hasSub_cell {s : State V W} {a c : Nat} {body : Fn V W} (hs : s.hasSub a c body) :
    ∃ cell, s.fns c = some cell ∧ cell.obj = body := by
  have h := hs.2
  cases hc : s.fns c with
  | none => simp [hc] at h
  | some cell =>
    simp only [hc, Option.map_some', Option.some.injEq] at h
    exact ⟨cell, rfl, h⟩

theorem targetOf_ev {s : State V W} {c D : Nat} (h : s.targetOf c = some (.ev D)) :
    ∃ cell f, s.fns c = some cell ∧ cell.obj = .mappedOptionalFn f D := by
  unfold State.targetOf at h
  cases hc : s.fns c with
  | none => simp [hc] at h
  | some cell =>
    simp only [hc] at h
    cases ho : cell.obj with
    | mappedOptionalFn f D' =>
      simp only [ho, Fn.target, Option.some.injEq, Target.ev.injEq] at h
      subst h
      exact ⟨cell, f, rfl, ho⟩
    | updater _ => simp [ho, Fn.target] at h
    | vectorSinkFn _ => simp [ho, Fn.target] at h
    | forEachFn _ => simp [ho, Fn.target] at h

theorem WF.ranked_target {s : State V W} (wf : WF s) {b c D : Nat} (hl : c ∈ s.live b)
    (h : s.targetOf c = some (.ev D)) : b < D := by
  obtain ⟨cell, f, hc, ho⟩ := targetOf_ev h
  exact wf.ranked b c cell f D hl hc ho

theorem WF.root_target {s : State V W} (wf : WF s) {c D : Nat} (h : s.targetOf c = some (.ev D)) :
    (s.subscribers D).isSome = true := by
  obtain ⟨cell, f, hc, ho⟩ := targetOf_ev h
  have := wf.runnable c cell hc
  rw [ho] at this
  exact this.1

theorem Footprint.avoiding_has (ts : List Target) (t : Target) :
    (Footprint.avoiding ts).has t ↔ t ∉ ts := by
  cases t <;> rfl

/-- In a good state, the subscribers other than the ones that own the targets `ts` stay
away from them: the footprint avoiding `ts` is closed above `a` when every target of `ts` is
owned by a live subscriber of `a` or of a stream of `ts`. -/
theorem Closed.closed_avoiding {s : State V W} (g : Good s) (a : Nat) (ts : List Target)
    (hown : ∀ t ∈ ts, ∃ x c, c ∈ s.live x ∧ s.targetOf c = some t ∧ (x = a ∨ Target.ev x ∈ ts)) :
    Closed ((Footprint.avoiding ts).above a) s := by
  intro b hb c hl
  apply targets_of_ne
  intro t ht
  have hnot : t ∉ ts := by
    intro hmem
    obtain ⟨x, c', hl', ht', hx⟩ := hown t hmem
    obtain ⟨hbx, _⟩ := g.lin.unique b x c c' t hl hl' ht ht'
    rcases hx with hx | hx
    · have := hb.2
      omega
    · exact hb.1 (hbx ▸ hx)
  cases t with
  | ev D => exact ⟨hnot, lt_trans hb.2 (g.wf.ranked_target hl ht)⟩
  | dyn d => exact hnot
  | sink k => exact hnot

theorem Targets.targets_avoiding {s : State V W} (g : Good s) (a C : Nat) (ts : List Target)
    (hown : ∀ t ∈ ts, ∃ x c, c ∈ s.live x ∧ s.targetOf c = some t ∧ ((x = a ∧ c = C) ∨ a < x))
    (c : Nat) (hl : c ∈ s.live a) (hne : c ≠ C) : Targets (Footprint.avoiding ts) s c := by
  apply targets_of_ne
  intro t ht
  rw [Footprint.avoiding_has]
  intro hmem
  obtain ⟨x, c', hl', ht', hx⟩ := hown t hmem
  obtain ⟨hax, hcc⟩ := g.lin.unique a x c c' t hl hl' ht ht'
  rcases hx with ⟨_, hx⟩ | hx
  · exact hne (hcc.trans hx)
  · omega

theorem traceAt_eq_nil_of_frame {P : Footprint} {s s' : State V W} (h : Frame P s s') (D : Nat)
    (hD : ¬ P.ev D) : traceAt D (newTrace s s') = [] :=
  traceAt_eq_nil _ _ fun o ho he => hD (he ▸ h.traceIn o ho)

/-- In a good state in which the callback `C` of `mappedOptional(s, f)`, `f` pure, is a live
subscriber of the root stream `a`: a fire of `v` into `a` returns, and the observations of the
downstream stream `D` are one pass with the unwrapped `f v` calling every live subscriber of
`D` once in order when `f v` is present, and none at all when it is absent. -/
theorem mappedOptional_fires {s : State V W} (g : Good s) (a C D : Nat) (f : V → Option V) (v : V)
    (hC : s.hasSub a C (.mappedOptionalFn (.pure f) D)) :
    ∃ s', (∀ fuel, s.fuelBound ≤ fuel + a + 1 → Event.fire fuel a v s = some s') ∧
      Frame Footprint.all s s' ∧
      traceAt D (newTrace s s') =
        (match f v with
          | none => []
          | some u => Obs.fired D u :: (s.live D).map (fun c => Obs.invoked D c u)) := by
  have htC : s.targetOf C = some (.ev D) := by rw [hasSub_targetOf hC]; rfl
  have hrank : a < D := g.wf.ranked_target hC.1 htC
  have hDroot := g.wf.root_target htC
  have hPa : (Footprint.avoiding [Target.ev D]).ev a := by
    simp only [Footprint.avoiding, List.mem_singleton, Target.ev.injEq]
    omega
  have hnotD : ¬ (Footprint.avoiding [Target.ev D]).ev D := by
    simp [Footprint.avoiding]
  obtain ⟨s1, s2, s', h1, h2, h3, h4, h5, h6⟩ := mapped_isolate g a C D (.pure f) v hC
    (Footprint.avoiding [.ev D]) hPa
    (Closed.closed_avoiding g a _ (fun t ht => by
      rw [List.mem_singleton] at ht; subst ht
      exact ⟨a, C, hC.1, htC, Or.inl rfl⟩))
    (Targets.targets_avoiding g a C _ (fun t ht => by
      rw [List.mem_singleton] at ht; subst ht
      exact ⟨a, C, hC.1, htC, Or.inl ⟨rfl, rfl⟩⟩))
  have hlog : Frame Footprint.all s1 (s1.log (.invoked a C v)) :=
    Frame.logged _ s1 _ trivial (by show C ∈ s1.live a; rw [h2.shape.live]; exact hC.1)
  have hall : Frame Footprint.all s s' :=
    ((h2.weaken (fun _ _ => trivial) (fun _ _ => trivial) (fun _ _ => trivial)).followedBy
      (hlog.followedBy (h4.weaken (fun _ _ => trivial) (fun _ h => h) (fun _ h => h)))).followedBy
      (h3.weaken (fun _ _ => trivial) (fun _ _ => trivial) (fun _ _ => trivial))
  refine ⟨s', h1, hall, ?_⟩
  rw [h6, traceAt_append, traceAt_eq_nil_of_frame h2 D hnotD]
  have hcons : traceAt D (Obs.invoked a C v :: (newTrace (s1.log (.invoked a C v)) s2 ++ newTrace s2 s')) =
      traceAt D (newTrace (s1.log (.invoked a C v)) s2) := by
    have : traceAt D [Obs.invoked a C v] = ([] : List (Obs V)) := by
      simp only [traceAt, List.filter_cons, Obs.event, List.filter_nil]
      rw [if_neg (by simp; omega)]
    rw [show Obs.invoked a C v :: (newTrace (s1.log (.invoked a C v)) s2 ++ newTrace s2 s') =
      [Obs.invoked a C v] ++ (newTrace (s1.log (.invoked a C v)) s2 ++ newTrace s2 s') from rfl,
      traceAt_append, traceAt_append, this, traceAt_eq_nil_of_frame h3 D hnotD]
    simp
  rw [hcons, List.nil_append]
  have hsh1 : Shape s (s1.log (.invoked a C v)) := h2.shape.andThen (Shape.shape_log s1 _)
  rcases h5 with ⟨hcall, hs2⟩ | ⟨u, hcall, hfire⟩
  · simp only [Callable.call, Option.some.injEq] at hcall
    rw [hcall, hs2, newTrace_self]
    rfl
  · simp only [Callable.call, Option.some.injEq] at hcall
    rw [hcall]
    have wf1 := WF.of_shape hsh1 g.wf
    obtain ⟨_, s2', hf, _, _, htr⟩ := fire_root_spec wf1 D u (by rw [hsh1.subscribers_isSome]; exact hDroot)
      Footprint.all trivial (Closed.everywhere wf1 D) (fun c _ => Targets.everything _ c)
    have hf' := (hf s.fuelBound (by rw [hsh1.fuelBound]; omega)).2
    have := fire_unique hfire hf'
    subst this
    rw [htr, hsh1.live]

/-! ### Passes that reach an updater or a collector -/

theorem frame_all {P : Footprint} {s s' : State V W} (h : Frame P s s') : Frame Footprint.all s s' :=
  h.weaken (fun _ _ => trivial) (fun _ _ => trivial) (fun _ _ => trivial)

theorem isolate_all {P : Footprint} {s s1 s2 s' : State V W} {a C : Nat} {v : V} (hC : C ∈ s.live a)
    (h2 : Frame P s s1) (h4 : Frame (Footprint.all.above a) (s1.log (.invoked a C v)) s2)
    (h5 : Frame P s2 s') : Frame Footprint.all s s' := by
  have hlog : Frame Footprint.all s1 (s1.log (.invoked a C v)) :=
    Frame.logged _ s1 _ trivial (by show C ∈ s1.live a; rw [h2.shape.live]; exact hC)
  exact ((frame_all h2).followedBy (hlog.followedBy
    (h4.weaken (fun _ _ => trivial) (fun _ h => h) (fun _ h => h)))).followedBy (frame_all h5)

/-- In a good state in which the updater `U` of the Dynamic at `d` is a live subscriber of
the root stream `a`: a fire of `v` into `a` returns, and afterwards the current value of the
Dynamic is `v`. -/
theorem updater_fires {s : State V W} (g : Good s) (a U d : Nat) (v : V) (hU : s.hasSub a U (.updater d)) :
    ∃ s', (∀ fuel, s.fuelBound ≤ fuel + a + 1 → Event.fire fuel a v s = some s') ∧
      Frame Footprint.all s s' ∧ s'.current d = some v := by
  have htU : s.targetOf U = some (.dyn d) := by rw [hasSub_targetOf hU]; rfl
  have hcount : (s.live a).count U = 1 := g.lin.once a U (.dyn d) hU.1 htU
  obtain ⟨s1, s2, s', h1, h2, h3, h4, h5, _⟩ := fire_isolate g.wf a U v hcount
    (Footprint.avoiding [.dyn d]) (by simp [Footprint.avoiding])
    (Closed.closed_avoiding g a _ (fun t ht => by
      rw [List.mem_singleton] at ht; subst ht
      exact ⟨a, U, hU.1, htU, Or.inl rfl⟩))
    (Targets.targets_avoiding g a U _ (fun t ht => by
      rw [List.mem_singleton] at ht; subst ht
      exact ⟨a, U, hU.1, htU, Or.inl ⟨rfl, rfl⟩⟩))
  refine ⟨s', h1, isolate_all hU.1 h2 h4 h5, ?_⟩
  have hnot : ¬ (Footprint.avoiding [Target.dyn d]).dyn d := by simp [Footprint.avoiding]
  obtain ⟨cell, hc, ho⟩ := hasSub_cell hU
  have hfn : (s1.log (.invoked a U v)).fns U = some cell := by
    show s1.fns U = some cell
    rw [h2.shape.fns]; exact hc
  unfold invoke at h3
  simp only [hfn, ho] at h3
  unfold State.setCurrent at h3
  cases hd : (s1.log (.invoked a U v)).dyns d with
  | none => simp [hd] at h3
  | some dc =>
    simp only [hd, Option.some.injEq] at h3
    have h2d : s2.current d = some v := by
      rw [← h3]
      simp [State.current, ThreadSafe.set, ThreadSafe.getCopy]
    simp only [State.current] at h2d ⊢
    rw [h5.dyns d hnot]
    exact h2d

/-- In a good state in which the callback `K` of the collecting sink at `k` is a live
subscriber of the root stream `a`: a fire of `v` into `a` returns, and afterwards the sink
holds the items it held followed by `v`. -/
theorem vectorSink_fires {s : State V W} (g : Good s) (a K k : Nat) (v : V)
    (hK : s.hasSub a K (.vectorSinkFn k)) :
    ∃ s', (∀ fuel, s.fuelBound ≤ fuel + a + 1 → Event.fire fuel a v s = some s') ∧
      Frame Footprint.all s s' ∧ ∃ items, Sink.result k s = some items ∧
        Sink.result k s' = some (items ++ [v]) := by
  have htK : s.targetOf K = some (.sink k) := by rw [hasSub_targetOf hK]; rfl
  have hcount : (s.live a).count K = 1 := g.lin.once a K (.sink k) hK.1 htK
  obtain ⟨s1, s2, s', h1, h2, h3, h4, h5, _⟩ := fire_isolate g.wf a K v hcount
    (Footprint.avoiding [.sink k]) (by simp [Footprint.avoiding])
    (Closed.closed_avoiding g a _ (fun t ht => by
      rw [List.mem_singleton] at ht; subst ht
      exact ⟨a, K, hK.1, htK, Or.inl rfl⟩))
    (Targets.targets_avoiding g a K _ (fun t ht => by
      rw [List.mem_singleton] at ht; subst ht
      exact ⟨a, K, hK.1, htK, Or.inl ⟨rfl, rfl⟩⟩))
  refine ⟨s', h1, isolate_all hK.1 h2 h4 h5, ?_⟩
  have hnot : ¬ (Footprint.avoiding [Target.sink k]).sink k := by simp [Footprint.avoiding]
  obtain ⟨cell, hc, ho⟩ := hasSub_cell hK
  have hfn : (s1.log (.invoked a K v)).fns K = some cell := by
    show s1.fns K = some cell
    rw [h2.shape.fns]; exact hc
  have hk1 : (s1.log (.invoked a K v)).sinks k = s.sinks k := h2.sinks k hnot
  unfold invoke at h3
  simp only [hfn, ho] at h3
  unfold State.pushItem at h3
  rw [hk1] at h3
  cases hkc : s.sinks k with
  | none => simp [hkc] at h3
  | some kc =>
    simp only [hkc] at h3
    cases hko : kc.obj with
    | voidSink _ _ => simp [hko] at h3
    | vectorSink up items sub =>
      simp only [hko, Option.some.injEq] at h3
      refine ⟨items.getCopy, by simp [Sink.result, hkc, hko], ?_⟩
      have : Sink.result k s2 = some (items.getCopy ++ [v]) := by
        rw [← h3]
        simp [Sink.result, ThreadSafe.withMutableVoid, ThreadSafe.getCopy]
      simp only [Sink.result] at this ⊢
      rw [h5.sinks k hnot]
      exact this

/-- In a good state in which the callback `C` that `fold` subscribes to the root stream `a`
and the updater `U` of the Dynamic at `d`, subscribed to the downstream stream `D` of `C`, are
live: a fire of `v` into `a` returns, and afterwards the current value of the Dynamic is what
the function object makes of `v` and the value before the fire (unchanged if it makes
nothing). -/
theorem fold_fires {s : State V W} (g : Good s) (a C D U d : Nat) (F : V → V → Option V) (v old : V)
    (hC : s.hasSub a C (.mappedOptionalFn (.withCurrent d F) D)) (hU : s.hasSub D U (.updater d))
    (hold : s.current d = some old) :
    ∃ s', (∀ fuel, s.fuelBound ≤ fuel + a + 1 → Event.fire fuel a v s = some s') ∧
      Frame Footprint.all s s' ∧ s'.current d = some ((F v old).getD old) := by
  have htC : s.targetOf C = some (.ev D) := by rw [hasSub_targetOf hC]; rfl
  have htU : s.targetOf U = some (.dyn d) := by rw [hasSub_targetOf hU]; rfl
  have hrank : a < D := g.wf.ranked_target hC.1 htC
  have hPa : (Footprint.avoiding [Target.ev D, Target.dyn d]).ev a := by
    simp only [Footprint.avoiding, List.mem_cons, Target.ev.injEq, List.mem_singleton]
    simp
    omega
  have hnotd : ¬ (Footprint.avoiding [Target.ev D, Target.dyn d]).dyn d := by simp [Footprint.avoiding]
  obtain ⟨s1, s2, s', h1, h2, h3, h4, h5, _⟩ := mapped_isolate g a C D (.withCurrent d F) v hC
    (Footprint.avoiding [.ev D, .dyn d]) hPa
    (Closed.closed_avoiding g a _ (fun t ht => by
      simp only [List.mem_cons, List.mem_singleton, List.mem_nil_iff, or_false] at ht
      rcases ht with rfl | rfl
      · exact ⟨a, C, hC.1, htC, Or.inl rfl⟩
      · exact ⟨D, U, hU.1, htU, Or.inr (by simp)⟩))
    (Targets.targets_avoiding g a C _ (fun t ht => by
      simp only [List.mem_cons, List.mem_singleton, List.mem_nil_iff, or_false] at ht
      rcases ht with rfl | rfl
      · exact ⟨a, C, hC.1, htC, Or.inl ⟨rfl, rfl⟩⟩
      · exact ⟨D, U, hU.1, htU, Or.inr hrank⟩))
  refine ⟨s', h1, isolate_all hC.1 h2 h4 h3, ?_⟩
  have hcur1 : s1.current d = some old := by
    simp only [State.current] at hold ⊢
    rw [h2.dyns d hnotd]; exact hold
  have hcall : (Callable.withCurrent d F).call s1 v = some (F v old) := by
    simp [Callable.call, hcur1]
  have hfinal : s'.current d = s2.current d := by
    simp only [State.current]
    rw [h3.dyns d hnotd]
  rw [hfinal]
  rcases h5 with ⟨hnone, hs2⟩ | ⟨u, hsome, hfire⟩
  · rw [hcall] at hnone
    simp only [Option.some.injEq] at hnone
    rw [hnone, hs2]
    exact hcur1
  · rw [hcall] at hsome
    simp only [Option.some.injEq] at hsome
    rw [hsome]
    have hsh1 : Shape s (s1.log (.invoked a C v)) := h2.shape.andThen (Shape.shape_log s1 _)
    obtain ⟨s2', hf, _, hcur⟩ := updater_fires (g.good_of_shape hsh1) D U d u (hasSub_of_shape hsh1 hU)
    have hf' := hf s.fuelBound (by rw [hsh1.fuelBound]; omega)
    have := fire_unique hfire hf'
    subst this
    simpa using hcur

/-! ## The fire and subscribe protocol -/

/-- C2 (dead subscriber skip).  Let `c` be an entry of the subscriber vector of the root
stream `e` whose callback object is gone.  Then `fire(v)` on `e` returns, the calls it makes on
`e` are exactly those of the live entries, among which `c` is not, so that nothing is called
when no entry is live; and no sequence of fires through live handles, this one or later
ones, ever calls `c`: every such sequence returns and its observations do not call `c`. -/
theorem deadSubscriberSkip (s : State V W) (wf : WF s) (e : Nat) (subs : List WeakPtr)
    (hs : s.subscribers e = some subs) (c : Nat) (_hc : some c ∈ subs) (hdead : s.fns c = none) (v : V) :
    (∃ s', (∀ fuel, s.fuelBound ≤ fuel → Event.fire fuel e v s = some s') ∧
      traceAt e (newTrace s s') = Obs.fired e v :: (liveOf s subs).map (fun c' => Obs.invoked e c' v) ∧
      (liveOf s subs = [] → traceAt e (newTrace s s') = [Obs.fired e v])) ∧
    c ∉ liveOf s subs ∧
    ∀ fs : List (Nat × V), (∀ hv ∈ fs, (s.events hv.1).isSome = true) →
      ∃ s', (∀ fuel, s.fuelBound ≤ fuel → fireAll fuel fs s = some s') ∧
        s'.trace = s.trace ++ newTrace s s' ∧ ∀ x u, Obs.invoked x c u ∉ newTrace s s' := by
  have hroot : (s.subscribers e).isSome = true := by simp [hs]
  have hnot : c ∉ liveOf s subs := fun h => by
    have := ((mem_liveOf s subs c).mp h).2
    simp [hdead] at this
  refine ⟨?_, hnot, ?_⟩
  · obtain ⟨s', h1, h4⟩ := fire_handle_ok wf e v (by
      obtain ⟨cell, hc, _⟩ := subscribers_cases hroot
      simp [hc])
    obtain ⟨_, s'', h1', _, _, h5⟩ := fire_root_spec wf e v hroot Footprint.all trivial (Closed.everywhere wf e)
      (fun c _ => Targets.everything s c)
    have hsame : s'' = s' := by
      have e1 := h1 (s.fuelBound + 1) (by omega)
      have e2 := (h1' s.fuelBound (by omega)).2
      rw [e1] at e2
      exact (Option.some.inj e2).symm
    subst hsame
    have h5' : traceAt e (newTrace s s'') =
        Obs.fired e v :: (liveOf s subs).map (fun c' => Obs.invoked e c' v) := by
      rw [h5]; simp [State.live, hs]
    exact ⟨s'', h1, h5', fun hnil => by rw [h5', hnil]; rfl⟩
  · intro fs hfs
    obtain ⟨s', h1, hfr⟩ := fireAll_ok fs s wf hfs
    refine ⟨s', h1, hfr.trace, ?_⟩
    intro x u hmem
    have hl : c ∈ s.live x := hfr.sound _ hmem
    obtain ⟨_, _, _, halive⟩ := mem_live hl
    simp [hdead] at halive

/-! ## The combinators -/

/-- Firing through a handle that forwards to the root stream `a`. -/
theorem fire_via_handle {s s' : State V W} {h a : Nat} {v : V} (hr : s.rootOf h = some a)
    (hf : ∀ fuel, s.fuelBound ≤ fuel + a + 1 → Event.fire fuel a v s = some s') :
    ∀ fuel, s.fuelBound ≤ fuel → Event.fire fuel h v s = some s' := by
  intro fuel hfuel
  unfold State.rootOf at hr
  cases hc : s.events h with
  | none => simp [hc] at hr
  | some cell =>
    simp only [hc] at hr
    cases ho : cell.obj with
    | basic e =>
      simp only [ho, Option.some.injEq] at hr
      subst hr
      exact hf fuel (by omega)
    | threadSafe e =>
      simp only [ho, Option.some.injEq] at hr
      subst hr
      exact hf fuel (by omega)
    | chained u up D =>
      simp only [ho, Option.some.injEq] at hr
      subst hr
      obtain ⟨k, rfl⟩ : ∃ k, fuel = k + 1 := ⟨fuel - 1, by simp only [State.fuelBound] at hfuel; omega⟩
      rw [Event.fire]
      simp only [hc, ho]
      exact hf k (by omega)
    | never => simp [ho] at hr

/-- What `mappedOptional` leaves behind, in the words of `hasSub`. -/
theorem mappedOptional_hasSub {s : State V W} (g : Good s) (inp a : Nat) (f : Callable V (Option V))
    (hr : s.rootOf inp = some a) (hf : f.readable s) :
    ∃ s', mappedOptional inp f s = some (s.next + 2, s') ∧ Good s' ∧
      s'.hasSub a (s.next + 1) (.mappedOptionalFn f s.next) ∧ s'.rootOf (s.next + 2) = some s.next ∧
      s'.rootOf inp = some a ∧ s'.live s.next = [] ∧ s.subscribers s.next = none := by
  obtain ⟨s', h1, h2, _, h4, _, _, _, _, h9, h10, h11, h12, _, h14, _, _, _⟩ := mappedOptional_spec g inp a f hr hf
  have ha := g.wf.lt_of_subscribers a (g.wf.rootOf_root hr)
  refine ⟨s', h1, h2, ⟨by rw [h9]; simp, by rw [h4]; simp⟩, by simp [State.rootOf, h12],
    by rw [h14 inp (rootOf_lt g.wf hr)]; exact hr, ?_, g.wf.subscribers_fresh _ (le_refl _)⟩
  rw [h10 s.next (by omega)]
  simp [State.live, g.wf.subscribers_fresh s.next (le_refl _)]

/-- C5 (`mappedOptional`).  On a stream that forwards to the root stream `a`,
`mappedOptional(upstream, f)` returns a handle that forwards to a fresh stream `D`, and leaves a
callback `C` as live subscriber of `a`.  Called with `t`, `C` does nothing but fire `D` with
`u` when `f t` is `some u`, and nothing at all when `f t` is absent.  In every good state in
which `C` is still subscribed, `C` occurs once among the live subscribers of `a`, a fire of
`t` into the upstream returns and calls every live subscriber of `a` once, so `C` and with it
`f` once, and `D` sees exactly one pass with `u` if `f t = some u` and none otherwise. -/
theorem mappedOptional_callback (s0 : State V W) (g0 : Good s0) (upstream a : Nat) (f : V → Option V)
    (hr : s0.rootOf upstream = some a) :
    ∃ s1, mappedOptional upstream (.pure f) s0 = some (s0.next + 2, s1) ∧ Good s1 ∧
      s1.rootOf (s0.next + 2) = some s0.next ∧ s0.subscribers s0.next = none ∧
      s1.hasSub a (s0.next + 1) (.mappedOptionalFn (.pure f) s0.next) ∧ s1.rootOf upstream = some a ∧
      s1.live s0.next = [] ∧
      (∀ (s : State V W) (fire : Nat → V → State V W → Option (State V W)) (t : V),
        (s.fns (s0.next + 1)).map (fun c => c.obj) = some (.mappedOptionalFn (.pure f) s0.next) →
        invoke fire (s0.next + 1) t s =
          (match f t with
            | none => some s
            | some u => fire s0.next u s)) ∧
      ∀ s : State V W, Good s → s.hasSub a (s0.next + 1) (.mappedOptionalFn (.pure f) s0.next) →
        s.rootOf upstream = some a → ∀ t : V,
        ∃ s', (∀ fuel, s.fuelBound ≤ fuel → Event.fire fuel upstream t s = some s') ∧
          s'.trace = s.trace ++ newTrace s s' ∧
          (s.live a).count (s0.next + 1) = 1 ∧
          traceAt a (newTrace s s') = Obs.fired a t :: (s.live a).map (fun c => Obs.invoked a c t) ∧
          traceAt s0.next (newTrace s s') =
            (match f t with
              | none => []
              | some u => Obs.fired s0.next u :: (s.live s0.next).map (fun c => Obs.invoked s0.next c u)) := by
  obtain ⟨s1, h1, h2, h3, h4, h5, h6, h7⟩ := mappedOptional_hasSub g0 upstream a (.pure f) hr trivial
  refine ⟨s1, h1, h2, h4, h7, h3, h5, h6, ?_, ?_⟩
  · intro s fire t hbody
    cases hc : s.fns (s0.next + 1) with
    | none => simp [hc] at hbody
    | some cell =>
      simp only [hc, Option.map_some', Option.some.injEq] at hbody
      simp only [invoke, hc, hbody, Callable.call]
      cases f t <;> rfl
  · intro s g hC hrs t
    obtain ⟨s', hf, hfr, htr⟩ := mappedOptional_fires g a (s0.next + 1) s0.next f t hC
    have hroot := g.wf.rootOf_root hrs
    obtain ⟨_, s'', hf', _, _, hta⟩ := fire_root_spec g.wf a t hroot Footprint.all trivial
      (Closed.everywhere g.wf a) (fun c _ => Targets.everything s c)
    have hsame : s'' = s' :=
      fire_unique (hf' s.fuelBound (by omega)).2 (hf s.fuelBound (by omega))
    subst hsame
    exact ⟨s'', fire_via_handle hrs hf, hfr.trace,
      g.lin.once a _ (.ev s0.next) hC.1 (by rw [hasSub_targetOf hC]; rfl), hta, htr⟩

/-- C3 (map law).  On a stream that forwards to the root stream `a`, `mapped(s, f)` returns a
handle `m` that forwards to a fresh stream `D`.  In every good state in which the callback of
`m` is still subscribed (`m` is kept reachable), a fire of `v` into `s` returns and `D` sees
exactly one pass, with `f v`: every live subscriber of `D`, that is of `m`, is called once
with `f v`, in order, and nothing else happens on `D`. -/
theorem mapLaw (s0 : State V W) (g0 : Good s0) (inp a : Nat) (f : V → V)
    (hr : s0.rootOf inp = some a) :
    ∃ s1, mapped inp (.pure f) s0 = some (s0.next + 2, s1) ∧ Good s1 ∧
      s1.rootOf (s0.next + 2) = some s0.next ∧
      s1.hasSub a (s0.next + 1) (.mappedOptionalFn (.pure fun t => some (f t)) s0.next) ∧
      s1.rootOf inp = some a ∧ s1.live s0.next = [] ∧
      ∀ s : State V W, Good s →
        s.hasSub a (s0.next + 1) (.mappedOptionalFn (.pure fun t => some (f t)) s0.next) →
        s.rootOf inp = some a → ∀ v : V,
        ∃ s', (∀ fuel, s.fuelBound ≤ fuel → Event.fire fuel inp v s = some s') ∧
          s'.trace = s.trace ++ newTrace s s' ∧
          traceAt s0.next (newTrace s s') =
            Obs.fired s0.next (f v) :: (s.live s0.next).map (fun c => Obs.invoked s0.next c (f v)) := by
  obtain ⟨s1, h1, h2, h3, h4, h5, h6, _⟩ :=
    mappedOptional_hasSub g0 inp a (.pure fun t => some (f t)) hr trivial
  refine ⟨s1, h1, h2, h4, h3, h5, h6, ?_⟩
  intro s g hC hrs v
  obtain ⟨s', hf, hfr, htr⟩ := mappedOptional_fires g a (s0.next + 1) s0.next (fun t => some (f t)) v hC
  exact ⟨s', fire_via_handle hrs hf, hfr.trace, htr⟩

/-- C4 (filter).  On a stream that forwards to the root stream `a`, `filtered(s, pred)` returns
a handle that forwards to a fresh stream `D`.  In every good state in which its callback is
still subscribed, a fire of `v` into `s` returns; when `pred v` holds `D` sees exactly one
pass, with the unchanged `v`, and when it does not `D` sees nothing. -/
theorem filterLaw (s0 : State V W) (g0 : Good s0) (inp a : Nat) (pred : V → Bool)
    (hr : s0.rootOf inp = some a) :
    ∃ s1, filtered inp (.pure pred) s0 = some (s0.next + 2, s1) ∧ Good s1 ∧
      s1.rootOf (s0.next + 2) = some s0.next ∧
      s1.hasSub a (s0.next + 1)
        (.mappedOptionalFn (.pure fun t => if pred t then some t else none) s0.next) ∧
      s1.rootOf inp = some a ∧ s1.live s0.next = [] ∧
      ∀ s : State V W, Good s →
        s.hasSub a (s0.next + 1)
          (.mappedOptionalFn (.pure fun t => if pred t then some t else none) s0.next) →
        s.rootOf inp = some a → ∀ v : V,
        ∃ s', (∀ fuel, s.fuelBound ≤ fuel → Event.fire fuel inp v s = some s') ∧
          s'.trace = s.trace ++ newTrace s s' ∧
          traceAt s0.next (newTrace s s') =
            (if pred v then
              Obs.fired s0.next v :: (s.live s0.next).map (fun c => Obs.invoked s0.next c v)
            else []) := by
  obtain ⟨s1, h1, h2, h3, h4, h5, h6, _⟩ :=
    mappedOptional_hasSub g0 inp a (.pure fun t => if pred t then some t else none) hr trivial
  refine ⟨s1, h1, h2, h4, h3, h5, h6, ?_⟩
  intro s g hC hrs v
  obtain ⟨s', hf, hfr, htr⟩ := mappedOptional_fires g a (s0.next + 1) s0.next
    (fun t => if pred t then some t else none) v hC
  refine ⟨s', fire_via_handle hrs hf, hfr.trace, ?_⟩
  rw [htr]
  cases pred v <;> rfl

/-! ## Dynamics and collectors -/

theorem Shape.rootOf_eq {s s' : State V W} (h : Shape s s') (x : Nat) : s'.rootOf x = s.rootOf x := by
  have he := h.events x
  unfold State.rootOf
  cases h1 : s'.events x with
  | none =>
    cases h2 : s.events x with
    | none => rfl
    | some c2 => rw [h1, h2] at he; simp at he
  | some c1 =>
    cases h2 : s.events x with
    | none => rw [h1, h2] at he; simp at he
    | some c2 =>
      rw [h1, h2] at he
      simp only [Option.map_some', Option.some.injEq] at he
      cases o1 : c1.obj <;> cases o2 : c2.obj <;> rw [o1, o2] at he <;>
        simp_all [IEvent.setSubscribers]

/-- Firing a list of values into the handle `h`, one after another, from a state in which a
property holds that every single fire keeps. -/
theorem fireAll_steps {α : Type} (h : Nat) (Inv : α → State V W → Prop) (step : α → V → α)
    (hstep : ∀ acc s v, Inv acc s →
      ∃ s', (∀ fuel, s.fuelBound ≤ fuel → Event.fire fuel h v s = some s') ∧ Shape s s' ∧
        Inv (step acc v) s') :
    ∀ (vs : List V) (acc : α) (s : State V W), Inv acc s →
      ∃ s', (∀ fuel, s.fuelBound ≤ fuel → fireAll fuel (vs.map fun v => (h, v)) s = some s') ∧
        Shape s s' ∧ Inv (vs.foldl step acc) s'
  | [], _, s, hi => ⟨s, fun _ _ => rfl, Shape.same s, hi⟩
  | v :: vs, acc, s, hi => by
    obtain ⟨s1, hf, hsh, hi1⟩ := hstep acc s v hi
    obtain ⟨s', hfs, hsh', hi'⟩ := fireAll_steps h Inv step hstep vs (step acc v) s1 hi1
    refine ⟨s', ?_, hsh.andThen hsh', hi'⟩
    intro fuel hfuel
    simp only [List.map_cons, fireAll, hf fuel hfuel]
    exact hfs fuel (by rw [hsh.fuelBound]; exact hfuel)

theorem foldl_last (c : V) : ∀ vs : List V, vs.foldl (fun _ v => v) c = vs.getLast?.getD c
  | [] => rfl
  | [v] => rfl
  | v :: w :: vs => by
    have ih := foldl_last v (w :: vs)
    rw [List.foldl_cons, ih, List.getLast?_cons_cons]
    cases h : (w :: vs).getLast? with
    | none => simp at h
    | some x => rfl

theorem foldl_snoc (items : List V) : ∀ vs : List V, vs.foldl (fun acc v => acc ++ [v]) items = items ++ vs
  | [] => by simp
  | v :: vs => by
    rw [List.foldl_cons, foldl_snoc (items ++ [v]) vs]
    simp

/-- Fires with the updater of a Dynamic subscribed: the Dynamic ends on the last value. -/
theorem updater_sequence {s : State V W} (g : Good s) (event a U d : Nat) (c : V)
    (hU : s.hasSub a U (.updater d)) (hr : s.rootOf event = some a) (hc : s.current d = some c)
    (vs : List V) :
    ∃ s', (∀ fuel, s.fuelBound ≤ fuel → fireAll fuel (vs.map fun v => (event, v)) s = some s') ∧
      Good s' ∧ s'.hasSub a U (.updater d) ∧ s'.rootOf event = some a ∧
      s'.current d = some (vs.getLast?.getD c) := by
  obtain ⟨s', hf, _, hg, hU', hr', hc'⟩ := fireAll_steps event
    (fun acc s => Good s ∧ s.hasSub a U (.updater d) ∧ s.rootOf event = some a ∧ s.current d = some acc)
    (fun _ v => v)
    (by
      intro acc s v ⟨g, hU, hr, _⟩
      obtain ⟨s', hf, hfr, hcur⟩ := updater_fires g a U d v hU
      exact ⟨s', fire_via_handle hr hf, hfr.shape, g.good_of_shape hfr.shape,
        hasSub_of_shape hfr.shape hU, by rw [hfr.shape.rootOf_eq]; exact hr, hcur⟩)
    vs c s ⟨g, hU, hr, hc⟩
  exact ⟨s', hf, hg, hU', hr', by rw [hc', foldl_last]⟩

/-- Fires with the callback of a collector subscribed: the values are appended in order. -/
theorem vectorSink_sequence {s : State V W} (g : Good s) (inp a K k : Nat) (items : List V)
    (hK : s.hasSub a K (.vectorSinkFn k)) (hr : s.rootOf inp = some a)
    (hc : Sink.result k s = some items) (vs : List V) :
    ∃ s', (∀ fuel, s.fuelBound ≤ fuel → fireAll fuel (vs.map fun v => (inp, v)) s = some s') ∧
      Good s' ∧ s'.hasSub a K (.vectorSinkFn k) ∧ s'.rootOf inp = some a ∧
      Sink.result k s' = some (items ++ vs) := by
  obtain ⟨s', hf, _, hg, hK', hr', hc'⟩ := fireAll_steps inp
    (fun acc s => Good s ∧ s.hasSub a K (.vectorSinkFn k) ∧ s.rootOf inp = some a ∧
      Sink.result k s = some acc)
    (fun acc v => acc ++ [v])
    (by
      intro acc s v ⟨g, hK, hr, hacc⟩
      obtain ⟨s', hf, hfr, items', h1, h2⟩ := vectorSink_fires g a K k v hK
      rw [hacc, Option.some.injEq] at h1
      subst h1
      exact ⟨s', fire_via_handle hr hf, hfr.shape, g.good_of_shape hfr.shape,
        hasSub_of_shape hfr.shape hK, by rw [hfr.shape.rootOf_eq]; exact hr, h2⟩)
    vs items s ⟨g, hK, hr, hc⟩
  exact ⟨s', hf, hg, hK', hr', by rw [hc', foldl_snoc]⟩

/-- Fires with a `fold` in place: the Dynamic ends on the left fold of the values. -/
theorem fold_sequence {s : State V W} (g : Good s) (event a C D U d : Nat) (f : V → V → V) (c : V)
    (hC : s.hasSub a C (.mappedOptionalFn (.withCurrent d fun t cur => some (f t cur)) D))
    (hU : s.hasSub D U (.updater d)) (hr : s.rootOf event = some a) (hc : s.current d = some c)
    (vs : List V) :
    ∃ s', (∀ fuel, s.fuelBound ≤ fuel → fireAll fuel (vs.map fun v => (event, v)) s = some s') ∧
      Good s' ∧ s'.hasSub a C (.mappedOptionalFn (.withCurrent d fun t cur => some (f t cur)) D) ∧
      s'.hasSub D U (.updater d) ∧ s'.rootOf event = some a ∧
      s'.current d = some (vs.foldl (fun acc v => f v acc) c) := by
  obtain ⟨s', hf, _, hg, hC', hU', hr', hc'⟩ := fireAll_steps event
    (fun acc s => Good s ∧
      s.hasSub a C (.mappedOptionalFn (.withCurrent d fun t cur => some (f t cur)) D) ∧
      s.hasSub D U (.updater d) ∧ s.rootOf event = some a ∧ s.current d = some acc)
    (fun acc v => f v acc)
    (by
      intro acc s v ⟨g, hC, hU, hr, hacc⟩
      obtain ⟨s', hf, hfr, hcur⟩ := fold_fires g a C D U d (fun t cur => some (f t cur)) v acc hC hU hacc
      exact ⟨s', fire_via_handle hr hf, hfr.shape, g.good_of_shape hfr.shape,
        hasSub_of_shape hfr.shape hC, hasSub_of_shape hfr.shape hU,
        by rw [hfr.shape.rootOf_eq]; exact hr, hcur⟩)
    vs c s ⟨g, hC, hU, hr, hc⟩
  exact ⟨s', hf, hg, hC', hU', hr', hc'⟩

theorem foldl_count {T : Type} : ∀ (vs : List (T ⊕ Nat)) (k : Nat), k < sizeMod →
    vs.foldl (fun acc _ => match acc with
      | Sum.inr n => (Sum.inr ((n + 1) % sizeMod) : T ⊕ Nat)
      | Sum.inl t => Sum.inl t) (Sum.inr k) = Sum.inr ((k + vs.length) % sizeMod)
  | [], k, hk => by simp [Nat.mod_eq_of_lt hk]
  | _ :: vs, k, _ => by
    rw [List.foldl_cons]
    simp only []
    rw [foldl_count vs ((k + 1) % sizeMod) (Nat.mod_lt _ (by decide)), Nat.mod_add_mod, List.length_cons]
    congr 2
    omega

/-- C6 (fold).  On a stream that forwards to the root stream `a`, `fold(event, initial,
combine)` returns the Dynamic `d`, whose `current()` is `initial`.  In every good state in
which the pieces of the fold are still subscribed (`d` is kept reachable), a fire of `v` into
`event` returns and commits `combine(v, old)`, `old` being the value `current()` gave before;
so after the values `vs`, fired one after another, `current()` is the left fold
`combine(vn, ... combine(v1, old))`. -/
theorem foldLaw (s0 : State V W) (g0 : Good s0) (event a : Nat) (initial : V) (combine : V → V → V)
    (hr : s0.rootOf event = some a) :
    ∃ s1, fold event initial combine s0 = some (s0.next + 1, s1) ∧ Good s1 ∧
      Dynamic.current (s0.next + 1) s1 = some initial ∧
      s1.hasSub a (s0.next + 4)
        (.mappedOptionalFn (.withCurrent (s0.next + 1) fun t cur => some (combine t cur)) (s0.next + 3)) ∧
      s1.hasSub (s0.next + 3) (s0.next + 2) (.updater (s0.next + 1)) ∧ s1.rootOf event = some a ∧
      ∀ s : State V W, Good s →
        s.hasSub a (s0.next + 4)
          (.mappedOptionalFn (.withCurrent (s0.next + 1) fun t cur => some (combine t cur)) (s0.next + 3)) →
        s.hasSub (s0.next + 3) (s0.next + 2) (.updater (s0.next + 1)) → s.rootOf event = some a →
        ∀ old, Dynamic.current (s0.next + 1) s = some old →
          (∀ v : V, ∃ s', (∀ fuel, s.fuelBound ≤ fuel → Event.fire fuel event v s = some s') ∧
            Dynamic.current (s0.next + 1) s' = some (combine v old)) ∧
          ∀ vs : List V,
            ∃ s', (∀ fuel, s.fuelBound ≤ fuel → fireAll fuel (vs.map fun v => (event, v)) s = some s') ∧
              Dynamic.current (s0.next + 1) s' = some (vs.foldl (fun acc v => combine v acc) old) := by
  obtain ⟨s1, h1, g1, _, hC, hU, hcur, _, _, hroot, _, _⟩ := fold_spec g0 event a initial combine hr
  refine ⟨s1, h1, g1, hcur, hC, hU, by rw [hroot event (rootOf_lt g0.wf hr)]; exact hr, ?_⟩
  intro s g hC hU hrs old hold
  constructor
  · intro v
    obtain ⟨s', hf, _, hc⟩ := fold_fires g a _ _ _ _ (fun t cur => some (combine t cur)) v old hC hU hold
    exact ⟨s', fire_via_handle hrs hf, hc⟩
  · intro vs
    obtain ⟨s', hf, _, _, _, _, hc⟩ := fold_sequence g event a _ _ _ _ combine old hC hU hrs hold vs
    exact ⟨s', hf, hc⟩

/-- C7 (count).  The values of the graph are the fired values and the counts.  On a stream
that forwards to the root stream `a`, `count(s)` returns the Dynamic `c`, whose `current()`
is 0.  In every good state in which the pieces of the count are still subscribed (`c` is kept
reachable) and `current()` is `k`, after the fires of any values `vs` into `s`, `current()`
is `k + n` as a `size_t`, `n` being the number of the fires, whatever the values are; from the
state `count` returned this is `n` itself when `n` is a `size_t`. -/
theorem countLaw {T : Type} (s0 : State (T ⊕ Nat) W) (g0 : Good s0) (e a : Nat)
    (hr : s0.rootOf e = some a) :
    ∃ s1, count e s0 = some (s0.next + 1, s1) ∧ Good s1 ∧
      Dynamic.current (s0.next + 1) s1 = some (Sum.inr 0) ∧
      (∀ s : State (T ⊕ Nat) W, Good s →
        s.hasSub a (s0.next + 4)
          (.mappedOptionalFn (.withCurrent (s0.next + 1) fun _ prev => some (match prev with
            | Sum.inr n => Sum.inr ((n + 1) % sizeMod)
            | Sum.inl t => Sum.inl t)) (s0.next + 3)) →
        s.hasSub (s0.next + 3) (s0.next + 2) (.updater (s0.next + 1)) → s.rootOf e = some a →
        ∀ k, k < sizeMod → Dynamic.current (s0.next + 1) s = some (Sum.inr k) →
        ∀ vs : List (T ⊕ Nat),
          ∃ s', (∀ fuel, s.fuelBound ≤ fuel → fireAll fuel (vs.map fun v => (e, v)) s = some s') ∧
            Dynamic.current (s0.next + 1) s' = some (Sum.inr ((k + vs.length) % sizeMod))) ∧
      ∀ vs : List (T ⊕ Nat),
        ∃ s', (∀ fuel, s1.fuelBound ≤ fuel → fireAll fuel (vs.map fun v => (e, v)) s1 = some s') ∧
          Dynamic.current (s0.next + 1) s' = some (Sum.inr (vs.length % sizeMod)) ∧
          (vs.length < sizeMod → Dynamic.current (s0.next + 1) s' = some (Sum.inr vs.length)) := by
  obtain ⟨s1, h1, g1, _, hC, hU, hcur, _, _, hroot, _, _⟩ := fold_spec g0 e a (Sum.inr 0)
    (fun (_ : T ⊕ Nat) prev => match prev with
      | Sum.inr n => Sum.inr ((n + 1) % sizeMod)
      | Sum.inl t => Sum.inl t) hr
  have hr1 : s1.rootOf e = some a := by rw [hroot e (rootOf_lt g0.wf hr)]; exact hr
  have hlater : ∀ s : State (T ⊕ Nat) W, Good s →
      s.hasSub a (s0.next + 4)
        (.mappedOptionalFn (.withCurrent (s0.next + 1) fun _ prev => some (match prev with
          | Sum.inr n => Sum.inr ((n + 1) % sizeMod)
          | Sum.inl t => Sum.inl t)) (s0.next + 3)) →
      s.hasSub (s0.next + 3) (s0.next + 2) (.updater (s0.next + 1)) → s.rootOf e = some a →
      ∀ k, k < sizeMod → Dynamic.current (s0.next + 1) s = some (Sum.inr k) →
      ∀ vs : List (T ⊕ Nat),
        ∃ s', (∀ fuel, s.fuelBound ≤ fuel → fireAll fuel (vs.map fun v => (e, v)) s = some s') ∧
          Dynamic.current (s0.next + 1) s' = some (Sum.inr ((k + vs.length) % sizeMod)) := by
    intro s g hC hU hrs k hk hold vs
    obtain ⟨s', hf, _, _, _, _, hc⟩ := fold_sequence g e a _ _ _ _ _ (Sum.inr k) hC hU hrs hold vs
    refine ⟨s', hf, ?_⟩
    show s'.current (s0.next + 1) = _
    rw [hc, foldl_count vs k hk]
  refine ⟨s1, h1, g1, hcur, hlater, ?_⟩
  intro vs
  obtain ⟨s', hf, hc⟩ := hlater s1 g1 hC hU hr1 0 (by decide) hcur vs
  rw [Nat.zero_add] at hc
  exact ⟨s', hf, hc, fun hlt => by rw [hc, Nat.mod_eq_of_lt hlt]⟩

/-- C8 (Dynamic snapshot).  On a stream that forwards to the root stream `a`,
`mkDynamic(s, initial)` returns the Dynamic `d`, whose `current()` is `initial`.  In every good
state in which the updater of `d` is still subscribed (`d` is kept reachable), a fire of `v`
into `s` returns and `current()` is `v` afterwards; so after the values `vs`, fired one after
another, `current()` is the last of them, and what it was before when there are none. -/
theorem dynamicSnapshot (s0 : State V W) (g0 : Good s0) (event a : Nat) (initial : V)
    (hr : s0.rootOf event = some a) :
    ∃ s1, mkDynamic event initial s0 = some (s0.next, s1) ∧ Good s1 ∧
      Dynamic.current s0.next s1 = some initial ∧
      s1.hasSub a (s0.next + 1) (.updater s0.next) ∧ s1.rootOf event = some a ∧
      ∀ s : State V W, Good s → s.hasSub a (s0.next + 1) (.updater s0.next) →
        s.rootOf event = some a →
        (∀ v : V, ∃ s', (∀ fuel, s.fuelBound ≤ fuel → Event.fire fuel event v s = some s') ∧
          Dynamic.current s0.next s' = some v) ∧
        ∀ old, Dynamic.current s0.next s = some old → ∀ vs : List V,
          ∃ s', (∀ fuel, s.fuelBound ≤ fuel → fireAll fuel (vs.map fun v => (event, v)) s = some s') ∧
            Dynamic.current s0.next s' = some (vs.getLast?.getD old) := by
  obtain ⟨s1, h1, g1, _, hfn, hdyn, _, _, _, hla, _, hroot⟩ := mkDynamic_spec g0 event a initial hr
  refine ⟨s1, h1, g1, by simp [Dynamic.current, State.current, hdyn, ThreadSafe.getCopy],
    ⟨by rw [hla]; simp, by rw [hfn, Function.update_same]; rfl⟩, by rw [hroot]; exact hr, ?_⟩
  intro s g hU hrs
  constructor
  · intro v
    obtain ⟨s', hf, _, hc⟩ := updater_fires g a _ _ v hU
    exact ⟨s', fire_via_handle hrs hf, hc⟩
  · intro old hold vs
    obtain ⟨s', hf, _, _, _, hc⟩ := updater_sequence g event a _ _ old hU hrs hold vs
    exact ⟨s', hf, hc⟩

/-- C9 (collector).  On a stream that forwards to the root stream `a`, `collect(s)` returns
the sink `k`, whose `result()` is empty.  In every good state in which the callback of `k` is
still subscribed (`k` is kept reachable) and `result()` is `items`, after the values `xs`,
fired into `s` one after another, `result()` is `items` followed by `xs`: from the state
`collect` returned, `xs` itself.  `result()` reads the state and leaves it as it is. -/
theorem collectorLaw (s0 : State V W) (g0 : Good s0) (inp a : Nat) (hr : s0.rootOf inp = some a) :
    ∃ s1, collect inp s0 = some (s0.next, s1) ∧ Good s1 ∧ Sink.result s0.next s1 = some [] ∧
      s1.hasSub a (s0.next + 1) (.vectorSinkFn s0.next) ∧ s1.rootOf inp = some a ∧
      (∀ s : State V W, Good s → s.hasSub a (s0.next + 1) (.vectorSinkFn s0.next) →
        s.rootOf inp = some a → ∀ items, Sink.result s0.next s = some items → ∀ xs : List V,
          ∃ s', (∀ fuel, s.fuelBound ≤ fuel → fireAll fuel (xs.map fun v => (inp, v)) s = some s') ∧
            Sink.result s0.next s' = some (items ++ xs)) ∧
      ∀ xs : List V,
        ∃ s', (∀ fuel, s1.fuelBound ≤ fuel → fireAll fuel (xs.map fun v => (inp, v)) s1 = some s') ∧
          Sink.result s0.next s' = some xs := by
  obtain ⟨s1, h1, g1, _, hfn, hsink, _, _, _, hla, _, hroot, _⟩ := collect_spec g0 inp a hr
  have hres : Sink.result s0.next s1 = some [] := by
    simp [Sink.result, hsink, ThreadSafe.getCopy]
  have hK : s1.hasSub a (s0.next + 1) (.vectorSinkFn s0.next) :=
    ⟨by rw [hla]; simp, by rw [hfn, Function.update_same]; rfl⟩
  have hr1 : s1.rootOf inp = some a := by rw [hroot]; exact hr
  have hlater : ∀ s : State V W, Good s → s.hasSub a (s0.next + 1) (.vectorSinkFn s0.next) →
      s.rootOf inp = some a → ∀ items, Sink.result s0.next s = some items → ∀ xs : List V,
        ∃ s', (∀ fuel, s.fuelBound ≤ fuel → fireAll fuel (xs.map fun v => (inp, v)) s = some s') ∧
          Sink.result s0.next s' = some (items ++ xs) := by
    intro s g hK hrs items hitems xs
    obtain ⟨s', hf, _, _, _, hc⟩ := vectorSink_sequence g inp a _ _ items hK hrs hitems xs
    exact ⟨s', hf, hc⟩
  refine ⟨s1, h1, g1, hres, hK, hr1, hlater, ?_⟩
  intro xs
  obtain ⟨s', hf, hc⟩ := hlater s1 g1 hK hr1 [] hres xs
  exact ⟨s', hf, by rw [hc]; rfl⟩

/-! ## Lifetime -/

/-- The root of a handle depends on the object behind it only. -/
theorem rootOf_of_obj {s s' : State V W} (x : Nat)
    (h : (s'.events x).map (fun c => c.obj) = (s.events x).map (fun c => c.obj)) :
    s'.rootOf x = s.rootOf x := by
  unfold State.rootOf
  cases h1 : s'.events x with
  | none =>
    cases h2 : s.events x with
    | none => rfl
    | some c2 => rw [h1, h2] at h; simp at h
  | some c1 =>
    cases h2 : s.events x with
    | none => rw [h1, h2] at h; simp at h
    | some c2 =>
      rw [h1, h2] at h
      simp only [Option.map_some', Option.some.injEq] at h
      simp only [h]

/-- The destructor of the last handle of a chained stream, given what the destructor of its
member `upstream` does: the chained node goes, its member `downstream` gives up its share,
`upstream` is destroyed, and the callback goes and takes the downstream stream with it. -/
theorem releaseAux_chained {s sc : State V W} (fuel m C up D : Nat) (f : Callable V (Option V))
    (e : ThreadSafeEvent)
    (hm : s.events m = some ⟨1, .chained C up D⟩) (hD : s.events D = some ⟨2, .threadSafe e⟩)
    (hup : releaseAux (fuel + 1 + 1) (.event up)
      { s with events := Function.update (Function.update s.events m none) D (some ⟨1, .threadSafe e⟩) } =
        some sc)
    (gc : Good sc) (hCc : sc.fns C = some ⟨1, .mappedOptionalFn f D⟩)
    (hDc : sc.events D = some ⟨1, .threadSafe e⟩)
    (honlyfn : ∀ c cell f', sc.fns c = some cell → cell.obj = .mappedOptionalFn f' D → c = C)
    (honlych : ∀ x cell u up', sc.events x = some cell → cell.obj ≠ .chained u up' D) :
    releaseAux (fuel + 1 + 1 + 1) (.event m) s =
        some { sc with fns := Function.update sc.fns C none, events := Function.update sc.events D none } ∧
      Good { sc with fns := Function.update sc.fns C none, events := Function.update sc.events D none } := by
  have hmD : m ≠ D := by
    intro h
    rw [h, hD] at hm
    simp at hm
  constructor
  · have e1 : releaseAux (fuel + 1 + 1 + 1) (.event m) s =
        (releaseAux (fuel + 1 + 1) (.event D) { s with events := Function.update s.events m none }).bind
          fun s2 => (releaseAux (fuel + 1 + 1) (.event up) s2).bind fun s3 =>
            releaseAux (fuel + 1 + 1) (.fn C) s3 := by
      simp [releaseAux, hm]
    have e2 : releaseAux (fuel + 1 + 1) (.event D) { s with events := Function.update s.events m none } =
        some { s with events :=
          Function.update (Function.update s.events m none) D (some ⟨1, .threadSafe e⟩) } := by
      simp [releaseAux, Function.update_noteq (Ne.symm hmD), hD]
    have e3 : releaseAux (fuel + 1 + 1) (.fn C) sc =
        releaseAux (fuel + 1) (.event D) { sc with fns := Function.update sc.fns C none } := by
      simp [releaseAux, hCc]
    have e4 : releaseAux (fuel + 1) (.event D) { sc with fns := Function.update sc.fns C none } =
        some { sc with fns := Function.update sc.fns C none, events := Function.update sc.events D none } := by
      simp [releaseAux, hDc]
    rw [e1, e2]
    simp only [Option.some_bind]
    rw [hup]
    simp only [Option.some_bind]
    rw [e3, e4]
  · obtain ⟨gd, _⟩ := gc.removeFn C
    obtain ⟨ge, _, _⟩ := gd.removeEvent D
      (by
        intro c cellc f' hcc ho
        by_cases hcC : c = C
        · subst hcC
          simp at hcc
        · simp only [Function.update_noteq hcC] at hcc
          exact hcC (honlyfn c cellc f' hcc ho))
      (by
        intro x cellx u up' hx _ ho
        exact honlych x cellx u up' hx ho)
    exact ge

/-- The destructor of the last handle of a chained stream whose upstream has other owners:
the chained node, its callback and its downstream stream are destroyed, and the upstream
loses one owner. -/
theorem releaseAux_chained_shared {s : State V W} (g : Good s) (fuel m C inp D : Nat)
    (f : Callable V (Option V)) (e : ThreadSafeEvent)
    (hm : s.events m = some ⟨1, .chained C inp D⟩)
    (hC : s.fns C = some ⟨1, .mappedOptionalFn f D⟩)
    (hD : s.events D = some ⟨2, .threadSafe e⟩)
    (cell : Cell IEvent) (hc : s.events inp = some cell) (hstrong : 1 < cell.strong) (hiD : inp ≠ D)
    (honlyfn : ∀ c cell f', s.fns c = some cell → cell.obj = .mappedOptionalFn f' D → c = C)
    (honlych : ∀ x cell u up, s.events x = some cell → cell.obj = .chained u up D → x = m) :
    ∃ s', releaseAux (fuel + 1 + 1 + 1) (.event m) s = some s' ∧ Good s' ∧
      s'.fns = Function.update s.fns C none ∧ s'.sinks = s.sinks ∧ s'.dyns = s.dyns ∧
      s'.next = s.next ∧ s'.events m = none ∧ s'.events D = none ∧
      s'.events inp = some ⟨cell.strong - 1, cell.obj⟩ ∧
      (∀ x, x ≠ m → x ≠ D → x ≠ inp → s'.events x = s.events x) ∧
      (∀ x, x ≠ m → x ≠ D → s'.rootOf x = s.rootOf x) := by
  have hmD : m ≠ D := by
    intro h
    rw [h, hD] at hm
    simp at hm
  have him : inp ≠ m := by
    intro h
    rw [h, hm, Option.some.injEq] at hc
    subst hc
    simp at hstrong
  have hsubm : s.subscribers m = none := by simp [State.subscribers, hm, IEvent.basic?]
  -- the chained node
  obtain ⟨ga, _, _⟩ := g.removeEvent m
    (by
      intro c cellc f' hcc ho
      have h := g.wf.runnable c cellc hcc
      rw [ho] at h
      have h1 := h.1
      rw [hsubm] at h1
      simp at h1)
    (by
      intro x cellx u up hx _ ho
      have h := g.wf.chained x cellx u up m hx ho
      rw [hsubm] at h
      simp at h)
  -- the member `downstream`
  have hDa : State.events { s with events := Function.update s.events m none } D =
      some ⟨2, .threadSafe e⟩ := by
    show Function.update s.events m none D = _
    rw [Function.update_noteq (Ne.symm hmD)]; exact hD
  have hshb := (releaseEvent_shared 0 D ⟨2, .threadSafe e⟩ hDa (Nat.lt_succ_self 1)).2
  have gb : Good
      { s with events := Function.update (Function.update s.events m none) D (some ⟨1, .threadSafe e⟩) } :=
    ga.good_of_shape hshb
  -- the member `upstream`
  have hcb : State.events
      { s with events := Function.update (Function.update s.events m none) D (some ⟨1, .threadSafe e⟩) }
      inp = some cell := by
    show Function.update (Function.update s.events m none) D (some ⟨1, .threadSafe e⟩) inp = _
    rw [Function.update_noteq hiD, Function.update_noteq him]; exact hc
  obtain ⟨hrelc, hshc⟩ := releaseEvent_shared (fuel + 1) inp cell hcb hstrong
  have gc := gb.good_of_shape hshc
  obtain ⟨hrel, gfin⟩ := releaseAux_chained fuel m C inp D f e hm hD hrelc gc
    (by exact hC)
    (by
      show Function.update (Function.update (Function.update s.events m none) D
        (some ⟨1, .threadSafe e⟩)) inp (some ⟨cell.strong - 1, cell.obj⟩) D = _
      rw [Function.update_noteq (Ne.symm hiD), Function.update_same])
    (by
      intro c cellc f' hcc ho
      exact honlyfn c cellc f' hcc ho)
    (by
      intro x cellx u up hx ho
      have hx' : Function.update (Function.update (Function.update s.events m none) D
        (some ⟨1, .threadSafe e⟩)) inp (some ⟨cell.strong - 1, cell.obj⟩) x = some cellx := hx
      by_cases hxi : x = inp
      · subst hxi
        rw [Function.update_same, Option.some.injEq] at hx'
        subst hx'
        exact him (honlych x cell u up hc ho)
      · rw [Function.update_noteq hxi] at hx'
        by_cases hxD : x = D
        · subst hxD
          rw [Function.update_same, Option.some.injEq] at hx'
          subst hx'
          cases ho
        · rw [Function.update_noteq hxD] at hx'
          by_cases hxm : x = m
          · subst hxm
            simp at hx'
          · rw [Function.update_noteq hxm] at hx'
            exact hxm (honlych x cellx u up hx' ho))
  refine ⟨_, hrel, gfin, rfl, rfl, rfl, rfl, ?_, ?_, ?_, ?_, ?_⟩
  · show Function.update (Function.update (Function.update (Function.update s.events m none) D
      (some ⟨1, .threadSafe e⟩)) inp (some ⟨cell.strong - 1, cell.obj⟩)) D none m = none
    rw [Function.update_noteq hmD, Function.update_noteq (Ne.symm him), Function.update_noteq hmD,
      Function.update_same]
  · show Function.update (Function.update (Function.update (Function.update s.events m none) D
      (some ⟨1, .threadSafe e⟩)) inp (some ⟨cell.strong - 1, cell.obj⟩)) D none D = none
    rw [Function.update_same]
  · show Function.update (Function.update (Function.update (Function.update s.events m none) D
      (some ⟨1, .threadSafe e⟩)) inp (some ⟨cell.strong - 1, cell.obj⟩)) D none inp = _
    rw [Function.update_noteq hiD, Function.update_same]
  · intro x hxm hxD hxi
    show Function.update (Function.update (Function.update (Function.update s.events m none) D
      (some ⟨1, .threadSafe e⟩)) inp (some ⟨cell.strong - 1, cell.obj⟩)) D none x = _
    rw [Function.update_noteq hxD, Function.update_noteq hxi, Function.update_noteq hxD,
      Function.update_noteq hxm]
  · intro x hxm hxD
    apply rootOf_of_obj
    show (Function.update (Function.update (Function.update (Function.update s.events m none) D
      (some ⟨1, .threadSafe e⟩)) inp (some ⟨cell.strong - 1, cell.obj⟩)) D none x).map _ = _
    rw [Function.update_noteq hxD]
    by_cases hxi : x = inp
    · subst hxi
      rw [Function.update_same, hc]
      rfl
    · rw [Function.update_noteq hxi, Function.update_noteq hxD, Function.update_noteq hxm]

theorem chained_of_maps {s s' : State V W} {x j k u up D : Nat}
    (hc : s.events x = some ⟨k, .chained u up D⟩)
    (hstr : (s'.events x).map (fun c => c.strong) = some j)
    (hsk : (s'.events x).map (fun c => c.obj.setSubscribers []) =
      (s.events x).map (fun c => c.obj.setSubscribers [])) :
    s'.events x = some ⟨j, .chained u up D⟩ := by
  rw [hc] at hsk
  cases h : s'.events x with
  | none => rw [h] at hstr; simp at hstr
  | some c =>
    rw [h] at hstr hsk
    simp only [Option.map_some', Option.some.injEq] at hstr hsk
    have ho := IEvent.chained_of_setSubscribers c.obj [] u up D hsk
    cases c with
    | mk st obj =>
      simp only at hstr ho
      rw [hstr, ho]

theorem threadSafe_of_maps {s s' : State V W} {x j k : Nat} {e : ThreadSafeEvent}
    (hc : s.events x = some ⟨k, .threadSafe e⟩)
    (hstr : (s'.events x).map (fun c => c.strong) = some j)
    (hsk : (s'.events x).map (fun c => c.obj.setSubscribers []) =
      (s.events x).map (fun c => c.obj.setSubscribers [])) :
    ∃ e', s'.events x = some ⟨j, .threadSafe e'⟩ := by
  rw [hc] at hsk
  cases h : s'.events x with
  | none => rw [h] at hstr; simp at hstr
  | some c =>
    rw [h] at hstr hsk
    simp only [Option.map_some', Option.some.injEq] at hstr hsk
    cases c with
    | mk st obj =>
      simp only at hstr hsk
      subst hstr
      cases obj with
      | threadSafe e' => exact ⟨e', rfl⟩
      | basic _ => simp [IEvent.setSubscribers] at hsk
      | chained _ _ _ => simp [IEvent.setSubscribers] at hsk
      | never => simp [IEvent.setSubscribers] at hsk

theorem chained_back {s s' : State V W} {x : Nat}
    (hsk : (s'.events x).map (fun c => c.obj.setSubscribers []) =
      (s.events x).map (fun c => c.obj.setSubscribers []))
    {cell : Cell IEvent} {u up D : Nat} (hx : s'.events x = some cell) (ho : cell.obj = .chained u up D) :
    ∃ cell0, s.events x = some cell0 ∧ cell0.obj = .chained u up D := by
  rw [hx] at hsk
  cases h0 : s.events x with
  | none => rw [h0] at hsk; simp at hsk
  | some c0 =>
    rw [h0] at hsk
    simp only [Option.map_some', Option.some.injEq, ho] at hsk
    exact ⟨c0, rfl, IEvent.chained_of_setSubscribers c0.obj [] u up D hsk.symm⟩

/-- Giving an object another number of owners changes nothing that well-formedness sees. -/
theorem Shape.restrong (s : State V W) (x j : Nat) (cell : Cell IEvent) (hc : s.events x = some cell) :
    Shape s { s with events := Function.update s.events x (some ⟨j, cell.obj⟩) } := by
  have hsub : ∀ y, State.subscribers
      { s with events := Function.update s.events x (some ⟨j, cell.obj⟩) } y = s.subscribers y := by
    intro y
    by_cases hy : y = x
    · subst hy; simp [State.subscribers, hc]
    · simp [State.subscribers, Function.update_noteq hy]
  refine ⟨rfl, rfl, ?_, ?_, fun y => by rw [hsub], ?_, fun _ => rfl, fun _ => rfl⟩
  · intro y
    by_cases hy : y = x
    · subst hy; simp [hc]
    · simp [Function.update_noteq hy]
  · intro y
    exact live_eq_of y (hsub y) fun _ _ _ _ => rfl
  · intro y subs c h1 h2
    rw [hsub] at h1
    exact ⟨subs, h1, h2⟩

theorem Mapped.hasSub {s : State V W} {inp a m C D k : Nat} {f : Callable V (Option V)}
    (h : Mapped s inp a m C D f k) : s.hasSub a C (.mappedOptionalFn f D) :=
  ⟨h.sub, by rw [h.fn]; rfl⟩

theorem Mapped.root_lt {s : State V W} {inp a m C D k : Nat} {f : Callable V (Option V)}
    (h : Mapped s inp a m C D f k) : a < D :=
  h.good.wf.ranked a C _ f D h.sub h.fn rfl

theorem Mapped.rootOf_node {s : State V W} {inp a m C D k : Nat} {f : Callable V (Option V)}
    (h : Mapped s inp a m C D f k) : s.rootOf m = some D := by
  simp [State.rootOf, h.node]

theorem Mapped.rootOf_down {s : State V W} {inp a m C D k : Nat} {f : Callable V (Option V)}
    (h : Mapped s inp a m C D f k) : s.rootOf D = some D := by
  obtain ⟨e, he⟩ := h.down
  simp [State.rootOf, he]

theorem Mapped.distinct {s : State V W} {inp a m C D k : Nat} {f : Callable V (Option V)}
    (h : Mapped s inp a m C D f k) : inp ≠ D ∧ inp ≠ m ∧ m ≠ D ∧ a ≠ m ∧ a ≠ D := by
  have hlt := h.root_lt
  have h1 := h.rootOf_node
  have h2 := h.rootOf_down
  have h3 := h.root
  have h4 := rootOf_of_root (h.good.wf.rootOf_root h3)
  have hmD : m ≠ D := by
    intro e
    obtain ⟨e', he⟩ := h.down
    have hn := h.node
    rw [e, he] at hn
    simp at hn
  refine ⟨?_, ?_, hmD, ?_, by omega⟩
  · intro e
    rw [e, h2] at h3
    simp only [Option.some.injEq] at h3
    omega
  · intro e
    rw [e, h1] at h3
    simp only [Option.some.injEq] at h3
    omega
  · intro e
    rw [e, h1] at h4
    simp only [Option.some.injEq] at h4
    exact hmD h4.symm

theorem Mapped.bounds {s : State V W} {inp a m C D k : Nat} {f : Callable V (Option V)}
    (h : Mapped s inp a m C D f k) : inp < s.next ∧ m < s.next ∧ C < s.next ∧ D < s.next ∧ a < s.next := by
  obtain ⟨e, he⟩ := h.down
  refine ⟨rootOf_lt h.good.wf h.root, ?_, ?_, ?_, ?_⟩
  · by_contra hlt
    have := h.node
    rw [h.good.wf.events_fresh m (by omega)] at this
    simp at this
  · by_contra hlt
    have := h.fn
    rw [h.good.wf.fns_fresh C (by omega)] at this
    simp at this
  · by_contra hlt
    rw [h.good.wf.events_fresh D (by omega)] at he
    simp at he
  · exact h.good.wf.lt_of_subscribers a (h.good.wf.rootOf_root h.root)

/-- The graph of a `mappedOptional` is intact in every state that keeps its node, its
callback and its downstream stream, and adds no other callback or chained node on the
downstream stream. -/
theorem Mapped.carry {s s' : State V W} {inp a m C D k : Nat} {f : Callable V (Option V)}
    (h : Mapped s inp a m C D f k) (g' : Good s') (k' : Nat)
    (hnode : s'.events m = some ⟨k', .chained C inp D⟩)
    (hdown : ∃ e, s'.events D = some ⟨2, .threadSafe e⟩)
    (hfnC : s'.fns C = s.fns C) (hroot : s'.rootOf inp = some a) (hsub : C ∈ s'.live a)
    (hfns : ∀ c cell f', s'.fns c = some cell → cell.obj = .mappedOptionalFn f' D → s.fns c = some cell)
    (hevs : ∀ x cell u up, s'.events x = some cell → cell.obj = .chained u up D →
      ∃ cell0, s.events x = some cell0 ∧ cell0.obj = .chained u up D) :
    Mapped s' inp a m C D f k' where
  good := g'
  node := hnode
  fn := by rw [hfnC]; exact h.fn
  down := hdown
  root := hroot
  sub := hsub
  onlyfn := fun c cell f' hc ho => h.onlyfn c cell f' (hfns c cell f' hc ho) ho
  onlych := fun x cell u up hx ho => by
    obtain ⟨cell0, h0, ho0⟩ := hevs x cell u up hx ho
    exact h.onlych x cell0 u up h0 ho0

/-- The graph is intact in every state of the same shape that keeps the two owners of the
downstream stream. -/
theorem Mapped.keep_shape {s s' : State V W} {inp a m C D k : Nat} {f : Callable V (Option V)}
    (h : Mapped s inp a m C D f k) (hsh : Shape s s') (k' : Nat)
    (hm : (s'.events m).map (fun c => c.strong) = some k')
    (hD : (s'.events D).map (fun c => c.strong) = some 2) : Mapped s' inp a m C D f k' := by
  obtain ⟨e, he⟩ := h.down
  exact h.carry (h.good.good_of_shape hsh) k' (chained_of_maps h.node hm (hsh.events m))
    (threadSafe_of_maps he hD (hsh.events D)) (by rw [hsh.fns]) (by rw [hsh.rootOf_eq]; exact h.root)
    (by rw [hsh.live]; exact h.sub) (fun c cell f' hc _ => by rw [← hsh.fns]; exact hc)
    (fun x cell u up hx ho => chained_back (hsh.events x) hx ho)

/-- The graph that `mappedOptional` builds. -/
theorem Mapped.build {s0 : State V W} (g0 : Good s0) (inp a : Nat) (f : Callable V (Option V))
    (hr : s0.rootOf inp = some a) (hf : f.readable s0) :
    ∃ s1, mappedOptional inp f s0 = some (s0.next + 2, s1) ∧
      Mapped s1 inp a (s0.next + 2) (s0.next + 1) s0.next f 1 ∧ s1.next = s0.next + 3 ∧
      ∀ k, s0.owners inp = some k → s1.owners inp = some (k + 1) := by
  obtain ⟨s1, h1, g1, hn1, hfn1, _, _, _, _, hla, hlx, hsubD, hch, hD, hroot, hsome, hev, hstr, _⟩ :=
    mappedOptional_spec g0 inp a f hr hf
  have hinp : inp < s0.next := rootOf_lt g0.wf hr
  have ha : a < s0.next := g0.wf.lt_of_subscribers a (g0.wf.rootOf_root hr)
  have hDnone : s0.subscribers s0.next = none := by
    simp [State.subscribers, g0.wf.events_fresh _ (le_refl _)]
  refine ⟨s1, h1, ⟨g1, hch, by rw [hfn1, Function.update_same], ⟨_, hD⟩, by rw [hroot inp hinp]; exact hr,
    by rw [hla]; simp, ?_, ?_⟩, hn1, ?_⟩
  · intro c cell f' hcc ho
    by_contra hne
    rw [hfn1, Function.update_noteq hne] at hcc
    have h := g0.wf.runnable c cell hcc
    rw [ho] at h
    have h' := h.1
    rw [hDnone] at h'
    simp at h'
  · intro x cell u up hx ho
    by_contra hne
    have hrx : s1.rootOf x = some s0.next := by simp [State.rootOf, hx, ho]
    by_cases hlt : x < s0.next
    · rw [hroot x hlt] at hrx
      have h := g0.wf.rootOf_root hrx
      rw [hDnone] at h
      simp at h
    · by_cases hx0 : x = s0.next
      · subst hx0
        rw [hD, Option.some.injEq] at hx
        subst hx
        cases ho
      · have hxi : x ≠ inp := by omega
        have hxa : x ≠ a := by omega
        rw [hev x hx0 hne hxi hxa, g0.wf.events_fresh x (by omega)] at hx
        simp at hx
  · intro k hk
    have h := hstr inp hinp
    unfold State.owners at hk ⊢
    rw [h]
    cases hc0 : s0.events inp with
    | none => simp [hc0] at hk
    | some c0 =>
      simp only [hc0, Option.map_some', Option.some.injEq] at hk
      simp [hk]

/-- The graph after `forEach` on the derived stream: the `VoidSink` is one more owner. -/
theorem Mapped.forEach {s : State V W} {inp a m C D k : Nat} {f : Callable V (Option V)}
    (h : Mapped s inp a m C D f k) (act : V → W → W) :
    ∃ s', forEach m act s = some (s.next + 1, s') ∧ Mapped s' inp a m C D f (k + 1) ∧
      s'.owners inp = s.owners inp ∧ s'.next = s.next + 2 ∧
      s'.sinks (s.next + 1) = some ⟨1, .voidSink s.next m⟩ ∧ s'.fns s.next = some ⟨1, .forEachFn act⟩ := by
  obtain ⟨hiD, him, hmD, ham, haD⟩ := h.distinct
  obtain ⟨e, he⟩ := h.down
  obtain ⟨s', h2, g2, hn, hfn, hsk, _, _, _, _, hlx, hroot, _, hstr, hskel⟩ :=
    forEach_spec h.good m D act h.rootOf_node
  refine ⟨s', h2, h.carry g2 (k + 1) ?_ ?_ ?_ (by rw [hroot]; exact h.root)
    (by rw [hlx a haD]; exact h.sub) ?_ (fun x cell u up hx ho => chained_back (hskel x) hx ho), ?_,
    hn, by rw [hsk, Function.update_same], by rw [hfn, Function.update_same]⟩
  · exact chained_of_maps h.node (by rw [hstr m, h.node]; simp) (hskel m)
  · exact threadSafe_of_maps he (by rw [hstr D, he]; simp [Ne.symm hmD]) (hskel D)
  · rw [hfn, Function.update_noteq]
    have := h.bounds
    omega
  · intro c cell f' hcc ho
    rw [hfn] at hcc
    by_cases hc : c = s.next
    · subst hc
      rw [Function.update_same, Option.some.injEq] at hcc
      subst hcc
      cases ho
    · rw [Function.update_noteq hc] at hcc
      exact hcc
  · have h1 := hstr inp
    simp only [him, if_false] at h1
    exact h1

/-- The graph after `collect` on the derived stream: the `VectorSink` is one more owner. -/
theorem Mapped.collect {s : State V W} {inp a m C D k : Nat} {f : Callable V (Option V)}
    (h : Mapped s inp a m C D f k) :
    ∃ s', collect m s = some (s.next, s') ∧ Mapped s' inp a m C D f (k + 1) ∧
      s'.owners inp = s.owners inp ∧ s'.next = s.next + 2 ∧
      s'.sinks s.next = some ⟨1, .vectorSink m ⟨[]⟩ (s.next + 1)⟩ ∧
      s'.fns (s.next + 1) = some ⟨1, .vectorSinkFn s.next⟩ ∧
      ∀ c cell, s'.fns c = some cell → cell.obj = .vectorSinkFn s.next → c = s.next + 1 := by
  obtain ⟨hiD, him, hmD, ham, haD⟩ := h.distinct
  obtain ⟨e, he⟩ := h.down
  obtain ⟨s', h2, g2, hn, hfn, hsk, _, _, _, _, hlx, hroot, hstr, hskel⟩ :=
    collect_spec h.good m D h.rootOf_node
  have honly : ∀ c cell, s'.fns c = some cell → cell.obj = .vectorSinkFn s.next → c = s.next + 1 := by
    intro c cell hc ho
    by_contra hne
    rw [hfn, Function.update_noteq hne] at hc
    have hrun := h.good.wf.runnable c cell hc
    rw [ho] at hrun
    obtain ⟨cellk, h1, _⟩ := hrun
    rw [h.good.wf.sinks_fresh s.next (le_refl _)] at h1
    simp at h1
  refine ⟨s', h2, h.carry g2 (k + 1) ?_ ?_ ?_ (by rw [hroot]; exact h.root)
    (by rw [hlx a haD]; exact h.sub) ?_ (fun x cell u up hx ho => chained_back (hskel x) hx ho), ?_,
    hn, by rw [hsk, Function.update_same], by rw [hfn, Function.update_same], honly⟩
  · exact chained_of_maps h.node (by rw [hstr m, h.node]; simp) (hskel m)
  · exact threadSafe_of_maps he (by rw [hstr D, he]; simp [Ne.symm hmD]) (hskel D)
  · rw [hfn, Function.update_noteq]
    have := h.bounds
    omega
  · intro c cell f' hcc ho
    rw [hfn] at hcc
    by_cases hc : c = s.next + 1
    · subst hc
      rw [Function.update_same, Option.some.injEq] at hcc
      subst hcc
      cases ho
    · rw [Function.update_noteq hc] at hcc
      exact hcc
  · have h1 := hstr inp
    simp only [him, if_false] at h1
    exact h1

/-- The graph after a further `mappedOptional` on the derived stream: the new chained node is
one more owner, and the root of its own graph is the downstream stream. -/
theorem Mapped.mapped {s : State V W} {inp a m C D k : Nat} {f : Callable V (Option V)}
    (h : Mapped s inp a m C D f k) (f2 : Callable V (Option V)) (hf2 : f2.readable s) :
    ∃ s', mappedOptional m f2 s = some (s.next + 2, s') ∧ Mapped s' inp a m C D f (k + 1) ∧
      Mapped s' m D (s.next + 2) (s.next + 1) s.next f2 1 ∧ s'.owners inp = s.owners inp ∧
      s'.next = s.next + 3 := by
  obtain ⟨hiD, him, hmD, ham, haD⟩ := h.distinct
  obtain ⟨hib, hmb, hCb, hDb, hab⟩ := h.bounds
  obtain ⟨e, he⟩ := h.down
  obtain ⟨s', h2, h2m, _, _⟩ := Mapped.build h.good m D f2 h.rootOf_node hf2
  obtain ⟨s2, h2', g2, hn, hfn, _, _, _, _, _, hlx, _, hch, hD2, hroot, _, hev, hstr, hskel⟩ :=
    mappedOptional_spec h.good m D f2 h.rootOf_node hf2
  rw [h2] at h2'
  simp only [Option.some.injEq, Prod.mk.injEq, true_and] at h2'
  subst h2'
  refine ⟨s', h2, h.carry g2 (k + 1) ?_ ?_ ?_ (by rw [hroot inp hib]; exact h.root)
    (by rw [hlx a haD]; exact h.sub) ?_ ?_, h2m, ?_, hn⟩
  · exact chained_of_maps h.node (by rw [hstr m hmb, h.node]; simp) (hskel m hmb)
  · exact threadSafe_of_maps he (by rw [hstr D hDb, he]; simp [Ne.symm hmD]) (hskel D hDb)
  · rw [hfn, Function.update_noteq]
    omega
  · intro c cell f' hcc ho
    rw [hfn] at hcc
    by_cases hc : c = s.next + 1
    · subst hc
      rw [Function.update_same, Option.some.injEq] at hcc
      subst hcc
      simp only [Fn.mappedOptionalFn.injEq] at ho
      omega
    · rw [Function.update_noteq hc] at hcc
      exact hcc
  · intro x cell u up hx ho
    by_cases hlt : x < s.next
    · exact chained_back (hskel x hlt) hx ho
    · exfalso
      by_cases hx0 : x = s.next
      · subst hx0
        rw [hD2, Option.some.injEq] at hx
        subst hx
        cases ho
      · by_cases hx2 : x = s.next + 2
        · subst hx2
          rw [hch, Option.some.injEq] at hx
          subst hx
          simp only [IEvent.chained.injEq] at ho
          omega
        · rw [hev x hx0 hx2 (by omega) (by omega), h.good.wf.events_fresh x (by omega)] at hx
          simp at hx
  · have h1 := hstr inp hib
    simp only [him, if_false] at h1
    exact h1

theorem mem_live_keep {s s' : State V W} {a c : Nat} (h : c ∈ s.live a) (he : s'.events a = s.events a)
    (hf : (s'.fns c).isSome = true) : c ∈ s'.live a := by
  obtain ⟨subs, hs, hm, _⟩ := mem_live h
  have hs' : s'.subscribers a = some subs := by
    rw [← hs]
    simp only [State.subscribers, he]
  simp only [State.live, hs']
  exact (mem_liveOf s' subs c).2 ⟨hm, hf⟩

/-- The handle of a chained node and its member `downstream` go: the state stays well formed
and the live subscribers of the other streams are the same. -/
theorem Good.detach {s : State V W} (g : Good s) (m C up D : Nat) (e : ThreadSafeEvent)
    (hm : s.events m = some ⟨1, .chained C up D⟩) (hD : s.events D = some ⟨2, .threadSafe e⟩) :
    Good { s with events := Function.update (Function.update s.events m none) D (some ⟨1, .threadSafe e⟩) } ∧
      ∀ x, x ≠ m → State.live
        { s with events := Function.update (Function.update s.events m none) D (some ⟨1, .threadSafe e⟩) } x =
          s.live x := by
  have hmD : m ≠ D := by
    intro h
    rw [h, hD] at hm
    simp at hm
  have hsubm : s.subscribers m = none := by simp [State.subscribers, hm, IEvent.basic?]
  obtain ⟨ga, hla, _⟩ := g.removeEvent m
    (by
      intro c cellc f' hcc ho
      have h := g.wf.runnable c cellc hcc
      rw [ho] at h
      have h1 := h.1
      rw [hsubm] at h1
      simp at h1)
    (by
      intro x cellx u up hx _ ho
      have h := g.wf.chained x cellx u up m hx ho
      rw [hsubm] at h
      simp at h)
  have hDa : State.events { s with events := Function.update s.events m none } D =
      some ⟨2, .threadSafe e⟩ := by
    show Function.update s.events m none D = _
    rw [Function.update_noteq (Ne.symm hmD)]; exact hD
  have hshb := Shape.restrong { s with events := Function.update s.events m none } D 1 _ hDa
  exact ⟨ga.good_of_shape hshb, fun x hx => by rw [hshb.live x]; exact hla x hx⟩

/-- Dropping a handle of a chained node that has another owner: the graph is intact. -/
theorem Mapped.drop {s : State V W} {inp a m C D k : Nat} {f : Callable V (Option V)}
    (h : Mapped s inp a m C D f (k + 2)) (fuel : Nat) :
    ∃ s', releaseAux (fuel + 1) (.event m) s = some s' ∧ Mapped s' inp a m C D f (k + 1) ∧ Shape s s' ∧
      s'.sinks = s.sinks ∧ s'.dyns = s.dyns ∧ (∀ x, x ≠ m → s'.events x = s.events x) := by
  obtain ⟨hrel, hsh⟩ := releaseEvent_shared fuel m ⟨k + 2, .chained C inp D⟩ h.node
    (Nat.succ_lt_succ (Nat.succ_pos k))
  obtain ⟨_, _, hmD, _, _⟩ := h.distinct
  obtain ⟨e, he⟩ := h.down
  refine ⟨_, hrel, h.keep_shape hsh (k + 1) ?_ ?_, hsh, rfl, rfl, fun x hx => ?_⟩
  · simp
  · simp [Function.update_noteq (Ne.symm hmD), he]
  · simp [Function.update_noteq hx]

/-- Dropping the last handle of a chained node whose upstream has other owners: the node, its
callback and its downstream stream are destroyed, and the upstream loses one owner. -/
theorem Mapped.dropLast {s : State V W} {inp a m C D : Nat} {f : Callable V (Option V)}
    (h : Mapped s inp a m C D f 1) (j : Nat) (hown : s.owners inp = some (j + 2)) (fuel : Nat) :
    ∃ s', releaseAux (fuel + 1 + 1 + 1) (.event m) s = some s' ∧ Good s' ∧
      s'.fns = Function.update s.fns C none ∧ s'.sinks = s.sinks ∧ s'.dyns = s.dyns ∧ s'.next = s.next ∧
      s'.events m = none ∧ s'.events D = none ∧ s'.owners inp = some (j + 1) ∧ s'.rootOf inp = some a ∧
      (∀ cell, s.events inp = some cell → s'.events inp = some ⟨j + 1, cell.obj⟩) ∧
      (∀ x, x ≠ m → x ≠ D → x ≠ inp → s'.events x = s.events x) ∧
      (∀ x cell', s'.events x = some cell' → ∃ cell0, s.events x = some cell0 ∧ cell0.obj = cell'.obj) := by
  obtain ⟨hiD, him, hmD, ham, haD⟩ := h.distinct
  obtain ⟨e, he⟩ := h.down
  unfold State.owners at hown
  cases hc : s.events inp with
  | none => simp [hc] at hown
  | some cell =>
    simp only [hc, Option.map_some', Option.some.injEq] at hown
    obtain ⟨s', hrel, g', hfn, hsk, hdy, hnx, hm', hD', hi', hev, hroot⟩ :=
      releaseAux_chained_shared h.good fuel m C inp D f e h.node h.fn he cell hc (by omega) hiD
        h.onlyfn h.onlych
    have hi2 : s'.events inp = some ⟨j + 1, cell.obj⟩ := by
      rw [hi', hown]
      rfl
    refine ⟨s', hrel, g', hfn, hsk, hdy, hnx, hm', hD', by simp [State.owners, hi2],
      by rw [hroot inp him hiD]; exact h.root, ?_, hev, ?_⟩
    · intro cell0 h0
      simp only [Option.some.injEq] at h0
      subst h0
      exact hi2
    · intro x cell' hx
      by_cases hxm : x = m
      · rw [hxm, hm'] at hx
        simp at hx
      · by_cases hxD : x = D
        · rw [hxD, hD'] at hx
          simp at hx
        · by_cases hxi : x = inp
          · rw [hxi, hi2, Option.some.injEq] at hx
            subst hx
            exact ⟨cell, by rw [hxi]; exact hc, rfl⟩
          · rw [hev x hxm hxD hxi] at hx
            exact ⟨cell', hx, rfl⟩

theorem Mapped.distinct2 {s : State V W} {inp a m C D k m2 C2 D2 k2 : Nat} {f f2 : Callable V (Option V)}
    (h1 : Mapped s inp a m C D f k) (h2 : Mapped s m D m2 C2 D2 f2 k2) :
    inp ≠ m2 ∧ inp ≠ D2 ∧ a ≠ m2 ∧ a ≠ D2 ∧ C ≠ C2 := by
  have hlt1 := h1.root_lt
  have hlt2 := h2.root_lt
  have hr := h1.root
  have hra := rootOf_of_root (h1.good.wf.rootOf_root hr)
  have hrm2 := h2.rootOf_node
  have hrD2 := h2.rootOf_down
  refine ⟨?_, ?_, ?_, by omega, ?_⟩
  · intro e
    rw [e, hrm2] at hr
    simp only [Option.some.injEq] at hr
    omega
  · intro e
    rw [e, hrD2] at hr
    simp only [Option.some.injEq] at hr
    omega
  · intro e
    rw [e, hrm2] at hra
    simp only [Option.some.injEq] at hra
    omega
  · intro e
    have hf1 := h1.fn
    rw [e, h2.fn] at hf1
    simp only [Option.some.injEq, Cell.mk.injEq, Fn.mappedOptionalFn.injEq, true_and] at hf1
    omega

/-- Dropping the last handle of a derived stream built on a chained node that has another
owner: the derived stream is destroyed and the graph of the node is intact, with one owner
less. -/
theorem Mapped.dropDerived {s : State V W} {inp a m C D k m2 C2 D2 : Nat} {f f2 : Callable V (Option V)}
    (h1 : Mapped s inp a m C D f (k + 2)) (h2 : Mapped s m D m2 C2 D2 f2 1) (fuel : Nat) :
    ∃ s', releaseAux (fuel + 1 + 1 + 1) (.event m2) s = some s' ∧ Good s' ∧
      Mapped s' inp a m C D f (k + 1) ∧
      s'.owners inp = s.owners inp ∧ s'.events m2 = none ∧ s'.fns C2 = none ∧ s'.events D2 = none ∧
      s'.sinks = s.sinks ∧ s'.next = s.next := by
  obtain ⟨hiD, him, hmD, ham, haD⟩ := h1.distinct
  obtain ⟨hmD2, hmm2, hm2D2, hDm2, hDD2⟩ := h2.distinct
  obtain ⟨him2, hiD2, ham2, haD2, hCC2⟩ := h1.distinct2 h2
  obtain ⟨e, he⟩ := h1.down
  obtain ⟨s', hrel, g', hfn, hsk, _, hnx, hm', hD', _, _, hi', hev, hobj⟩ :=
    h2.dropLast k (by simp [State.owners, h1.node]) fuel
  have hfC : s'.fns C = s.fns C := by rw [hfn, Function.update_noteq hCC2]
  have hri : s'.rootOf inp = s.rootOf inp := rootOf_of_obj inp (by rw [hev inp him2 hiD2 him])
  refine ⟨s', hrel, g', h1.carry g' (k + 1) (hi' _ h1.node) ⟨e, ?_⟩ hfC ?_ ?_ ?_ ?_, ?_, hm', ?_,
    hD', hsk, hnx⟩
  · rw [hev D hDm2 hDD2 (Ne.symm hmD)]; exact he
  · rw [hri]; exact h1.root
  · exact mem_live_keep h1.sub (hev a ham2 haD2 ham) (by rw [hfC, h1.fn]; rfl)
  · intro c cell f' hc _
    rw [hfn] at hc
    by_cases hcc : c = C2
    · rw [hcc, Function.update_same] at hc
      simp at hc
    · rw [Function.update_noteq hcc] at hc
      exact hc
  · intro x cell u up hx ho
    obtain ⟨c0, h0, ho0⟩ := hobj x cell hx
    exact ⟨c0, h0, by rw [ho0, ho]⟩
  · simp only [State.owners, hev inp him2 hiD2 him]
  · rw [hfn, Function.update_same]

/-- Dropping the last handle of a derived stream built on a chained node whose only owner it
is: both chained nodes, both callbacks and both downstream streams are destroyed, and the
upstream of the first node loses one owner. -/
theorem Mapped.dropBoth {s : State V W} {inp a m C D m2 C2 D2 : Nat} {f f2 : Callable V (Option V)}
    (h1 : Mapped s inp a m C D f 1) (h2 : Mapped s m D m2 C2 D2 f2 1) (j : Nat)
    (hown : s.owners inp = some (j + 2)) (fuel : Nat) :
    ∃ s', releaseAux (fuel + 1 + 1 + 1 + 1) (.event m2) s = some s' ∧ Good s' ∧
      s'.events m2 = none ∧ s'.fns C2 = none ∧ s'.events D2 = none ∧
      s'.events m = none ∧ s'.fns C = none ∧ s'.events D = none ∧
      s'.owners inp = some (j + 1) ∧ s'.rootOf inp = some a ∧ s'.sinks = s.sinks ∧ s'.next = s.next := by
  obtain ⟨hiD, him, hmD, ham, haD⟩ := h1.distinct
  obtain ⟨hmD2, hmm2, hm2D2, hDm2, hDD2⟩ := h2.distinct
  obtain ⟨him2, hiD2, ham2, haD2, hCC2⟩ := h1.distinct2 h2
  obtain ⟨e, he⟩ := h1.down
  obtain ⟨e2, he2⟩ := h2.down
  obtain ⟨gb, hlb⟩ := h2.good.detach m2 C2 m D2 e2 h2.node he2
  generalize hsb : (
    { s with events := Function.update (Function.update s.events m2 none) D2 (some ⟨1, .threadSafe e2⟩) } :
      State V W) = sb at gb hlb
  have eb : sb.events = Function.update (Function.update s.events m2 none) D2 (some ⟨1, .threadSafe e2⟩) ∧
      sb.fns = s.fns ∧ sb.sinks = s.sinks ∧ sb.next = s.next := by
    subst hsb; exact ⟨rfl, rfl, rfl, rfl⟩
  obtain ⟨ebe, ebf, ebk, ebn⟩ := eb
  have hbx : ∀ x, x ≠ m2 → x ≠ D2 → sb.events x = s.events x := by
    intro x h1 h2
    rw [ebe, Function.update_noteq h2, Function.update_noteq h1]
  have hbD2 : sb.events D2 = some ⟨1, .threadSafe e2⟩ := by rw [ebe, Function.update_same]
  have hbm2 : sb.events m2 = none := by
    rw [ebe, Function.update_noteq hm2D2, Function.update_same]
  have hMb : Mapped sb inp a m C D f 1 := by
    have hri : sb.rootOf inp = s.rootOf inp := rootOf_of_obj inp (by rw [hbx inp him2 hiD2])
    refine h1.carry gb 1 (by rw [hbx m hmm2 hmD2]; exact h1.node)
      ⟨e, by rw [hbx D hDm2 hDD2]; exact he⟩ (by rw [ebf])
      (by rw [hri]; exact h1.root)
      (by rw [hlb a ham2]; exact h1.sub) (fun c cell f' hc _ => by rw [← ebf]; exact hc) ?_
    intro x cell u up hx ho
    by_cases hx2 : x = D2
    · rw [hx2, hbD2, Option.some.injEq] at hx
      subst hx
      cases ho
    · by_cases hxm : x = m2
      · rw [hxm, hbm2] at hx
        simp at hx
      · rw [hbx x hxm hx2] at hx
        exact ⟨cell, hx, ho⟩
  obtain ⟨sc, hrelc, gc, hfnc, hskc, _, hnxc, hmc, hDc, hownc, hrootc, _, hevc, hobjc⟩ :=
    hMb.dropLast j (by simp only [State.owners, hbx inp him2 hiD2]; exact hown) fuel
  have hup : releaseAux (fuel + 1 + 1 + 1) (.event m)
      { s with events := Function.update (Function.update s.events m2 none) D2 (some ⟨1, .threadSafe e2⟩) } =
        some sc := by
    rw [hsb]; exact hrelc
  obtain ⟨hrel, gfin⟩ := releaseAux_chained (fuel + 1) m2 C2 m D2 f2 e2 h2.node he2 hup gc
    (by rw [hfnc, Function.update_noteq (Ne.symm hCC2), ebf]; exact h2.fn)
    (by rw [hevc D2 (Ne.symm hmD2) (Ne.symm hDD2) (Ne.symm hiD2)]; exact hbD2)
    (by
      intro c cell f' hc ho
      rw [hfnc] at hc
      by_cases hcc : c = C
      · rw [hcc, Function.update_same] at hc
        simp at hc
      · rw [Function.update_noteq hcc, ebf] at hc
        exact h2.onlyfn c cell f' hc ho)
    (by
      intro x cell u up hx ho
      obtain ⟨cell0, h0, ho0⟩ := hobjc x cell hx
      rw [ho] at ho0
      by_cases hx2 : x = D2
      · rw [hx2, hbD2, Option.some.injEq] at h0
        subst h0
        cases ho0
      · by_cases hxm : x = m2
        · rw [hxm, hbm2] at h0
          simp at h0
        · rw [hbx x hxm hx2] at h0
          exact hxm (h2.onlych x cell0 u up h0 ho0))
  refine ⟨_, hrel, gfin, ?_, ?_, ?_, ?_, ?_, ?_, ?_, ?_, ?_, ?_⟩
  · show Function.update sc.events D2 none m2 = none
    rw [Function.update_noteq hm2D2, hevc m2 (Ne.symm hmm2) (Ne.symm hDm2) (Ne.symm him2), hbm2]
  · show Function.update sc.fns C2 none C2 = none
    rw [Function.update_same]
  · show Function.update sc.events D2 none D2 = none
    rw [Function.update_same]
  · show Function.update sc.events D2 none m = none
    rw [Function.update_noteq hmD2, hmc]
  · show Function.update sc.fns C2 none C = none
    rw [Function.update_noteq hCC2, hfnc, Function.update_same]
  · show Function.update sc.events D2 none D = none
    rw [Function.update_noteq hDD2, hDc]
  · show (Function.update sc.events D2 none inp).map _ = _
    rw [Function.update_noteq hiD2]
    exact hownc
  · rw [← hrootc]
    apply rootOf_of_obj
    show (Function.update sc.events D2 none inp).map _ = _
    rw [Function.update_noteq hiD2]
  · show sc.sinks = _
    rw [hskc, ebk]
  · show sc.next = _
    rw [hnxc, ebn]

/-- The graph is intact when a handle of the node goes and a callback other than that of the
node is destroyed. -/
theorem Mapped.lessFn {s s' : State V W} {inp a m C D k : Nat} {f : Callable V (Option V)}
    (h : Mapped s inp a m C D f k) (g' : Good s') (k' c0 : Nat)
    (hev : s'.events = Function.update s.events m (some ⟨k', .chained C inp D⟩))
    (hfn : s'.fns = Function.update s.fns c0 none) (hc0 : C ≠ c0) :
    Mapped s' inp a m C D f k' ∧ s'.owners inp = s.owners inp := by
  obtain ⟨hiD, him, hmD, ham, haD⟩ := h.distinct
  obtain ⟨e, he⟩ := h.down
  have hfC : s'.fns C = s.fns C := by rw [hfn, Function.update_noteq hc0]
  have hri : s'.rootOf inp = s.rootOf inp := rootOf_of_obj inp (by rw [hev, Function.update_noteq him])
  refine ⟨h.carry g' k' (by rw [hev, Function.update_same])
    ⟨e, by rw [hev, Function.update_noteq (Ne.symm hmD)]; exact he⟩ hfC (by rw [hri]; exact h.root)
    (mem_live_keep h.sub (by rw [hev, Function.update_noteq ham]) (by rw [hfC, h.fn]; rfl)) ?_ ?_,
    by simp only [State.owners, hev, Function.update_noteq him]⟩
  · intro c cell f' hc _
    rw [hfn] at hc
    by_cases hcc : c = c0
    · rw [hcc, Function.update_same] at hc
      simp at hc
    · rw [Function.update_noteq hcc] at hc
      exact hc
  · intro x cell u up hx ho
    rw [hev] at hx
    by_cases hxm : x = m
    · rw [hxm, Function.update_same, Option.some.injEq] at hx
      subst hx
      exact ⟨⟨k, .chained C inp D⟩, by rw [hxm]; exact h.node, ho⟩
    · rw [Function.update_noteq hxm] at hx
      exact ⟨cell, hx, ho⟩

theorem WF.voidSink_no_fn {s : State V W} (wf : WF s) (k sub up : Nat)
    (hk : s.sinks k = some ⟨1, .voidSink sub up⟩) :
    ∀ c cell, s.fns c = some cell → cell.obj ≠ .vectorSinkFn k := by
  intro c cellc hcc ho
  have := wf.runnable c cellc hcc
  rw [ho] at this
  obtain ⟨cellk, h1, _, _, h3⟩ := this
  rw [hk] at h1
  simp only [Option.some.injEq] at h1
  subst h1
  simp [ISink.skeleton] at h3

/-- Dropping the handle of a `forEach` sink on a chained node that has another owner: the
sink and its callback are destroyed and the graph of the node is intact. -/
theorem Mapped.dropVoidSink {s : State V W} {inp a m C D k : Nat} {f : Callable V (Option V)}
    (h : Mapped s inp a m C D f (k + 2)) (sk sub : Nat) (act : V → W → W)
    (hk : s.sinks sk = some ⟨1, .voidSink sub m⟩) (hsub : s.fns sub = some ⟨1, .forEachFn act⟩) :
    ∃ s', release (.sink sk) s = some s' ∧ Mapped s' inp a m C D f (k + 1) ∧
      s'.owners inp = s.owners inp ∧ s'.sinks sk = none ∧ s'.fns sub = none ∧ s'.next = s.next := by
  obtain ⟨hib, hmb, hCb, hDb, hab⟩ := h.bounds
  obtain ⟨s', hrel, g', hfn, hsk, _, hnx, _, _⟩ := release_voidSink h.good sk sub m act hk hsub
    ⟨_, h.node, Nat.succ_lt_succ (Nat.succ_pos k)⟩
  have hev : s'.events = Function.update s.events m (some ⟨k + 1, .chained C inp D⟩) := by
    obtain ⟨n, hn⟩ : ∃ n, s.next = n + 1 := ⟨s.next - 1, by omega⟩
    have e1 : release (.sink sk) s = some
        { s with
          sinks := Function.update s.sinks sk none
          events := Function.update s.events m (some ⟨k + 1, .chained C inp D⟩)
          fns := Function.update s.fns sub none } := by
      unfold release
      rw [hn]
      simp [releaseAux, hk, h.node, hsub, hn]
    rw [e1] at hrel
    simp only [Option.some.injEq] at hrel
    rw [← hrel]
  have hCs : C ≠ sub := by
    intro e
    have := h.fn
    rw [e, hsub] at this
    simp at this
  obtain ⟨hM, hown⟩ := h.lessFn g' (k + 1) sub hev hfn hCs
  exact ⟨s', hrel, hM, hown, by rw [hsk, Function.update_same], by rw [hfn, Function.update_same], hnx⟩

/-- Dropping the handle of a `forEach` sink that is the only owner of a chained node: the
sink, its callback, the node, the callback of the node and the downstream stream are
destroyed, and the upstream of the node loses one owner. -/
theorem Mapped.dropVoidSinkLast {s : State V W} {inp a m C D : Nat} {f : Callable V (Option V)}
    (h : Mapped s inp a m C D f 1) (j : Nat) (hown : s.owners inp = some (j + 2)) (sk sub : Nat)
    (act : V → W → W) (hk : s.sinks sk = some ⟨1, .voidSink sub m⟩)
    (hsub : s.fns sub = some ⟨1, .forEachFn act⟩) :
    ∃ s', release (.sink sk) s = some s' ∧ Good s' ∧ s'.events m = none ∧ s'.fns C = none ∧
      s'.events D = none ∧ s'.owners inp = some (j + 1) ∧ s'.rootOf inp = some a ∧
      s'.sinks sk = none ∧ s'.fns sub = none ∧ s'.next = s.next := by
  obtain ⟨hiD, him, hmD, ham, haD⟩ := h.distinct
  obtain ⟨hib, hmb, hCb, hDb, hab⟩ := h.bounds
  obtain ⟨e, he⟩ := h.down
  have hCs : C ≠ sub := by
    intro e
    have := h.fn
    rw [e, hsub] at this
    simp at this
  obtain ⟨ga, hla⟩ := h.good.removeSink sk (h.good.wf.voidSink_no_fn sk sub m hk)
  generalize hsa : ({ s with sinks := Function.update s.sinks sk none } : State V W) = sa at ga hla
  have ea : sa.events = s.events ∧ sa.fns = s.fns ∧ sa.sinks = Function.update s.sinks sk none ∧
      sa.next = s.next := by
    subst hsa; exact ⟨rfl, rfl, rfl, rfl⟩
  obtain ⟨eae, eaf, eak, ean⟩ := ea
  have hri : sa.rootOf inp = s.rootOf inp := rootOf_of_obj inp (by rw [eae])
  have hMa : Mapped sa inp a m C D f 1 :=
    h.carry ga 1 (by rw [eae]; exact h.node) ⟨e, by rw [eae]; exact he⟩ (by rw [eaf])
      (by rw [hri]; exact h.root) (by rw [hla]; exact h.sub)
      (fun c cell f' hc _ => by rw [← eaf]; exact hc)
      (fun x cell u up hx ho => ⟨cell, by rw [← eae]; exact hx, ho⟩)
  obtain ⟨n, hn⟩ : ∃ n, s.next = n + 1 + 1 + 1 := ⟨s.next - 3, by omega⟩
  obtain ⟨sb, hrelb, gb, hfnb, hskb, _, hnxb, hmb', hDb', hownb, hrootb, _, hevb, _⟩ :=
    hMa.dropLast j (by simp only [State.owners, eae]; exact hown) n
  obtain ⟨gfin, _⟩ := gb.removeFn sub
  have hfb : sb.fns sub = some ⟨1, .forEachFn act⟩ := by
    rw [hfnb, Function.update_noteq (Ne.symm hCs), eaf]; exact hsub
  refine ⟨{ sb with fns := Function.update sb.fns sub none }, ?_, gfin, hmb', ?_, hDb', hownb, hrootb,
    ?_, ?_, ?_⟩
  · unfold release
    rw [hn]
    have e1 : releaseAux (n + 1 + 1 + 1 + 1) (.sink sk) s =
        (releaseAux (n + 1 + 1 + 1) (.event m) sa).bind fun s2 =>
          releaseAux (n + 1 + 1 + 1) (.fn sub) s2 := by
      subst hsa
      simp [releaseAux, hk]
    rw [e1, hrelb]
    simp only [Option.some_bind]
    simp [releaseAux, hfb]
  · show Function.update sb.fns sub none C = none
    rw [Function.update_noteq hCs, hfnb, Function.update_same]
  · show sb.sinks sk = none
    rw [hskb, eak, Function.update_same]
  · show Function.update sb.fns sub none sub = none
    rw [Function.update_same]
  · show sb.next = _
    rw [hnxb, ean]

/-- Destroying a `VectorSink` and the callback that pushes to it keeps the invariants. -/
theorem Good.removeVectorSink {s : State V W} (g : Good s) (sk K : Nat)
    (honly : ∀ c cell, s.fns c = some cell → cell.obj = .vectorSinkFn sk → c = K) :
    Good { s with fns := Function.update s.fns K none, sinks := Function.update s.sinks sk none } := by
  obtain ⟨gf, _⟩ := g.removeFn K
  obtain ⟨gk, _⟩ := gf.removeSink sk (by
    intro c cell hc ho
    have hc' : Function.update s.fns K none c = some cell := hc
    by_cases hcK : c = K
    · rw [hcK, Function.update_same] at hc'
      simp at hc'
    · rw [Function.update_noteq hcK] at hc'
      exact hcK (honly c cell hc' ho))
  exact gk

/-- Dropping the handle of a `collect` sink on a chained node that has another owner: the
sink and its callback are destroyed and the graph of the node is intact. -/
theorem Mapped.dropVectorSink {s : State V W} {inp a m C D k : Nat} {f : Callable V (Option V)}
    (h : Mapped s inp a m C D f (k + 2)) (sk K : Nat) (items : ThreadSafe (List V))
    (hk : s.sinks sk = some ⟨1, .vectorSink m items K⟩) (hK : s.fns K = some ⟨1, .vectorSinkFn sk⟩)
    (honly : ∀ c cell, s.fns c = some cell → cell.obj = .vectorSinkFn sk → c = K) :
    ∃ s', release (.sink sk) s = some s' ∧ Mapped s' inp a m C D f (k + 1) ∧
      s'.owners inp = s.owners inp ∧ s'.sinks sk = none ∧ s'.fns K = none ∧ s'.next = s.next := by
  obtain ⟨hib, hmb, hCb, hDb, hab⟩ := h.bounds
  have hCK : C ≠ K := by
    intro e
    have := h.fn
    rw [e, hK] at this
    simp at this
  have gk := h.good.removeVectorSink sk K honly
  have hsh := Shape.restrong
    { s with fns := Function.update s.fns K none, sinks := Function.update s.sinks sk none } m (k + 1)
    ⟨k + 2, .chained C inp D⟩ h.node
  have gfin := gk.good_of_shape hsh
  obtain ⟨hM, hown⟩ := h.lessFn gfin (k + 1) K rfl rfl hCK
  refine ⟨_, ?_, hM, hown, ?_, ?_, rfl⟩
  · obtain ⟨n, hn⟩ : ∃ n, s.next = n + 1 := ⟨s.next - 1, by omega⟩
    unfold release
    rw [hn]
    simp [releaseAux, hk, hK, h.node, hn]
  · show Function.update s.sinks sk none sk = none
    rw [Function.update_same]
  · show Function.update s.fns K none K = none
    rw [Function.update_same]

/-- Dropping the handle of a `collect` sink that is the only owner of a chained node: the
sink, its callback, the node, the callback of the node and the downstream stream are
destroyed, and the upstream of the node loses one owner. -/
theorem Mapped.dropVectorSinkLast {s : State V W} {inp a m C D : Nat} {f : Callable V (Option V)}
    (h : Mapped s inp a m C D f 1) (j : Nat) (hown : s.owners inp = some (j + 2)) (sk K : Nat)
    (items : ThreadSafe (List V))
    (hk : s.sinks sk = some ⟨1, .vectorSink m items K⟩) (hK : s.fns K = some ⟨1, .vectorSinkFn sk⟩)
    (honly : ∀ c cell, s.fns c = some cell → cell.obj = .vectorSinkFn sk → c = K) :
    ∃ s', release (.sink sk) s = some s' ∧ Good s' ∧ s'.events m = none ∧ s'.fns C = none ∧
      s'.events D = none ∧ s'.owners inp = some (j + 1) ∧ s'.rootOf inp = some a ∧
      s'.sinks sk = none ∧ s'.fns K = none ∧ s'.next = s.next := by
  obtain ⟨hiD, him, hmD, ham, haD⟩ := h.distinct
  obtain ⟨hib, hmb, hCb, hDb, hab⟩ := h.bounds
  have hCK : C ≠ K := by
    intro e
    have := h.fn
    rw [e, hK] at this
    simp at this
  have gk := h.good.removeVectorSink sk K honly
  generalize hsb : (
    { s with fns := Function.update s.fns K none, sinks := Function.update s.sinks sk none } :
      State V W) = sb at gk
  have eb : sb.events = s.events ∧ sb.fns = Function.update s.fns K none ∧
      sb.sinks = Function.update s.sinks sk none ∧ sb.next = s.next := by
    subst hsb; exact ⟨rfl, rfl, rfl, rfl⟩
  obtain ⟨ebe, ebf, ebk, ebn⟩ := eb
  obtain ⟨hMb, hownb⟩ := h.lessFn gk 1 K
    (by rw [ebe, ← h.node, Function.update_eq_self]) ebf hCK
  obtain ⟨n, hn⟩ : ∃ n, s.next = n + 1 + 1 + 1 := ⟨s.next - 3, by omega⟩
  obtain ⟨sc, hrelc, gc, hfnc, hskc, _, hnxc, hmc, hDc, hownc, hrootc, _, _, _⟩ :=
    hMb.dropLast j (by rw [hownb]; exact hown) n
  refine ⟨sc, ?_, gc, hmc, by rw [hfnc, Function.update_same], hDc, hownc, hrootc,
    by rw [hskc, ebk, Function.update_same],
    by rw [hfnc, Function.update_noteq (Ne.symm hCK), ebf, Function.update_same], by rw [hnxc, ebn]⟩
  unfold release
  rw [hn]
  have e1 : releaseAux (n + 1 + 1 + 1 + 1) (.sink sk) s =
      (releaseAux (n + 1 + 1 + 1) (.fn K) { s with sinks := Function.update s.sinks sk none }).bind
        fun s2 => releaseAux (n + 1 + 1 + 1) (.event m) s2 := by
    conv_lhs => rw [releaseAux]
    simp only [hk, lt_self_iff_false, if_false]
  have e2 : releaseAux (n + 1 + 1 + 1) (.fn K) { s with sinks := Function.update s.sinks sk none } =
      some sb := by
    subst hsb
    simp [releaseAux, hK]
  rw [e1, e2]
  exact hrelc

theorem Mapped.release_shared {s : State V W} {inp a m C D k : Nat} {f : Callable V (Option V)}
    (h : Mapped s inp a m C D f (k + 2)) :
    ∃ s', release (.event m) s = some s' ∧ Mapped s' inp a m C D f (k + 1) ∧ Shape s s' ∧
      s'.sinks = s.sinks ∧ s'.dyns = s.dyns ∧ (∀ x, x ≠ m → s'.events x = s.events x) :=
  h.drop s.next

theorem Mapped.release_last {s : State V W} {inp a m C D : Nat} {f : Callable V (Option V)}
    (h : Mapped s inp a m C D f 1) (j : Nat) (hown : s.owners inp = some (j + 2)) :
    ∃ s', release (.event m) s = some s' ∧ Good s' ∧ s'.events m = none ∧ s'.fns C = none ∧
      s'.events D = none ∧ s'.owners inp = some (j + 1) ∧ s'.rootOf inp = some a := by
  obtain ⟨hiD, him, hmD, _, _⟩ := h.distinct
  obtain ⟨hib, hmb, _, hDb, _⟩ := h.bounds
  obtain ⟨n, hn⟩ : ∃ n, s.next + 1 = n + 1 + 1 + 1 := ⟨s.next - 2, by omega⟩
  obtain ⟨s', hrel, g', hfn, _, _, _, hm', hD', hown', hroot', _, _, _⟩ := h.dropLast j hown n
  refine ⟨s', ?_, g', hm', by rw [hfn, Function.update_same], hD', hown', hroot'⟩
  unfold release
  rw [hn]
  exact hrel

theorem Mapped.release_derived {s : State V W} {inp a m C D k m2 C2 D2 : Nat}
    {f f2 : Callable V (Option V)} (h1 : Mapped s inp a m C D f (k + 2))
    (h2 : Mapped s m D m2 C2 D2 f2 1) :
    ∃ s', release (.event m2) s = some s' ∧ Mapped s' inp a m C D f (k + 1) ∧
      s'.owners inp = s.owners inp ∧ s'.events m2 = none ∧ s'.fns C2 = none ∧ s'.events D2 = none := by
  obtain ⟨hiD, him, hmD, _, _⟩ := h1.distinct
  obtain ⟨hib, hmb, _, hDb, _⟩ := h1.bounds
  obtain ⟨n, hn⟩ : ∃ n, s.next + 1 = n + 1 + 1 + 1 := ⟨s.next - 2, by omega⟩
  obtain ⟨s', hrel, _, hM, hown, hm2, hC2, hD2, _, _⟩ := h1.dropDerived h2 n
  refine ⟨s', ?_, hM, hown, hm2, hC2, hD2⟩
  unfold release
  rw [hn]
  exact hrel

theorem Mapped.release_both {s : State V W} {inp a m C D m2 C2 D2 : Nat} {f f2 : Callable V (Option V)}
    (h1 : Mapped s inp a m C D f 1) (h2 : Mapped s m D m2 C2 D2 f2 1) (j : Nat)
    (hown : s.owners inp = some (j + 2)) :
    ∃ s', release (.event m2) s = some s' ∧ Good s' ∧
      s'.events m2 = none ∧ s'.fns C2 = none ∧ s'.events D2 = none ∧
      s'.events m = none ∧ s'.fns C = none ∧ s'.events D = none ∧
      s'.owners inp = some (j + 1) ∧ s'.rootOf inp = some a := by
  obtain ⟨hiD, him, hmD, _, _⟩ := h1.distinct
  obtain ⟨hib, hmb, _, hDb, _⟩ := h1.bounds
  obtain ⟨n, hn⟩ : ∃ n, s.next + 1 = n + 1 + 1 + 1 + 1 := ⟨s.next - 3, by omega⟩
  obtain ⟨s', hrel, g', hm2, hC2, hD2, hm', hC', hD', hown', hroot', _, _⟩ := h1.dropBoth h2 j hown n
  refine ⟨s', ?_, g', hm2, hC2, hD2, hm', hC', hD', hown', hroot'⟩
  unfold release
  rw [hn]
  exact hrel

theorem Frame.voidSink {P : Footprint} {s t : State V W} (hfr : Frame P s t) {sk sub up : Nat}
    (hk : s.sinks sk = some ⟨1, .voidSink sub up⟩) : t.sinks sk = some ⟨1, .voidSink sub up⟩ := by
  have h1 := hfr.sinksKeep sk
  have h2 := hfr.shape.sinks sk
  rw [hk] at h1 h2
  cases ht : t.sinks sk with
  | none => rw [ht] at h1; simp at h1
  | some c =>
    rw [ht] at h1 h2
    simp only [Option.map_some', Option.some.injEq] at h1 h2
    cases c with
    | mk st obj =>
      simp only at h1 h2
      subst h1
      cases obj with
      | voidSink sub' up' =>
        simp only [ISink.skeleton, ISink.voidSink.injEq] at h2
        rw [h2.1, h2.2]
      | vectorSink _ _ _ => simp [ISink.skeleton] at h2

theorem Frame.vectorSink {P : Footprint} {s t : State V W} (hfr : Frame P s t) {sk up K : Nat}
    {items : ThreadSafe (List V)} (hk : s.sinks sk = some ⟨1, .vectorSink up items K⟩) :
    ∃ items', t.sinks sk = some ⟨1, .vectorSink up items' K⟩ := by
  have h1 := hfr.sinksKeep sk
  have h2 := hfr.shape.sinks sk
  rw [hk] at h1 h2
  cases ht : t.sinks sk with
  | none => rw [ht] at h1; simp at h1
  | some c =>
    rw [ht] at h1 h2
    simp only [Option.map_some', Option.some.injEq] at h1 h2
    cases c with
    | mk st obj =>
      simp only at h1 h2
      subst h1
      cases obj with
      | voidSink _ _ => simp [ISink.skeleton] at h2
      | vectorSink up' items' K' =>
        simp only [ISink.skeleton, ISink.vectorSink.injEq, and_true, true_and] at h2
        exact ⟨items', by rw [h2.1, h2.2]⟩

/-- Fires into the upstream stream leave the graph of a `mappedOptional` intact. -/
theorem Mapped.fires {s : State V W} {inp a m C D k : Nat} {f : Callable V (Option V)}
    (h : Mapped s inp a m C D f k) (xs : List V) :
    ∃ t, (∀ fuel, s.fuelBound ≤ fuel → fireAll fuel (xs.map fun v => (inp, v)) s = some t) ∧
      Mapped t inp a m C D f k ∧ Frame Footprint.all s t ∧ t.owners inp = s.owners inp := by
  obtain ⟨t, hf, hfr⟩ := fireAll_ok (xs.map fun v => (inp, v)) s h.good.wf (by
    intro hv hm
    simp only [List.mem_map] at hm
    obtain ⟨v, _, rfl⟩ := hm
    exact rootOf_alive h.root)
  obtain ⟨e, he⟩ := h.down
  exact ⟨t, hf, h.keep_shape hfr.shape k (by rw [hfr.eventsKeep, h.node]; rfl)
    (by rw [hfr.eventsKeep, he]; rfl), hfr, hfr.eventsKeep inp⟩

/-- A `forEach` sink on the derived stream keeps the chained node alive after the handle of
the stream is dropped, and the handle keeps it alive after the sink is dropped; the second
drop, in either order and with fires in between, destroys the node, its callback and the
downstream stream, and gives the upstream stream its owners back. -/
theorem lifetime_forEach {s0 s1 : State V W} (g0 : Good s0) (inp a : Nat) (f : V → Option V)
    (hr : s0.rootOf inp = some a) (k : Nat) (hown : s0.owners inp = some (k + 1))
    (h1 : mappedOptional inp (.pure f) s0 = some (s0.next + 2, s1)) (act : V → W → W) :
    ∃ sk s2, forEach (s0.next + 2) act s1 = some (sk, s2) ∧ Good s2 ∧
      s2.hasSub a (s0.next + 1) (.mappedOptionalFn (.pure f) s0.next) ∧ s2.rootOf inp = some a ∧
      s2.owners (s0.next + 2) = some 2 ∧
      ∀ xs ys : List V,
      (∃ t2 s3 t3 s4,
        (∀ fuel, s2.fuelBound ≤ fuel → fireAll fuel (xs.map fun v => (inp, v)) s2 = some t2) ∧
        release (.event (s0.next + 2)) t2 = some s3 ∧
        Good s3 ∧ s3.hasSub a (s0.next + 1) (.mappedOptionalFn (.pure f) s0.next) ∧
        s3.rootOf inp = some a ∧ s3.owners (s0.next + 2) = some 1 ∧
        (∀ fuel, s3.fuelBound ≤ fuel → fireAll fuel (ys.map fun v => (inp, v)) s3 = some t3) ∧
        release (.sink sk) t3 = some s4 ∧
        Good s4 ∧ s4.owners (s0.next + 2) = none ∧
        WeakPtr.expired s4 (some (s0.next + 1)) = true ∧ s4.owners s0.next = none ∧
        s4.rootOf inp = some a ∧ s4.owners inp = s0.owners inp) ∧
      (∃ t2 s3 t3 s4,
        (∀ fuel, s2.fuelBound ≤ fuel → fireAll fuel (xs.map fun v => (inp, v)) s2 = some t2) ∧
        release (.sink sk) t2 = some s3 ∧
        Good s3 ∧ s3.hasSub a (s0.next + 1) (.mappedOptionalFn (.pure f) s0.next) ∧
        s3.rootOf inp = some a ∧ s3.owners (s0.next + 2) = some 1 ∧
        (∀ fuel, s3.fuelBound ≤ fuel → fireAll fuel (ys.map fun v => (inp, v)) s3 = some t3) ∧
        release (.event (s0.next + 2)) t3 = some s4 ∧
        Good s4 ∧ s4.owners (s0.next + 2) = none ∧
        WeakPtr.expired s4 (some (s0.next + 1)) = true ∧ s4.owners s0.next = none ∧
        s4.rootOf inp = some a ∧ s4.owners inp = s0.owners inp) := by
  obtain ⟨s1', h1', hM1, hn1, hown1⟩ := Mapped.build g0 inp a (.pure f) hr trivial
  rw [h1] at h1'
  simp only [Option.some.injEq, Prod.mk.injEq, true_and] at h1'
  subst h1'
  have ho1 := hown1 _ hown
  obtain ⟨s2, h2, hM2, hown2, hn2, hsk2, hfn2⟩ := hM1.forEach act
  have ho2 : s2.owners inp = some (k + 2) := by rw [hown2, ho1]
  obtain ⟨hiD, him, hmD, _, _⟩ := hM2.distinct
  refine ⟨s1.next + 1, s2, h2, hM2.good, hM2.hasSub, hM2.root, by simp [State.owners, hM2.node], ?_⟩
  intro xs ys
  obtain ⟨t2, hft2, hMt2, hfr2, hot2⟩ := hM2.fires xs
  have hskt2 := hfr2.voidSink hsk2
  have hfnt2 : t2.fns s1.next = some ⟨1, .forEachFn act⟩ := by rw [hfr2.shape.fns]; exact hfn2
  constructor
  · obtain ⟨s3, hrel3, hM3, hsh3, hsk3, _, hev3⟩ := hMt2.release_shared (k := 0)
    have ho3 : s3.owners inp = some (k + 2) := by
      simp only [State.owners, hev3 inp him]
      rw [← ho2, ← hot2]
      rfl
    obtain ⟨t3, hft3, hMt3, hfr3, hot3⟩ := hM3.fires ys
    obtain ⟨s4, hrel4, g4, hm4, hC4, hD4, hown4, hroot4, _, _, _⟩ :=
      hMt3.dropVoidSinkLast k (by rw [hot3]; exact ho3) (s1.next + 1) s1.next act
        (hfr3.voidSink (by rw [hsk3]; exact hskt2)) (by rw [hfr3.shape.fns, hsh3.fns]; exact hfnt2)
    exact ⟨t2, s3, t3, s4, hft2, hrel3, hM3.good, hM3.hasSub, hM3.root, by simp [State.owners, hM3.node], hft3,
      hrel4, g4, by simp [State.owners, hm4], by simp [WeakPtr.expired, hC4], by simp [State.owners, hD4],
      hroot4, by rw [hown4, hown]⟩
  · obtain ⟨s3, hrel3, hM3, hown3, _, _, _⟩ :=
      hMt2.dropVoidSink (k := 0) (s1.next + 1) s1.next act hskt2 hfnt2
    obtain ⟨t3, hft3, hMt3, hfr3, hot3⟩ := hM3.fires ys
    obtain ⟨s4, hrel4, g4, hm4, hC4, hD4, hown4, hroot4⟩ :=
      hMt3.release_last k (by rw [hot3, hown3, hot2]; exact ho2)
    exact ⟨t2, s3, t3, s4, hft2, hrel3, hM3.good, hM3.hasSub, hM3.root, by simp [State.owners, hM3.node], hft3,
      hrel4, g4, by simp [State.owners, hm4], by simp [WeakPtr.expired, hC4], by simp [State.owners, hD4],
      hroot4, by rw [hown4, hown]⟩

/-- A `collect` sink on the derived stream keeps the chained node alive after the handle of
the stream is dropped, and the handle keeps it alive after the sink is dropped; the second
drop, in either order and with fires in between, destroys the node, its callback and the
downstream stream, and gives the upstream stream its owners back. -/
theorem lifetime_collect {s0 s1 : State V W} (g0 : Good s0) (inp a : Nat) (f : V → Option V)
    (hr : s0.rootOf inp = some a) (k : Nat) (hown : s0.owners inp = some (k + 1))
    (h1 : mappedOptional inp (.pure f) s0 = some (s0.next + 2, s1)) :
    ∃ sk s2, collect (s0.next + 2) s1 = some (sk, s2) ∧ Good s2 ∧
      s2.hasSub a (s0.next + 1) (.mappedOptionalFn (.pure f) s0.next) ∧ s2.rootOf inp = some a ∧
      s2.owners (s0.next + 2) = some 2 ∧
      ∀ xs ys : List V,
      (∃ t2 s3 t3 s4,
        (∀ fuel, s2.fuelBound ≤ fuel → fireAll fuel (xs.map fun v => (inp, v)) s2 = some t2) ∧
        release (.event (s0.next + 2)) t2 = some s3 ∧
        Good s3 ∧ s3.hasSub a (s0.next + 1) (.mappedOptionalFn (.pure f) s0.next) ∧
        s3.rootOf inp = some a ∧ s3.owners (s0.next + 2) = some 1 ∧
        (∀ fuel, s3.fuelBound ≤ fuel → fireAll fuel (ys.map fun v => (inp, v)) s3 = some t3) ∧
        release (.sink sk) t3 = some s4 ∧
        Good s4 ∧ s4.owners (s0.next + 2) = none ∧
        WeakPtr.expired s4 (some (s0.next + 1)) = true ∧ s4.owners s0.next = none ∧
        s4.rootOf inp = some a ∧ s4.owners inp = s0.owners inp) ∧
      (∃ t2 s3 t3 s4,
        (∀ fuel, s2.fuelBound ≤ fuel → fireAll fuel (xs.map fun v => (inp, v)) s2 = some t2) ∧
        release (.sink sk) t2 = some s3 ∧
        Good s3 ∧ s3.hasSub a (s0.next + 1) (.mappedOptionalFn (.pure f) s0.next) ∧
        s3.rootOf inp = some a ∧ s3.owners (s0.next + 2) = some 1 ∧
        (∀ fuel, s3.fuelBound ≤ fuel → fireAll fuel (ys.map fun v => (inp, v)) s3 = some t3) ∧
        release (.event (s0.next + 2)) t3 = some s4 ∧
        Good s4 ∧ s4.owners (s0.next + 2) = none ∧
        WeakPtr.expired s4 (some (s0.next + 1)) = true ∧ s4.owners s0.next = none ∧
        s4.rootOf inp = some a ∧ s4.owners inp = s0.owners inp) := by
  obtain ⟨s1', h1', hM1, hn1, hown1⟩ := Mapped.build g0 inp a (.pure f) hr trivial
  rw [h1] at h1'
  simp only [Option.some.injEq, Prod.mk.injEq, true_and] at h1'
  subst h1'
  have ho1 := hown1 _ hown
  obtain ⟨s2, h2, hM2, hown2, hn2, hsk2, hfn2, honly2⟩ := hM1.collect
  have ho2 : s2.owners inp = some (k + 2) := by rw [hown2, ho1]
  obtain ⟨hiD, him, hmD, _, _⟩ := hM2.distinct
  refine ⟨s1.next, s2, h2, hM2.good, hM2.hasSub, hM2.root, by simp [State.owners, hM2.node], ?_⟩
  intro xs ys
  obtain ⟨t2, hft2, hMt2, hfr2, hot2⟩ := hM2.fires xs
  obtain ⟨items2, hskt2⟩ := hfr2.vectorSink hsk2
  have hfnt2 : t2.fns (s1.next + 1) = some ⟨1, .vectorSinkFn s1.next⟩ := by
    rw [hfr2.shape.fns]; exact hfn2
  have honlyt2 : ∀ c cell, t2.fns c = some cell → cell.obj = .vectorSinkFn s1.next → c = s1.next + 1 := by
    rw [hfr2.shape.fns]; exact honly2
  constructor
  · obtain ⟨s3, hrel3, hM3, hsh3, hsk3, _, hev3⟩ := hMt2.release_shared (k := 0)
    have ho3 : s3.owners inp = some (k + 2) := by
      simp only [State.owners, hev3 inp him]
      rw [← ho2, ← hot2]
      rfl
    obtain ⟨t3, hft3, hMt3, hfr3, hot3⟩ := hM3.fires ys
    obtain ⟨items3, hskt3⟩ := hfr3.vectorSink (show s3.sinks s1.next = _ from by rw [hsk3]; exact hskt2)
    obtain ⟨s4, hrel4, g4, hm4, hC4, hD4, hown4, hroot4, _, _, _⟩ :=
      hMt3.dropVectorSinkLast k (by rw [hot3]; exact ho3) s1.next (s1.next + 1) items3 hskt3
        (by rw [hfr3.shape.fns, hsh3.fns]; exact hfnt2)
        (by rw [hfr3.shape.fns, hsh3.fns]; exact honlyt2)
    exact ⟨t2, s3, t3, s4, hft2, hrel3, hM3.good, hM3.hasSub, hM3.root, by simp [State.owners, hM3.node], hft3,
      hrel4, g4, by simp [State.owners, hm4], by simp [WeakPtr.expired, hC4], by simp [State.owners, hD4],
      hroot4, by rw [hown4, hown]⟩
  · obtain ⟨s3, hrel3, hM3, hown3, _, _, _⟩ :=
      hMt2.dropVectorSink (k := 0) s1.next (s1.next + 1) items2 hskt2 hfnt2 honlyt2
    obtain ⟨t3, hft3, hMt3, hfr3, hot3⟩ := hM3.fires ys
    obtain ⟨s4, hrel4, g4, hm4, hC4, hD4, hown4, hroot4⟩ :=
      hMt3.release_last k (by rw [hot3, hown3, hot2]; exact ho2)
    exact ⟨t2, s3, t3, s4, hft2, hrel3, hM3.good, hM3.hasSub, hM3.root, by simp [State.owners, hM3.node], hft3,
      hrel4, g4, by simp [State.owners, hm4], by simp [WeakPtr.expired, hC4], by simp [State.owners, hD4],
      hroot4, by rw [hown4, hown]⟩

/-- A further derived stream built on the derived stream keeps the chained node alive after
the handle of the stream is dropped, and the handle keeps it alive after the further stream
is dropped; the second drop, in either order and with fires in between, destroys the node,
its callback and the downstream stream, and gives the upstream stream its owners back. -/
theorem lifetime_derived {s0 s1 : State V W} (g0 : Good s0) (inp a : Nat) (f : V → Option V)
    (hr : s0.rootOf inp = some a) (k : Nat) (hown : s0.owners inp = some (k + 1))
    (h1 : mappedOptional inp (.pure f) s0 = some (s0.next + 2, s1)) (f2 : V → Option V) :
    ∃ m2 s2, mappedOptional (s0.next + 2) (.pure f2) s1 = some (m2, s2) ∧ Good s2 ∧
      s2.hasSub a (s0.next + 1) (.mappedOptionalFn (.pure f) s0.next) ∧ s2.rootOf inp = some a ∧
      s2.owners (s0.next + 2) = some 2 ∧
      ∀ xs ys : List V,
      (∃ t2 s3 t3 s4,
        (∀ fuel, s2.fuelBound ≤ fuel → fireAll fuel (xs.map fun v => (inp, v)) s2 = some t2) ∧
        release (.event (s0.next + 2)) t2 = some s3 ∧
        Good s3 ∧ s3.hasSub a (s0.next + 1) (.mappedOptionalFn (.pure f) s0.next) ∧
        s3.rootOf inp = some a ∧ s3.owners (s0.next + 2) = some 1 ∧
        (∀ fuel, s3.fuelBound ≤ fuel → fireAll fuel (ys.map fun v => (inp, v)) s3 = some t3) ∧
        release (.event m2) t3 = some s4 ∧
        Good s4 ∧ s4.owners (s0.next + 2) = none ∧
        WeakPtr.expired s4 (some (s0.next + 1)) = true ∧ s4.owners s0.next = none ∧
        s4.rootOf inp = some a ∧ s4.owners inp = s0.owners inp) ∧
      (∃ t2 s3 t3 s4,
        (∀ fuel, s2.fuelBound ≤ fuel → fireAll fuel (xs.map fun v => (inp, v)) s2 = some t2) ∧
        release (.event m2) t2 = some s3 ∧
        Good s3 ∧ s3.hasSub a (s0.next + 1) (.mappedOptionalFn (.pure f) s0.next) ∧
        s3.rootOf inp = some a ∧ s3.owners (s0.next + 2) = some 1 ∧
        (∀ fuel, s3.fuelBound ≤ fuel → fireAll fuel (ys.map fun v => (inp, v)) s3 = some t3) ∧
        release (.event (s0.next + 2)) t3 = some s4 ∧
        Good s4 ∧ s4.owners (s0.next + 2) = none ∧
        WeakPtr.expired s4 (some (s0.next + 1)) = true ∧ s4.owners s0.next = none ∧
        s4.rootOf inp = some a ∧ s4.owners inp = s0.owners inp) := by
  obtain ⟨s1', h1', hM1, hn1, hown1⟩ := Mapped.build g0 inp a (.pure f) hr trivial
  rw [h1] at h1'
  simp only [Option.some.injEq, Prod.mk.injEq, true_and] at h1'
  subst h1'
  have ho1 := hown1 _ hown
  obtain ⟨s2, h2, hM2, hN2, hown2, hn2⟩ := hM1.mapped (.pure f2) trivial
  have ho2 : s2.owners inp = some (k + 2) := by rw [hown2, ho1]
  obtain ⟨hiD, him, hmD, _, _⟩ := hM2.distinct
  obtain ⟨hmD2, hmm2, hm2D2, hDm2, hDD2⟩ := hN2.distinct
  refine ⟨s1.next + 2, s2, h2, hM2.good, hM2.hasSub, hM2.root, by simp [State.owners, hM2.node], ?_⟩
  intro xs ys
  obtain ⟨t2, hft2, hMt2, hfr2, hot2⟩ := hM2.fires xs
  obtain ⟨e2, he2⟩ := hN2.down
  have hNt2 : Mapped t2 (s0.next + 2) s0.next (s1.next + 2) (s1.next + 1) s1.next (.pure f2) 1 :=
    hN2.keep_shape hfr2.shape 1 (by rw [hfr2.eventsKeep, hN2.node]; rfl) (by rw [hfr2.eventsKeep, he2]; rfl)
  constructor
  · obtain ⟨s3, hrel3, hM3, hsh3, _, _, hev3⟩ := hMt2.release_shared (k := 0)
    have ho3 : s3.owners inp = some (k + 2) := by
      simp only [State.owners, hev3 inp him]
      rw [← ho2, ← hot2]
      rfl
    obtain ⟨et2, het2⟩ := hNt2.down
    have hN3 : Mapped s3 (s0.next + 2) s0.next (s1.next + 2) (s1.next + 1) s1.next (.pure f2) 1 :=
      hNt2.keep_shape hsh3 1 (by rw [hev3 _ (Ne.symm hmm2), hNt2.node]; rfl)
        (by rw [hev3 _ (Ne.symm hmD2), het2]; rfl)
    obtain ⟨t3, hft3, hMt3, hfr3, hot3⟩ := hM3.fires ys
    obtain ⟨e3, he3⟩ := hN3.down
    have hNt3 : Mapped t3 (s0.next + 2) s0.next (s1.next + 2) (s1.next + 1) s1.next (.pure f2) 1 :=
      hN3.keep_shape hfr3.shape 1 (by rw [hfr3.eventsKeep, hN3.node]; rfl)
        (by rw [hfr3.eventsKeep, he3]; rfl)
    obtain ⟨s4, hrel4, g4, _, _, _, hm4, hC4, hD4, hown4, hroot4⟩ :=
      hMt3.release_both hNt3 k (by rw [hot3]; exact ho3)
    exact ⟨t2, s3, t3, s4, hft2, hrel3, hM3.good, hM3.hasSub, hM3.root, by simp [State.owners, hM3.node], hft3,
      hrel4, g4, by simp [State.owners, hm4], by simp [WeakPtr.expired, hC4], by simp [State.owners, hD4],
      hroot4, by rw [hown4, hown]⟩
  · obtain ⟨s3, hrel3, hM3, hown3, _, _, _⟩ := hMt2.release_derived (k := 0) hNt2
    obtain ⟨t3, hft3, hMt3, hfr3, hot3⟩ := hM3.fires ys
    obtain ⟨s4, hrel4, g4, hm4, hC4, hD4, hown4, hroot4⟩ :=
      hMt3.release_last k (by rw [hot3, hown3, hot2]; exact ho2)
    exact ⟨t2, s3, t3, s4, hft2, hrel3, hM3.good, hM3.hasSub, hM3.root, by simp [State.owners, hM3.node], hft3,
      hrel4, g4, by simp [State.owners, hm4], by simp [WeakPtr.expired, hC4], by simp [State.owners, hD4],
      hroot4, by rw [hown4, hown]⟩

/-- Dropping the only handle of the derived stream, after any fires, destroys the chained
node, its callback and the downstream stream, and gives the upstream stream its owners
back. -/
theorem lifetime_sole {s0 s1 : State V W} (g0 : Good s0) (inp a : Nat) (f : V → Option V)
    (hr : s0.rootOf inp = some a) (k : Nat) (hown : s0.owners inp = some (k + 1))
    (h1 : mappedOptional inp (.pure f) s0 = some (s0.next + 2, s1)) :
    ∀ xs : List V, ∃ t1 s2,
      (∀ fuel, s1.fuelBound ≤ fuel → fireAll fuel (xs.map fun v => (inp, v)) s1 = some t1) ∧
      release (.event (s0.next + 2)) t1 = some s2 ∧
      Good s2 ∧ s2.owners (s0.next + 2) = none ∧
      WeakPtr.expired s2 (some (s0.next + 1)) = true ∧ s2.owners s0.next = none ∧
      s2.rootOf inp = some a ∧ s2.owners inp = s0.owners inp := by
  obtain ⟨s1', h1', hM1, hn1, hown1⟩ := Mapped.build g0 inp a (.pure f) hr trivial
  rw [h1] at h1'
  simp only [Option.some.injEq, Prod.mk.injEq, true_and] at h1'
  subst h1'
  have ho1 := hown1 _ hown
  intro xs
  obtain ⟨t1, hft1, hMt1, _, hot1⟩ := hM1.fires xs
  obtain ⟨s2, hrel2, g2, hm2, hC2, hD2, hown2, hroot2⟩ := hMt1.release_last k (by rw [hot1]; exact ho1)
  exact ⟨t1, s2, hft1, hrel2, g2, by simp [State.owners, hm2], by simp [WeakPtr.expired, hC2],
    by simp [State.owners, hD2], hroot2, by rw [hown2, hown]⟩

/-- C10 (lifetime extension).  On a stream `s` that the caller owns and that forwards to the
root stream `a`, `mappedOptional(s, f)` returns the one handle `m` of a chained node, whose
callback `C` is subscribed to `a` and whose downstream is the fresh stream `D`.
While `C` is subscribed, every fire into `s` returns and reaches `D` when `f` gives a value.
A chained node that has another owner survives the drop of a handle, with `C` subscribed as
before.  `forEach`, `collect` and `mappedOptional` on `m` each store a handle and so make a
second owner: with fires into `s` in between, dropping `m` leaves the node alive and `C`
subscribed, and dropping the sink or the further stream after it destroys the chained node,
`C` and `D` and gives `s` the owners it had before; the same holds with the two drops in the
other order.  Without such a second owner, dropping `m` alone does that.  In every state in
which `C` is expired and `D` destroyed, a fire into `s` returns, does not fire `D` and does
not call `C`. -/
theorem lifetimeExtension (s0 : State V W) (g0 : Good s0) (inp a : Nat) (f : V → Option V)
    (hr : s0.rootOf inp = some a) (hown : ∃ k, s0.owners inp = some (k + 1)) :
    ∃ s1, mappedOptional inp (.pure f) s0 = some (s0.next + 2, s1) ∧ Good s1 ∧
      s1.owners (s0.next + 2) = some 1 ∧
      s1.hasSub a (s0.next + 1) (.mappedOptionalFn (.pure f) s0.next) ∧ s1.rootOf inp = some a ∧
      (∀ s : State V W, Good s → s.hasSub a (s0.next + 1) (.mappedOptionalFn (.pure f) s0.next) →
        s.rootOf inp = some a → ∀ v : V,
        ∃ s', (∀ fuel, s.fuelBound ≤ fuel → Event.fire fuel inp v s = some s') ∧
          traceAt s0.next (newTrace s s') =
            (match f v with
              | none => []
              | some u => Obs.fired s0.next u :: (s.live s0.next).map (fun c => Obs.invoked s0.next c u))) ∧
      (∀ s : State V W, Good s → s.hasSub a (s0.next + 1) (.mappedOptionalFn (.pure f) s0.next) →
        s.rootOf inp = some a → ∀ k, s.owners (s0.next + 2) = some (k + 2) →
        ∃ s', release (.event (s0.next + 2)) s = some s' ∧ Good s' ∧
          s'.hasSub a (s0.next + 1) (.mappedOptionalFn (.pure f) s0.next) ∧ s'.rootOf inp = some a ∧
          s'.owners (s0.next + 2) = some (k + 1)) ∧
      (∀ act : V → W → W,
        ∃ sk s2, forEach (s0.next + 2) act s1 = some (sk, s2) ∧ Good s2 ∧
          s2.hasSub a (s0.next + 1) (.mappedOptionalFn (.pure f) s0.next) ∧ s2.rootOf inp = some a ∧
          s2.owners (s0.next + 2) = some 2 ∧
          ∀ xs ys : List V,
          (∃ t2 s3 t3 s4,
            (∀ fuel, s2.fuelBound ≤ fuel → fireAll fuel (xs.map fun v => (inp, v)) s2 = some t2) ∧
            release (.event (s0.next + 2)) t2 = some s3 ∧
            Good s3 ∧ s3.hasSub a (s0.next + 1) (.mappedOptionalFn (.pure f) s0.next) ∧
            s3.rootOf inp = some a ∧ s3.owners (s0.next + 2) = some 1 ∧
            (∀ fuel, s3.fuelBound ≤ fuel → fireAll fuel (ys.map fun v => (inp, v)) s3 = some t3) ∧
            release (.sink sk) t3 = some s4 ∧
            Good s4 ∧ s4.owners (s0.next + 2) = none ∧
            WeakPtr.expired s4 (some (s0.next + 1)) = true ∧ s4.owners s0.next = none ∧
            s4.rootOf inp = some a ∧ s4.owners inp = s0.owners inp) ∧
          (∃ t2 s3 t3 s4,
            (∀ fuel, s2.fuelBound ≤ fuel → fireAll fuel (xs.map fun v => (inp, v)) s2 = some t2) ∧
            release (.sink sk) t2 = some s3 ∧
            Good s3 ∧ s3.hasSub a (s0.next + 1) (.mappedOptionalFn (.pure f) s0.next) ∧
            s3.rootOf inp = some a ∧ s3.owners (s0.next + 2) = some 1 ∧
            (∀ fuel, s3.fuelBound ≤ fuel → fireAll fuel (ys.map fun v => (inp, v)) s3 = some t3) ∧
            release (.event (s0.next + 2)) t3 = some s4 ∧
            Good s4 ∧ s4.owners (s0.next + 2) = none ∧
            WeakPtr.expired s4 (some (s0.next + 1)) = true ∧ s4.owners s0.next = none ∧
            s4.rootOf inp = some a ∧ s4.owners inp = s0.owners inp)) ∧
      (∃ sk s2, collect (s0.next + 2) s1 = some (sk, s2) ∧ Good s2 ∧
          s2.hasSub a (s0.next + 1) (.mappedOptionalFn (.pure f) s0.next) ∧ s2.rootOf inp = some a ∧
          s2.owners (s0.next + 2) = some 2 ∧
          ∀ xs ys : List V,
          (∃ t2 s3 t3 s4,
            (∀ fuel, s2.fuelBound ≤ fuel → fireAll fuel (xs.map fun v => (inp, v)) s2 = some t2) ∧
            release (.event (s0.next + 2)) t2 = some s3 ∧
            Good s3 ∧ s3.hasSub a (s0.next + 1) (.mappedOptionalFn (.pure f) s0.next) ∧
            s3.rootOf inp = some a ∧ s3.owners (s0.next + 2) = some 1 ∧
            (∀ fuel, s3.fuelBound ≤ fuel → fireAll fuel (ys.map fun v => (inp, v)) s3 = some t3) ∧
            release (.sink sk) t3 = some s4 ∧
            Good s4 ∧ s4.owners (s0.next + 2) = none ∧
            WeakPtr.expired s4 (some (s0.next + 1)) = true ∧ s4.owners s0.next = none ∧
            s4.rootOf inp = some a ∧ s4.owners inp = s0.owners inp) ∧
          (∃ t2 s3 t3 s4,
            (∀ fuel, s2.fuelBound ≤ fuel → fireAll fuel (xs.map fun v => (inp, v)) s2 = some t2) ∧
            release (.sink sk) t2 = some s3 ∧
            Good s3 ∧ s3.hasSub a (s0.next + 1) (.mappedOptionalFn (.pure f) s0.next) ∧
            s3.rootOf inp = some a ∧ s3.owners (s0.next + 2) = some 1 ∧
            (∀ fuel, s3.fuelBound ≤ fuel → fireAll fuel (ys.map fun v => (inp, v)) s3 = some t3) ∧
            release (.event (s0.next + 2)) t3 = some s4 ∧
            Good s4 ∧ s4.owners (s0.next + 2) = none ∧
            WeakPtr.expired s4 (some (s0.next + 1)) = true ∧ s4.owners s0.next = none ∧
            s4.rootOf inp = some a ∧ s4.owners inp = s0.owners inp)) ∧
      (∀ f2 : V → Option V,
        ∃ m2 s2, mappedOptional (s0.next + 2) (.pure f2) s1 = some (m2, s2) ∧ Good s2 ∧
          s2.hasSub a (s0.next + 1) (.mappedOptionalFn (.pure f) s0.next) ∧ s2.rootOf inp = some a ∧
          s2.owners (s0.next + 2) = some 2 ∧
          ∀ xs ys : List V,
          (∃ t2 s3 t3 s4,
            (∀ fuel, s2.fuelBound ≤ fuel → fireAll fuel (xs.map fun v => (inp, v)) s2 = some t2) ∧
            release (.event (s0.next + 2)) t2 = some s3 ∧
            Good s3 ∧ s3.hasSub a (s0.next + 1) (.mappedOptionalFn (.pure f) s0.next) ∧
            s3.rootOf inp = some a ∧ s3.owners (s0.next + 2) = some 1 ∧
            (∀ fuel, s3.fuelBound ≤ fuel → fireAll fuel (ys.map fun v => (inp, v)) s3 = some t3) ∧
            release (.event m2) t3 = some s4 ∧
            Good s4 ∧ s4.owners (s0.next + 2) = none ∧
            WeakPtr.expired s4 (some (s0.next + 1)) = true ∧ s4.owners s0.next = none ∧
            s4.rootOf inp = some a ∧ s4.owners inp = s0.owners inp) ∧
          (∃ t2 s3 t3 s4,
            (∀ fuel, s2.fuelBound ≤ fuel → fireAll fuel (xs.map fun v => (inp, v)) s2 = some t2) ∧
            release (.event m2) t2 = some s3 ∧
            Good s3 ∧ s3.hasSub a (s0.next + 1) (.mappedOptionalFn (.pure f) s0.next) ∧
            s3.rootOf inp = some a ∧ s3.owners (s0.next + 2) = some 1 ∧
            (∀ fuel, s3.fuelBound ≤ fuel → fireAll fuel (ys.map fun v => (inp, v)) s3 = some t3) ∧
            release (.event (s0.next + 2)) t3 = some s4 ∧
            Good s4 ∧ s4.owners (s0.next + 2) = none ∧
            WeakPtr.expired s4 (some (s0.next + 1)) = true ∧ s4.owners s0.next = none ∧
            s4.rootOf inp = some a ∧ s4.owners inp = s0.owners inp)) ∧
      (∀ xs : List V, ∃ t1 s2,
          (∀ fuel, s1.fuelBound ≤ fuel → fireAll fuel (xs.map fun v => (inp, v)) s1 = some t1) ∧
          release (.event (s0.next + 2)) t1 = some s2 ∧
          Good s2 ∧ s2.owners (s0.next + 2) = none ∧
          WeakPtr.expired s2 (some (s0.next + 1)) = true ∧ s2.owners s0.next = none ∧
          s2.rootOf inp = some a ∧ s2.owners inp = s0.owners inp) ∧
      ∀ s : State V W, Good s → WeakPtr.expired s (some (s0.next + 1)) = true →
        s.owners s0.next = none → s.rootOf inp = some a → ∀ v : V,
        ∃ s', (∀ fuel, s.fuelBound ≤ fuel → Event.fire fuel inp v s = some s') ∧
          (∀ u, Obs.fired s0.next u ∉ newTrace s s') ∧
          ∀ x u, Obs.invoked x (s0.next + 1) u ∉ newTrace s s' := by
  obtain ⟨k, hk⟩ := hown
  obtain ⟨s1, h1, hM1, _, _⟩ := Mapped.build g0 inp a (.pure f) hr trivial
  refine ⟨s1, h1, hM1.good, by simp [State.owners, hM1.node], hM1.hasSub, hM1.root, ?_, ?_,
    fun act => lifetime_forEach g0 inp a f hr k hk h1 act, lifetime_collect g0 inp a f hr k hk h1,
    fun f2 => lifetime_derived g0 inp a f hr k hk h1 f2, lifetime_sole g0 inp a f hr k hk h1, ?_⟩
  · intro s g hC hrs v
    obtain ⟨s', hf, _, htr⟩ := mappedOptional_fires g a (s0.next + 1) s0.next f v hC
    exact ⟨s', fire_via_handle hrs hf, htr⟩
  · intro s g hC hrs k hk
    unfold State.owners at hk
    cases hc : s.events (s0.next + 2) with
    | none => simp [hc] at hk
    | some cell =>
      simp only [hc, Option.map_some', Option.some.injEq] at hk
      obtain ⟨hrel, hsh⟩ := releaseEvent_shared s.next (s0.next + 2) cell hc (by omega)
      exact ⟨_, hrel, g.good_of_shape hsh, hasSub_of_shape hsh hC, by rw [hsh.rootOf_eq]; exact hrs,
        by simp [State.owners, hk]⟩
  · intro s g hexp hDn hrs v
    obtain ⟨s', hf, hfr⟩ := fire_handle_ok g.wf inp v (rootOf_alive hrs)
    refine ⟨s', hf, ?_, ?_⟩
    · intro u hmem
      have h := hfr.sound _ hmem
      have hDe : s.events s0.next = none := by
        unfold State.owners at hDn
        cases hc : s.events s0.next with
        | none => rfl
        | some c => simp [hc] at hDn
      simp [Obs.sound, State.subscribers, hDe] at h
    · intro x u hmem
      have h := hfr.sound _ hmem
      obtain ⟨_, _, _, h3⟩ := mem_live h
      simp only [WeakPtr.expired, Option.isNone_iff_eq_none] at hexp
      rw [hexp] at h3
      simp at h3

/-! ## The synchronized cell and the never stream -/

/-- C16 (synchronized cell).  A cell constructed with `init` gives `init`; after `set(v)` it
gives `v`; `with(f)` returns the result of `f` on the held value, and the next `getCopy()`
gives what `f` left in it, for the overload with a result and for the `void` one; the
read-only `with` returns the result of its function.  `getCopy()` and the read-only `with`
are `const`: they give a value and no new cell, so the held value is the same afterwards. -/
theorem threadSafe_cell {α β : Type} (init : α) (c : ThreadSafe α) (v : α) (f : α → β × α)
    (g : α → α) (r : α → β) :
    (ThreadSafe.mk init).getCopy = init ∧ (c.set v).getCopy = v ∧
      ((c.set v).set init).getCopy = init ∧
      (c.withMutable f).1 = (f c.getCopy).1 ∧ (c.withMutable f).2.getCopy = (f c.getCopy).2 ∧
      (c.withMutableVoid g).getCopy = g c.getCopy ∧ c.withReadOnly r = r c.getCopy ∧
      ((c.set v).withMutableVoid g).getCopy = g v :=
  ⟨rfl, rfl, rfl, rfl, rfl, rfl, rfl, rfl⟩

theorem runCalls_never {s : State V W} {h k : Nat} (hn : s.events h = some ⟨k, .never⟩) :
    ∀ (cs : List (Call V)) (fuel : Nat), 0 < fuel → runCalls fuel (cs.map fun c => (h, c)) s = some s
  | [], _, _ => rfl
  | .fire v :: cs, fuel, hf => by
    obtain ⟨n, rfl⟩ : ∃ n, fuel = n + 1 := ⟨fuel - 1, by omega⟩
    have e : Event.fire (n + 1) h v s = some s := by simp [Event.fire, hn]
    simp only [List.map_cons, runCalls, e]
    exact runCalls_never hn cs (n + 1) hf
  | .subscribe f :: cs, fuel, hf => by
    have e : Event.subscribe h f s = some s := by simp [Event.subscribe, Event.subscribeAux, hn]
    simp only [List.map_cons, runCalls, e]
    exact runCalls_never hn cs fuel hf

/-- C14 (never stream).  `never()` returns a handle to a fresh `NeverEvent`.  On a handle to
a `NeverEvent`, `fire` returns and leaves the whole state as it is, the trace of calls
included, `subscribe` does the same, and so does every sequence of such calls; the object has
no subscriber vector. -/
theorem neverStream (s0 : State V W) :
    (never s0).2.events (never s0).1 = some ⟨1, .never⟩ ∧
      ∀ (s : State V W) (h k : Nat), s.events h = some ⟨k, .never⟩ →
        s.subscribers h = none ∧
        (∀ v fuel, 0 < fuel → Event.fire fuel h v s = some s) ∧
        (∀ f, Event.subscribe h f s = some s) ∧
        ∀ (cs : List (Call V)) fuel, 0 < fuel → runCalls fuel (cs.map fun c => (h, c)) s = some s := by
  refine ⟨by simp [never, State.allocEvent], ?_⟩
  intro s h k hn
  refine ⟨by simp [State.subscribers, hn, IEvent.basic?], ?_, ?_, runCalls_never hn⟩
  · intro v fuel hf
    obtain ⟨n, rfl⟩ : ∃ n, fuel = n + 1 := ⟨fuel - 1, by omega⟩
    simp [Event.fire, hn]
  · intro f
    simp [Event.subscribe, Event.subscribeAux, hn]

/-! ## The subscriber vector -/

/-- The subscriber vector that `BasicEvent::fire` leaves: cleaned by `std::remove_if` when the
pass met an expired entry, untouched otherwise. -/
theorem basicFire_subscribers (n : Nat) (hA : FireOK V W n) (s : State V W) (a : Nat) (v : V)
    (wf : WF s) (subs : List WeakPtr) (hs : s.subscribers a = some subs)
    (hfuel : s.next + maxSubsBelow s s.next + 1 ≤ n + a + 1) :
    ∃ s', BasicEvent.fire (invoke (Event.fire n)) n a v s = some s' ∧
      s'.subscribers a =
        some (if subs.any (WeakPtr.expired s) then removeIf (WeakPtr.expired s) subs else subs) := by
  have hroot : (s.subscribers a).isSome = true := by simp [hs]
  have hsh0 : Shape s (s.log (.fired a v)) := Shape.shape_log s _
  have hlt : a < s.next := wf.lt_of_subscribers a hroot
  have hlen := wf.length_le a subs hs
  have hfuel0 : (s.log (.fired a v)).next + maxSubsBelow (s.log (.fired a v)) (s.log (.fired a v)).next + 1
      ≤ n + a + 1 := by rw [hsh0.next, maxSubsBelow_congr hsh0]; exact hfuel
  obtain ⟨sl, h1, h2⟩ := fireLoop_eq n hA a v subs subs [] n false (s.log (.fired a v))
    rfl (WF.of_shape hsh0 wf) (by rw [← hs]; rfl) hfuel0 (by omega)
  have hlive : liveOf (s.log (.fired a v)) subs = s.live a := by
    simp only [State.live, hs]
    exact liveOf_congr rfl subs
  rw [hlive] at h2
  obtain ⟨sl', h2', h3, h4, _⟩ := invokeAll_ok n hA a v Footprint.all trivial (s.live a)
    (s.log (.fired a v)) (WF.of_shape hsh0 wf) (Closed.closed_of_shape hsh0 (Closed.everywhere wf a))
    (fun c hc => ⟨by rw [hsh0.live]; exact hc, Targets.everything _ c⟩) hfuel0
  rw [h2] at h2'
  simp only [Option.some.injEq] at h2'
  subst h2'
  have hsl : sl.subscribers a = some subs := by
    have e : sl.subscribers a = (s.log (.fired a v)).subscribers a := by
      simp only [State.subscribers, h4]
    rw [e]; exact hs
  have hexp0 : WeakPtr.expired (s.log (.fired a v)) = WeakPtr.expired s :=
    funext fun w => expired_congr rfl w
  have hexpl : WeakPtr.expired sl = WeakPtr.expired s :=
    funext fun w => by rw [expired_congr h3.shape.fns w, hexp0]
  rw [show ([] : List WeakPtr).length = 0 from rfl, hexp0, Bool.false_or] at h1
  refine ⟨if subs.any (WeakPtr.expired s) then sl.clean a else sl, ?_, ?_⟩
  · simp only [BasicEvent.fire]
    rw [h1]
  · split
    · rw [clean_subscribers sl a subs hsl, hexpl]
    · exact hsl

/-- Everything about one `fire` on a root stream of a well-formed state. -/
theorem fire_root_all {s : State V W} (wf : WF s) (a : Nat) (subs : List WeakPtr)
    (hs : s.subscribers a = some subs) (v : V) :
    ∃ s', (∀ fuel, s.fuelBound ≤ fuel → Event.fire fuel a v s = some s') ∧
      Frame Footprint.all s s' ∧
      traceAt a (newTrace s s') = Obs.fired a v :: (liveOf s subs).map (fun c => Obs.invoked a c v) ∧
      s'.subscribers a =
        some (if subs.any (WeakPtr.expired s) then removeIf (WeakPtr.expired s) subs else subs) ∧
      ∀ o ∈ newTrace s s', a ≤ o.event := by
  have hroot : (s.subscribers a).isSome = true := by simp [hs]
  have hlt := wf.lt_of_subscribers a hroot
  have hclP : Closed ⟨fun x => a ≤ x, fun _ => True, fun _ => True⟩ s := by
    intro b hb c hl cell hc
    cases ho : cell.obj with
    | mappedOptionalFn f D =>
      have := wf.ranked b c cell f D hl hc ho
      show a ≤ D
      have hb' : a ≤ b := hb
      omega
    | updater d => trivial
    | vectorSinkFn k => trivial
    | forEachFn g => trivial
  obtain ⟨_, s', h1, _, h4, h5⟩ := fire_root_spec wf a v hroot ⟨fun x => a ≤ x, fun _ => True, fun _ => True⟩
    (le_refl a) (Closed.above wf hclP a) (hclP a (le_refl a))
  obtain ⟨s'', hb, hsub⟩ := basicFire_subscribers s.fuelBound (fire_ok _) s a v wf subs hs
    (by simp only [State.fuelBound]; omega)
  have hf1 : Event.fire (s.fuelBound + 1) a v s = some s'' := by
    rw [Event.fire_root _ s a v hroot]; exact hb
  have hsame : s'' = s' := fire_unique hf1 (h1 s.fuelBound (by omega)).2
  subst hsame
  refine ⟨s'', ?_, h4.weaken (fun _ _ => trivial) (fun _ h => h) (fun _ h => h), ?_, hsub, h4.traceIn⟩
  · intro fuel hf
    obtain ⟨k, rfl⟩ : ∃ k, fuel = k + 1 := ⟨fuel - 1, by simp only [State.fuelBound] at hf; omega⟩
    exact (h1 k (by omega)).2
  · rw [h5]
    simp [State.live, hs]

/-- C13 (chained stream).  Let the handle `m` point to a chained node with downstream `D` in
a well-formed state.  The node has no subscriber vector; `fire(u)` on `m` is `fire(u)` on `D`
and `subscribe(w)` on `m` is `subscribe(w)` on `D`, which appends `w` to the vector of `D`.
The fire returns, `D` sees one pass with the unchanged `u` over its live subscribers, and
everything recorded belongs to `D` or to streams created after it: no stream to which a
callback that fires `D` is subscribed sees a pass or a call, so no function of a
`mappedOptional` feeding `D` is applied. -/
theorem chainedForwarding (s : State V W) (wf : WF s) (m k C up D : Nat)
    (hm : s.events m = some ⟨k, .chained C up D⟩) (u : V) :
    s.subscribers m = none ∧
    (∀ fuel, Event.fire (fuel + 1) m u s = Event.fire fuel D u s) ∧
    (∀ w, Event.subscribe m w s = some (s.appendSub D w) ∧
      Event.subscribe D w s = some (s.appendSub D w) ∧
      ∀ subs, s.subscribers D = some subs → (s.appendSub D w).subscribers D = some (subs ++ [w])) ∧
    ∃ s', (∀ fuel, s.fuelBound ≤ fuel →
        Event.fire fuel m u s = some s' ∧ Event.fire fuel D u s = some s') ∧
      traceAt D (newTrace s s') = Obs.fired D u :: (s.live D).map (fun c => Obs.invoked D c u) ∧
      (∀ o ∈ newTrace s s', D ≤ o.event) ∧
      ∀ a c cell f, c ∈ s.live a → s.fns c = some cell → cell.obj = .mappedOptionalFn f D →
        traceAt a (newTrace s s') = [] := by
  have hroot : (s.subscribers D).isSome = true := wf.chained m ⟨k, .chained C up D⟩ C up D hm rfl
  obtain ⟨subs, hs⟩ := Option.isSome_iff_exists.mp hroot
  have hrm : s.rootOf m = some D := by simp [State.rootOf, hm]
  refine ⟨by simp [State.subscribers, hm, IEvent.basic?], fun fuel => by simp [Event.fire, hm],
    fun w => ⟨subscribe_rootOf wf w hrm, subscribeAux_root s s.next D w hroot,
      fun subs' hs' => appendSub_subscribers_self s D w subs' hs'⟩, ?_⟩
  obtain ⟨s', h1, _, h3, _, h5⟩ := fire_root_all wf D subs hs u
  refine ⟨s', ?_, ?_, h5, ?_⟩
  · intro fuel hf
    refine ⟨?_, h1 fuel hf⟩
    obtain ⟨n, rfl⟩ : ∃ n, fuel = n + 1 := ⟨fuel - 1, by simp only [State.fuelBound] at hf; omega⟩
    have e : Event.fire (n + 1) m u s = Event.fire n D u s := by simp [Event.fire, hm]
    rw [e]
    have h2 := h1 (n + 1) hf
    have h3' := h1 (s.fuelBound + n + 2) (by omega)
    cases hn : Event.fire n D u s with
    | none =>
      exfalso
      have hlt := wf.lt_of_subscribers D hroot
      obtain ⟨_, s'', hspec, _⟩ := fire_root_spec wf D u hroot Footprint.all trivial (Closed.everywhere wf D)
        (fun c _ => Targets.everything s c)
      obtain ⟨j, rfl⟩ : ∃ j, n = j + 1 := ⟨n - 1, by simp only [State.fuelBound] at hf; omega⟩
      have := (hspec j (by omega)).2
      rw [hn] at this
      simp at this
    | some t =>
      rw [fire_unique hn h2]
  · rw [h3]
    simp [State.live, hs]
  · intro a c cell f hl hc ho
    have hlt := wf.ranked a c cell f D hl hc ho
    simp only [traceAt, List.filter_eq_nil_iff, decide_eq_true_eq]
    intro o hmem heq
    have := h5 o hmem
    omega

theorem invoke_len (call : Nat → V → State V W → Option (State V W))
    (hcall : ∀ h v s s', call h v s = some s' →
      ∀ a, (s'.subscribers a).map List.length = (s.subscribers a).map List.length)
    (c : Nat) (v : V) (s s' : State V W) (h : invoke call c v s = some s') (a : Nat) :
    (s'.subscribers a).map List.length = (s.subscribers a).map List.length := by
  unfold invoke at h
  cases hc : s.fns c with
  | none => simp [hc] at h
  | some cell =>
    simp only [hc] at h
    cases ho : cell.obj with
    | mappedOptionalFn f D =>
      simp only [ho] at h
      cases hf : f.call s v with
      | none => simp [hf] at h
      | some r =>
        cases r with
        | none =>
          simp only [hf, Option.some.injEq] at h
          rw [← h]
        | some u =>
          simp only [hf] at h
          exact hcall D u s s' h a
    | updater d =>
      simp only [ho] at h
      exact (Frame.setCurrent Footprint.all s s' d v trivial h).shape.len a
    | vectorSinkFn k =>
      simp only [ho] at h
      exact (Frame.pushItem Footprint.all s s' k v trivial h).shape.len a
    | forEachFn g =>
      simp only [ho, Option.some.injEq] at h
      rw [← h]
      rfl

theorem fireLoop_len (call : Nat → V → State V W → Option (State V W))
    (hcall : ∀ c v s s', call c v s = some s' →
      ∀ a, (s'.subscribers a).map List.length = (s.subscribers a).map List.length)
    (a : Nat) (t : V) :
    ∀ (k i : Nat) (dc : Bool) (s s' : State V W) (dc' : Bool),
      BasicEvent.fireLoop call a t k i dc s = some (s', dc') →
      ∀ b, (s'.subscribers b).map List.length = (s.subscribers b).map List.length
  | 0, _, _, _, _, _, h => by simp [BasicEvent.fireLoop] at h
  | k + 1, i, dc, s, s', dc', h => by
    intro b
    simp only [BasicEvent.fireLoop] at h
    cases hs : s.subscribers a with
    | none => simp [hs] at h
    | some subs =>
      simp only [hs] at h
      cases hw : subs[i]? with
      | none =>
        simp only [hw, Option.some.injEq, Prod.mk.injEq] at h
        rw [← h.1]
      | some w =>
        simp only [hw] at h
        by_cases he : WeakPtr.expired s w = true
        · simp only [he, if_true] at h
          exact fireLoop_len call hcall a t k (i + 1) true s s' dc' h b
        · simp only [he] at h
          cases hl : WeakPtr.lock s w with
          | none => simp [hl] at h
          | some c =>
            simp only [hl] at h
            cases hi : call c t (s.log (.invoked a c t)) with
            | none => simp [hi] at h
            | some s1 =>
              simp only [hi] at h
              rw [fireLoop_len call hcall a t k (i + 1) dc s1 s' dc' h b, hcall c t _ s1 hi b]
              rfl

/-- No call of `fire` changes the length of a subscriber vector, in any state. -/
theorem Event.fire_len : ∀ (n h : Nat) (v : V) (s s' : State V W), Event.fire n h v s = some s' →
    ∀ a, (s'.subscribers a).map List.length = (s.subscribers a).map List.length
  | 0, _, _, _, _, h => by simp [Event.fire] at h
  | n + 1, h, v, s, s', hf => by
    intro a
    have hbasic : BasicEvent.fire (invoke (Event.fire n)) n h v s = some s' →
        (s'.subscribers a).map List.length = (s.subscribers a).map List.length := by
      intro hb
      simp only [BasicEvent.fire] at hb
      cases hl : BasicEvent.fireLoop (invoke (Event.fire n)) h v n 0 false (s.log (.fired h v)) with
      | none => simp [hl] at hb
      | some r =>
        obtain ⟨sl, dc⟩ := r
        simp only [hl, Option.some.injEq] at hb
        have h1 := fireLoop_len (invoke (Event.fire n))
          (fun c u t t' ht => invoke_len (Event.fire n) (Event.fire_len n) c u t t' ht) h v n 0 false _ sl dc hl a
        have h2 : ((s.log (.fired h v)).subscribers a).map List.length =
            (s.subscribers a).map List.length := rfl
        rw [← hb]
        cases dc with
        | false => simpa [h2] using h1
        | true =>
          simp only [if_true]
          rw [(Frame.clean Footprint.all sl h trivial).shape.len a, h1, h2]
    simp only [Event.fire] at hf
    cases hc : s.events h with
    | none => simp [hc] at hf
    | some cell =>
      simp only [hc] at hf
      cases ho : cell.obj with
      | basic e => simp only [ho] at hf; exact hbasic hf
      | threadSafe e => simp only [ho] at hf; exact hbasic hf
      | chained u up D => simp only [ho] at hf; exact Event.fire_len n D v s s' hf a
      | never =>
        simp only [ho, Option.some.injEq] at hf
        rw [← hf]

/-- No call of `subscribe` shortens a subscriber vector, in any state. -/
theorem subscribeAux_len : ∀ (n h : Nat) (w : WeakPtr) (s s' : State V W),
    Event.subscribeAux n h w s = some s' →
    ∀ a xs, s.subscribers a = some xs → ∃ xs', s'.subscribers a = some xs' ∧ xs.length ≤ xs'.length
  | 0, _, _, _, _, h => by simp [Event.subscribeAux] at h
  | n + 1, h, w, s, s', hf => by
    intro a xs hxs
    by_cases hroot : (s.subscribers h).isSome = true
    · rw [subscribeAux_root s n h w hroot, Option.some.injEq] at hf
      subst hf
      by_cases hah : a = h
      · subst hah
        exact ⟨xs ++ [w], appendSub_subscribers_self s a w xs hxs, by simp⟩
      · exact ⟨xs, by rw [appendSub_subscribers_ne s h a w hah]; exact hxs, le_refl _⟩
    · simp only [Event.subscribeAux] at hf
      cases hc : s.events h with
      | none => simp [hc] at hf
      | some cell =>
        simp only [hc] at hf
        cases ho : cell.obj with
        | basic e => simp [State.subscribers, hc, ho, IEvent.basic?] at hroot
        | threadSafe e => simp [State.subscribers, hc, ho, IEvent.basic?] at hroot
        | chained u up D =>
          simp only [ho] at hf
          exact subscribeAux_len n D w s s' hf a xs hxs
        | never =>
          simp only [ho, Option.some.injEq] at hf
          subst hf
          exact ⟨xs, hxs, le_refl _⟩

/-- No sequence of calls of `fire` and `subscribe` shortens a subscriber vector. -/
theorem runCalls_len (fuel : Nat) : ∀ (cs : List (Nat × Call V)) (s s' : State V W),
    runCalls fuel cs s = some s' →
    ∀ a xs, s.subscribers a = some xs → ∃ xs', s'.subscribers a = some xs' ∧ xs.length ≤ xs'.length
  | [], s, s', h => by
    intro a xs hxs
    simp only [runCalls, Option.some.injEq] at h
    subst h
    exact ⟨xs, hxs, le_refl _⟩
  | (h, .fire v) :: cs, s, s', hr => by
    intro a xs hxs
    simp only [runCalls] at hr
    cases hf : Event.fire fuel h v s with
    | none => simp [hf] at hr
    | some s1 =>
      simp only [hf] at hr
      have hlen := Event.fire_len fuel h v s s1 hf a
      rw [hxs] at hlen
      cases h1 : s1.subscribers a with
      | none => simp [h1] at hlen
      | some xs1 =>
        simp only [h1, Option.map_some', Option.some.injEq] at hlen
        obtain ⟨xs', h2, h3⟩ := runCalls_len fuel cs s1 s' hr a xs1 h1
        exact ⟨xs', h2, by omega⟩
  | (h, .subscribe w) :: cs, s, s', hr => by
    intro a xs hxs
    simp only [runCalls] at hr
    cases hf : Event.subscribe h w s with
    | none => simp [hf] at hr
    | some s1 =>
      simp only [hf] at hr
      obtain ⟨xs1, h1, hle⟩ := subscribeAux_len _ h w s s1 hf a xs hxs
      obtain ⟨xs', h2, h3⟩ := runCalls_len fuel cs s1 s' hr a xs1 h1
      exact ⟨xs', h2, by omega⟩

theorem liveOf_removeIf (s : State V W) (xs : List WeakPtr) :
    liveOf s (removeIf (WeakPtr.expired s) xs) = liveOf s xs :=
  removeIf_filterMap _ _ (fun w hw => lock_eq_none_of_expired s w hw) rfl xs

/-- C15 (no compaction).  On a root stream of a well-formed state whose subscriber vector is
`subs`, `fire` returns and leaves the vector that `std::remove_if` made of `subs` when `subs`
has an expired entry, and `subs` itself otherwise: in both cases a vector as long as `subs`,
since `std::remove_if` keeps the length of every vector; the vectors of the other streams keep
their lengths too.  In any state at all, a sequence of calls of `fire` and `subscribe` that
returns leaves every subscriber vector at least as long as it was. -/
theorem noCompaction (s : State V W) (wf : WF s) (e : Nat) (subs : List WeakPtr)
    (hs : s.subscribers e = some subs) (v : V) :
    (∃ s', (∀ fuel, s.fuelBound ≤ fuel → Event.fire fuel e v s = some s') ∧
      s'.subscribers e =
        some (if subs.any (WeakPtr.expired s) then removeIf (WeakPtr.expired s) subs else subs) ∧
      (∃ subs', s'.subscribers e = some subs' ∧ subs'.length = subs.length) ∧
      ∀ a, (s'.subscribers a).map List.length = (s.subscribers a).map List.length) ∧
    (∀ (p : WeakPtr → Bool) (xs : List WeakPtr), (removeIf p xs).length = xs.length) ∧
    ∀ (cs : List (Nat × Call V)) (fuel : Nat) (t t' : State V W), runCalls fuel cs t = some t' →
      ∀ a xs, t.subscribers a = some xs →
        ∃ xs', t'.subscribers a = some xs' ∧ xs.length ≤ xs'.length := by
  refine ⟨?_, removeIf_length, fun cs fuel t t' h => runCalls_len fuel cs t t' h⟩
  obtain ⟨s', h1, h2, _, h4, _⟩ := fire_root_all wf e subs hs v
  refine ⟨s', h1, h4, ⟨_, h4, ?_⟩, h2.shape.len⟩
  split
  · exact removeIf_length _ _
  · rfl

/-- C18 (cleaning keeps the live subscribers).  `std::remove_if` with the predicate
`expired` keeps the live entries of every vector, in their order.  On a root stream of a
well-formed state whose subscriber vector is `subs`, `fire` returns, its pass calls the live
entries of `subs` in order, and the vector it leaves, cleaned when `subs` has an expired
entry, has the same live entries in the same order; so a second fire returns and calls
exactly the callbacks the first one called, in the same order. -/
theorem cleaningKeepsLive (s : State V W) (wf : WF s) (e : Nat) (subs : List WeakPtr)
    (hs : s.subscribers e = some subs) (v : V) :
    (∀ (t : State V W) (xs : List WeakPtr), liveOf t (removeIf (WeakPtr.expired t) xs) = liveOf t xs) ∧
    ∃ s1, (∀ fuel, s.fuelBound ≤ fuel → Event.fire fuel e v s = some s1) ∧
      s1.subscribers e =
        some (if subs.any (WeakPtr.expired s) then removeIf (WeakPtr.expired s) subs else subs) ∧
      traceAt e (newTrace s s1) = Obs.fired e v :: (liveOf s subs).map (fun c => Obs.invoked e c v) ∧
      s1.live e = liveOf s subs ∧
      ∀ v2 : V, ∃ s2, (∀ fuel, s1.fuelBound ≤ fuel → Event.fire fuel e v2 s1 = some s2) ∧
        traceAt e (newTrace s1 s2) = Obs.fired e v2 :: (liveOf s subs).map (fun c => Obs.invoked e c v2) := by
  refine ⟨liveOf_removeIf, ?_⟩
  obtain ⟨s1, h1, h2, h3, h4, _⟩ := fire_root_all wf e subs hs v
  have hlive : s1.live e = liveOf s subs := by
    rw [h2.shape.live]
    simp [State.live, hs]
  refine ⟨s1, h1, h4, h3, hlive, ?_⟩
  intro v2
  obtain ⟨s2, k1, _, k3, _⟩ := fire_root_all (WF.of_shape h2.shape wf) e _ h4 v2
  refine ⟨s2, k1, ?_⟩
  rw [k3]
  have : liveOf s1 (if subs.any (WeakPtr.expired s) then removeIf (WeakPtr.expired s) subs else subs) =
      s1.live e := by simp [State.live, h4]
  rw [this, hlive]

/-! ## Collected streams and the list functions -/

theorem Containers.mapped_eq {α β : Type} (x : List α) (f : α → β) : Containers.mapped x f = x.map f := by
  have h : ∀ (xs : List α) (out : List β), xs.foldl (fun out a => out ++ [f a]) out = out ++ xs.map f := by
    intro xs
    induction xs with
    | nil => intro out; simp
    | cons a xs ih => intro out; simp [ih]
  simpa [Containers.mapped] using h x []

theorem Containers.filtered_eq {α : Type} (v : List α) (f : α → Bool) :
    Containers.filtered v f = v.filter f := by
  have h : ∀ (xs : List α) (out : List α),
      xs.foldl (fun out a => if f a then out ++ [a] else out) out = out ++ xs.filter f := by
    intro xs
    induction xs with
    | nil => intro out; simp
    | cons a xs ih =>
      intro out
      cases hf : f a <;> simp [ih, hf, List.filter_cons]
  simpa [Containers.filtered] using h v []

theorem foldl_filterMap (f : V → Option V) : ∀ (xs items : List V),
    xs.foldl (fun acc v => acc ++ (f v).toList) items = items ++ xs.filterMap f
  | [], items => by simp
  | v :: xs, items => by
    rw [List.foldl_cons, foldl_filterMap f xs]
    cases hf : f v <;> simp [List.filterMap_cons, hf]

theorem filterMap_some_map (g : V → V) : ∀ xs : List V, xs.filterMap (fun t => some (g t)) = xs.map g
  | [] => rfl
  | x :: xs => by simp [List.filterMap_cons, filterMap_some_map g xs]

theorem filterMap_ite_filter (p : V → Bool) :
    ∀ xs : List V, xs.filterMap (fun t => if p t then some t else none) = xs.filter p
  | [] => rfl
  | x :: xs => by
    cases hp : p x <;> simp [List.filterMap_cons, List.filter_cons, hp, filterMap_ite_filter p xs]

/-- In a good state in which the callback `C` of a `mappedOptional` is a live subscriber of
the root stream `a` and the callback `K` of the collecting sink at `k` is one of its downstream
stream `D`: a fire of `v` into `a` returns, and afterwards the sink holds the items it held,
followed by what `f` makes of `v` if it makes something. -/
theorem collectMapped_fires {s : State V W} (g : Good s) (a C D K k : Nat) (f : V → Option V) (v : V)
    (hC : s.hasSub a C (.mappedOptionalFn (.pure f) D)) (hK : s.hasSub D K (.vectorSinkFn k)) :
    ∃ s', (∀ fuel, s.fuelBound ≤ fuel + a + 1 → Event.fire fuel a v s = some s') ∧
      Frame Footprint.all s s' ∧ ∃ items, Sink.result k s = some items ∧
        Sink.result k s' = some (items ++ (f v).toList) := by
  have htC : s.targetOf C = some (.ev D) := by rw [hasSub_targetOf hC]; rfl
  have htK : s.targetOf K = some (.sink k) := by rw [hasSub_targetOf hK]; rfl
  have hrank : a < D := g.wf.ranked_target hC.1 htC
  have hPa : (Footprint.avoiding [Target.ev D, Target.sink k]).ev a := by
    simp only [Footprint.avoiding, List.mem_cons, Target.ev.injEq, List.mem_singleton]
    simp
    omega
  have hnotk : ¬ (Footprint.avoiding [Target.ev D, Target.sink k]).sink k := by simp [Footprint.avoiding]
  obtain ⟨s1, s2, s', h1, h2, h3, h4, h5, _⟩ := mapped_isolate g a C D (.pure f) v hC
    (Footprint.avoiding [.ev D, .sink k]) hPa
    (Closed.closed_avoiding g a _ (fun t ht => by
      simp only [List.mem_cons, List.mem_singleton, List.mem_nil_iff, or_false] at ht
      rcases ht with rfl | rfl
      · exact ⟨a, C, hC.1, htC, Or.inl rfl⟩
      · exact ⟨D, K, hK.1, htK, Or.inr (by simp)⟩))
    (Targets.targets_avoiding g a C _ (fun t ht => by
      simp only [List.mem_cons, List.mem_singleton, List.mem_nil_iff, or_false] at ht
      rcases ht with rfl | rfl
      · exact ⟨a, C, hC.1, htC, Or.inl ⟨rfl, rfl⟩⟩
      · exact ⟨D, K, hK.1, htK, Or.inr hrank⟩))
  refine ⟨s', h1, isolate_all hC.1 h2 h4 h3, ?_⟩
  have hsh1 : Shape s (s1.log (.invoked a C v)) := h2.shape.andThen (Shape.shape_log s1 _)
  have g1 := g.good_of_shape hsh1
  have hres1 : Sink.result k (s1.log (.invoked a C v)) = Sink.result k s := by
    have e : (s1.log (.invoked a C v)).sinks k = s.sinks k := h2.sinks k hnotk
    simp only [Sink.result, e]
  have hfinal : Sink.result k s' = Sink.result k s2 := by
    simp only [Sink.result]
    rw [h3.sinks k hnotk]
  have hcall : (Callable.pure f : Callable V (Option V)).call s1 v = some (f v) := rfl
  obtain ⟨s2', _, _, items, hit, _⟩ := vectorSink_fires g1 D K k v (hasSub_of_shape hsh1 hK)
  rw [hres1] at hit
  refine ⟨items, hit, ?_⟩
  rw [hfinal]
  rcases h5 with ⟨hnone, hs2⟩ | ⟨u, hsome, hfire⟩
  · rw [hcall] at hnone
    simp only [Option.some.injEq] at hnone
    rw [hnone, hs2, hres1, hit]
    simp
  · rw [hcall] at hsome
    simp only [Option.some.injEq] at hsome
    rw [hsome]
    obtain ⟨s2'', hf, _, items', hit', hres'⟩ := vectorSink_fires g1 D K k u (hasSub_of_shape hsh1 hK)
    have hf' := hf s.fuelBound (by rw [hsh1.fuelBound]; omega)
    have := fire_unique hfire hf'
    subst this
    rw [hres1, hit, Option.some.injEq] at hit'
    subst hit'
    simpa using hres'

/-- Fires with a collected `mappedOptional` in place: the sink gathers what `f` makes of the
values, in order. -/
theorem collectMapped_sequence {s : State V W} (g : Good s) (inp a C D K k : Nat) (f : V → Option V)
    (items : List V) (hC : s.hasSub a C (.mappedOptionalFn (.pure f) D))
    (hK : s.hasSub D K (.vectorSinkFn k)) (hr : s.rootOf inp = some a)
    (hres : Sink.result k s = some items) (xs : List V) :
    ∃ s', (∀ fuel, s.fuelBound ≤ fuel → fireAll fuel (xs.map fun v => (inp, v)) s = some s') ∧
      Good s' ∧ Sink.result k s' = some (items ++ xs.filterMap f) := by
  obtain ⟨s', hf, _, hg, _, _, _, hc'⟩ := fireAll_steps inp
    (fun acc s => Good s ∧ s.hasSub a C (.mappedOptionalFn (.pure f) D) ∧
      s.hasSub D K (.vectorSinkFn k) ∧ s.rootOf inp = some a ∧ Sink.result k s = some acc)
    (fun acc v => acc ++ (f v).toList)
    (by
      intro acc s v ⟨g, hC, hK, hr, hacc⟩
      obtain ⟨s', hf, hfr, items', h1, h2⟩ := collectMapped_fires g a C D K k f v hC hK
      rw [hacc, Option.some.injEq] at h1
      subst h1
      exact ⟨s', fire_via_handle hr hf, hfr.shape, g.good_of_shape hfr.shape,
        hasSub_of_shape hfr.shape hC, hasSub_of_shape hfr.shape hK,
        by rw [hfr.shape.rootOf_eq]; exact hr, h2⟩)
    xs items s ⟨g, hC, hK, hr, hres⟩
  exact ⟨s', hf, hg, by rw [hc', foldl_filterMap]⟩

/-- What `collect(mappedOptional(s, f))` builds on a stream that forwards to the root stream
`a`. -/
theorem collect_mappedOptional {s0 : State V W} (g0 : Good s0) (inp a : Nat) (f : V → Option V)
    (hr : s0.rootOf inp = some a) :
    ∃ s1 s2, mappedOptional inp (.pure f) s0 = some (s0.next + 2, s1) ∧
      collect (s0.next + 2) s1 = some (s0.next + 3, s2) ∧ Good s2 ∧
      Sink.result (s0.next + 3) s2 = some [] ∧
      s2.hasSub a (s0.next + 1) (.mappedOptionalFn (.pure f) s0.next) ∧
      s2.hasSub s0.next (s0.next + 4) (.vectorSinkFn (s0.next + 3)) ∧ s2.rootOf inp = some a := by
  obtain ⟨s1, h1, g1, hn1, hfn1, _, _, _, _, hla, _, _, hch, _, hroot, _, _, _⟩ :=
    mappedOptional_spec g0 inp a (.pure f) hr trivial
  have hinp : inp < s0.next := rootOf_lt g0.wf hr
  have ha : a < s0.next := g0.wf.lt_of_subscribers a (g0.wf.rootOf_root hr)
  have hrm : s1.rootOf (s0.next + 2) = some s0.next := by simp [State.rootOf, hch]
  obtain ⟨s2, h2, g2, _, hfn2, hsink2, _, _, _, hla2, hlx2, hroot2, _⟩ :=
    collect_spec g1 (s0.next + 2) s0.next hrm
  rw [hn1] at h2 hfn2 hsink2 hla2
  refine ⟨s1, s2, h1, h2, g2, by simp [Sink.result, hsink2, ThreadSafe.getCopy], ⟨?_, ?_⟩, ⟨?_, ?_⟩,
    by rw [hroot2, hroot inp hinp]; exact hr⟩
  · rw [hlx2 a (by omega), hla]; simp
  · rw [hfn2, Function.update_noteq (by omega), hfn1, Function.update_same]; rfl
  · rw [hla2]; simp
  · rw [hfn2, Function.update_same]; rfl

/-- C19 (agreement with the list functions).  On a stream `s` that forwards to a root stream,
`collect(mappedOptional(s, f))` starts empty, and after the values `xs`, fired into `s` one
after another, its `result()` is `xs.filterMap f`: what `f` makes of the values, in order,
without those of which it makes nothing.  For `mapped(s, g)` this is `xs.map g` and for
`filtered(s, p)` it is `xs.filter p`, which are the vectors that `mapped(xs, g)` and
`filtered(xs, p)` of `Containers.hpp` return. -/
theorem collectAgreement (s0 : State V W) (g0 : Good s0) (inp a : Nat) (hr : s0.rootOf inp = some a) :
    (∀ f : V → Option V, ∃ s1 s2, mappedOptional inp (.pure f) s0 = some (s0.next + 2, s1) ∧
      collect (s0.next + 2) s1 = some (s0.next + 3, s2) ∧ Sink.result (s0.next + 3) s2 = some [] ∧
      ∀ xs : List V, ∃ s', (∀ fuel, s2.fuelBound ≤ fuel → fireAll fuel (xs.map fun v => (inp, v)) s2 = some s') ∧
        Sink.result (s0.next + 3) s' = some (xs.filterMap f)) ∧
    (∀ g : V → V, ∃ s1 s2, mapped inp (.pure g) s0 = some (s0.next + 2, s1) ∧
      collect (s0.next + 2) s1 = some (s0.next + 3, s2) ∧ Sink.result (s0.next + 3) s2 = some [] ∧
      ∀ xs : List V, ∃ s', (∀ fuel, s2.fuelBound ≤ fuel → fireAll fuel (xs.map fun v => (inp, v)) s2 = some s') ∧
        Sink.result (s0.next + 3) s' = some (xs.map g) ∧ xs.map g = Containers.mapped xs g) ∧
    ∀ p : V → Bool, ∃ s1 s2, filtered inp (.pure p) s0 = some (s0.next + 2, s1) ∧
      collect (s0.next + 2) s1 = some (s0.next + 3, s2) ∧ Sink.result (s0.next + 3) s2 = some [] ∧
      ∀ xs : List V, ∃ s', (∀ fuel, s2.fuelBound ≤ fuel → fireAll fuel (xs.map fun v => (inp, v)) s2 = some s') ∧
        Sink.result (s0.next + 3) s' = some (xs.filter p) ∧ xs.filter p = Containers.filtered xs p := by
  have key : ∀ f : V → Option V, ∃ s1 s2, mappedOptional inp (.pure f) s0 = some (s0.next + 2, s1) ∧
      collect (s0.next + 2) s1 = some (s0.next + 3, s2) ∧ Sink.result (s0.next + 3) s2 = some [] ∧
      ∀ xs : List V, ∃ s', (∀ fuel, s2.fuelBound ≤ fuel → fireAll fuel (xs.map fun v => (inp, v)) s2 = some s') ∧
        Sink.result (s0.next + 3) s' = some (xs.filterMap f) := by
    intro f
    obtain ⟨s1, s2, h1, h2, g2, hres, hC, hK, hr2⟩ := collect_mappedOptional g0 inp a f hr
    refine ⟨s1, s2, h1, h2, hres, ?_⟩
    intro xs
    obtain ⟨s', hf, _, hc⟩ := collectMapped_sequence g2 inp a _ _ _ _ f [] hC hK hr2 hres xs
    exact ⟨s', hf, by simpa using hc⟩
  refine ⟨key, ?_, ?_⟩
  · intro g
    obtain ⟨s1, s2, h1, h2, hres, hseq⟩ := key (fun t => some (g t))
    refine ⟨s1, s2, h1, h2, hres, ?_⟩
    intro xs
    obtain ⟨s', hf, hc⟩ := hseq xs
    refine ⟨s', hf, ?_, (Containers.mapped_eq xs g).symm⟩
    rw [hc, filterMap_some_map]
  · intro p
    obtain ⟨s1, s2, h1, h2, hres, hseq⟩ := key (fun t => if p t then some t else none)
    refine ⟨s1, s2, h1, h2, hres, ?_⟩
    intro xs
    obtain ⟨s', hf, hc⟩ := hseq xs
    refine ⟨s', hf, ?_, (Containers.filtered_eq xs p).symm⟩
    rw [hc, filterMap_ite_filter]

/-! ## The order of a pass -/

/-- A pass over a root stream of a well-formed state, split at one of the live subscribers:
the calls before it, its own call, and the calls after it. -/
theorem pass_split {s : State V W} (wf : WF s) (a : Nat) (v : V) (l1 : List Nat) (c : Nat)
    (l2 : List Nat) (hsplit : s.live a = l1 ++ c :: l2) :
    ∃ s1 s2 sl s', (∀ n, s.fuelBound ≤ n + a + 2 →
        invokeAll (invoke (Event.fire n)) a v l1 (s.log (.fired a v)) = some s1 ∧
        invoke (Event.fire n) c v (s1.log (.invoked a c v)) = some s2 ∧
        invokeAll (invoke (Event.fire n)) a v l2 s2 = some sl ∧
        Event.fire (n + 1) a v s = some s') ∧ (s' = sl ∨ s' = sl.clean a) := by
  have hcmem : c ∈ s.live a := by rw [hsplit]; simp
  have hroot : (s.subscribers a).isSome = true := by
    obtain ⟨subs, hs, _, _⟩ := mem_live hcmem
    simp [hs]
  have hlt := wf.lt_of_subscribers a hroot
  obtain ⟨sl, s', h1, h3, _, _⟩ := fire_root_spec wf a v hroot Footprint.all trivial (Closed.everywhere wf a)
    (fun c _ => Targets.everything s c)
  obtain ⟨n0, hn0⟩ : ∃ n0, s.fuelBound = n0 + a + 2 :=
    ⟨s.fuelBound - a - 2, by simp only [State.fuelBound]; omega⟩
  obtain ⟨hall, _⟩ := h1 n0 (by omega)
  rw [hsplit, invokeAll_append] at hall
  cases hi1 : invokeAll (invoke (Event.fire n0)) a v l1 (s.log (.fired a v)) with
  | none => rw [hi1] at hall; simp at hall
  | some s1 =>
    rw [hi1] at hall
    simp only [Option.bind_eq_bind, Option.some_bind, invokeAll] at hall
    cases hi2 : invoke (Event.fire n0) c v (s1.log (.invoked a c v)) with
    | none => rw [hi2] at hall; simp at hall
    | some s2 =>
      rw [hi2] at hall
      simp only at hall
      refine ⟨s1, s2, sl, s', ?_, h3⟩
      intro n hn
      have hle : n0 ≤ n := by omega
      have hmono : ∀ (x : Nat) (u : V) (t t' : State V W),
          Event.fire n0 x u t = some t' → Event.fire n x u t = some t' :=
        fun x u t t' h => Event.fire_mono_le _ n hle x u t t' h
      exact ⟨invokeAll_mono _ _ hmono a v _ _ _ hi1, invoke_mono _ _ hmono c v _ s2 hi2,
        invokeAll_mono _ _ hmono a v _ _ _ hall, (h1 n hn).2⟩

/-- In a good state in which the updater `U` of the Dynamic at `d` is subscribed to the root
stream `D`: when a pass over `D` with `u` has called `U` and then callbacks other than `U`,
the current value of the Dynamic is `u`. -/
theorem updater_first {s : State V W} (g : Good s) (D U d : Nat) (hU : s.hasSub D U (.updater d))
    (pre : List Nat) (hpre : ∀ c ∈ pre, c ∈ s.live D ∧ c ≠ U) (u : V) (n : Nat)
    (hn : s.fuelBound ≤ n + D + 2) (sc : State V W)
    (hsc : invokeAll (invoke (Event.fire n)) D u (U :: pre) (s.log (.fired D u)) = some sc) :
    sc.current d = some u := by
  have htU : s.targetOf U = some (.dyn d) := by rw [hasSub_targetOf hU]; rfl
  obtain ⟨cell, hc, ho⟩ := hasSub_cell hU
  simp only [invokeAll] at hsc
  cases hiU : invoke (Event.fire n) U u ((s.log (.fired D u)).log (.invoked D U u)) with
  | none => rw [hiU] at hsc; simp at hsc
  | some sU =>
    rw [hiU] at hsc
    simp only at hsc
    have hfn : ((s.log (.fired D u)).log (.invoked D U u)).fns U = some cell := hc
    unfold invoke at hiU
    simp only [hfn, ho] at hiU
    have hfrU : Frame Footprint.all ((s.log (.fired D u)).log (.invoked D U u)) sU :=
      Frame.setCurrent Footprint.all _ sU d u trivial hiU
    have hshU : Shape s sU :=
      ((Shape.shape_log s _).andThen (Shape.shape_log _ _)).andThen hfrU.shape
    have hcurU : sU.current d = some u := by
      unfold State.setCurrent at hiU
      cases hd : ((s.log (.fired D u)).log (.invoked D U u)).dyns d with
      | none => simp [hd] at hiU
      | some dc =>
        simp only [hd, Option.some.injEq] at hiU
        rw [← hiU]
        simp [State.current, ThreadSafe.set, ThreadSafe.getCopy]
    obtain ⟨sc', h1, h2, _, _⟩ := invokeAll_ok n (fire_ok n) D u (Footprint.avoiding [.dyn d])
      (by simp [Footprint.avoiding]) pre sU (WF.of_shape hshU g.wf)
      (Closed.closed_of_shape hshU (Closed.closed_avoiding g D _ (fun t ht => by
        rw [List.mem_singleton] at ht; subst ht
        exact ⟨D, U, hU.1, htU, Or.inl rfl⟩)))
      (fun c hc => ⟨by rw [hshU.live]; exact (hpre c hc).1,
        Targets.of_fns hshU.fns c (Targets.targets_avoiding g D U _ (fun t ht => by
          rw [List.mem_singleton] at ht; subst ht
          exact ⟨D, U, hU.1, htU, Or.inl ⟨rfl, rfl⟩⟩) c (hpre c hc).1 (hpre c hc).2)⟩)
      (by rw [hshU.next, maxSubsBelow_congr hshU]; simp only [State.fuelBound] at hn; omega)
    rw [hsc, Option.some.injEq] at h1
    subst h1
    have hnot : ¬ (Footprint.avoiding [Target.dyn d]).dyn d := by simp [Footprint.avoiding]
    simp only [State.current] at hcurU ⊢
    rw [h2.dyns d hnot]
    exact hcurU

theorem appendSub_live (s : State V W) (a : Nat) (w : WeakPtr) (subs : List WeakPtr)
    (hs : s.subscribers a = some subs) :
    (s.appendSub a w).live a = s.live a ++ liveOf s [w] := by
  simp only [State.live, appendSub_subscribers_self s a w subs hs, hs]
  rw [liveOf_congr (appendSub_rest s a w).1]
  simp [liveOf, List.filterMap_append]

/-- C20 (the updater runs first).  On a stream that forwards to a root stream, `fold` returns
a Dynamic `d` whose `updated()` forwards to the fresh stream `D`, and the updater `U` of `d`
is the one live subscriber of `D`.  A later `subscribe` on `D` appends, so `U` stays the first
live subscriber.  In every good state in which `U` is the first live subscriber of `D`, and
for every later live subscriber `c` of `D`: a pass over `D` with `u` calls `U` and the
subscribers before `c`, then `c`, then the rest; and in the state in which `c` is called the
current value of `d` is `u`. -/
theorem updaterFirst (s0 : State V W) (g0 : Good s0) (event a : Nat) (initial : V)
    (combine : V → V → V) (hr : s0.rootOf event = some a) :
    ∃ s1, fold event initial combine s0 = some (s0.next + 1, s1) ∧ Good s1 ∧
      Dynamic.updated (s0.next + 1) s1 = some (s0.next + 5) ∧
      s1.rootOf (s0.next + 5) = some (s0.next + 3) ∧
      s1.live (s0.next + 3) = [s0.next + 2] ∧
      s1.hasSub (s0.next + 3) (s0.next + 2) (.updater (s0.next + 1)) ∧
      (∀ (s : State V W) (rest : List Nat) (w : WeakPtr), s.live (s0.next + 3) = (s0.next + 2) :: rest →
        ∃ rest', (s.appendSub (s0.next + 3) w).live (s0.next + 3) = (s0.next + 2) :: rest') ∧
      ∀ s : State V W, Good s → s.hasSub (s0.next + 3) (s0.next + 2) (.updater (s0.next + 1)) →
        ∀ (pre : List Nat) (c : Nat) (post : List Nat),
          s.live (s0.next + 3) = (s0.next + 2) :: (pre ++ c :: post) → ∀ u : V,
          ∃ sc s2 sl s', (∀ n, s.fuelBound ≤ n + (s0.next + 3) + 2 →
              invokeAll (invoke (Event.fire n)) (s0.next + 3) u ((s0.next + 2) :: pre)
                (s.log (.fired (s0.next + 3) u)) = some sc ∧
              invoke (Event.fire n) c u (sc.log (.invoked (s0.next + 3) c u)) = some s2 ∧
              invokeAll (invoke (Event.fire n)) (s0.next + 3) u post s2 = some sl ∧
              Event.fire (n + 1) (s0.next + 3) u s = some s') ∧
            (s' = sl ∨ s' = sl.clean (s0.next + 3)) ∧
            Dynamic.current (s0.next + 1) sc = some u ∧
            Dynamic.current (s0.next + 1) (sc.log (.invoked (s0.next + 3) c u)) = some u := by
  obtain ⟨s1, h1, g1, _, _, hU, _, hupd, hrm, _, _, _, hlive⟩ := fold_spec g0 event a initial combine hr
  refine ⟨s1, h1, g1, hupd, hrm, hlive, hU, ?_, ?_⟩
  · intro s rest w hl
    cases hs : s.subscribers (s0.next + 3) with
    | none => simp [State.live, hs] at hl
    | some subs =>
      rw [appendSub_live s _ w subs hs, hl]
      exact ⟨_, rfl⟩
  · intro s g hU pre c post hl u
    have htU : s.targetOf (s0.next + 2) = some (.dyn (s0.next + 1)) := by
      rw [hasSub_targetOf hU]; rfl
    have hcount := g.lin.once _ _ _ hU.1 htU
    rw [hl, List.count_cons_self] at hcount
    have hnot : s0.next + 2 ∉ pre ++ c :: post := List.count_eq_zero.mp (by omega)
    obtain ⟨sc, s2, sl, s', hpass, hor⟩ := pass_split g.wf (s0.next + 3) u ((s0.next + 2) :: pre) c post
      (by rw [hl]; rfl)
    have hcur : sc.current (s0.next + 1) = some u :=
      updater_first g _ _ _ hU pre
        (fun x hx => ⟨by rw [hl]; exact List.mem_cons_of_mem _ (List.mem_append_left _ hx),
          fun h => hnot (h ▸ List.mem_append_left _ hx)⟩)
        u s.fuelBound (by omega) sc (hpass s.fuelBound (by omega)).1
    exact ⟨sc, s2, sl, s', hpass, hor, hcur, hcur⟩

/-! ## The program of Example.cpp -/

theorem fireAll_mono_le (n m : Nat) (hnm : n ≤ m) : ∀ (fs : List (Nat × V)) (s s' : State V W),
    fireAll n fs s = some s' → fireAll m fs s = some s'
  | [], _, _, h => h
  | hv :: fs, s, s', h => by
    simp only [fireAll] at h ⊢
    cases hf : Event.fire n hv.1 hv.2 s with
    | none => simp [hf] at h
    | some s1 =>
      simp only [hf] at h
      simp only [Event.fire_mono_le n m hnm hv.1 hv.2 s s1 hf]
      exact fireAll_mono_le n m hnm fs s1 s' h

theorem eq_some_getD {α : Type} (o : Option α) (d : α) (h : o.isSome = true) : o = some (o.getD d) := by
  cases o with
  | none => simp at h
  | some x => rfl

theorem Example.setup_eq : Example.setup = some Example.start :=
  eq_some_getD _ _ (by decide)

theorem Example.afterTwo_eq :
    fireAll 6 [(0, .inl "Hello"), (0, .inl "There")] Example.start = some Example.afterTwo :=
  eq_some_getD _ _ (by decide)

theorem Example.dropped_eq : release (.sink 2) Example.afterTwo = some Example.dropped :=
  eq_some_getD _ _ (by decide)

theorem Example.afterCool_eq : Event.fire 6 0 (.inl "Cool!!") Example.dropped = some Example.afterCool :=
  eq_some_getD _ _ (by decide)

theorem Example.afterCoolKept_eq :
    Event.fire 6 0 (.inl "Cool!!") Example.afterTwo = some Example.afterCoolKept :=
  eq_some_getD _ _ (by decide)

theorem Example.start_facts :
    Dynamic.current 7 Example.start = some (.inr 0) ∧
      WeakPtr.expired Example.dropped (some 1) = true :=
  ⟨by decide, by decide⟩

theorem Example.afterTwo_facts :
    callsOf 1 (newTrace Example.start Example.afterTwo) = [.inl "Hello", .inl "There"] ∧
    callsOf 12 (newTrace Example.start Example.afterTwo) = [.inr 1, .inr 2] ∧
    callsOf 17 (newTrace Example.start Example.afterTwo) = [.inr 2] ∧
    Example.afterTwo.world =
      [("GOT EVENT: ", .inl "Hello"), ("GOT MAPPED EVENT: ", .inl "same"), ("Counted: ", .inr 1),
        ("GOT EVENT: ", .inl "There"), ("GOT MAPPED EVENT: ", .inl "same"), ("Counted: ", .inr 2),
        ("Filtered count: ", .inr 2)] :=
  ⟨by decide, by decide, by decide, by decide⟩

theorem Example.afterCool_facts :
    callsOf 1 (newTrace Example.dropped Example.afterCool) = [] ∧
    callsOf 12 (newTrace Example.dropped Example.afterCool) = [.inr 3] ∧
    callsOf 17 (newTrace Example.dropped Example.afterCool) = [] ∧
    Dynamic.current 7 Example.afterCool = some (.inr 3) ∧
    Example.afterCool.world =
      Example.afterTwo.world ++ [("GOT MAPPED EVENT: ", .inl "same"), ("Counted: ", .inr 3)] :=
  ⟨by decide, by decide, by decide, by decide, by decide⟩

theorem Example.afterCoolKept_facts :
    callsOf 1 (newTrace Example.afterTwo Example.afterCoolKept) = [.inl "Cool!!"] := by
  decide

/-- C11 (the scenario of `Example.cpp`).  The block of `main` builds its graph; the logger is
the callback 1, the count-logger the callback 12 and the filtered-count-logger the callback
17.  The fires of "Hello" and "There" return, call the logger with "Hello" and "There", the
count-logger with 1 and 2 and the filtered-count-logger with 2, and print the lines below.
When the sink of the logger is dropped then, the logger is expired, and the fire of "Cool!!"
returns, does not call the logger, calls the count-logger with 3 and the filtered one not at
all, and leaves the count at 3.  (In `main` itself this fire comes while the logger is in
scope: then the logger is called with "Cool!!" too.) -/
theorem exampleScenario :
    Example.setup = some Example.start ∧
    Example.start.fns 1 = some ⟨1, .forEachFn fun msg w => w ++ [("GOT EVENT: ", msg)]⟩ ∧
    Example.start.fns 12 = some ⟨1, .forEachFn fun c w => w ++ [("Counted: ", c)]⟩ ∧
    Example.start.fns 17 = some ⟨1, .forEachFn fun c w => w ++ [("Filtered count: ", c)]⟩ ∧
    Dynamic.current 7 Example.start = some (.inr 0) ∧
    (∀ fuel, 6 ≤ fuel →
      fireAll fuel [(0, .inl "Hello"), (0, .inl "There")] Example.start = some Example.afterTwo) ∧
    callsOf 1 (newTrace Example.start Example.afterTwo) = [.inl "Hello", .inl "There"] ∧
    callsOf 12 (newTrace Example.start Example.afterTwo) = [.inr 1, .inr 2] ∧
    callsOf 17 (newTrace Example.start Example.afterTwo) = [.inr 2] ∧
    Example.afterTwo.world =
      [("GOT EVENT: ", .inl "Hello"), ("GOT MAPPED EVENT: ", .inl "same"), ("Counted: ", .inr 1),
        ("GOT EVENT: ", .inl "There"), ("GOT MAPPED EVENT: ", .inl "same"), ("Counted: ", .inr 2),
        ("Filtered count: ", .inr 2)] ∧
    release (.sink 2) Example.afterTwo = some Example.dropped ∧
    WeakPtr.expired Example.dropped (some 1) = true ∧
    (∀ fuel, 6 ≤ fuel → Event.fire fuel 0 (.inl "Cool!!") Example.dropped = some Example.afterCool) ∧
    callsOf 1 (newTrace Example.dropped Example.afterCool) = [] ∧
    callsOf 12 (newTrace Example.dropped Example.afterCool) = [.inr 3] ∧
    callsOf 17 (newTrace Example.dropped Example.afterCool) = [] ∧
    Dynamic.current 7 Example.afterCool = some (.inr 3) ∧
    Example.afterCool.world =
      Example.afterTwo.world ++ [("GOT MAPPED EVENT: ", .inl "same"), ("Counted: ", .inr 3)] ∧
    (∀ fuel, 6 ≤ fuel → Event.fire fuel 0 (.inl "Cool!!") Example.afterTwo = some Example.afterCoolKept) ∧
    callsOf 1 (newTrace Example.afterTwo Example.afterCoolKept) = [.inl "Cool!!"] :=
  ⟨Example.setup_eq, rfl, rfl, rfl, Example.start_facts.1,
    fun fuel h => fireAll_mono_le 6 fuel h _ _ _ Example.afterTwo_eq, Example.afterTwo_facts.1,
    Example.afterTwo_facts.2.1, Example.afterTwo_facts.2.2.1, Example.afterTwo_facts.2.2.2,
    Example.dropped_eq, Example.start_facts.2,
    fun fuel h => Event.fire_mono_le 6 fuel h _ _ _ _ Example.afterCool_eq, Example.afterCool_facts.1,
    Example.afterCool_facts.2.1, Example.afterCool_facts.2.2.1, Example.afterCool_facts.2.2.2.1,
    Example.afterCool_facts.2.2.2.2,
    fun fuel h => Event.fire_mono_le 6 fuel h _ _ _ _ Example.afterCoolKept_eq,
    Example.afterCoolKept_facts⟩

/-! ## Threads on one synchronized stream -/

theorem Shared.Inv.initial (subs : List WeakPtr) (programs : Nat → List (Call V)) :
    (Shared.init subs programs).Inv where
  fresh e he := by simp [Shared.init] at he
  sorted := List.Pairwise.nil
  holder t k h := by simp [Shared.init, Thread.ticket?] at h
  owner t k h := by simp [Shared.init, Thread.ticket?] at h
  same e1 he := by simp [Shared.init] at he

theorem Shared.Inv.acquire {s : Shared V} (inv : s.Inv) (tid : Nat) (th : Thread V)
    (hm : s.mutex = none) (hth : th.ticket? = some s.tickets) : (s.acquire tid th).Inv := by
  have hnone : ∀ t k, (s.threads t).ticket? = some k → False := fun t k h => by
    have := (inv.holder t k h).1
    rw [hm] at this
    cases this
  refine ⟨?_, inv.sorted, ?_, ?_, inv.same⟩
  · intro e he
    have := inv.fresh e he
    show e.ticket < s.tickets + 1
    omega
  · intro t k hk
    by_cases ht : t = tid
    · subst ht
      simp only [Shared.acquire, Function.update_same, hth, Option.some.injEq] at hk
      subst hk
      exact ⟨rfl, rfl⟩
    · simp only [Shared.acquire, Function.update_noteq ht] at hk
      exact (hnone t k hk).elim
  · intro t k hk e he hek
    by_cases ht : t = tid
    · subst ht
      simp only [Shared.acquire, Function.update_same, hth, Option.some.injEq] at hk
      subst hk
      have := inv.fresh e he
      omega
    · simp only [Shared.acquire, Function.update_noteq ht] at hk
      exact (hnone t k hk).elim

theorem Shared.Inv.appended {s : Shared V} (inv : s.Inv) (tid k : Nat)
    (hin : (s.threads tid).ticket? = some k) (entries : List (Done V))
    (hentries : ∀ e ∈ entries, e.ticket = k ∧ e.thread = tid) :
    (∀ e ∈ s.log ++ entries, e.ticket < s.tickets) ∧
      (s.log ++ entries).Pairwise (fun e1 e2 => e1.ticket ≤ e2.ticket) ∧
      (∀ e ∈ s.log ++ entries, e.ticket = k → e.thread = tid) ∧
      ∀ e1 ∈ s.log ++ entries, ∀ e2 ∈ s.log ++ entries, e1.ticket = e2.ticket → e1.thread = e2.thread := by
  obtain ⟨_, hk⟩ := inv.holder tid k hin
  have hown : ∀ e ∈ s.log ++ entries, e.ticket = k → e.thread = tid := by
    intro e he hek
    rcases List.mem_append.mp he with h | h
    · exact inv.owner tid k hin e h hek
    · exact (hentries e h).2
  refine ⟨?_, ?_, hown, ?_⟩
  · intro e he
    rcases List.mem_append.mp he with h | h
    · exact inv.fresh e h
    · rw [(hentries e h).1]; omega
  · rw [List.pairwise_append]
    refine ⟨inv.sorted, ?_, ?_⟩
    · rw [List.pairwise_iff_forall_sublist]
      intro a b hab
      have ha := (hentries a (hab.subset (by simp))).1
      have hb := (hentries b (hab.subset (by simp))).1
      omega
    · intro a ha b hb
      have := inv.fresh a ha
      rw [(hentries b hb).1]
      omega
  · intro e1 h1 e2 h2 h12
    rcases List.mem_append.mp h1 with a | a <;> rcases List.mem_append.mp h2 with b | b
    · exact inv.same e1 a e2 b h12
    · rw [(hentries e2 b).2]
      exact inv.owner tid k hin e1 a (by rw [h12]; exact (hentries e2 b).1)
    · rw [(hentries e1 a).2]
      exact (inv.owner tid k hin e2 b (by rw [← h12]; exact (hentries e1 a).1)).symm
    · rw [(hentries e1 a).2, (hentries e2 b).2]

theorem Shared.Inv.others {s : Shared V} (inv : s.Inv) (tid k : Nat)
    (hin : (s.threads tid).ticket? = some k) (t j : Nat) (hne : t ≠ tid)
    (h : (s.threads t).ticket? = some j) : False := by
  have h1 := (inv.holder t j h).1
  rw [(inv.holder tid k hin).1] at h1
  exact hne (Option.some.inj h1).symm

theorem Shared.Inv.advance {s : Shared V} (inv : s.Inv) (tid k : Nat) (th : Thread V)
    (hin : (s.threads tid).ticket? = some k) (hth : th.ticket? = some k) (entries : List (Done V))
    (hentries : ∀ e ∈ entries, e.ticket = k ∧ e.thread = tid) : (s.advance tid th entries).Inv := by
  obtain ⟨h1, h2, h3, h4⟩ := inv.appended tid k hin entries hentries
  have hcase : ∀ t j, ((s.advance tid th entries).threads t).ticket? = some j → t = tid ∧ j = k := by
    intro t j hj
    by_cases ht : t = tid
    · subst ht
      simp only [Shared.advance, Function.update_same, hth, Option.some.injEq] at hj
      exact ⟨rfl, hj.symm⟩
    · simp only [Shared.advance, Function.update_noteq ht] at hj
      exact (inv.others tid k hin t j ht hj).elim
  refine ⟨h1, h2, ?_, ?_, h4⟩
  · intro t j hj
    obtain ⟨rfl, rfl⟩ := hcase t j hj
    exact inv.holder t j hin
  · intro t j hj
    obtain ⟨rfl, rfl⟩ := hcase t j hj
    exact h3

theorem Shared.Inv.release {s : Shared V} (inv : s.Inv) (tid k : Nat) (calls : List (Call V))
    (hin : (s.threads tid).ticket? = some k) (e : BasicEvent) (entries : List (Done V))
    (hentries : ∀ e ∈ entries, e.ticket = k ∧ e.thread = tid) : (s.release tid calls e entries).Inv := by
  obtain ⟨h1, h2, _, h4⟩ := inv.appended tid k hin entries hentries
  have hcase : ∀ t j, ((s.release tid calls e entries).threads t).ticket? = some j → False := by
    intro t j hj
    by_cases ht : t = tid
    · subst ht
      simp [Shared.release, Thread.ticket?] at hj
    · simp only [Shared.release, Function.update_noteq ht] at hj
      exact inv.others tid k hin t j ht hj
  exact ⟨h1, h2, fun t j hj => (hcase t j hj).elim, fun t j hj => (hcase t j hj).elim, h4⟩

theorem Shared.Inv.step {s : Shared V} (inv : s.Inv) (expired : WeakPtr → Bool) (tid : Nat) :
    (s.step expired tid).Inv := by
  unfold Shared.step
  split
  · exact inv
  · split
    · exact inv
    · rename_i hm
      exact inv.acquire tid _ hm rfl
  · split
    · exact inv
    · rename_i hm
      exact inv.acquire tid _ hm rfl
  · rename_i k t i dc calls hth
    have hin : (s.threads tid).ticket? = some k := by rw [hth]; rfl
    split
    · split
      · exact inv.advance tid k (.firing k t (i + 1) true calls) hin rfl [] (by simp)
      · exact inv.advance tid k (.firing k t (i + 1) dc calls) hin rfl _
          (by simp [Done.ticket, Done.thread])
    · exact inv.release tid k calls hin _ [] (by simp)
  · rename_i k f calls hth
    have hin : (s.threads tid).ticket? = some k := by rw [hth]; rfl
    exact inv.release tid k calls hin _ _ (by simp [Done.ticket, Done.thread])

theorem Shared.Inv.run (expired : WeakPtr → Bool) : ∀ (schedule : List Nat) (s : Shared V), s.Inv →
    (Shared.run expired schedule s).Inv
  | [], _, inv => inv
  | tid :: schedule, _, inv => Shared.Inv.run expired schedule _ (inv.step expired tid)

/-- C17 (serialized firing).  Threads call `fire` and `subscribe` on one `ThreadSafeEvent`;
each call constructs the guard of `with`, which a thread can do only while no thread holds
the mutex, does its work step by step, and destroys the guard.  Whatever the calls of the
threads are and whichever thread the scheduler picks at each step: at most one thread is
inside a call; the tickets of the guards never decrease along the record of what was done,
so that everything done under one guard, the whole pass of a `fire` or the `push_back` of a
`subscribe`, comes before everything done under a later one; and what is recorded under one
ticket was done by one thread. -/
theorem serializedFiring (expired : WeakPtr → Bool) (subs : List WeakPtr)
    (programs : Nat → List (Call V)) (schedule : List Nat) :
    (∀ t1 t2 k1 k2, ((Shared.run expired schedule (Shared.init subs programs)).threads t1).ticket? = some k1 →
      ((Shared.run expired schedule (Shared.init subs programs)).threads t2).ticket? = some k2 → t1 = t2) ∧
    (Shared.run expired schedule (Shared.init subs programs)).log.Pairwise
      (fun e1 e2 => e1.ticket ≤ e2.ticket) ∧
    ∀ e1 ∈ (Shared.run expired schedule (Shared.init subs programs)).log,
      ∀ e2 ∈ (Shared.run expired schedule (Shared.init subs programs)).log,
        e1.ticket = e2.ticket → e1.thread = e2.thread := by
  have inv := Shared.Inv.run expired schedule _ (Shared.Inv.initial subs programs)
  refine ⟨?_, inv.sorted, inv.same⟩
  intro t1 t2 k1 k2 h1 h2
  have a := (inv.holder t1 k1 h1).1
  have b := (inv.holder t2 k2 h2).1
  rw [a] at b
  exact Option.some.inj b

/-! ## A small program -/

theorem demoRoot_good : Good demoRoot :=
  ((Good.init []).allocEvent 1 _ (Or.inl rfl)).1

theorem demoOne_good : Good demoOne := by
  obtain ⟨s', h, g, _⟩ := forEach_spec demoRoot_good 0 0 (fun v w => (v + 100) :: w) rfl
  have : demoOne = s' := by simp [demoOne, built, h]
  rw [this]; exact g

theorem demoTwo_good : Good demoTwo := by
  obtain ⟨s', h, g, _⟩ := forEach_spec demoOne_good 0 0 (fun v w => v :: w) rfl
  have : demoTwo = s' := by simp [demoTwo, built, h]
  rw [this]; exact g

theorem demoDropped_good : Good demoDropped := by
  obtain ⟨s', h, g, _⟩ := release_voidSink demoTwo_good 2 1 0 (fun v w => (v + 100) :: w) rfl rfl
    ⟨_, rfl, by decide⟩
  have : demoDropped = s' := by simp [demoDropped, h]
  rw [this]; exact g

/-- C2 at the same program: the callback 1 of the dropped sink is never called. -/
theorem deadSubscriberSkip_witness :
    demoDropped.subscribers 0 = some [some 1, some 3] ∧ demoDropped.fns 1 = none ∧
      (∃ s', (∀ fuel, demoDropped.fuelBound ≤ fuel → Event.fire fuel 0 9 demoDropped = some s') ∧
        traceAt 0 (newTrace demoDropped s') = [Obs.fired 0 9, Obs.invoked 0 3 9]) ∧
      ∃ s', (∀ fuel, demoDropped.fuelBound ≤ fuel → fireAll fuel [(0, 9), (0, 8)] demoDropped = some s') ∧
        ∀ x u, Obs.invoked x 1 u ∉ newTrace demoDropped s' := by
  obtain ⟨⟨s', h1, h2, _⟩, _, h3⟩ := deadSubscriberSkip demoDropped demoDropped_good.wf 0
    [some 1, some 3] rfl 1 (by decide) rfl 9
  obtain ⟨s'', h4, _, h5⟩ := h3 [(0, 9), (0, 8)] (by decide)
  exact ⟨rfl, rfl, ⟨s', h1, h2⟩, s'', h4, h5⟩

/-- C5 at the program with one stream: the callback doubles the numbers below 10. -/
theorem mappedOptional_callback_witness :
    Good demoRoot ∧ demoRoot.rootOf 0 = some 0 ∧
      ∃ s1, mappedOptional 0 (.pure fun t => if t < 10 then some (t * 2) else none) demoRoot = some (3, s1) ∧
        (∃ s', (∀ fuel, s1.fuelBound ≤ fuel → Event.fire fuel 0 4 s1 = some s') ∧
          traceAt 1 (newTrace s1 s') = [Obs.fired 1 8]) ∧
        ∃ s', (∀ fuel, s1.fuelBound ≤ fuel → Event.fire fuel 0 11 s1 = some s') ∧
          traceAt 1 (newTrace s1 s') = [] := by
  obtain ⟨s1, h1, g1, _, _, hsub, hr1, hlive, _, hlater⟩ := mappedOptional_callback demoRoot demoRoot_good 0 0
    (fun t => if t < 10 then some (t * 2) else none) rfl
  obtain ⟨s', hf, _, _, _, htr⟩ := hlater s1 g1 hsub hr1 4
  obtain ⟨s'', hf', _, _, _, htr'⟩ := hlater s1 g1 hsub hr1 11
  refine ⟨demoRoot_good, rfl, s1, h1, ⟨s', hf, ?_⟩, s'', hf', htr'⟩
  rw [hlive] at htr
  exact htr

/-- C3 at the program with one stream: `mapped(s, v => v + 1)` turns a fire of 5 into one
fire of 6. -/
theorem mapLaw_witness :
    Good demoRoot ∧ demoRoot.rootOf 0 = some 0 ∧
      ∃ s1 s', mapped 0 (.pure fun t => t + 1) demoRoot = some (3, s1) ∧
        (∀ fuel, s1.fuelBound ≤ fuel → Event.fire fuel 0 5 s1 = some s') ∧
        traceAt 1 (newTrace s1 s') = [Obs.fired 1 6] := by
  obtain ⟨s1, h1, g1, _, hsub, hr1, hlive, hlater⟩ := mapLaw demoRoot demoRoot_good 0 0 (fun t => t + 1) rfl
  obtain ⟨s', hf, _, htr⟩ := hlater s1 g1 hsub hr1 5
  refine ⟨demoRoot_good, rfl, s1, s', h1, hf, ?_⟩
  rw [hlive] at htr
  exact htr

/-- C4 at the program with one stream: `filtered(s, even)` lets 4 through and stops 3. -/
theorem filterLaw_witness :
    Good demoRoot ∧ demoRoot.rootOf 0 = some 0 ∧
      ∃ s1, filtered 0 (.pure fun t => t % 2 == 0) demoRoot = some (3, s1) ∧
        (∃ s', (∀ fuel, s1.fuelBound ≤ fuel → Event.fire fuel 0 4 s1 = some s') ∧
          traceAt 1 (newTrace s1 s') = [Obs.fired 1 4]) ∧
        ∃ s', (∀ fuel, s1.fuelBound ≤ fuel → Event.fire fuel 0 3 s1 = some s') ∧
          traceAt 1 (newTrace s1 s') = [] := by
  obtain ⟨s1, h1, g1, _, hsub, hr1, hlive, hlater⟩ := filterLaw demoRoot demoRoot_good 0 0
    (fun t => t % 2 == 0) rfl
  obtain ⟨s', hf, _, htr⟩ := hlater s1 g1 hsub hr1 4
  obtain ⟨s'', hf', _, htr'⟩ := hlater s1 g1 hsub hr1 3
  refine ⟨demoRoot_good, rfl, s1, h1, ⟨s', hf, ?_⟩, s'', hf', htr'⟩
  rw [hlive] at htr
  exact htr

theorem demoCount_good : Good demoCount :=
  ((Good.init ()).allocEvent 1 _ (Or.inl rfl)).1

/-- C6 at the program with one stream: `fold(s, 0, (v, acc) => 2 * acc + v)` after the fires
of 1, 2, 3 holds 11, the fold from the left. -/
theorem foldLaw_witness :
    Good demoRoot ∧ demoRoot.rootOf 0 = some 0 ∧
      ∃ s1, fold 0 0 (fun v acc => 2 * acc + v) demoRoot = some (2, s1) ∧
        Dynamic.current 2 s1 = some 0 ∧
        ∃ s', (∀ fuel, s1.fuelBound ≤ fuel → fireAll fuel [(0, 1), (0, 2), (0, 3)] s1 = some s') ∧
          Dynamic.current 2 s' = some 11 := by
  obtain ⟨s1, h1, g1, hcur, hC, hU, hr1, hlater⟩ := foldLaw demoRoot demoRoot_good 0 0 0
    (fun v acc => 2 * acc + v) rfl
  obtain ⟨s', hf, hc⟩ := (hlater s1 g1 hC hU hr1 0 hcur).2 [1, 2, 3]
  exact ⟨demoRoot_good, rfl, s1, h1, hcur, s', hf, hc⟩

/-- C7 at the program with one stream of booleans: `count(s)` holds 0, and 3 after three
fires. -/
theorem countLaw_witness :
    Good demoCount ∧ demoCount.rootOf 0 = some 0 ∧
      ∃ s1, count 0 demoCount = some (2, s1) ∧ Dynamic.current 2 s1 = some (Sum.inr 0) ∧
        ∃ s', (∀ fuel, s1.fuelBound ≤ fuel →
            fireAll fuel [(0, Sum.inl true), (0, Sum.inl false), (0, Sum.inl true)] s1 = some s') ∧
          Dynamic.current 2 s' = some (Sum.inr 3) := by
  obtain ⟨s1, h1, g1, hcur, _, hseq⟩ := countLaw demoCount demoCount_good 0 0 rfl
  obtain ⟨s', hf, _, hc⟩ := hseq [Sum.inl true, Sum.inl false, Sum.inl true]
  exact ⟨demoCount_good, rfl, s1, h1, hcur, s', hf, hc (by decide)⟩

/-- C8 at the program with one stream: `mkDynamic(s, 5)` holds 5, and 8 after the fires of 7
and 8. -/
theorem dynamicSnapshot_witness :
    Good demoRoot ∧ demoRoot.rootOf 0 = some 0 ∧
      ∃ s1, mkDynamic 0 5 demoRoot = some (1, s1) ∧ Dynamic.current 1 s1 = some 5 ∧
        ∃ s', (∀ fuel, s1.fuelBound ≤ fuel → fireAll fuel [(0, 7), (0, 8)] s1 = some s') ∧
          Dynamic.current 1 s' = some 8 := by
  obtain ⟨s1, h1, g1, hcur, hU, hr1, hlater⟩ := dynamicSnapshot demoRoot demoRoot_good 0 0 5 rfl
  obtain ⟨s', hf, hc⟩ := (hlater s1 g1 hU hr1).2 5 hcur [7, 8]
  exact ⟨demoRoot_good, rfl, s1, h1, hcur, s', hf, hc⟩

/-- C9 at the program with one stream: `collect(s)` after the fires of 4, 4, 5 holds them in
this order. -/
theorem collectorLaw_witness :
    Good demoRoot ∧ demoRoot.rootOf 0 = some 0 ∧
      ∃ s1, collect 0 demoRoot = some (1, s1) ∧ Sink.result 1 s1 = some [] ∧
        ∃ s', (∀ fuel, s1.fuelBound ≤ fuel → fireAll fuel [(0, 4), (0, 4), (0, 5)] s1 = some s') ∧
          Sink.result 1 s' = some [4, 4, 5] := by
  obtain ⟨s1, h1, g1, hres, _, _, _, hseq⟩ := collectorLaw demoRoot demoRoot_good 0 0 rfl
  obtain ⟨s', hf, hc⟩ := hseq [4, 4, 5]
  exact ⟨demoRoot_good, rfl, s1, h1, hres, s', hf, hc⟩

/-- C10 at the program with one stream: with the handle of `mapped(s, v => v + 1)` kept, a
fire of 5 fires the downstream stream 1 with 6; with the handle dropped, the chained node 3,
its callback 2 and the stream 1 are gone, stream 0 has its one owner again, and a fire of 5
returns without firing stream 1.  With a `forEach` on the derived stream, a fire of 5, the
drop of the handle 3, a fire of 7 and the drop of the sink leave the chained node alive
after the first drop and destroy it, with callback 2 and stream 1, at the second. -/
theorem lifetimeExtension_witness :
    Good demoRoot ∧ demoRoot.rootOf 0 = some 0 ∧ demoRoot.owners 0 = some 1 ∧
      ∃ s1, mappedOptional 0 (.pure fun t => some (t + 1)) demoRoot = some (3, s1) ∧
        (∃ s', (∀ fuel, s1.fuelBound ≤ fuel → Event.fire fuel 0 5 s1 = some s') ∧
          traceAt 1 (newTrace s1 s') = [Obs.fired 1 6]) ∧
        (∃ s2, release (.event 3) s1 = some s2 ∧ s2.owners 3 = none ∧
          WeakPtr.expired s2 (some 2) = true ∧ s2.owners 1 = none ∧ s2.owners 0 = some 1 ∧
          ∃ s', (∀ fuel, s2.fuelBound ≤ fuel → Event.fire fuel 0 5 s2 = some s') ∧
            ∀ u, Obs.fired 1 u ∉ newTrace s2 s') ∧
        ∃ sk s2 t2 s3 t3 s4, forEach 3 (fun v w => v :: w) s1 = some (sk, s2) ∧
          s2.owners 3 = some 2 ∧
          (∀ fuel, s2.fuelBound ≤ fuel → fireAll fuel [(0, 5)] s2 = some t2) ∧
          release (.event 3) t2 = some s3 ∧ s3.owners 3 = some 1 ∧
          s3.hasSub 0 2 (.mappedOptionalFn (.pure fun t => some (t + 1)) 1) ∧
          (∀ fuel, s3.fuelBound ≤ fuel → fireAll fuel [(0, 7)] s3 = some t3) ∧
          release (.sink sk) t3 = some s4 ∧ s4.owners 3 = none ∧
          WeakPtr.expired s4 (some 2) = true ∧ s4.owners 1 = none ∧ s4.owners 0 = some 1 := by
  obtain ⟨s1, h1, g1, _, hC, hr1, hreach, _, hfor, _, _, hsole, hgone⟩ :=
    lifetimeExtension demoRoot demoRoot_good 0 0 (fun t => some (t + 1)) rfl ⟨0, rfl⟩
  obtain ⟨s', hf, htr⟩ := hreach s1 g1 hC hr1 5
  obtain ⟨t1, s2, hft1, hrel, g2, hm2, hC2, hD2, hr2, ho2⟩ := hsole []
  have ht1 : t1 = s1 := by
    have h := hft1 s1.fuelBound (le_refl _)
    simp only [List.map_nil, fireAll, Option.some.injEq] at h
    exact h.symm
  subst ht1
  obtain ⟨s'', hf', hno, _⟩ := hgone s2 g2 hC2 hD2 hr2 5
  obtain ⟨sk, u2, hu2, _, _, _, hou2, hord⟩ := hfor (fun v w => v :: w)
  obtain ⟨⟨t2, s3, t3, s4, hft2, hrel3, _, hC3, _, ho3, hft3, hrel4, _, hm4, hC4, hD4, _, ho4⟩, _⟩ :=
    hord [5] [7]
  have hlive : t1.live 1 = [] := by
    obtain ⟨s1', h1', _, _, _, _, hl, _⟩ := mappedOptional_hasSub demoRoot_good 0 0
      (.pure fun t => some (t + 1)) rfl trivial
    rw [h1] at h1'
    simp only [Option.some.injEq, Prod.mk.injEq] at h1'
    rw [h1'.2]
    exact hl
  refine ⟨demoRoot_good, rfl, rfl, t1, h1, ⟨s', hf, ?_⟩, ⟨s2, hrel, hm2, hC2, hD2, ho2, s'', hf', hno⟩,
    sk, u2, t2, s3, t3, s4, hu2, hou2, hft2, hrel3, ho3, hC3, hft3, hrel4, hm4, hC4, hD4, ho4⟩
  have hlive' : t1.live demoRoot.next = [] := hlive
  rw [hlive'] at htr
  exact htr

/-- C14 at the program that has created one stream and a never stream, at address 1: two
subscriptions and two fires on the never stream leave the program as it was. -/
theorem neverStream_witness :
    (never demoRoot).2.events 1 = some ⟨1, .never⟩ ∧
      ∀ fuel, 0 < fuel →
        runCalls fuel [(1, .subscribe (some 0)), (1, .fire 4), (1, .subscribe none), (1, .fire 5)]
          (never demoRoot).2 = some (never demoRoot).2 :=
  ⟨(neverStream demoRoot).1,
    ((neverStream demoRoot).2 (never demoRoot).2 1 1 (neverStream demoRoot).1).2.2.2
      [.subscribe (some 0), .fire 4, .subscribe none, .fire 5]⟩

theorem demoMapped_good : Good demoMapped := by
  obtain ⟨s', h, g, _⟩ := mappedOptional_spec demoRoot_good 0 0 (.pure fun t => some (t + 1)) rfl trivial
  have : demoMapped = s' := by simp [demoMapped, built, h]
  rw [this]; exact g

/-- C13 at the program with one mapped stream: a fire of 9 into the chained node 3 is a pass
over the downstream stream 1 with 9, and nothing happens on stream 0. -/
theorem chainedForwarding_witness :
    WF demoMapped ∧ demoMapped.events 3 = some ⟨1, .chained 2 0 1⟩ ∧ demoMapped.subscribers 3 = none ∧
      ∃ s', (∀ fuel, demoMapped.fuelBound ≤ fuel →
          Event.fire fuel 3 9 demoMapped = some s' ∧ Event.fire fuel 1 9 demoMapped = some s') ∧
        traceAt 1 (newTrace demoMapped s') = [Obs.fired 1 9] ∧ traceAt 0 (newTrace demoMapped s') = [] := by
  obtain ⟨h0, _, _, s', h1, h2, _, h4⟩ := chainedForwarding demoMapped demoMapped_good.wf 3 1 2 0 1 rfl 9
  exact ⟨demoMapped_good.wf, rfl, h0, s', h1, h2, h4 0 2 _ _ (by decide) rfl rfl⟩

/-- C15 at the program with an expired and a live subscriber: after a fire of 7 the vector
still has two entries, the live one moved to the front and an empty one behind it. -/
theorem noCompaction_witness :
    WF demoDropped ∧ demoDropped.subscribers 0 = some [some 1, some 3] ∧
      WeakPtr.expired demoDropped (some 1) = true ∧
      ∃ s', (∀ fuel, demoDropped.fuelBound ≤ fuel → Event.fire fuel 0 7 demoDropped = some s') ∧
        s'.subscribers 0 = some [some 3, none] := by
  obtain ⟨⟨s', h1, h2, _⟩, _⟩ := noCompaction demoDropped demoDropped_good.wf 0 [some 1, some 3] rfl 7
  exact ⟨demoDropped_good.wf, rfl, rfl, s', h1, h2⟩

/-- C18 at the same program: the first fire cleans the vector, and the second fire calls the
live callback 3 as the first one did. -/
theorem cleaningKeepsLive_witness :
    WF demoDropped ∧ demoDropped.subscribers 0 = some [some 1, some 3] ∧
      ∃ s1, (∀ fuel, demoDropped.fuelBound ≤ fuel → Event.fire fuel 0 7 demoDropped = some s1) ∧
        s1.subscribers 0 = some [some 3, none] ∧
        traceAt 0 (newTrace demoDropped s1) = [Obs.fired 0 7, Obs.invoked 0 3 7] ∧
        ∃ s2, (∀ fuel, s1.fuelBound ≤ fuel → Event.fire fuel 0 8 s1 = some s2) ∧
          traceAt 0 (newTrace s1 s2) = [Obs.fired 0 8, Obs.invoked 0 3 8] := by
  obtain ⟨_, s1, h1, h2, h3, _, h5⟩ := cleaningKeepsLive demoDropped demoDropped_good.wf 0
    [some 1, some 3] rfl 7
  obtain ⟨s2, k1, k2⟩ := h5 8
  exact ⟨demoDropped_good.wf, rfl, s1, h1, h2, h3, s2, k1, k2⟩

/-- C19 at the program with one stream: `collect(mappedOptional(s, f))`, `f` doubling the
numbers below 10, holds 2, 6, 8 after the fires of 1, 12, 3, 4. -/
theorem collectAgreement_witness :
    Good demoRoot ∧ demoRoot.rootOf 0 = some 0 ∧
      ∃ s1 s2, mappedOptional 0 (.pure fun t => if t < 10 then some (2 * t) else none) demoRoot = some (3, s1) ∧
        collect 3 s1 = some (4, s2) ∧
        ∃ s', (∀ fuel, s2.fuelBound ≤ fuel → fireAll fuel [(0, 1), (0, 12), (0, 3), (0, 4)] s2 = some s') ∧
          Sink.result 4 s' = some [2, 6, 8] := by
  obtain ⟨s1, s2, h1, h2, _, hseq⟩ := (collectAgreement demoRoot demoRoot_good 0 0 rfl).1
    (fun t => if t < 10 then some (2 * t) else none)
  obtain ⟨s', hf, hc⟩ := hseq [1, 12, 3, 4]
  exact ⟨demoRoot_good, rfl, s1, s2, h1, h2, s', hf, hc⟩

theorem demoFold_good : Good demoFold := by
  obtain ⟨s', h, g, _⟩ := fold_spec demoRoot_good 0 0 0 (fun v acc => v + acc) rfl
  have : demoFold = s' := by simp [demoFold, built, h]
  rw [this]; exact g

theorem demoFoldLogged_good : Good demoFoldLogged := by
  obtain ⟨s', h, g, _⟩ := forEach_spec demoFold_good 6 4 (fun v w => v :: w) rfl
  have : demoFoldLogged = s' := by simp [demoFoldLogged, built, h]
  rw [this]; exact g

theorem demoFoldRead_result :
    (fireAll 5 [(0, 1), (0, 2)] demoFoldRead).bind (Sink.result 10) = some [1001, 3003] := by
  decide

/-- C20 at the program with a fold and a logger of its updates: in the pass over stream 4
with 9 the updater 3 is called first, and when the logger 7 is called the Dynamic holds 9.
At the program whose callback reads the Dynamic, the fires of 1 and 2 make the sums 1 and 3,
and the callback sees them: it produces 1001 and 3003. -/
theorem updaterFirst_witness :
    Good demoRoot ∧ demoRoot.rootOf 0 = some 0 ∧ Good demoFoldLogged ∧ demoFoldLogged.live 4 = [3, 7] ∧
      (∃ sc s2 s', (∀ n, demoFoldLogged.fuelBound ≤ n + 4 + 2 →
          invokeAll (invoke (Event.fire n)) 4 9 [3] (demoFoldLogged.log (.fired 4 9)) = some sc ∧
          invoke (Event.fire n) 7 9 (sc.log (.invoked 4 7 9)) = some s2 ∧
          Event.fire (n + 1) 4 9 demoFoldLogged = some s') ∧
        Dynamic.current 2 sc = some 9) ∧
      (fireAll 5 [(0, 1), (0, 2)] demoFoldRead).bind (Sink.result 10) = some [1001, 3003] := by
  obtain ⟨s1, _, _, _, _, _, _, _, hlater⟩ := updaterFirst demoRoot demoRoot_good 0 0 0
    (fun v acc => v + acc) rfl
  obtain ⟨sc, s2, sl, s', hp, _, hc, _⟩ := hlater demoFoldLogged demoFoldLogged_good
    ⟨by decide, rfl⟩ [] 7 [] (by decide) 9
  exact ⟨demoRoot_good, rfl, demoFoldLogged_good, by decide,
    ⟨sc, s2, s', fun n hn => ⟨(hp n hn).1, (hp n hn).2.1, (hp n hn).2.2.2⟩, hc⟩, demoFoldRead_result⟩

theorem demoSchedule_log :
    (Shared.run demoExpired demoSchedule (Shared.init [some 10, some 11, some 13] demoPrograms)).log =
        [.called 0 0 0 (some 10) 1, .called 0 0 2 (some 13) 1, .pushed 1 1 (some 12),
          .called 2 1 0 (some 10) 2, .called 2 1 1 (some 13) 2, .called 2 1 3 (some 12) 2] ∧
      (Shared.run demoExpired (demoSchedule.take 6)
        (Shared.init [some 10, some 11, some 13] demoPrograms)).mutex = some 0 ∧
      (Shared.run demoExpired (demoSchedule.take 6)
        (Shared.init [some 10, some 11, some 13] demoPrograms)).log =
        [.called 0 0 0 (some 10) 1] :=
  ⟨by decide, by decide, by decide⟩

/-- C17 at two threads on a stream with the subscribers 10, 11 (dead) and 13: although the
scheduler picks the threads in turn, thread 1 waits for the guard while thread 0 is in its
pass, the whole pass of thread 0 is recorded first, then the `push_back` of thread 1, then
its pass over the cleaned vector. -/
theorem serializedFiring_witness :
    (Shared.run demoExpired demoSchedule (Shared.init [some 10, some 11, some 13] demoPrograms)).log =
        [.called 0 0 0 (some 10) 1, .called 0 0 2 (some 13) 1, .pushed 1 1 (some 12),
          .called 2 1 0 (some 10) 2, .called 2 1 1 (some 13) 2, .called 2 1 3 (some 12) 2] ∧
      (Shared.run demoExpired (demoSchedule.take 6)
        (Shared.init [some 10, some 11, some 13] demoPrograms)).mutex = some 0 ∧
      (Shared.run demoExpired demoSchedule (Shared.init [some 10, some 11, some 13] demoPrograms)).log.Pairwise
        (fun e1 e2 => e1.ticket ≤ e2.ticket) :=
  ⟨demoSchedule_log.1, demoSchedule_log.2.1,
    (serializedFiring demoExpired [some 10, some 11, some 13] demoPrograms demoSchedule).2.1⟩

end Ops

end rx
